import Mathlib

/-!
Stage 2 of simdjson-go: the tape-building automaton.

A shallow embedding of `stage2_build_tape.go` (the atom validators, `parse_string`,
`parse_number`, `updateChar` and `unified_machine`) and of `parse_number_simd`
from `parse_number_amd64.go`, followed by theorems about them.

Conventions of the embedding:
* a byte is a `Fin 256`; a `uint64` is a `Nat` reduced `% 2^64` where the Go code can wrap;
* a Go run-time panic (index out of range) is the result `none` / `Next.panic`;
* the index channel is the list of batches still to be received, closed after the last one;
* routines of the repository that are not part of the translated files (the assembly
  routines, the lookup table, the tape writer) are either parameters (`Leaves`) or are
  modelled from the specification, and say so in their doc comment.
-/

namespace Simdjson

/-! ## Data model -/

/-- One input byte. -/
abbrev Byte := Fin 256

/-- Constant for "return address" modes: the shift of the tape index in a scope entry. -/
abbrev RET_ADDRESS_SHIFT : Nat := 2
/-- Return code START. -/
abbrev RET_ADDRESS_START_CONST : Nat := 1
/-- Return code OBJECT. -/
abbrev RET_ADDRESS_OBJECT_CONST : Nat := 2
/-- Return code ARRAY. -/
abbrev RET_ADDRESS_ARRAY_CONST : Nat := 3

/-- The routines `stage2_build_tape.go` calls that are not Go code of the translated files:
the lookup `is_not_structural_or_whitespace` (a `uint32`), the assembly string copier
`parse_string_simd` (its report and the string arena it leaves), the assembly number
routine `_parse_number` (arguments: window, offset, found_minus; results: the success word,
`is_double`, the bits of the double, the bits of the int64), the build constant
`SLOWGOLANGFLOATPARSING`, and `strconv.ParseFloat` (the bits of the double, `none` on error).
Every theorem below holds for all values of these parameters. -/
structure Leaves where
  is_not_structural_or_whitespace : Byte → Fin (2 ^ 32)
  parse_string_simd : List Byte → List Byte → Bool × List Byte
  _parse_number : List Byte → Nat → Nat → Nat × Bool × Nat × Nat
  SLOWGOLANGFLOATPARSING : Bool
  ParseFloat : List Byte → Option Nat

/-- A batch of structural indexes as `updateChar` uses it: a cursor `index`, the count
`length` of valid entries and the entries themselves (offsets relative to the previous
structural byte). -/
structure indexChan where
  index : Nat
  length : Nat
  indexes : List Nat
deriving DecidableEq

/-- The zero value of `indexChan`, which a receive on a closed channel yields. -/
def indexChan.zero : indexChan := ⟨0, 0, []⟩

/-- The tape and the string arena. -/
structure ParsedJson where
  Tape : List Nat
  Strings : List Byte
deriving DecidableEq

/-- The parser state `unified_machine` works on: the embedded `ParsedJson`, the scope stack
(top of stack is the last element, as in the Go slice), the valid flag and the index channel
(the batches not yet received; the channel is closed after them). -/
structure internalParsedJson extends ParsedJson where
  containing_scope_offset : List Nat
  isvalid : Bool
  index_chan : List indexChan
deriving DecidableEq

/-! ## Tape writer -/

/-- Modelled from the spec: a tape word is 64 bits, the tag byte in the high 8 bits and a
56-bit payload (section 3); the declaration of the word layout is not in the translated
files. -/
def tapeWord (tag payload : Nat) : Nat := (tag % 256) * 2 ^ 56 + payload % 2 ^ 56

/-- Modelled from the spec: the tag byte of a tape word, its high 8 bits. -/
def tagOf (w : Nat) : Nat := w / 2 ^ 56 % 256

/-- Modelled from the spec: the 56-bit payload of a tape word. -/
def payloadOf (w : Nat) : Nat := w % 2 ^ 56

/-- Modelled from the spec: `write_tape` of the tape writer (section 4.4), "append a tagged
word given (payload, tag)"; the method is not in the translated files. -/
def ParsedJson.write_tape (pj : ParsedJson) (val c : Nat) : ParsedJson :=
  { pj with Tape := pj.Tape ++ [tapeWord c val] }

/-- Modelled from the spec: `write_tape_s64` (section 3, tag `l`): an `l` word followed by a
raw 64-bit word holding the two's-complement value; the method is not in the translated
files. -/
def ParsedJson.write_tape_s64 (pj : ParsedJson) (val : Nat) : ParsedJson :=
  { pj with Tape := pj.Tape ++ [tapeWord 108 0, val % 2 ^ 64] }

/-- Modelled from the spec: `write_tape_double` (section 3, tag `d`): a `d` word followed by a
raw 64-bit word holding the IEEE-754 bit pattern; the method is not in the translated files. -/
def ParsedJson.write_tape_double (pj : ParsedJson) (d : Nat) : ParsedJson :=
  { pj with Tape := pj.Tape ++ [tapeWord 100 0, d % 2 ^ 64] }

/-- Modelled from the spec: `annotate_previousloc` of the tape writer (section 4.4),
"back-patch the payload of a previously written tape word at a recorded index without
changing its tag"; an index that is not on the tape is a run-time panic. The method is not in
the translated files. -/
def ParsedJson.annotate_previousloc (pj : ParsedJson) (saved_loc val : Nat) :
    Option ParsedJson :=
  match pj.Tape[saved_loc]? with
  | none => none
  | some w => some { pj with Tape := pj.Tape.set saved_loc (tapeWord (tagOf w) val) }

/-- Modelled from the spec: `get_current_loc` of the tape writer (section 4.4), the current
index counter, which is the number of words written; the method is not in the translated
files. -/
def ParsedJson.get_current_loc (pj : ParsedJson) : Nat := pj.Tape.length

/-! ## Leaves: atoms, strings, numbers -/

/-- Go's `binary.LittleEndian.Uint64` on the first 8 bytes of `buf` (callers check
`len(buf) >= 8` first). -/
def LittleEndian_Uint64 (buf : List Byte) : Nat :=
  (buf.getD 0 0).val + (buf.getD 1 0).val * 2 ^ 8 + (buf.getD 2 0).val * 2 ^ 16
    + (buf.getD 3 0).val * 2 ^ 24 + (buf.getD 4 0).val * 2 ^ 32 + (buf.getD 5 0).val * 2 ^ 40
    + (buf.getD 6 0).val * 2 ^ 48 + (buf.getD 7 0).val * 2 ^ 56

/-- The source's `is_valid_true_atom`. -/
def is_valid_true_atom (L : Leaves) (buf : List Byte) : Bool :=
  if buf.length ≥ 8 then
    let tv : Nat := 0x0000000065757274
    let mask4 : Nat := 0x00000000ffffffff
    let locval := LittleEndian_Uint64 buf
    let error := (locval &&& mask4) ^^^ tv
    let error := error ||| (L.is_not_structural_or_whitespace (buf.getD 4 0)).val
    error == 0
  else if buf.length = 5 then
    buf.take 4 == [116, 114, 117, 101]
      && L.is_not_structural_or_whitespace (buf.getD 4 0) == 0
  else false

/-- The source's `is_valid_false_atom`. -/
def is_valid_false_atom (L : Leaves) (buf : List Byte) : Bool :=
  if buf.length ≥ 8 then
    let fv : Nat := 0x00000065736c6166
    let mask5 : Nat := 0x000000ffffffffff
    let locval := LittleEndian_Uint64 buf
    let error := (locval &&& mask5) ^^^ fv
    let error := error ||| (L.is_not_structural_or_whitespace (buf.getD 5 0)).val
    error == 0
  else if buf.length = 6 then
    buf.take 5 == [102, 97, 108, 115, 101]
      && L.is_not_structural_or_whitespace (buf.getD 5 0) == 0
  else false

/-- The source's `is_valid_null_atom`. -/
def is_valid_null_atom (L : Leaves) (buf : List Byte) : Bool :=
  if buf.length ≥ 8 then
    let nv : Nat := 0x000000006c6c756e
    let mask4 : Nat := 0x00000000ffffffff
    let locval := LittleEndian_Uint64 buf
    let error := (locval &&& mask4) ^^^ nv
    let error := error ||| (L.is_not_structural_or_whitespace (buf.getD 4 0)).val
    error == 0
  else if buf.length = 5 then
    buf.take 4 == [110, 117, 108, 108]
      && L.is_not_structural_or_whitespace (buf.getD 4 0) == 0
  else false

/-- The source's `parse_string`: it writes the `"` word with the arena length as payload,
calls the copier on `buf[offset:]`, drops the copier's report and returns `true`. -/
def parse_string (L : Leaves) (buf : List Byte) (pj : ParsedJson) (_depth : Nat)
    (offset : Nat) : Bool × ParsedJson :=
  let pj := pj.write_tape pj.Strings.length 34
  let r := L.parse_string_simd (buf.drop offset) pj.Strings
  (true, { pj with Strings := r.2 })

/-- The condition of the scanning loop in `parse_number_simd`: a digit, `.`, `+`, `-`, `e`
or `E` (`unicode.IsDigit` on a byte is the range `0`..`9`). -/
def isNumberByte (b : Byte) : Bool :=
  (48 ≤ b.val && b.val ≤ 57) || b.val = 46 || b.val = 43 || b.val = 45 || b.val = 101
    || b.val = 69

/-- The scanning loop of `parse_number_simd`: the position of the first byte that is not a
number byte; `none` when the loop runs past the end of the window (index out of range). -/
def numberSpan : List Byte → Option Nat
  | [] => none
  | b :: rest => if isNumberByte b then (numberSpan rest).map (· + 1) else some 0

/-- The source's `parse_number_simd`: results `(success, is_double, d, i)`, `none` for a
run-time panic (`&buf[0]` on an empty window, or the scanning loop leaving the window). -/
def parse_number_simd (L : Leaves) (buf : List Byte) (found_minus : Bool) :
    Option (Bool × Bool × Nat × Nat) :=
  match buf with
  | [] => none
  | _ :: _ =>
    let fm : Nat := if found_minus then 1 else 0
    let r := L._parse_number buf 0 fm
    let success := r.1 != 0
    let is_double := r.2.1
    let d := r.2.2.1
    let i := r.2.2.2
    if L.SLOWGOLANGFLOATPARSING && is_double then
      match numberSpan buf with
      | none => none
      | some pos =>
        match L.ParseFloat (buf.take pos) with
        | some dbl => some (success, is_double, dbl, i)
        | none => some (success, is_double, d, i)
    else some (success, is_double, d, i)

/-- The source's `parse_number`. -/
def parse_number (L : Leaves) (buf : List Byte) (pj : ParsedJson) (idx : Nat) (neg : Bool) :
    Option (Bool × ParsedJson) :=
  match parse_number_simd L (buf.drop idx) neg with
  | none => none
  | some (succes, is_double, d, i) =>
    if !succes then some (false, pj)
    else if is_double then some (true, pj.write_tape_double d)
    else some (true, pj.write_tape_s64 i)

/-! ## The index-stream reader -/

/-- The source's `updateChar`: results `(done, idx, c, *indexesChan, *pj)`, `none` for a
run-time panic (an entry or an input offset out of range). A receive on the closed channel
sets `*indexesChan` to the zero value and returns with `done` set and `idx`, `c` zero. -/
def updateChar (buf : List Byte) (pj : internalParsedJson) (idx_in : Nat)
    (indexesChan : indexChan) : Option (Bool × Nat × Nat × indexChan × internalParsedJson) :=
  let read := fun (ch : indexChan) (pj : internalParsedJson) =>
    match ch.indexes[ch.index]? with
    | none => none
    | some d =>
      let idx := (idx_in + d) % 2 ^ 64
      match buf[idx]? with
      | none => none
      | some c => some (false, idx, c.val, { ch with index := ch.index + 1 }, pj)
  if indexesChan.index ≥ indexesChan.length then
    match pj.index_chan with
    | [] => some (true, 0, 0, indexChan.zero, pj)
    | b :: rest => read b { pj with index_chan := rest }
  else read indexesChan pj

/-! ## The automaton -/

/-- The labels of `unified_machine`. -/
inductive Label where
  | new_root | start_continue | object_begin | object_key_state | object_continue
  | scope_end | array_begin | main_array_switch | array_continue | succeed | fail
deriving DecidableEq

/-- The local variables of `unified_machine` together with the parser state `*pj`. -/
structure Machine where
  pj : internalParsedJson
  done : Bool
  idx : Nat
  c : Nat
  offset : Nat
  indexCh : indexChan
deriving DecidableEq

/-- What executing the code at one label leads to: a jump, a return, or a run-time panic. -/
inductive Next where
  | goto (l : Label) (m : Machine)
  | ret (b : Bool) (m : Machine)
  | panic
deriving DecidableEq

/-- The statement `done, idx, c = updateChar(buf, pj, idx, &indexCh)`. -/
def Machine.advance (buf : List Byte) (m : Machine) : Option Machine :=
  match updateChar buf m.pj m.idx m.indexCh with
  | none => none
  | some (done, idx, c, ch, pj) =>
    some { m with pj := pj, done := done, idx := idx, c := c, indexCh := ch }

/-- The statement `pj.containing_scope_offset = append(pj.containing_scope_offset,
(pj.get_current_loc()<<RET_ADDRESS_SHIFT)|rc)` followed by `pj.write_tape(0, c)`. -/
def Machine.open_scope (m : Machine) (rc c : Nat) : Machine :=
  let entry := (m.pj.get_current_loc <<< RET_ADDRESS_SHIFT) % 2 ^ 64 ||| rc
  { m with pj := { m.pj with
      containing_scope_offset := m.pj.containing_scope_offset ++ [entry]
      toParsedJson := m.pj.toParsedJson.write_tape 0 c } }

/-- The statement `pj.write_tape(0, c)` on the machine. -/
def Machine.write_tape (m : Machine) (val c : Nat) : Machine :=
  { m with pj := { m.pj with toParsedJson := m.pj.toParsedJson.write_tape val c } }

/-- The call `parse_string(buf, &pj.ParsedJson, len(pj.containing_scope_offset), idx)`:
the report and the machine afterwards. -/
def Machine.parse_string (L : Leaves) (buf : List Byte) (m : Machine) : Bool × Machine :=
  let r := Simdjson.parse_string L buf m.pj.toParsedJson m.pj.containing_scope_offset.length m.idx
  (r.1, { m with pj := { m.pj with toParsedJson := r.2 } })

/-- The call `parse_number(buf, &pj.ParsedJson, idx, neg)`: the report and the machine
afterwards, `none` for a panic. -/
def Machine.parse_number (L : Leaves) (buf : List Byte) (m : Machine) (neg : Bool) :
    Option (Bool × Machine) :=
  match Simdjson.parse_number L buf m.pj.toParsedJson m.idx neg with
  | none => none
  | some (ok, p) => some (ok, { m with pj := { m.pj with toParsedJson := p } })

/-- The code at one label of `unified_machine`, up to its next `goto` or `return`. -/
def step (L : Leaves) (buf : List Byte) : Label → Machine → Next
  | .new_root, m =>
    let m := m.open_scope RET_ADDRESS_START_CONST 114
    match m.advance buf with
    | none => .panic
    | some m =>
      if m.done then .goto .succeed m
      else if m.c = 123 then .goto .object_begin (m.open_scope RET_ADDRESS_START_CONST m.c)
      else if m.c = 91 then .goto .array_begin (m.open_scope RET_ADDRESS_START_CONST m.c)
      else .goto .fail m
  | .start_continue, m =>
    match m.advance buf with
    | none => .panic
    | some m =>
      if m.done then .goto .succeed m
      else if m.c = 10 ∨ m.c = 123 then
        match m.pj.containing_scope_offset.getLast? with
        | none => .panic
        | some offset =>
          let pj := { m.pj with containing_scope_offset := m.pj.containing_scope_offset.dropLast }
          match pj.toParsedJson.annotate_previousloc (offset >>> RET_ADDRESS_SHIFT)
              ((pj.get_current_loc + 1) % 2 ^ 64) with
          | none => .panic
          | some p =>
            let p := p.write_tape (offset >>> RET_ADDRESS_SHIFT) 114
            .goto .new_root { m with pj := { pj with toParsedJson := p }, offset := offset }
      else .goto .fail m
  | .object_begin, m =>
    match m.advance buf with
    | none => .panic
    | some m =>
      if m.done then .goto .succeed m
      else if m.c = 34 then
        let r := m.parse_string L buf
        if !r.1 then .goto .fail r.2 else .goto .object_key_state r.2
      else if m.c = 125 then .goto .scope_end m
      else .goto .fail m
  | .object_key_state, m =>
    match m.advance buf with
    | none => .panic
    | some m =>
      if m.done then .goto .succeed m
      else if m.c ≠ 58 then .goto .fail m
      else
        match m.advance buf with
        | none => .panic
        | some m =>
          if m.done then .goto .succeed m
          else if m.c = 34 then
            let r := m.parse_string L buf
            if !r.1 then .goto .fail r.2 else .goto .object_continue r.2
          else if m.c = 116 then
            if !is_valid_true_atom L (buf.drop m.idx) then .goto .fail m
            else .goto .object_continue (m.write_tape 0 m.c)
          else if m.c = 102 then
            if !is_valid_false_atom L (buf.drop m.idx) then .goto .fail m
            else .goto .object_continue (m.write_tape 0 m.c)
          else if m.c = 110 then
            if !is_valid_null_atom L (buf.drop m.idx) then .goto .fail m
            else .goto .object_continue (m.write_tape 0 m.c)
          else if 48 ≤ m.c ∧ m.c ≤ 57 then
            match m.parse_number L buf false with
            | none => .panic
            | some r => if !r.1 then .goto .fail r.2 else .goto .object_continue r.2
          else if m.c = 45 then
            match m.parse_number L buf true with
            | none => .panic
            | some r => if !r.1 then .goto .fail r.2 else .goto .object_continue r.2
          else if m.c = 123 then
            .goto .object_begin (m.open_scope RET_ADDRESS_OBJECT_CONST m.c)
          else if m.c = 91 then
            .goto .array_begin (m.open_scope RET_ADDRESS_OBJECT_CONST m.c)
          else .goto .fail m
  | .object_continue, m =>
    match m.advance buf with
    | none => .panic
    | some m =>
      if m.done then .goto .succeed m
      else if m.c = 44 then
        match m.advance buf with
        | none => .panic
        | some m =>
          if m.done then .goto .succeed m
          else if m.c ≠ 34 then .goto .fail m
          else
            let r := m.parse_string L buf
            if !r.1 then .goto .fail r.2 else .goto .object_key_state r.2
      else if m.c = 125 then .goto .scope_end m
      else .goto .fail m
  | .scope_end, m =>
    match m.pj.containing_scope_offset.getLast? with
    | none => .panic
    | some offset =>
      let pj := { m.pj with containing_scope_offset := m.pj.containing_scope_offset.dropLast }
      let p := pj.toParsedJson.write_tape (offset >>> RET_ADDRESS_SHIFT) m.c
      match p.annotate_previousloc (offset >>> RET_ADDRESS_SHIFT) p.get_current_loc with
      | none => .panic
      | some p =>
        let m := { m with pj := { pj with toParsedJson := p }, offset := offset }
        if offset &&& ((1 <<< RET_ADDRESS_SHIFT) - 1) = RET_ADDRESS_ARRAY_CONST then
          .goto .array_continue m
        else if offset &&& ((1 <<< RET_ADDRESS_SHIFT) - 1) = RET_ADDRESS_OBJECT_CONST then
          .goto .object_continue m
        else .goto .start_continue m
  | .array_begin, m =>
    match m.advance buf with
    | none => .panic
    | some m =>
      if m.done then .goto .succeed m
      else if m.c = 93 then .goto .scope_end m
      else .goto .main_array_switch m
  | .main_array_switch, m =>
    if m.c = 34 then
      let r := m.parse_string L buf
      if !r.1 then .goto .fail r.2 else .goto .array_continue r.2
    else if m.c = 116 then
      if !is_valid_true_atom L (buf.drop m.idx) then .goto .fail m
      else .goto .array_continue (m.write_tape 0 m.c)
    else if m.c = 102 then
      if !is_valid_false_atom L (buf.drop m.idx) then .goto .fail m
      else .goto .array_continue (m.write_tape 0 m.c)
    else if m.c = 110 then
      if !is_valid_null_atom L (buf.drop m.idx) then .goto .fail m
      else .goto .array_continue (m.write_tape 0 m.c)
    else if 48 ≤ m.c ∧ m.c ≤ 57 then
      match m.parse_number L buf false with
      | none => .panic
      | some r => if !r.1 then .goto .fail r.2 else .goto .array_continue r.2
    else if m.c = 45 then
      match m.parse_number L buf true with
      | none => .panic
      | some r => if !r.1 then .goto .fail r.2 else .goto .array_continue r.2
    else if m.c = 123 then
      .goto .object_begin (m.open_scope RET_ADDRESS_ARRAY_CONST m.c)
    else if m.c = 91 then
      .goto .array_begin (m.open_scope RET_ADDRESS_ARRAY_CONST m.c)
    else .goto .fail m
  | .array_continue, m =>
    match m.advance buf with
    | none => .panic
    | some m =>
      if m.done then .goto .succeed m
      else if m.c = 44 then
        match m.advance buf with
        | none => .panic
        | some m => if m.done then .goto .succeed m else .goto .main_array_switch m
      else if m.c = 93 then .goto .scope_end m
      else .goto .fail m
  | .succeed, m =>
    match m.pj.containing_scope_offset.getLast? with
    | none => .panic
    | some offset =>
      let pj := { m.pj with containing_scope_offset := m.pj.containing_scope_offset.dropLast }
      let m := { m with pj := pj, offset := offset }
      if pj.containing_scope_offset.length ≠ 0 then .ret false m
      else
        match pj.toParsedJson.annotate_previousloc (offset >>> RET_ADDRESS_SHIFT)
            ((pj.get_current_loc + 1) % 2 ^ 64) with
        | none => .panic
        | some p =>
          let p := p.write_tape (offset >>> RET_ADDRESS_SHIFT) 114
          .ret true { m with pj := { pj with toParsedJson := p, isvalid := true } }
  | .fail, m => .ret false m

/-- The result of running the automaton: out of fuel, a run-time panic, or a return with the
parser state it leaves. -/
inductive Outcome where
  | timeout
  | panic
  | ret (b : Bool) (m : Machine)
deriving DecidableEq

/-- Run the automaton from a label for at most `fuel` jumps. -/
def run (L : Leaves) (buf : List Byte) : Nat → Label → Machine → Outcome
  | 0, _, _ => .timeout
  | fuel + 1, l, m =>
    match step L buf l m with
    | .goto l' m' => run L buf fuel l' m'
    | .ret b m' => .ret b m'
    | .panic => .panic

/-- The number of structural indexes (and batches) the reader can still deliver: every call
of `updateChar` that does not report `done` lowers it. -/
def pending (ch : indexChan) (chan : List indexChan) : Nat :=
  (ch.length - ch.index) + (chan.map (fun b => 1 + (b.length - b.index))).sum

/-- The local variables at the entry of `unified_machine`. -/
def Machine.init (pj : internalParsedJson) : Machine :=
  { pj := pj, done := false, idx := 2 ^ 64 - 1, c := 0, offset := 0, indexCh := indexChan.zero }

/-- The source's `unified_machine`: the automaton run from `new_root` with the fuel the index
stream needs (`unified_machine_total` shows it never runs out). The result carries the
return value and the parser state `*pj` (inside the machine) at the return. -/
def unified_machine (L : Leaves) (buf : List Byte) (pj : internalParsedJson) : Outcome :=
  run L buf (2 * pending indexChan.zero pj.index_chan + 3) .new_root (Machine.init pj)

/-! ## A concrete instance of the leaves, for evaluating the automaton on sample inputs -/

/-- Modelled from the spec: the lookup behind `is_not_structural_or_whitespace` (section 4.1),
zero exactly on the structural bytes `{ } [ ] : ,` and on the whitespace bytes (space, tab,
line feed, carriage return); the table is not in the translated files. -/
def structural_or_whitespace_negated (b : Byte) : Fin (2 ^ 32) :=
  if b.val = 123 ∨ b.val = 125 ∨ b.val = 91 ∨ b.val = 93 ∨ b.val = 58 ∨ b.val = 44
      ∨ b.val = 32 ∨ b.val = 9 ∨ b.val = 10 ∨ b.val = 13 then 0 else 1

/-- The value of a hexadecimal digit. -/
def hexDigit (b : Byte) : Option Nat :=
  if 48 ≤ b.val ∧ b.val ≤ 57 then some (b.val - 48)
  else if 97 ≤ b.val ∧ b.val ≤ 102 then some (b.val - 87)
  else if 65 ≤ b.val ∧ b.val ≤ 70 then some (b.val - 55)
  else none

/-- Four hexadecimal digits as a number, with the bytes after them. -/
def hex4 : List Byte → Option (Nat × List Byte)
  | a :: b :: c :: d :: rest =>
    match hexDigit a, hexDigit b, hexDigit c, hexDigit d with
    | some a, some b, some c, some d => some (a * 4096 + b * 256 + c * 16 + d, rest)
    | _, _, _, _ => none
  | _ => none

/-- The UTF-8 encoding of a code point below `0x110000`. -/
def utf8Encode (cp : Nat) : List Byte :=
  if cp < 0x80 then [Fin.ofNat cp]
  else if cp < 0x800 then [Fin.ofNat (0xC0 + cp / 64), Fin.ofNat (0x80 + cp % 64)]
  else if cp < 0x10000 then
    [Fin.ofNat (0xE0 + cp / 4096), Fin.ofNat (0x80 + cp / 64 % 64), Fin.ofNat (0x80 + cp % 64)]
  else
    [Fin.ofNat (0xF0 + cp / 262144), Fin.ofNat (0x80 + cp / 4096 % 64),
      Fin.ofNat (0x80 + cp / 64 % 64), Fin.ofNat (0x80 + cp % 64)]

/-- Modelled from the spec: the decoding loop of the string copier (section 4.3) on the bytes
after the opening quote: the decoded bytes, or `none` for an unterminated string, an invalid
escape or an invalid surrogate pair. -/
def decodeString : Nat → List Byte → List Byte → Option (List Byte)
  | 0, _, _ => none
  | _ + 1, [], _ => none
  | fuel + 1, b :: rest, acc =>
    if b.val = 34 then some acc
    else if b.val = 92 then
      match rest with
      | [] => none
      | e :: rest =>
        if e.val = 34 ∨ e.val = 92 ∨ e.val = 47 then decodeString fuel rest (acc ++ [e])
        else if e.val = 98 then decodeString fuel rest (acc ++ [8])
        else if e.val = 102 then decodeString fuel rest (acc ++ [12])
        else if e.val = 110 then decodeString fuel rest (acc ++ [10])
        else if e.val = 114 then decodeString fuel rest (acc ++ [13])
        else if e.val = 116 then decodeString fuel rest (acc ++ [9])
        else if e.val = 117 then
          match hex4 rest with
          | none => none
          | some (hi, rest) =>
            if 0xD800 ≤ hi ∧ hi < 0xDC00 then
              match rest with
              | s :: u :: rest =>
                if s.val = 92 ∧ u.val = 117 then
                  match hex4 rest with
                  | none => none
                  | some (lo, rest) =>
                    if 0xDC00 ≤ lo ∧ lo < 0xE000 then
                      decodeString fuel rest
                        (acc ++ utf8Encode (0x10000 + (hi - 0xD800) * 1024 + (lo - 0xDC00)))
                    else none
                else none
              | _ => none
            else if 0xDC00 ≤ hi ∧ hi < 0xE000 then none
            else decodeString fuel rest (acc ++ utf8Encode hi)
        else none
    else decodeString fuel rest (acc ++ [b])

/-- Modelled from the spec: the string copier (section 4.3) on a window that starts at the
opening quote: on success the arena gains a 4-byte little-endian length and the decoded
bytes; on failure the report is `false` and the arena is left as it was. The assembly routine
is not in the translated files. -/
def sample_parse_string_simd (src : List Byte) (arena : List Byte) : Bool × List Byte :=
  match decodeString src.length (src.drop 1) [] with
  | none => (false, arena)
  | some s =>
    (true, arena ++ [Fin.ofNat s.length, Fin.ofNat (s.length / 2 ^ 8),
      Fin.ofNat (s.length / 2 ^ 16), Fin.ofNat (s.length / 2 ^ 24)] ++ s)

/-- The value of a run of decimal digits. -/
def decimalValue (ds : List Byte) : Nat := ds.foldl (fun acc b => acc * 10 + (b.val - 48)) 0

/-- A number routine for sample inputs, covering the integer literals of section 4.2 (an
optional minus, then `0` or a digit `1`..`9` followed by digits, the magnitude below `2^63`):
success word 1, `is_double` false and the two's-complement bits. Any other literal, one with
a fraction or an exponent included, is reported as a failure (success word 0). -/
def sample_parse_number (buf : List Byte) (_offset : Nat) (found_minus : Nat) :
    Nat × Bool × Nat × Nat :=
  let body := if found_minus = 1 then buf.drop 1 else buf
  let ds := body.takeWhile (fun b => 48 ≤ b.val && b.val ≤ 57)
  let next := (body.drop ds.length).head?
  let v := decimalValue ds
  if ds = [] ∨ (ds.length > 1 ∧ ds.head? = some 48) ∨ next = some 46 ∨ next = some 101
      ∨ next = some 69 ∨ 2 ^ 63 ≤ v then (0, false, 0, 0)
  else (1, false, 0, if found_minus = 1 then (2 ^ 64 - v) % 2 ^ 64 else v)

/-- The sample leaves: the lookup table and the string copier modelled from the spec, the
integer-only number routine, and the fast float path. -/
def sampleLeaves : Leaves :=
  { is_not_structural_or_whitespace := structural_or_whitespace_negated
    parse_string_simd := sample_parse_string_simd
    _parse_number := sample_parse_number
    SLOWGOLANGFLOATPARSING := false
    ParseFloat := fun _ => none }

/-- A batch whose entries are all valid, with the cursor at its start. -/
def batch (indexes : List Nat) : indexChan := ⟨0, indexes.length, indexes⟩

/-- An empty parser state whose index channel will deliver the batches `chan` and then be
closed. -/
def freshParser (chan : List indexChan) : internalParsedJson :=
  { Tape := [], Strings := [], containing_scope_offset := [], isvalid := false
    index_chan := chan }

/-- The tape a run leaves, when it returns `b`. -/
def Outcome.tapeIf (o : Outcome) (b : Bool) : Option (List Nat) :=
  match o with
  | .ret b' m => if b' = b then some m.pj.Tape else none
  | _ => none

/-- The tags and payloads of a list of tape words. -/
def decodeTape (t : List Nat) : List (Nat × Nat) := t.map (fun w => (tagOf w, payloadOf w))

/-- The return value of a run, when it returned. -/
def Outcome.result (o : Outcome) : Option Bool :=
  match o with
  | .ret b _ => some b
  | _ => none

/-- The configuration reached after exactly `n` jumps, when the run gets that far. -/
def cfgAt (L : Leaves) (buf : List Byte) : Nat → Label × Machine → Option (Label × Machine)
  | 0, c => some c
  | n + 1, (l, m) =>
    match step L buf l m with
    | .goto l' m' => cfgAt L buf n (l', m')
    | _ => none

/-- The states inside a container, in which the automaton expects input. -/
def Label.nestedInput : Label → Bool
  | .object_begin | .object_key_state | .object_continue | .array_begin | .array_continue => true
  | _ => false

/-- The labels inside a container (the input states, `main_array_switch` and `scope_end`). -/
def Label.nested : Label → Bool
  | .object_begin | .object_key_state | .object_continue | .array_begin | .array_continue
  | .main_array_switch | .scope_end => true
  | _ => false

/-- The label `scope_end` resumes for a popped scope entry. -/
def retLabel (offset : Nat) : Label :=
  if offset &&& ((1 <<< RET_ADDRESS_SHIFT) - 1) = RET_ADDRESS_ARRAY_CONST then .array_continue
  else if offset &&& ((1 <<< RET_ADDRESS_SHIFT) - 1) = RET_ADDRESS_OBJECT_CONST then
    .object_continue
  else .start_continue

/-- The value switch shared by `object_key_state` (return code OBJECT, falling through to
`object_continue`) and `main_array_switch` (return code ARRAY, falling through to
`array_continue`); `step_main_array_switch` and `step_object_key_state` relate it to `step`. -/
def value_switch (L : Leaves) (buf : List Byte) (rc : Nat) (cont : Label) (m : Machine) : Next :=
  if m.c = 34 then
    let r := m.parse_string L buf
    if !r.1 then .goto .fail r.2 else .goto cont r.2
  else if m.c = 116 then
    if !is_valid_true_atom L (buf.drop m.idx) then .goto .fail m
    else .goto cont (m.write_tape 0 m.c)
  else if m.c = 102 then
    if !is_valid_false_atom L (buf.drop m.idx) then .goto .fail m
    else .goto cont (m.write_tape 0 m.c)
  else if m.c = 110 then
    if !is_valid_null_atom L (buf.drop m.idx) then .goto .fail m
    else .goto cont (m.write_tape 0 m.c)
  else if 48 ≤ m.c ∧ m.c ≤ 57 then
    match m.parse_number L buf false with
    | none => .panic
    | some r => if !r.1 then .goto .fail r.2 else .goto cont r.2
  else if m.c = 45 then
    match m.parse_number L buf true with
    | none => .panic
    | some r => if !r.1 then .goto .fail r.2 else .goto cont r.2
  else if m.c = 123 then .goto .object_begin (m.open_scope rc m.c)
  else if m.c = 91 then .goto .array_begin (m.open_scope rc m.c)
  else .goto .fail m

/-! ## The structural bytes a run reads -/

/-- The structural bytes `(offset, byte)` that successive calls of `updateChar` deliver, up
to the call that reports `done` or panics. -/
def tokensAux (buf : List Byte) :
    Nat → internalParsedJson → Nat → indexChan → List (Nat × Nat)
  | 0, _, _, _ => []
  | fuel + 1, pj, idx, ch =>
    match updateChar buf pj idx ch with
    | some (false, idx', c, ch', pj') => (idx', c) :: tokensAux buf fuel pj' idx' ch'
    | _ => []

/-- The structural bytes still ahead of the machine. -/
def Machine.tokens (buf : List Byte) (m : Machine) : List (Nat × Nat) :=
  tokensAux buf (pending m.indexCh m.pj.index_chan) m.pj m.idx m.indexCh

/-- Whether the reader, called until it stops delivering, ends with `done` (the channel is
closed) rather than with a panic. -/
def closesAux (buf : List Byte) : Nat → internalParsedJson → Nat → indexChan → Bool
  | 0, pj, idx, ch =>
    match updateChar buf pj idx ch with
    | some (true, _, _, _, _) => true
    | _ => false
  | fuel + 1, pj, idx, ch =>
    match updateChar buf pj idx ch with
    | some (true, _, _, _, _) => true
    | some (false, idx', _, ch', pj') => closesAux buf fuel pj' idx' ch'
    | none => false

/-- The index stream ahead of the machine is well formed: every entry and every offset is in
range, so the reader ends with `done`. -/
def Machine.closes (buf : List Byte) (m : Machine) : Bool :=
  closesAux buf (pending m.indexCh m.pj.index_chan) m.pj m.idx m.indexCh

/-- The number routine reports success on the number that starts at `idx`. -/
def numberOK (L : Leaves) (buf : List Byte) (idx : Nat) (neg : Bool) : Bool :=
  match parse_number_simd L (buf.drop idx) neg with
  | some r => r.1
  | none => false

/-- The number routine does not panic on the number that starts at `idx`. -/
def numberSafe (L : Leaves) (buf : List Byte) (t : Nat × Nat) : Bool :=
  if 48 ≤ t.2 ∧ t.2 ≤ 57 then (parse_number_simd L (buf.drop t.1) false).isSome
  else if t.2 = 45 then (parse_number_simd L (buf.drop t.1) true).isSome
  else true

/-- A structural byte that starts a scalar value on which the leaf called for it by the
automaton succeeds: a string (`parse_string` always reports success), an atom passing its
validator, a number on which the number routine reports success. -/
def scalarOK (L : Leaves) (buf : List Byte) (t : Nat × Nat) : Prop :=
  t.2 = 34 ∨ (t.2 = 116 ∧ is_valid_true_atom L (buf.drop t.1) = true)
    ∨ (t.2 = 102 ∧ is_valid_false_atom L (buf.drop t.1) = true)
    ∨ (t.2 = 110 ∧ is_valid_null_atom L (buf.drop t.1) = true)
    ∨ ((48 ≤ t.2 ∧ t.2 ≤ 57) ∧ numberOK L buf t.1 false = true)
    ∨ (t.2 = 45 ∧ numberOK L buf t.1 true = true)

/-- A structural byte that can start a scalar value: `"`, `t`, `f`, `n`, a digit or `-`. -/
def scalarStart (t : Nat × Nat) : Prop :=
  t.2 = 34 ∨ t.2 = 116 ∨ t.2 = 102 ∨ t.2 = 110 ∨ (48 ≤ t.2 ∧ t.2 ≤ 57) ∨ t.2 = 45

/-! ## The container grammar -/

/-- The nonterminals of the container grammar. -/
inductive Sym where
  | value | members | elements
deriving DecidableEq

/-- The container grammar over structural bytes `(offset, byte)`, with `sc` deciding which
bytes are scalar values: an object is `{`, then zero or more `string : value` members
separated by `,`, then `}`; an array is `[`, then zero or more values separated by `,`, then
`]`; a value is a scalar, an object or an array. There is no trailing comma. -/
inductive Gram (sc : Nat × Nat → Prop) : Sym → List (Nat × Nat) → Prop where
  | scalar (t : Nat × Nat) : sc t → Gram sc .value [t]
  | emptyObject (a b : Nat × Nat) : a.2 = 123 → b.2 = 125 → Gram sc .value [a, b]
  | object (a : Nat × Nat) (ms : List (Nat × Nat)) (b : Nat × Nat) :
      a.2 = 123 → Gram sc .members ms → b.2 = 125 → Gram sc .value (a :: ms ++ [b])
  | emptyArray (a b : Nat × Nat) : a.2 = 91 → b.2 = 93 → Gram sc .value [a, b]
  | array (a : Nat × Nat) (es : List (Nat × Nat)) (b : Nat × Nat) :
      a.2 = 91 → Gram sc .elements es → b.2 = 93 → Gram sc .value (a :: es ++ [b])
  | member (k c : Nat × Nat) (v : List (Nat × Nat)) :
      k.2 = 34 → c.2 = 58 → Gram sc .value v → Gram sc .members (k :: c :: v)
  | memberCons (k c : Nat × Nat) (v : List (Nat × Nat)) (d : Nat × Nat)
      (rest : List (Nat × Nat)) :
      k.2 = 34 → c.2 = 58 → Gram sc .value v → d.2 = 44 → Gram sc .members rest →
      Gram sc .members (k :: c :: v ++ d :: rest)
  | element (v : List (Nat × Nat)) : Gram sc .value v → Gram sc .elements v
  | elementCons (v : List (Nat × Nat)) (d : Nat × Nat) (rest : List (Nat × Nat)) :
      Gram sc .value v → d.2 = 44 → Gram sc .elements rest →
      Gram sc .elements (v ++ d :: rest)

/-- A root document: a value of the grammar that is an object or an array. -/
def Container (sc : Nat × Nat → Prop) (v : List (Nat × Nat)) : Prop :=
  Gram sc .value v ∧ ∃ a, v.head? = some a ∧ (a.2 = 123 ∨ a.2 = 91)

/-- The index streams of root documents as `start_continue` delimits them: nothing at all;
or a root document followed by the end of the stream; or a root document, one boundary
byte read at `start_continue` (a newline, or `{` standing in for it) and a further such
stream. -/
inductive Docs (sc : Nat × Nat → Prop) : List (Nat × Nat) → Prop where
  | done : Docs sc []
  | last (v : List (Nat × Nat)) : Container sc v → Docs sc v
  | more (v : List (Nat × Nat)) (s : Nat × Nat) (rest : List (Nat × Nat)) :
      Container sc v → (s.2 = 10 ∨ s.2 = 123) → Docs sc rest → Docs sc (v ++ s :: rest)

/-- What the automaton still has to read of the innermost open container when it is at a
nested label; `cur` is the structural byte last read (the first byte of the next value at
`main_array_switch`). -/
def Tail (sc : Nat × Nat → Prop) : Label → Nat × Nat → List (Nat × Nat) → Prop
  | .object_begin, _, ts =>
    ∃ b, b.2 = 125 ∧ (ts = [b] ∨ ∃ ms, Gram sc .members ms ∧ ts = ms ++ [b])
  | .object_key_state, _, ts =>
    ∃ c v b, c.2 = 58 ∧ Gram sc .value v ∧ b.2 = 125 ∧
      (ts = c :: v ++ [b] ∨
        ∃ d ms, d.2 = 44 ∧ Gram sc .members ms ∧ ts = c :: v ++ d :: ms ++ [b])
  | .object_continue, _, ts =>
    ∃ b, b.2 = 125 ∧ (ts = [b] ∨ ∃ d ms, d.2 = 44 ∧ Gram sc .members ms ∧ ts = d :: ms ++ [b])
  | .array_begin, _, ts =>
    ∃ b, b.2 = 93 ∧ (ts = [b] ∨ ∃ es, Gram sc .elements es ∧ ts = es ++ [b])
  | .main_array_switch, cur, ts =>
    ∃ b es, b.2 = 93 ∧ Gram sc .elements es ∧ cur :: ts = es ++ [b]
  | .array_continue, _, ts =>
    ∃ b, b.2 = 93 ∧ (ts = [b] ∨ ∃ d es, d.2 = 44 ∧ Gram sc .elements es ∧ ts = d :: es ++ [b])
  | .scope_end, _, ts => ts = []
  | _, _, _ => False

/-! ## Reading the tape -/

/-- The tags `l` and `d`, whose word is followed by a raw 64-bit word. -/
def isNumberTag (t : Nat) : Bool := t == 108 || t == 100

/-- The tags `{` and `[`. -/
def isOpenTag (t : Nat) : Bool := t == 123 || t == 91

/-- The tags `}` and `]`. -/
def isCloseTag (t : Nat) : Bool := t == 125 || t == 93

/-- The tags of one-word scalars: `"`, `t`, `f`, `n`. -/
def isScalarTag (t : Nat) : Bool := t == 34 || t == 116 || t == 102 || t == 110

/-- The close tag of an open tag: `}` for `{`, `]` for `[`. -/
def closeOf (t : Nat) : Nat := if t = 123 then 125 else 93

/-- The open tag of a close tag: `{` for `}`, `[` for `]`. -/
def openOf (t : Nat) : Nat := if t = 125 then 123 else 91

/-- The tagged words of a stretch of tape that starts at tape index `i`, each with its tape
index; the raw second word of every `l`/`d` is skipped. -/
def tagWords : Nat → List Nat → List (Nat × Nat)
  | _, [] => []
  | i, [w] => [(i, w)]
  | i, w :: r :: rest =>
    if isNumberTag (tagOf w) then (i, w) :: tagWords (i + 2) rest
    else (i, w) :: tagWords (i + 1) (r :: rest)

/-- Scanning forward over tagged words at nesting depth `d`: the close word that brings
the depth below `d = 0`, that is the close matching an open whose scan starts at depth 0
right after it. -/
def findClose : List (Nat × Nat) → Nat → Option (Nat × Nat)
  | [], _ => none
  | (j, w) :: rest, d =>
    if isOpenTag (tagOf w) then findClose rest (d + 1)
    else if isCloseTag (tagOf w) then
      if d = 0 then some (j, w) else findClose rest (d - 1)
    else findClose rest d

/-- Scanning backward (over the reversed words before a close) at nesting depth `d`:
the open word matching that close. -/
def findOpen : List (Nat × Nat) → Nat → Option (Nat × Nat)
  | [], _ => none
  | (j, w) :: rest, d =>
    if isCloseTag (tagOf w) then findOpen rest (d + 1)
    else if isOpenTag (tagOf w) then
      if d = 0 then some (j, w) else findOpen rest (d - 1)
    else findOpen rest d

/-- The number of tagged words with tag `t`. -/
def countTag (t : Nat) (tw : List (Nat × Nat)) : Nat := tw.countP (fun x => tagOf x.2 == t)

/-- The first `r` word of a list of tagged words. -/
def nextRoot (tw : List (Nat × Nat)) : Option (Nat × Nat) := tw.find? (fun x => tagOf x.2 == 114)

/-- A stretch of tape starting at tape index `b` that consists of complete values: one-word
scalars, two-word numbers, and containers whose open word holds the index of the word after
the close word and whose close word holds the index of the open word. -/
inductive Items : Nat → List Nat → Prop where
  | nil (b : Nat) : Items b []
  | scalar (b w : Nat) (rest : List Nat) :
      isScalarTag (tagOf w) = true → Items (b + 1) rest → Items b (w :: rest)
  | number (b w r : Nat) (rest : List Nat) :
      isNumberTag (tagOf w) = true → Items (b + 2) rest → Items b (w :: r :: rest)
  | container (b o c : Nat) (inner rest : List Nat) :
      isOpenTag (tagOf o) = true → tagOf c = closeOf (tagOf o) →
      payloadOf o = b + inner.length + 2 → payloadOf c = b →
      Items (b + 1) inner → Items (b + inner.length + 2) rest →
      Items b (o :: inner ++ c :: rest)

/-- A stretch of tape starting at tape index `b` that consists of complete roots: a header
`r` holding the index of the word after its footer, the root's content (nothing, or one
container), and a footer `r` holding the index of the header. -/
inductive Roots : Nat → List Nat → Prop where
  | nil (b : Nat) : Roots b []
  | cons (b h f : Nat) (inner rest : List Nat) :
      tagOf h = 114 → tagOf f = 114 →
      payloadOf h = b + inner.length + 2 → payloadOf f = b →
      Items (b + 1) inner →
      (inner = [] ∨ ∃ o, inner.head? = some o ∧ isOpenTag (tagOf o) = true
        ∧ payloadOf o = b + 1 + inner.length) →
      Roots (b + inner.length + 2) rest →
      Roots b (h :: inner ++ f :: rest)

/-! ## The byte-wise reference for the atom validators -/

/-- Follows the spec's words (section 4.1): a byte is structural or whitespace when the lookup
returns zero for it ("a lookup that returns nonzero if the trailing byte is neither structural
nor whitespace"). -/
def isStructuralOrWhitespace (L : Leaves) (b : Byte) : Bool :=
  L.is_not_structural_or_whitespace b == 0

/-- Follows the spec's words (section 4.1): the byte-wise check of an atom, "a fixed literal
followed by one structural-or-whitespace byte": the window starts with the literal and the
byte right after the literal exists and is structural or whitespace. -/
def atom_bytewise (L : Leaves) (lit : List Byte) (buf : List Byte) : Bool :=
  buf.take lit.length == lit &&
    match buf[lit.length]? with
    | some b => isStructuralOrWhitespace L b
    | none => false

/-! ## Termination measure -/

/-- The weight of a label in the termination measure: the labels that read no input
(`scope_end`, `main_array_switch`) are reached right after a read. -/
def Label.weight : Label → Nat
  | .succeed | .fail => 0
  | .scope_end | .main_array_switch => 3
  | _ => 2

/-- The termination measure of a configuration: it decreases with every jump. -/
def potential (l : Label) (m : Machine) : Nat :=
  2 * pending m.indexCh m.pj.index_chan + l.weight

/-! ## Auxiliary notions for the proofs -/

/-- Continue a run after the code at one label has been executed. -/
def resume (L : Leaves) (buf : List Byte) (k : Nat) : Next → Outcome
  | .goto l m => run L buf k l m
  | .ret b m => .ret b m
  | .panic => .panic

/-- The two machines are at the same place of the index stream. -/
def SameStream (m m' : Machine) : Prop :=
  m'.idx = m.idx ∧ m'.indexCh = m.indexCh ∧ m'.pj.index_chan = m.pj.index_chan

/-- The tape words of one scalar value: a one-word scalar, or an `l`/`d` word and its raw
word. -/
def ScalarWords (ws : List Nat) : Prop :=
  (∃ w, ws = [w] ∧ isScalarTag (tagOf w) = true) ∨
    (∃ w r, ws = [w, r] ∧ isNumberTag (tagOf w) = true)

/-- The effect of the value switch on a scalar whose leaf succeeds: the words of the scalar
are appended to the tape, the scope stack and the reader stay as they are. -/
def ScalarStep (L : Leaves) (buf : List Byte) (m m' : Machine) : Prop :=
  scalarOK L buf (m.idx, m.c) ∧ SameStream m m' ∧
    m'.pj.containing_scope_offset = m.pj.containing_scope_offset ∧
    m'.pj.isvalid = m.pj.isvalid ∧
    ∃ ws, m'.pj.Tape = m.pj.Tape ++ ws ∧ ScalarWords ws

/-- The open tag of the container the automaton is in at a nested label (`c` is the byte last
read, which at `scope_end` is the close byte). -/
def openKind : Label → Nat → Option Nat
  | .object_begin, _ | .object_key_state, _ | .object_continue, _ => some 123
  | .array_begin, _ | .main_array_switch, _ | .array_continue, _ => some 91
  | .scope_end, c => if c = 125 then some 123 else if c = 93 then some 91 else none
  | _, _ => none

/-- The effect on the tape of finishing the innermost container, whose scope entry is `e` and
whose open tag is `k`: complete values `ws` and the close word are appended, and the open word
is back-patched with the index after the close word. -/
def TapeEffect (k e : Nat) (T T' : List Nat) : Prop :=
  ∃ ws, Items T.length ws ∧
    T' = T.set (e >>> 2) (tapeWord k (T.length + ws.length + 1)) ++ ws
      ++ [tapeWord (closeOf k) (e >>> 2)]

/-- In a run that returns `true` with final machine `mf`, the machine `m` (at a nested label,
with top scope entry `e` above the stack `s`) gets back, in fewer than `n` jumps, to the label
that `e` names, with `e` popped; the structural bytes read on the way satisfy `Q`, and when
the tape stays below `2^56` words and the word that `e` records has tag `k`, the tape changes
by `TapeEffect`. -/
def Ret (L : Leaves) (buf : List Byte) (mf : Machine) (n : Nat) (m : Machine)
    (s : List Nat) (e : Nat) (Q : List (Nat × Nat) → Prop) (ok : Option Nat) : Prop :=
  ∃ n' m', n' < n ∧ run L buf n' (retLabel e) m' = .ret true mf ∧
    m'.pj.containing_scope_offset = s ∧ m.pj.Tape.length ≤ m'.pj.Tape.length ∧
    m'.pj.isvalid = m.pj.isvalid ∧
    (∃ ts, m.tokens buf = ts ++ m'.tokens buf ∧ Q ts) ∧
    (m'.pj.Tape.length < 2 ^ 56 → ∀ k w, ok = some k → m.pj.Tape[e >>> 2]? = some w →
      tagOf w = k → TapeEffect k e m.pj.Tape m'.pj.Tape)

/-- What `nested_return` states for runs of fewer than `N` jumps. -/
def NestedBelow (L : Leaves) (buf : List Byte) (mf : Machine) (N : Nat) : Prop :=
  ∀ k, k < N → ∀ l m, run L buf k l m = .ret true mf → l.nested = true →
    ∀ s e, m.pj.containing_scope_offset = s ++ [e] → s ≠ [] →
      Ret L buf mf k m s e (Tail (scalarOK L buf) l (m.idx, m.c)) (openKind l m.c)

/-- What a run from `new_root` that returns `true` with final machine `mf` guarantees about
the machine `m` it started from: the scope stack was empty, the structural bytes ahead were a
stream of root documents, the final scope stack is empty and the valid flag set, and when
the final tape is below `2^56` words it is the initial tape followed by complete roots. -/
def Accepted (L : Leaves) (buf : List Byte) (mf m : Machine) : Prop :=
  m.pj.containing_scope_offset = [] ∧ Docs (scalarOK L buf) (m.tokens buf) ∧
    mf.pj.containing_scope_offset = [] ∧ mf.pj.isvalid = true ∧
    m.pj.Tape.length ≤ mf.pj.Tape.length ∧
    (mf.pj.Tape.length < 2 ^ 56 →
      ∃ seg, mf.pj.Tape = m.pj.Tape ++ seg ∧ Roots m.pj.Tape.length seg)

/-! ## The transitions of the automaton in relational form -/

/-- A read that delivers a structural byte. -/
def Adv (buf : List Byte) (m m1 : Machine) : Prop :=
  m.advance buf = some m1 ∧ m1.done = false

/-- A read that reports the end of the index stream. -/
def AdvDone (buf : List Byte) (m m1 : Machine) : Prop :=
  m.advance buf = some m1 ∧ m1.done = true

/-- The labels whose code starts with a read. -/
def Label.reads : Label → Bool
  | .new_root | .start_continue | .object_begin | .object_key_state | .object_continue
  | .array_begin | .array_continue => true
  | _ => false

/-- The machine on which the first read of a label works: `new_root` has pushed the root's
scope entry and written the root header before it reads. -/
def Label.enter : Label → Machine → Machine
  | .new_root, m => m.open_scope RET_ADDRESS_START_CONST 114
  | _, m => m

/-- The byte after which a label reads a second byte: `:` at `object_key_state`, `,` at
`object_continue` and `array_continue`. -/
def Label.second : Label → Option Nat
  | .object_key_state => some 58
  | .object_continue | .array_continue => some 44
  | _ => none

/-- The byte that sends a label to `scope_end`. -/
def Label.closer : Label → Option Nat
  | .object_begin | .object_continue => some 125
  | .array_begin | .array_continue => some 93
  | _ => none

/-- A jump to `fail`: the valid flag is as before and the reader has not gone back. -/
def Failed (m m' : Machine) : Prop :=
  m'.pj.isvalid = m.pj.isvalid ∧
    pending m'.indexCh m'.pj.index_chan ≤ pending m.indexCh m.pj.index_chan

/-- A jump out of the value switch (not to `fail`): a scalar whose leaf succeeded, or a
container being opened with return code `rc`. -/
def ValueEdge (L : Leaves) (buf : List Byte) (rc : Nat) (cont : Label) (m : Machine)
    (l' : Label) (m' : Machine) : Prop :=
  (l' = cont ∧ ScalarStep L buf m m') ∨
    (m.c = 123 ∧ l' = .object_begin ∧ m' = m.open_scope rc 123) ∨
    (m.c = 91 ∧ l' = .array_begin ∧ m' = m.open_scope rc 91)

/-- The number routine panics on the number at the machine's current byte. -/
def NumberPanic (L : Leaves) (buf : List Byte) (m : Machine) : Prop :=
  ((48 ≤ m.c ∧ m.c ≤ 57) ∧ parse_number_simd L (buf.drop m.idx) false = none) ∨
    (m.c = 45 ∧ parse_number_simd L (buf.drop m.idx) true = none)

/-- The effect of `scope_end`: the top scope entry `e` is popped, the close word is appended
and the word `e` records is back-patched. -/
def Popped (m m' : Machine) (e : Nat) : Prop :=
  m.pj.containing_scope_offset.getLast? = some e ∧
    (∃ w, (m.pj.Tape ++ [tapeWord m.c (e >>> 2)])[e >>> 2]? = some w ∧
      m'.pj.Tape = (m.pj.Tape ++ [tapeWord m.c (e >>> 2)]).set (e >>> 2)
        (tapeWord (tagOf w) (m.pj.Tape.length + 1))) ∧
    m'.pj.containing_scope_offset = m.pj.containing_scope_offset.dropLast ∧
    m'.pj.isvalid = m.pj.isvalid ∧ SameStream m m' ∧ m'.c = m.c

/-- The effect of closing a root (at a boundary byte, or at `succeed`, which also sets the
valid flag to `v`): the root's scope entry `e` is popped, the header it records is
back-patched with the index after the footer, and the footer is appended. -/
def RootClosed (m m' : Machine) (e : Nat) (v : Bool) : Prop :=
  m.pj.containing_scope_offset.getLast? = some e ∧
    (∃ w, m.pj.Tape[e >>> 2]? = some w ∧
      m'.pj.Tape = m.pj.Tape.set (e >>> 2)
        (tapeWord (tagOf w) ((m.pj.Tape.length + 1) % 2 ^ 64)) ++ [tapeWord 114 (e >>> 2)]) ∧
    m'.pj.containing_scope_offset = m.pj.containing_scope_offset.dropLast ∧
    m'.pj.isvalid = v ∧ m'.pj.Strings = m.pj.Strings ∧ SameStream m m'

/-- The scope stack is empty, or the index its top entry records is not below `n`: the two
ways in which popping an entry and back-patching a tape of `n` words panics. -/
def NoTop (m : Machine) (n : Nat) : Prop :=
  m.pj.containing_scope_offset.getLast? = none ∨
    ∃ e, m.pj.containing_scope_offset.getLast? = some e ∧ n ≤ e >>> 2

/-- The code at each label in relational form: every way in which `step` jumps, returns or
panics (`step_spec`). -/
inductive Spec (L : Leaves) (buf : List Byte) : Label → Machine → Next → Prop where
  | read_panic (l : Label) (m : Machine) :
      l.reads = true → (l.enter m).advance buf = none → Spec L buf l m .panic
  | read_done (l : Label) (m m1 : Machine) :
      l.reads = true → AdvDone buf (l.enter m) m1 → Spec L buf l m (.goto .succeed m1)
  | read2_panic (l : Label) (m m1 : Machine) (c : Nat) :
      l.second = some c → Adv buf m m1 → m1.c = c → m1.advance buf = none →
      Spec L buf l m .panic
  | read2_done (l : Label) (m m1 m2 : Machine) (c : Nat) :
      l.second = some c → Adv buf m m1 → m1.c = c → AdvDone buf m1 m2 →
      Spec L buf l m (.goto .succeed m2)
  | failed (l : Label) (m m' : Machine) :
      l ≠ .succeed → l ≠ .fail → l ≠ .scope_end → Failed m m' →
      Spec L buf l m (.goto .fail m')
  | root_open (m m1 : Machine) (l' : Label) :
      Adv buf (m.open_scope RET_ADDRESS_START_CONST 114) m1 →
      (m1.c = 123 ∧ l' = .object_begin ∨ m1.c = 91 ∧ l' = .array_begin) →
      Spec L buf .new_root m (.goto l' (m1.open_scope RET_ADDRESS_START_CONST m1.c))
  | boundary (m m1 m2 : Machine) (e : Nat) :
      Adv buf m m1 → (m1.c = 10 ∨ m1.c = 123) → RootClosed m1 m2 e m1.pj.isvalid →
      Spec L buf .start_continue m (.goto .new_root m2)
  | boundary_panic (m m1 : Machine) :
      Adv buf m m1 → (m1.c = 10 ∨ m1.c = 123) → NoTop m1 m1.pj.Tape.length →
      Spec L buf .start_continue m .panic
  | key (m m1 m2 : Machine) :
      Adv buf m m1 → m1.c = 34 → ScalarStep L buf m1 m2 →
      Spec L buf .object_begin m (.goto .object_key_state m2)
  | next_key (m m1 m2 m3 : Machine) :
      Adv buf m m1 → m1.c = 44 → Adv buf m1 m2 → m2.c = 34 → ScalarStep L buf m2 m3 →
      Spec L buf .object_continue m (.goto .object_key_state m3)
  | close (l : Label) (m m1 : Machine) (c : Nat) :
      l.closer = some c → Adv buf m m1 → m1.c = c → Spec L buf l m (.goto .scope_end m1)
  | member_value (m m1 m2 : Machine) (l' : Label) (m' : Machine) :
      Adv buf m m1 → m1.c = 58 → Adv buf m1 m2 →
      ValueEdge L buf RET_ADDRESS_OBJECT_CONST .object_continue m2 l' m' →
      Spec L buf .object_key_state m (.goto l' m')
  | member_value_panic (m m1 m2 : Machine) :
      Adv buf m m1 → m1.c = 58 → Adv buf m1 m2 → NumberPanic L buf m2 →
      Spec L buf .object_key_state m .panic
  | element_value (m : Machine) (l' : Label) (m' : Machine) :
      ValueEdge L buf RET_ADDRESS_ARRAY_CONST .array_continue m l' m' →
      Spec L buf .main_array_switch m (.goto l' m')
  | element_value_panic (m : Machine) :
      NumberPanic L buf m → Spec L buf .main_array_switch m .panic
  | first_element (m m1 : Machine) :
      Adv buf m m1 → m1.c ≠ 93 → Spec L buf .array_begin m (.goto .main_array_switch m1)
  | next_element (m m1 m2 : Machine) :
      Adv buf m m1 → m1.c = 44 → Adv buf m1 m2 →
      Spec L buf .array_continue m (.goto .main_array_switch m2)
  | scope (m m' : Machine) (e : Nat) :
      Popped m m' e → Spec L buf .scope_end m (.goto (retLabel e) m')
  | scope_panic (m : Machine) :
      NoTop m (m.pj.Tape.length + 1) → Spec L buf .scope_end m .panic
  | succeed_true (m m' : Machine) (e : Nat) :
      m.pj.containing_scope_offset = [e] → RootClosed m m' e true →
      Spec L buf .succeed m (.ret true m')
  | succeed_false (m m' : Machine) (e : Nat) :
      m.pj.containing_scope_offset.getLast? = some e →
      m.pj.containing_scope_offset.dropLast ≠ [] →
      m'.pj.toParsedJson = m.pj.toParsedJson → m'.pj.isvalid = m.pj.isvalid →
      m'.pj.containing_scope_offset = m.pj.containing_scope_offset.dropLast →
      Spec L buf .succeed m (.ret false m')
  | succeed_panic (m : Machine) :
      m.pj.containing_scope_offset.dropLast = [] → NoTop m m.pj.Tape.length →
      Spec L buf .succeed m .panic
  | fail_ret (m : Machine) : Spec L buf .fail m (.ret false m)

/-! ## Invariants of the scope stack and of the reader -/

/-- The number of scope entries above the initial stack that a label is reached with:
none at `new_root`, the root entry at `start_continue`, the root entry and at least one
container entry at the nested labels, at least the root entry at `succeed`. -/
def depthOK : Label → Nat → Prop
  | .new_root, d => d = 0
  | .start_continue, d => d = 1
  | .succeed, d => 1 ≤ d
  | .fail, _ => True
  | _, d => 2 ≤ d

/-- The scope entries above the initial stack, bottom first, on a tape of `T` words: each
records an index on the tape; the entry above the root entry (the outermost container)
resumes `start_continue`, the entries above it resume `object_continue` or
`array_continue`. -/
def EntsOK (T : Nat) (ents : List Nat) : Prop :=
  ∀ i e, ents[i]? = some e → e >>> 2 < T ∧
    (i = 1 → retLabel e = .start_continue) ∧
    (2 ≤ i → retLabel e = .object_continue ∨ retLabel e = .array_continue)

/-- The invariant of the scope stack at a label, for the initial stack `base`. -/
def StackInv (base : List Nat) (l : Label) (m : Machine) : Prop :=
  ∃ ents, m.pj.containing_scope_offset = base ++ ents ∧ depthOK l ents.length ∧
    EntsOK m.pj.Tape.length ents

/-- The index stream ahead of the machine is well formed (the reader ends with `done`, not
with a panic) and the number routine does not panic on a number that starts at one of the
structural bytes ahead (at `main_array_switch`: nor at the byte last read). -/
def Safe (L : Leaves) (buf : List Byte) (l : Label) (m : Machine) : Prop :=
  m.closes buf = true ∧ (∀ t ∈ m.tokens buf, numberSafe L buf t = true) ∧
    (l = .main_array_switch → numberSafe L buf (m.idx, m.c) = true)

/-! ## The properties of the finished tape -/

/-- Every open word of the tagged words `tw` is followed by its matching close word (found by
the forward scan), the close word has the kind of the open word, and the open word's payload
is the tape index of the close word plus `delta`. -/
def OpenLinks (delta : Nat) (tw : List (Nat × Nat)) : Prop :=
  ∀ pre i w post, tw = pre ++ (i, w) :: post → isOpenTag (tagOf w) = true →
    ∃ j c, findClose post 0 = some (j, c) ∧ tagOf c = closeOf (tagOf w) ∧
      payloadOf w = j + delta

/-- Every close word of the tagged words `tw` is preceded by its matching open word (found by
the backward scan), the open word has the kind of the close word, the close word's payload is
the tape index of the open word, and that index is strictly smaller than the close word's. -/
def CloseLinks (tw : List (Nat × Nat)) : Prop :=
  ∀ pre j c post, tw = pre ++ (j, c) :: post → isCloseTag (tagOf c) = true →
    ∃ i w, findOpen pre.reverse 0 = some (i, w) ∧ tagOf w = openOf (tagOf c) ∧
      payloadOf c = i ∧ i < j

/-- Every root header of the tagged words `tw` (an `r` word with an even number of `r` words
before it) is followed by its footer (the next `r` word); the footer's payload is the tape
index of the header and the header's payload is the tape index of the footer plus `delta`. -/
def RootLinks (delta : Nat) (tw : List (Nat × Nat)) : Prop :=
  ∀ pre i w post, tw = pre ++ (i, w) :: post → tagOf w = 114 → countTag 114 pre % 2 = 0 →
    ∃ j f, nextRoot post = some (j, f) ∧ payloadOf f = i ∧ payloadOf w = j + delta

/-- The tagged words of `tw` carry their tape index on the tape `T`. -/
def OnTape (T : List Nat) (tw : List (Nat × Nat)) : Prop :=
  ∀ x ∈ tw, T[x.1]? = some x.2

/-! ## Runs forward along a well-formed stream -/

/-- From label `l` with machine `m` every run gets, after a fixed number of jumps, to label
`l'` with machine `m'`; the scope stack is as before, the tape has not shrunk, the reader's
well-formedness is as before, and the structural bytes `ts` have been read. -/
def Fwd (L : Leaves) (buf : List Byte) (l : Label) (m : Machine) (ts : List (Nat × Nat))
    (l' : Label) (m' : Machine) : Prop :=
  (∃ j, ∀ k, run L buf (k + j) l m = run L buf k l' m') ∧
    m'.pj.containing_scope_offset = m.pj.containing_scope_offset ∧
    m.pj.Tape.length ≤ m'.pj.Tape.length ∧ m'.closes buf = m.closes buf ∧
    m.tokens buf = ts ++ m'.tokens buf

/-- The same for the value switch entered with machine `m` (whose current byte starts the
value) and left towards `cont`. -/
def FwdValue (L : Leaves) (buf : List Byte) (rc : Nat) (cont : Label) (m : Machine)
    (ts : List (Nat × Nat)) (m' : Machine) : Prop :=
  (∃ j, ∀ k, resume L buf (k + j) (value_switch L buf rc cont m) = run L buf k cont m') ∧
    m'.pj.containing_scope_offset = m.pj.containing_scope_offset ∧
    m.pj.Tape.length ≤ m'.pj.Tape.length ∧ m'.closes buf = m.closes buf ∧
    m.tokens buf = ts ++ m'.tokens buf

/-- What the forward simulation shows for each nonterminal of the grammar: a value whose
first byte has just been read is passed by the value switch (entered for a member, for an
element or, with the return code of a root, for a root document); members whose first key has
just been copied are passed from `object_key_state` up to the closing `}`; elements whose
first byte has just been read are passed from `main_array_switch` up to the closing `]`. -/
def FwdGoal (L : Leaves) (buf : List Byte) : Sym → List (Nat × Nat) → Prop
  | .value, ts =>
    ∀ (rc : Nat) (cont : Label) (m : Machine) (ts' : List (Nat × Nat)),
      ((rc = 2 ∧ cont = .object_continue) ∨ (rc = 3 ∧ cont = .array_continue) ∨
        (rc = 1 ∧ cont = .start_continue)) →
      ts = (m.idx, m.c) :: ts' → (∃ rest, m.tokens buf = ts' ++ rest) →
      ∃ m', FwdValue L buf rc cont m ts' m'
  | .members, ts =>
    ∀ (m : Machine) (k : Nat × Nat) (ts' : List (Nat × Nat)) (b : Nat × Nat),
      ts = k :: ts' → b.2 = 125 → (∃ rest, m.tokens buf = ts' ++ b :: rest) →
      ∃ m', Fwd L buf .object_key_state m (ts' ++ [b]) .scope_end m' ∧ m'.c = 125
  | .elements, ts =>
    ∀ (m : Machine) (ts' : List (Nat × Nat)) (b : Nat × Nat),
      ts = (m.idx, m.c) :: ts' → b.2 = 93 → (∃ rest, m.tokens buf = ts' ++ b :: rest) →
      ∃ m', Fwd L buf .main_array_switch m (ts' ++ [b]) .scope_end m' ∧ m'.c = 93

/-! ## Further notions: the reader's offsets, the tags of the tape -/

/-- A batch as the structural-index stage fills it: every entry is the distance from the
previous structural byte to the next one, so it is at least 1, and it is a `uint32`. -/
def indexChan.positive (b : indexChan) : Prop := ∀ d ∈ b.indexes, 1 ≤ d ∧ d < 2 ^ 32

/-- The tags of the words of a tape in tape order, the raw second word of every `l`/`d`
skipped. -/
def tapeTags : List Nat → List Nat
  | [] => []
  | [w] => [tagOf w]
  | w :: r :: rest =>
    if isNumberTag (tagOf w) then tagOf w :: tapeTags rest
    else tagOf w :: tapeTags (r :: rest)

/-- The tag of the number that starts at `idx`: `d` (100) when the number routine reports a
double, `l` (108) when it reports an integer; nothing when the routine panics. -/
def numberTag (L : Leaves) (buf : List Byte) (idx : Nat) (neg : Bool) : List Nat :=
  match parse_number_simd L (buf.drop idx) neg with
  | some r => if r.2.1 then [100] else [108]
  | none => []

/-- The tag the automaton writes for a structural byte inside a root document: none for `:`
and `,`; `l` or `d` for the first byte of a number; the byte itself for a bracket, for the
quote of a string and for the first byte of an atom. -/
def tokenTag (L : Leaves) (buf : List Byte) (t : Nat × Nat) : List Nat :=
  if t.2 = 58 ∨ t.2 = 44 then []
  else if 48 ≤ t.2 ∧ t.2 ≤ 57 then numberTag L buf t.1 false
  else if t.2 = 45 then numberTag L buf t.1 true
  else [t.2]

/-- The tags for a sequence of structural bytes, in input order. -/
def tokenTags (L : Leaves) (buf : List Byte) : List (Nat × Nat) → List Nat
  | [] => []
  | t :: ts => tokenTag L buf t ++ tokenTags L buf ts

/-- The tags of the roots of a sequence of documents: for each document a header `r`, the
tags of its structural bytes, and a footer `r`. -/
def rootBlocks (L : Leaves) (buf : List Byte) : List (List (Nat × Nat)) → List Nat
  | [] => []
  | d :: ds => (114 :: tokenTags L buf d ++ [114]) ++ rootBlocks L buf ds

/-- The tape does not end inside a number: words appended to it are read as tagged words from
their first word on. -/
def CleanTape (T : List Nat) : Prop := ∀ ws, tapeTags (T ++ ws) = tapeTags T ++ tapeTags ws

/-- From machine `m` to machine `m'` the tape has grown by words with the tags `tags` (words
already on the tape keep their tag), provided it did not end inside a number. -/
def TagGrow (m m' : Machine) (tags : List Nat) : Prop :=
  CleanTape m.pj.Tape →
    CleanTape m'.pj.Tape ∧ tapeTags m'.pj.Tape = tapeTags m.pj.Tape ++ tags

/-- What the forward simulation shows about the tape for each nonterminal of the grammar,
next to `FwdGoal`: the value switch writes the tags of a value; from `object_key_state`
(the first key written) up to the closing `}` the tags of the members after that key are
written; from `main_array_switch` up to the closing `]` the tags of the elements. -/
def FwdTagGoal (L : Leaves) (buf : List Byte) : Sym → List (Nat × Nat) → Prop
  | .value, ts =>
    ∀ (rc : Nat) (cont : Label) (m : Machine) (ts' : List (Nat × Nat)),
      ((rc = 2 ∧ cont = .object_continue) ∨ (rc = 3 ∧ cont = .array_continue) ∨
        (rc = 1 ∧ cont = .start_continue)) →
      ts = (m.idx, m.c) :: ts' → (∃ rest, m.tokens buf = ts' ++ rest) →
      ∃ m', FwdValue L buf rc cont m ts' m' ∧ TagGrow m m' (tokenTags L buf ts)
  | .members, ts =>
    ∀ (m : Machine) (k : Nat × Nat) (ts' : List (Nat × Nat)) (b : Nat × Nat),
      ts = k :: ts' → b.2 = 125 → (∃ rest, m.tokens buf = ts' ++ b :: rest) →
      ∃ m', Fwd L buf .object_key_state m (ts' ++ [b]) .scope_end m' ∧ m'.c = 125 ∧
        TagGrow m m' (tokenTags L buf ts')
  | .elements, ts =>
    ∀ (m : Machine) (ts' : List (Nat × Nat)) (b : Nat × Nat),
      ts = (m.idx, m.c) :: ts' → b.2 = 93 → (∃ rest, m.tokens buf = ts' ++ b :: rest) →
      ∃ m', Fwd L buf .main_array_switch m (ts' ++ [b]) .scope_end m' ∧ m'.c = 93 ∧
        TagGrow m m' (tokenTags L buf ts)

/-- The index stream of `k >= 1` root documents separated by single newline bytes, without a
trailing newline: the documents and the stream they make up. -/
inductive NDJson (sc : Nat × Nat → Prop) : List (List (Nat × Nat)) → List (Nat × Nat) → Prop
  | single (d : List (Nat × Nat)) : Container sc d → NDJson sc [d] d
  | cons (d : List (Nat × Nat)) (s : Nat × Nat) (ds : List (List (Nat × Nat)))
      (ts : List (Nat × Nat)) :
      Container sc d → s.2 = 10 → NDJson sc ds ts → NDJson sc (d :: ds) (d ++ s :: ts)

/-! ## Atom validators -/

theorem or_eq_zero_nat (a b : Nat) : a ||| b = 0 ↔ a = 0 ∧ b = 0 := by
  constructor
  · intro h
    have hbit : ∀ i, (a.testBit i || b.testBit i) = false := fun i => by
      rw [← Nat.testBit_or, h, Nat.zero_testBit]
    constructor <;> apply Nat.eq_of_testBit_eq <;> intro i <;> have := hbit i <;> simp_all
  · rintro ⟨rfl, rfl⟩; rfl

theorem xor_eq_zero_nat (a b : Nat) : a ^^^ b = 0 ↔ a = b := Nat.xor_eq_zero

theorem fast_check_iff (locval mask lit x : Nat) (k : Nat) (hm : mask = 2 ^ k - 1) :
    (((locval &&& mask) ^^^ lit ||| x) == 0) = true ↔ locval % 2 ^ k = lit ∧ x = 0 := by
  subst hm
  rw [beq_iff_eq, or_eq_zero_nat, xor_eq_zero_nat, Nat.and_pow_two_sub_one_eq_mod]

theorem uint64_cons8 (b0 b1 b2 b3 b4 b5 b6 b7 : Byte) (rest : List Byte) :
    LittleEndian_Uint64 (b0 :: b1 :: b2 :: b3 :: b4 :: b5 :: b6 :: b7 :: rest)
      = b0.val + b1.val * 2 ^ 8 + b2.val * 2 ^ 16 + b3.val * 2 ^ 24 + b4.val * 2 ^ 32
        + b5.val * 2 ^ 40 + b6.val * 2 ^ 48 + b7.val * 2 ^ 56 := by
  simp [LittleEndian_Uint64]

theorem exists_cons8 (buf : List Byte) (h : 8 ≤ buf.length) :
    ∃ b0 b1 b2 b3 b4 b5 b6 b7 rest, buf = b0 :: b1 :: b2 :: b3 :: b4 :: b5 :: b6 :: b7 :: rest := by
  match buf, h with
  | b0 :: b1 :: b2 :: b3 :: b4 :: b5 :: b6 :: b7 :: rest, _ =>
    exact ⟨b0, b1, b2, b3, b4, b5, b6, b7, rest, rfl⟩

theorem true_atom_fast (L : Leaves) (buf : List Byte) (h : 8 ≤ buf.length) :
    is_valid_true_atom L buf = atom_bytewise L [116, 114, 117, 101] buf := by
  obtain ⟨b0, b1, b2, b3, b4, b5, b6, b7, rest, rfl⟩ := exists_cons8 buf h
  rw [Bool.eq_iff_iff]
  simp only [is_valid_true_atom, atom_bytewise, isStructuralOrWhitespace]
  rw [if_pos (by simp), fast_check_iff _ _ _ _ 32 (by norm_num), uint64_cons8]
  have h0 := b0.isLt; have h1 := b1.isLt; have h2 := b2.isLt; have h3 := b3.isLt
  have h4 := b4.isLt; have h5 := b5.isLt; have h6 := b6.isLt; have h7 := b7.isLt
  simp only [List.length_cons, List.length_nil, List.take, List.getD_cons_succ,
    List.getD_cons_zero, Bool.and_eq_true, beq_iff_eq, List.cons.injEq, and_true,
    List.getElem?_cons_succ, List.getElem?_cons_zero, Fin.ext_iff, Fin.val_zero]
  constructor
  · rintro ⟨hv, hx⟩
    refine ⟨⟨?_, ?_, ?_, ?_⟩, hx⟩ <;> omega
  · rintro ⟨⟨e0, e1, e2, e3⟩, hx⟩
    refine ⟨?_, hx⟩
    omega

theorem null_atom_fast (L : Leaves) (buf : List Byte) (h : 8 ≤ buf.length) :
    is_valid_null_atom L buf = atom_bytewise L [110, 117, 108, 108] buf := by
  obtain ⟨b0, b1, b2, b3, b4, b5, b6, b7, rest, rfl⟩ := exists_cons8 buf h
  rw [Bool.eq_iff_iff]
  simp only [is_valid_null_atom, atom_bytewise, isStructuralOrWhitespace]
  rw [if_pos (by simp), fast_check_iff _ _ _ _ 32 (by norm_num), uint64_cons8]
  have h0 := b0.isLt; have h1 := b1.isLt; have h2 := b2.isLt; have h3 := b3.isLt
  have h4 := b4.isLt; have h5 := b5.isLt; have h6 := b6.isLt; have h7 := b7.isLt
  simp only [List.length_cons, List.length_nil, List.take, List.getD_cons_succ,
    List.getD_cons_zero, Bool.and_eq_true, beq_iff_eq, List.cons.injEq, and_true,
    List.getElem?_cons_succ, List.getElem?_cons_zero, Fin.ext_iff, Fin.val_zero]
  constructor
  · rintro ⟨hv, hx⟩
    refine ⟨⟨?_, ?_, ?_, ?_⟩, hx⟩ <;> omega
  · rintro ⟨⟨e0, e1, e2, e3⟩, hx⟩
    refine ⟨?_, hx⟩
    omega

theorem false_atom_fast (L : Leaves) (buf : List Byte) (h : 8 ≤ buf.length) :
    is_valid_false_atom L buf = atom_bytewise L [102, 97, 108, 115, 101] buf := by
  obtain ⟨b0, b1, b2, b3, b4, b5, b6, b7, rest, rfl⟩ := exists_cons8 buf h
  rw [Bool.eq_iff_iff]
  simp only [is_valid_false_atom, atom_bytewise, isStructuralOrWhitespace]
  rw [if_pos (by simp), fast_check_iff _ _ _ _ 40 (by norm_num), uint64_cons8]
  have h0 := b0.isLt; have h1 := b1.isLt; have h2 := b2.isLt; have h3 := b3.isLt
  have h4 := b4.isLt; have h5 := b5.isLt; have h6 := b6.isLt; have h7 := b7.isLt
  simp only [List.length_cons, List.length_nil, List.take, List.getD_cons_succ,
    List.getD_cons_zero, Bool.and_eq_true, beq_iff_eq, List.cons.injEq, and_true,
    List.getElem?_cons_succ, List.getElem?_cons_zero, Fin.ext_iff, Fin.val_zero]
  constructor
  · rintro ⟨hv, hx⟩
    refine ⟨⟨?_, ?_, ?_, ?_, ?_⟩, hx⟩ <;> omega
  · rintro ⟨⟨e0, e1, e2, e3, e4⟩, hx⟩
    refine ⟨?_, hx⟩
    omega

/-- C8. On a window of at least 8 bytes the fast path of each atom validator (little-endian
64-bit load, mask to the literal's length, XOR with the packed literal, OR with the
trailing-byte lookup, compare with zero) returns exactly what the byte-wise reference
returns: the window starts with `true`, `false` or `null` and the byte right after the
literal is structural or whitespace. -/
theorem atom_fast_path_refines_bytewise (L : Leaves) (buf : List Byte) (h : 8 ≤ buf.length) :
    is_valid_true_atom L buf = atom_bytewise L [116, 114, 117, 101] buf
      ∧ is_valid_false_atom L buf = atom_bytewise L [102, 97, 108, 115, 101] buf
      ∧ is_valid_null_atom L buf = atom_bytewise L [110, 117, 108, 108] buf :=
  ⟨true_atom_fast L buf h, false_atom_fast L buf h, null_atom_fast L buf h⟩

/-- C8, witness: the window `true,"x":1` (10 bytes) satisfies the length hypothesis. -/
theorem atom_fast_path_refines_bytewise_witness :
    8 ≤ ([116, 114, 117, 101, 44, 34, 120, 34, 58, 49] : List Byte).length
      ∧ (is_valid_true_atom sampleLeaves [116, 114, 117, 101, 44, 34, 120, 34, 58, 49]
          = atom_bytewise sampleLeaves [116, 114, 117, 101]
              [116, 114, 117, 101, 44, 34, 120, 34, 58, 49]
        ∧ is_valid_false_atom sampleLeaves [116, 114, 117, 101, 44, 34, 120, 34, 58, 49]
          = atom_bytewise sampleLeaves [102, 97, 108, 115, 101]
              [116, 114, 117, 101, 44, 34, 120, 34, 58, 49]
        ∧ is_valid_null_atom sampleLeaves [116, 114, 117, 101, 44, 34, 120, 34, 58, 49]
          = atom_bytewise sampleLeaves [110, 117, 108, 108]
              [116, 114, 117, 101, 44, 34, 120, 34, 58, 49]) :=
  ⟨by decide, atom_fast_path_refines_bytewise sampleLeaves
    [116, 114, 117, 101, 44, 34, 120, 34, 58, 49] (by decide)⟩

/-- C7, the code at the failing inputs: on the 6-byte window `true]]` and on the 7-byte
windows `null]]]` and `false]]` the byte-wise reference holds (the literal is followed by a
structural byte) but the validators return `false`, because their fall-back branch is taken
only for a window of exactly 5 (for `false`: 6) bytes; and the document `[[true]]`, whose
`true` is followed by two bytes, is rejected by `unified_machine`. -/
theorem atom_short_window_rejected :
    atom_bytewise sampleLeaves [116, 114, 117, 101] [116, 114, 117, 101, 93, 93] = true
      ∧ is_valid_true_atom sampleLeaves [116, 114, 117, 101, 93, 93] = false
      ∧ atom_bytewise sampleLeaves [110, 117, 108, 108] [110, 117, 108, 108, 93, 93, 93] = true
      ∧ is_valid_null_atom sampleLeaves [110, 117, 108, 108, 93, 93, 93] = false
      ∧ atom_bytewise sampleLeaves [102, 97, 108, 115, 101] [102, 97, 108, 115, 101, 93, 93]
          = true
      ∧ is_valid_false_atom sampleLeaves [102, 97, 108, 115, 101, 93, 93] = false
      ∧ (unified_machine sampleLeaves [91, 91, 116, 114, 117, 101, 93, 93]
          (freshParser [batch [1, 1, 1, 4, 1]])).result = some false := by
  decide

/-- C9, the code at the failing input: on `{"a\x":1}` the string copier reports a failure
for the key (an invalid escape), yet `parse_string` returns `true` for that token and
`unified_machine` returns `true`. -/
theorem parse_string_drops_copier_report :
    (sampleLeaves.parse_string_simd
        (([123, 34, 97, 92, 120, 34, 58, 49, 125] : List Byte).drop 1) []).1 = false
      ∧ (parse_string sampleLeaves [123, 34, 97, 92, 120, 34, 58, 49, 125]
          ⟨[tapeWord 114 0, tapeWord 123 0], []⟩ 2 1).1 = true
      ∧ (unified_machine sampleLeaves [123, 34, 97, 92, 120, 34, 58, 49, 125]
          (freshParser [batch [1, 1, 5, 1, 1]])).result = some true := by
  decide

/-- The report of `parse_string` does not depend on the copier: it is always `true`. -/
theorem parse_string_always_true (L : Leaves) (buf : List Byte) (pj : ParsedJson)
    (depth offset : Nat) : (parse_string L buf pj depth offset).1 = true := rfl

/-! ## The reader -/

theorem updateChar_some {buf : List Byte} {pj : internalParsedJson} {idx : Nat} {ch : indexChan}
    {r : Bool × Nat × Nat × indexChan × internalParsedJson}
    (h : updateChar buf pj idx ch = some r) :
    (r = (true, 0, 0, indexChan.zero, pj) ∧ ch.length ≤ ch.index ∧ pj.index_chan = []) ∨
    (∃ b rest d c, ch.length ≤ ch.index ∧ pj.index_chan = b :: rest ∧
      b.indexes[b.index]? = some d ∧ buf[(idx + d) % 2 ^ 64]? = some c ∧
      r = (false, (idx + d) % 2 ^ 64, c.val, { b with index := b.index + 1 },
            { pj with index_chan := rest })) ∨
    (∃ d c, ch.index < ch.length ∧ ch.indexes[ch.index]? = some d ∧
      buf[(idx + d) % 2 ^ 64]? = some c ∧
      r = (false, (idx + d) % 2 ^ 64, c.val, { ch with index := ch.index + 1 }, pj)) := by
  unfold updateChar at h
  simp only [ge_iff_le] at h
  split at h
  · rename_i hle
    split at h
    · rename_i hnil
      left
      exact ⟨(Option.some.inj h).symm, hle, hnil⟩
    · rename_i b rest hcons
      right; left
      split at h
      · exact absurd h (by simp)
      · rename_i d hd
        split at h
        · exact absurd h (by simp)
        · rename_i c hc
          exact ⟨b, rest, d, c, hle, hcons, hd, hc, (Option.some.inj h).symm⟩
  · rename_i hlt
    right; right
    split at h
    · exact absurd h (by simp)
    · rename_i d hd
      split at h
      · exact absurd h (by simp)
      · rename_i c hc
        exact ⟨d, c, by omega, hd, hc, (Option.some.inj h).symm⟩

theorem advance_frame {buf : List Byte} {m m1 : Machine} (h : m.advance buf = some m1) :
    m1.pj.toParsedJson = m.pj.toParsedJson ∧
    m1.pj.containing_scope_offset = m.pj.containing_scope_offset ∧
    m1.pj.isvalid = m.pj.isvalid ∧ m1.offset = m.offset := by
  unfold Machine.advance at h
  split at h
  · exact absurd h (by simp)
  · rename_i done idx c ch pj hu
    cases Option.some.inj h
    rcases updateChar_some hu with ⟨hr, -, -⟩ | ⟨b, rest, d, c', -, -, -, -, hr⟩ |
      ⟨d, c', -, -, -, hr⟩ <;> cases hr <;> simp

theorem advance_done {buf : List Byte} {m m1 : Machine} (h : m.advance buf = some m1)
    (hd : m1.done = true) :
    m1.pj = m.pj ∧ pending m.indexCh m.pj.index_chan = 0 ∧ m.tokens buf = [] := by
  unfold Machine.advance at h
  split at h
  · exact absurd h (by simp)
  · rename_i done idx c ch pj hu
    cases Option.some.inj h
    rcases updateChar_some hu with ⟨hr, hle, hnil⟩ | ⟨b, rest, d, c', -, -, -, -, hr⟩ |
      ⟨d, c', -, -, -, hr⟩
    · cases hr
      have hp : pending m.indexCh m.pj.index_chan = 0 := by
        simp [pending, hnil]; omega
      refine ⟨rfl, hp, ?_⟩
      simp [Machine.tokens, hp, tokensAux]
    · cases hr; simp at hd
    · cases hr; simp at hd

theorem updateChar_pending {buf : List Byte} {pj pj' : internalParsedJson} {idx idx' c : Nat}
    {ch ch' : indexChan} (h : updateChar buf pj idx ch = some (false, idx', c, ch', pj')) :
    pending ch' pj'.index_chan < pending ch pj.index_chan := by
  rcases updateChar_some h with ⟨hr, -, -⟩ | ⟨b, rest, d, c', hle, hcons, -, -, hr⟩ |
    ⟨d, c', hlt, -, -, hr⟩
  · simp at hr
  · simp only [Prod.mk.injEq, true_and] at hr
    obtain ⟨-, -, rfl, rfl⟩ := hr
    simp [pending, hcons]; omega
  · simp only [Prod.mk.injEq, true_and] at hr
    obtain ⟨-, -, rfl, rfl⟩ := hr
    simp [pending]; omega

theorem tokensAux_fuel_eq (buf : List Byte) :
    ∀ (f g : Nat) (pj : internalParsedJson) (idx : Nat) (ch : indexChan),
      pending ch pj.index_chan ≤ f → pending ch pj.index_chan ≤ g →
      tokensAux buf f pj idx ch = tokensAux buf g pj idx ch := by
  intro f
  induction f with
  | zero =>
    intro g pj idx ch hf _
    cases g with
    | zero => rfl
    | succ g =>
      simp only [tokensAux]
      split
      · rename_i idx' c ch' pj' hu
        have := updateChar_pending hu
        omega
      · rfl
  | succ f ih =>
    intro g pj idx ch hf hg
    cases g with
    | zero =>
      simp only [tokensAux]
      split
      · rename_i idx' c ch' pj' hu
        have := updateChar_pending hu
        omega
      · rfl
    | succ g =>
      simp only [tokensAux]
      split
      · rename_i idx' c ch' pj' hu
        have := updateChar_pending hu
        rw [ih g pj' idx' ch' (by omega) (by omega)]
      · rfl

theorem closesAux_fuel_eq (buf : List Byte) :
    ∀ (f g : Nat) (pj : internalParsedJson) (idx : Nat) (ch : indexChan),
      pending ch pj.index_chan ≤ f → pending ch pj.index_chan ≤ g →
      closesAux buf f pj idx ch = closesAux buf g pj idx ch := by
  intro f
  induction f with
  | zero =>
    intro g pj idx ch hf _
    cases hu : updateChar buf pj idx ch with
    | none => cases g <;> simp [closesAux, hu]
    | some r =>
      obtain ⟨d, i, c, ch', pj'⟩ := r
      cases d
      · have := updateChar_pending hu
        omega
      · cases g <;> simp [closesAux, hu]
  | succ f ih =>
    intro g pj idx ch hf hg
    cases hu : updateChar buf pj idx ch with
    | none => cases g <;> simp [closesAux, hu]
    | some r =>
      obtain ⟨d, i, c, ch', pj'⟩ := r
      cases d
      · have := updateChar_pending hu
        cases g with
        | zero => omega
        | succ g =>
          simp only [closesAux, hu]
          exact ih g pj' i ch' (by omega) (by omega)
      · cases g <;> simp [closesAux, hu]

/-- A successful read: the machine afterwards, the structural byte read, and the measure. -/
theorem advance_read {buf : List Byte} {m m1 : Machine} (h : m.advance buf = some m1)
    (hd : m1.done = false) :
    pending m1.indexCh m1.pj.index_chan < pending m.indexCh m.pj.index_chan ∧
    m.tokens buf = (m1.idx, m1.c) :: m1.tokens buf ∧
    m.closes buf = m1.closes buf ∧
    (∃ b : Byte, buf[m1.idx]? = some b ∧ m1.c = b.val) := by
  unfold Machine.advance at h
  split at h
  · exact absurd h (by simp)
  · rename_i done idx c ch pj hu
    cases Option.some.inj h
    simp only at hd
    subst hd
    have hp := updateChar_pending hu
    refine ⟨hp, ?_, ?_, ?_⟩
    · simp only [Machine.tokens]
      obtain ⟨k, hk⟩ : ∃ k, pending m.indexCh m.pj.index_chan = k + 1 := ⟨_, (Nat.succ_pred_eq_of_pos (by omega)).symm⟩
      rw [hk]
      simp only [tokensAux, hu]
      rw [tokensAux_fuel_eq buf k _ pj idx ch (by omega) (le_refl _)]
    · simp only [Machine.closes]
      obtain ⟨k, hk⟩ : ∃ k, pending m.indexCh m.pj.index_chan = k + 1 := ⟨_, (Nat.succ_pred_eq_of_pos (by omega)).symm⟩
      rw [hk]
      simp only [closesAux, hu]
      rw [closesAux_fuel_eq buf k _ pj idx ch (by omega) (le_refl _)]
    · rcases updateChar_some hu with ⟨hr, -, -⟩ | ⟨b, rest, d, c', -, -, -, hc, hr⟩ |
        ⟨d, c', -, -, hc, hr⟩
      · simp at hr
      · simp only [Prod.mk.injEq, true_and] at hr
        obtain ⟨rfl, rfl, -, -⟩ := hr
        exact ⟨c', hc, rfl⟩
      · simp only [Prod.mk.injEq, true_and] at hr
        obtain ⟨rfl, rfl, -, -⟩ := hr
        exact ⟨c', hc, rfl⟩

theorem advance_none_closes {buf : List Byte} {m : Machine} (h : m.advance buf = none) :
    m.closes buf = false := by
  unfold Machine.advance at h
  split at h
  · rename_i hu
    simp only [Machine.closes]
    cases hp : pending m.indexCh m.pj.index_chan <;> simp [closesAux, hu]
  · exact absurd h (by simp)

theorem advance_done_closes {buf : List Byte} {m m1 : Machine} (h : m.advance buf = some m1)
    (hd : m1.done = true) : m.closes buf = true := by
  unfold Machine.advance at h
  split at h
  · exact absurd h (by simp)
  · rename_i done idx c ch pj hu
    cases Option.some.inj h
    simp only at hd
    subst hd
    simp only [Machine.closes]
    cases hp : pending m.indexCh m.pj.index_chan <;> simp [closesAux, hu]

theorem advance_measure {buf : List Byte} {m m1 : Machine} (h : m.advance buf = some m1) :
    pending m1.indexCh m1.pj.index_chan ≤ pending m.indexCh m.pj.index_chan ∧
    (m1.done = false →
      pending m1.indexCh m1.pj.index_chan < pending m.indexCh m.pj.index_chan) := by
  cases hd : m1.done
  · have := (advance_read h hd).1
    exact ⟨by omega, fun _ => this⟩
  · refine ⟨?_, fun h => absurd h (by simp)⟩
    unfold Machine.advance at h
    split at h
    · exact absurd h (by simp)
    · rename_i done idx c ch pj hu
      cases Option.some.inj h
      simp only at hd
      subst hd
      rcases updateChar_some hu with ⟨hr, hle, hnil⟩ | ⟨b, rest, d, c', -, -, -, -, hr⟩ |
        ⟨d, c', -, -, -, hr⟩
      · simp only [Prod.mk.injEq, true_and] at hr
        obtain ⟨-, -, rfl, rfl⟩ := hr
        simp [pending, indexChan.zero]
      · simp at hr
      · simp at hr

/-! ## Projections of the machine operations -/

@[simp] theorem open_scope_chan (m : Machine) (rc c : Nat) :
    (m.open_scope rc c).indexCh = m.indexCh ∧
    (m.open_scope rc c).pj.index_chan = m.pj.index_chan := ⟨rfl, rfl⟩

@[simp] theorem write_tape_chan (m : Machine) (v c : Nat) :
    (m.write_tape v c).indexCh = m.indexCh ∧
    (m.write_tape v c).pj.index_chan = m.pj.index_chan := ⟨rfl, rfl⟩

@[simp] theorem parse_string_chan (L : Leaves) (buf : List Byte) (m : Machine) :
    (m.parse_string L buf).2.indexCh = m.indexCh ∧
    (m.parse_string L buf).2.pj.index_chan = m.pj.index_chan := ⟨rfl, rfl⟩

theorem parse_number_chan {L : Leaves} {buf : List Byte} {m : Machine} {neg : Bool}
    {r : Bool × Machine} (h : m.parse_number L buf neg = some r) :
    r.2.indexCh = m.indexCh ∧ r.2.pj.index_chan = m.pj.index_chan := by
  unfold Machine.parse_number at h
  split at h
  · exact absurd h (by simp)
  · cases Option.some.inj h
    exact ⟨rfl, rfl⟩

theorem value_switch_chan {L : Leaves} {buf : List Byte} {rc : Nat} {cont l' : Label}
    {m m' : Machine} (h : value_switch L buf rc cont m = .goto l' m') :
    m'.indexCh = m.indexCh ∧ m'.pj.index_chan = m.pj.index_chan ∧
    (l' = cont ∨ l' = .fail ∨ l' = .object_begin ∨ l' = .array_begin) := by
  unfold value_switch at h
  repeat' split at h
  all_goals first
    | (cases h; done)
    | (cases h; simp; done)
    | (rename_i r hr _; cases h; have := parse_number_chan hr; simp [this])

theorem step_main_array_switch (L : Leaves) (buf : List Byte) (m : Machine) :
    step L buf .main_array_switch m
      = value_switch L buf RET_ADDRESS_ARRAY_CONST .array_continue m := rfl

/-! ## Runs -/

theorem run_succ (L : Leaves) (buf : List Byte) (k : Nat) (l : Label) (m : Machine) :
    run L buf (k + 1) l m = resume L buf k (step L buf l m) := by
  simp only [run, resume]

theorem run_fail {L : Leaves} {buf : List Byte} {k : Nat} {m mf : Machine} :
    run L buf k .fail m ≠ .ret true mf := by
  cases k <;> simp [run, step]

theorem resume_panic {L : Leaves} {buf : List Byte} {k : Nat} {mf : Machine} {b : Bool} :
    resume L buf k .panic ≠ .ret b mf := by
  simp [resume]

theorem resume_fail {L : Leaves} {buf : List Byte} {k : Nat} {m mf : Machine} :
    resume L buf k (.goto .fail m) ≠ .ret true mf := run_fail

theorem step_object_key_state (L : Leaves) (buf : List Byte) (m : Machine) :
    step L buf .object_key_state m =
      match m.advance buf with
      | none => .panic
      | some m =>
        if m.done then .goto .succeed m
        else if m.c ≠ 58 then .goto .fail m
        else
          match m.advance buf with
          | none => .panic
          | some m =>
            if m.done then .goto .succeed m
            else value_switch L buf RET_ADDRESS_OBJECT_CONST .object_continue m := rfl

/-! ## Scalars -/

theorem tagOf_tapeWord (t p : Nat) (ht : t < 256) : tagOf (tapeWord t p) = t := by
  unfold tagOf tapeWord
  have hp : p % 2 ^ 56 < 2 ^ 56 := Nat.mod_lt _ (by norm_num)
  rw [Nat.mod_eq_of_lt ht]
  have : (t * 2 ^ 56 + p % 2 ^ 56) / 2 ^ 56 = t := by omega
  rw [this, Nat.mod_eq_of_lt ht]

theorem payloadOf_tapeWord (t p : Nat) (hp : p < 2 ^ 56) : payloadOf (tapeWord t p) = p := by
  unfold payloadOf tapeWord
  omega

theorem parse_string_step (L : Leaves) (buf : List Byte) (m : Machine) (hc : m.c = 34) :
    (m.parse_string L buf).1 = true ∧ ScalarStep L buf m (m.parse_string L buf).2 := by
  refine ⟨rfl, Or.inl hc, ⟨rfl, rfl, rfl⟩, rfl, rfl, [tapeWord 34 m.pj.Strings.length], rfl,
    Or.inl ⟨_, rfl, ?_⟩⟩
  rw [tagOf_tapeWord _ _ (by norm_num)]; rfl

theorem write_tape_step (L : Leaves) (buf : List Byte) (m : Machine)
    (hs : scalarOK L buf (m.idx, m.c)) (hc : m.c = 116 ∨ m.c = 102 ∨ m.c = 110) :
    ScalarStep L buf m (m.write_tape 0 m.c) := by
  refine ⟨hs, ⟨rfl, rfl, rfl⟩, rfl, rfl, [tapeWord m.c 0], rfl, Or.inl ⟨_, rfl, ?_⟩⟩
  rcases hc with h | h | h <;> rw [h, tagOf_tapeWord _ _ (by norm_num)] <;> rfl

theorem parse_number_step {L : Leaves} {buf : List Byte} {m : Machine} {neg : Bool}
    {r : Bool × Machine} (h : m.parse_number L buf neg = some r) (hr : r.1 = true)
    (hc : if neg then m.c = 45 else 48 ≤ m.c ∧ m.c ≤ 57) :
    ScalarStep L buf m r.2 := by
  unfold Machine.parse_number at h
  split at h
  · exact absurd h (by simp)
  · rename_i ok p hp
    cases Option.some.inj h
    simp only at hr
    subst hr
    unfold parse_number at hp
    split at hp
    · exact absurd hp (by simp)
    · rename_i succes is_double d i hsimd
      have hok : numberOK L buf m.idx neg = true := by
        unfold numberOK
        rw [hsimd]
        cases succes
        · simp at hp
        · rfl
      have hsc : scalarOK L buf (m.idx, m.c) := by
        cases neg
        · exact Or.inr (Or.inr (Or.inr (Or.inr (Or.inl ⟨by simpa using hc, hok⟩))))
        · exact Or.inr (Or.inr (Or.inr (Or.inr (Or.inr ⟨by simpa using hc, hok⟩))))
      split at hp
      · simp at hp
      · split at hp
        · simp only [Option.some.injEq, Prod.mk.injEq, true_and] at hp
          subst hp
          refine ⟨hsc, ⟨rfl, rfl, rfl⟩, rfl, rfl, [tapeWord 100 0, d % 2 ^ 64], rfl,
            Or.inr ⟨_, _, rfl, ?_⟩⟩
          rw [tagOf_tapeWord _ _ (by norm_num)]; rfl
        · simp only [Option.some.injEq, Prod.mk.injEq, true_and] at hp
          subst hp
          refine ⟨hsc, ⟨rfl, rfl, rfl⟩, rfl, rfl, [tapeWord 108 0, i % 2 ^ 64], rfl,
            Or.inr ⟨_, _, rfl, ?_⟩⟩
          rw [tagOf_tapeWord _ _ (by norm_num)]; rfl

/-- The value switch in a run that returns `true`: a scalar whose leaf succeeded, or a
container being opened. -/
theorem resume_value_switch {L : Leaves} {buf : List Byte} {k rc : Nat} {cont : Label}
    {m mf : Machine}
    (h : resume L buf k (value_switch L buf rc cont m) = .ret true mf) :
    (∃ m', ScalarStep L buf m m' ∧ run L buf k cont m' = .ret true mf) ∨
    (m.c = 123 ∧ run L buf k .object_begin (m.open_scope rc 123) = .ret true mf) ∨
    (m.c = 91 ∧ run L buf k .array_begin (m.open_scope rc 91) = .ret true mf) := by
  unfold value_switch at h
  split at h
  · rename_i hc
    have := parse_string_step L buf m hc
    simp only [this.1, Bool.not_true, Bool.false_eq_true, ↓reduceIte] at h
    exact Or.inl ⟨_, this.2, h⟩
  split at h
  · rename_i hc
    split at h
    · exact absurd h resume_fail
    · rename_i hv
      exact Or.inl ⟨_, write_tape_step L buf m (Or.inr (Or.inl ⟨hc, by simpa using hv⟩))
        (Or.inl hc), h⟩
  split at h
  · rename_i hc
    split at h
    · exact absurd h resume_fail
    · rename_i hv
      exact Or.inl ⟨_, write_tape_step L buf m
        (Or.inr (Or.inr (Or.inl ⟨hc, by simpa using hv⟩))) (Or.inr (Or.inl hc)), h⟩
  split at h
  · rename_i hc
    split at h
    · exact absurd h resume_fail
    · rename_i hv
      exact Or.inl ⟨_, write_tape_step L buf m
        (Or.inr (Or.inr (Or.inr (Or.inl ⟨hc, by simpa using hv⟩)))) (Or.inr (Or.inr hc)), h⟩
  split at h
  · rename_i hc
    split at h
    · exact absurd h resume_panic
    · rename_i r hr
      split at h
      · exact absurd h resume_fail
      · rename_i hv
        exact Or.inl ⟨_, parse_number_step hr (by simpa using hv) (by simpa using hc), h⟩
  split at h
  · rename_i hc
    split at h
    · exact absurd h resume_panic
    · rename_i r hr
      split at h
      · exact absurd h resume_fail
      · rename_i hv
        exact Or.inl ⟨_, parse_number_step hr (by simpa using hv) (by simpa using hc), h⟩
  split at h
  · rename_i hc
    rw [hc] at h
    exact Or.inr (Or.inl ⟨hc, h⟩)
  split at h
  · rename_i hc
    rw [hc] at h
    exact Or.inr (Or.inr ⟨hc, h⟩)
  · exact absurd h resume_fail

/-! ## The labels in a run that returns `true` -/

theorem getLast_dropLast_nil {α : Type} {s : List α} {e : α} (h1 : s.getLast? = some e)
    (h2 : s.dropLast.length = 0) : s = [e] := by
  rcases List.eq_nil_or_concat s with rfl | ⟨l, a, rfl⟩
  · simp at h1
  · rw [List.concat_eq_append] at h1 h2 ⊢
    simp only [List.dropLast_concat, List.length_eq_zero] at h2
    subst h2
    simp only [List.nil_append, List.getLast?_singleton, Option.some.injEq] at h1
    subst h1
    rfl

/-- The label `succeed` in a run that returns `true`: the scope stack holds one entry, the
word it records is back-patched with the index after the footer, the footer is written and
the valid flag is set. -/
theorem run_succeed {L : Leaves} {buf : List Byte} {k : Nat} {m mf : Machine}
    (h : run L buf k .succeed m = .ret true mf) :
    ∃ e w, m.pj.containing_scope_offset = [e] ∧ m.pj.Tape[e >>> 2]? = some w ∧
      mf.pj.Tape = m.pj.Tape.set (e >>> 2) (tapeWord (tagOf w) ((m.pj.Tape.length + 1) % 2 ^ 64))
        ++ [tapeWord 114 (e >>> 2)] ∧
      mf.pj.containing_scope_offset = [] ∧ mf.pj.isvalid = true ∧
      mf.pj.Strings = m.pj.Strings := by
  cases k with
  | zero => simp [run] at h
  | succ k =>
    rw [run_succ] at h
    simp only [step] at h
    split at h
    · exact absurd h resume_panic
    · rename_i e he
      split at h
      · simp [resume] at h
      · rename_i hlen
        simp only [ne_eq, Decidable.not_not] at hlen
        have hst := getLast_dropLast_nil he hlen
        simp only [ParsedJson.annotate_previousloc, ParsedJson.get_current_loc] at h
        split at h
        · exact absurd h resume_panic
        · rename_i p hp
          split at hp
          · exact absurd hp (by simp)
          · rename_i w hw
            cases Option.some.inj hp
            simp only [resume, Outcome.ret.injEq, true_and] at h
            subst h
            exact ⟨e, w, hst, hw, by simp [ParsedJson.write_tape], by simp [hst], rfl, rfl⟩

theorem resume_succeed_deep {L : Leaves} {buf : List Byte} {k : Nat} {m mf : Machine}
    (hs : ∀ e, m.pj.containing_scope_offset ≠ [e]) :
    resume L buf k (.goto .succeed m) ≠ .ret true mf := by
  intro h
  obtain ⟨e, _, he, _⟩ := run_succeed h
  exact hs e he

theorem advance_stack_ne {buf : List Byte} {m m1 : Machine} (h : m.advance buf = some m1)
    (hs : ∀ e, m.pj.containing_scope_offset ≠ [e]) :
    ∀ e, m1.pj.containing_scope_offset ≠ [e] := by
  rw [(advance_frame h).2.1]; exact hs

theorem scalarStep_stack_ne {L : Leaves} {buf : List Byte} {m m1 : Machine}
    (h : ScalarStep L buf m m1) (hs : ∀ e, m.pj.containing_scope_offset ≠ [e]) :
    ∀ e, m1.pj.containing_scope_offset ≠ [e] := by
  rw [h.2.2.1]; exact hs

theorem run_object_begin {L : Leaves} {buf : List Byte} {k : Nat} {m mf : Machine}
    (h : run L buf (k + 1) .object_begin m = .ret true mf)
    (hs : ∀ e, m.pj.containing_scope_offset ≠ [e]) :
    ∃ m1, m.advance buf = some m1 ∧ m1.done = false ∧
      ((m1.c = 34 ∧ ∃ m2, ScalarStep L buf m1 m2 ∧
          run L buf k .object_key_state m2 = .ret true mf) ∨
        (m1.c = 125 ∧ run L buf k .scope_end m1 = .ret true mf)) := by
  rw [run_succ] at h
  simp only [step] at h
  split at h
  · exact absurd h resume_panic
  · rename_i m1 h1
    refine ⟨m1, h1, ?_⟩
    split at h
    · exact absurd h (resume_succeed_deep (advance_stack_ne h1 hs))
    · rename_i hd
      refine ⟨by simpa using hd, ?_⟩
      split at h
      · rename_i hc
        split at h
        · rename_i hr
          simp [Machine.parse_string, Simdjson.parse_string] at hr
        · exact Or.inl ⟨hc, _, (parse_string_step L buf m1 hc).2, h⟩
      · split at h
        · rename_i hc
          exact Or.inr ⟨hc, h⟩
        · exact absurd h resume_fail

theorem run_object_key_state {L : Leaves} {buf : List Byte} {k : Nat} {m mf : Machine}
    (h : run L buf (k + 1) .object_key_state m = .ret true mf)
    (hs : ∀ e, m.pj.containing_scope_offset ≠ [e]) :
    ∃ m1 m2, m.advance buf = some m1 ∧ m1.done = false ∧ m1.c = 58 ∧
      m1.advance buf = some m2 ∧ m2.done = false ∧
      resume L buf k (value_switch L buf RET_ADDRESS_OBJECT_CONST .object_continue m2)
        = .ret true mf := by
  rw [run_succ, step_object_key_state] at h
  split at h
  · exact absurd h resume_panic
  · rename_i m1 h1
    split at h
    · exact absurd h (resume_succeed_deep (advance_stack_ne h1 hs))
    · rename_i hd
      split at h
      · exact absurd h resume_fail
      · rename_i hc
        split at h
        · exact absurd h resume_panic
        · rename_i m2 h2
          split at h
          · exact absurd h (resume_succeed_deep (advance_stack_ne h2 (advance_stack_ne h1 hs)))
          · rename_i hd2
            exact ⟨m1, m2, h1, by simpa using hd, by simpa using hc, h2, by simpa using hd2, h⟩

theorem run_object_continue {L : Leaves} {buf : List Byte} {k : Nat} {m mf : Machine}
    (h : run L buf (k + 1) .object_continue m = .ret true mf)
    (hs : ∀ e, m.pj.containing_scope_offset ≠ [e]) :
    ∃ m1, m.advance buf = some m1 ∧ m1.done = false ∧
      ((m1.c = 44 ∧ ∃ m2 m3, m1.advance buf = some m2 ∧ m2.done = false ∧ m2.c = 34 ∧
          ScalarStep L buf m2 m3 ∧ run L buf k .object_key_state m3 = .ret true mf) ∨
        (m1.c = 125 ∧ run L buf k .scope_end m1 = .ret true mf)) := by
  rw [run_succ] at h
  simp only [step] at h
  split at h
  · exact absurd h resume_panic
  · rename_i m1 h1
    refine ⟨m1, h1, ?_⟩
    split at h
    · exact absurd h (resume_succeed_deep (advance_stack_ne h1 hs))
    · rename_i hd
      refine ⟨by simpa using hd, ?_⟩
      split at h
      · rename_i hc
        split at h
        · exact absurd h resume_panic
        · rename_i m2 h2
          split at h
          · exact absurd h (resume_succeed_deep (advance_stack_ne h2 (advance_stack_ne h1 hs)))
          · rename_i hd2
            split at h
            · exact absurd h resume_fail
            · rename_i hc2
              have hc2' : m2.c = 34 := by simpa using hc2
              split at h
              · rename_i hr
                simp [Machine.parse_string, Simdjson.parse_string] at hr
              · exact Or.inl ⟨hc, m2, _, h2, by simpa using hd2, hc2',
                  (parse_string_step L buf m2 hc2').2, h⟩
      · split at h
        · rename_i hc
          exact Or.inr ⟨hc, h⟩
        · exact absurd h resume_fail

theorem run_array_begin {L : Leaves} {buf : List Byte} {k : Nat} {m mf : Machine}
    (h : run L buf (k + 1) .array_begin m = .ret true mf)
    (hs : ∀ e, m.pj.containing_scope_offset ≠ [e]) :
    ∃ m1, m.advance buf = some m1 ∧ m1.done = false ∧
      ((m1.c = 93 ∧ run L buf k .scope_end m1 = .ret true mf) ∨
        (m1.c ≠ 93 ∧ run L buf k .main_array_switch m1 = .ret true mf)) := by
  rw [run_succ] at h
  simp only [step] at h
  split at h
  · exact absurd h resume_panic
  · rename_i m1 h1
    refine ⟨m1, h1, ?_⟩
    split at h
    · exact absurd h (resume_succeed_deep (advance_stack_ne h1 hs))
    · rename_i hd
      refine ⟨by simpa using hd, ?_⟩
      split at h
      · rename_i hc
        exact Or.inl ⟨hc, h⟩
      · rename_i hc
        exact Or.inr ⟨hc, h⟩

theorem run_array_continue {L : Leaves} {buf : List Byte} {k : Nat} {m mf : Machine}
    (h : run L buf (k + 1) .array_continue m = .ret true mf)
    (hs : ∀ e, m.pj.containing_scope_offset ≠ [e]) :
    ∃ m1, m.advance buf = some m1 ∧ m1.done = false ∧
      ((m1.c = 44 ∧ ∃ m2, m1.advance buf = some m2 ∧ m2.done = false ∧
          run L buf k .main_array_switch m2 = .ret true mf) ∨
        (m1.c = 93 ∧ run L buf k .scope_end m1 = .ret true mf)) := by
  rw [run_succ] at h
  simp only [step] at h
  split at h
  · exact absurd h resume_panic
  · rename_i m1 h1
    refine ⟨m1, h1, ?_⟩
    split at h
    · exact absurd h (resume_succeed_deep (advance_stack_ne h1 hs))
    · rename_i hd
      refine ⟨by simpa using hd, ?_⟩
      split at h
      · rename_i hc
        split at h
        · exact absurd h resume_panic
        · rename_i m2 h2
          split at h
          · exact absurd h (resume_succeed_deep (advance_stack_ne h2 (advance_stack_ne h1 hs)))
          · rename_i hd2
            exact Or.inl ⟨hc, m2, h2, by simpa using hd2, h⟩
      · split at h
        · rename_i hc
          exact Or.inr ⟨hc, h⟩
        · exact absurd h resume_fail

/-- The label `scope_end` in a run: the top scope entry `e` is popped, the close word with
the recorded index is appended, the recorded word is back-patched with the index after the
close word, and the run resumes at the label the entry names. -/
theorem run_scope_end {L : Leaves} {buf : List Byte} {k : Nat} {m mf : Machine} {b : Bool}
    (h : run L buf (k + 1) .scope_end m = .ret b mf) :
    ∃ e w m', m.pj.containing_scope_offset.getLast? = some e ∧
      (m.pj.Tape ++ [tapeWord m.c (e >>> 2)])[e >>> 2]? = some w ∧
      m'.pj.Tape = (m.pj.Tape ++ [tapeWord m.c (e >>> 2)]).set (e >>> 2)
        (tapeWord (tagOf w) (m.pj.Tape.length + 1)) ∧
      m'.pj.containing_scope_offset = m.pj.containing_scope_offset.dropLast ∧
      m'.pj.isvalid = m.pj.isvalid ∧ SameStream m m' ∧ m'.c = m.c ∧
      run L buf k (retLabel e) m' = .ret b mf := by
  rw [run_succ] at h
  simp only [step] at h
  split at h
  · exact absurd h resume_panic
  · rename_i e he
    simp only [ParsedJson.annotate_previousloc, ParsedJson.get_current_loc,
      ParsedJson.write_tape] at h
    split at h
    · exact absurd h resume_panic
    · rename_i p hp
      split at hp
      · exact absurd hp (by simp)
      · rename_i w hw
        cases Option.some.inj hp
        refine ⟨e, w, ?m', he, hw, ?_, ?_, ?_, ?_, ?_, ?_⟩
        rotate_left 6
        · simp only [retLabel]
          split at h
          · rename_i h3
            rw [if_pos h3]; exact h
          · rename_i h3
            rw [if_neg h3]
            split at h
            · rename_i h2
              rw [if_pos h2]; exact h
            · rename_i h2
              rw [if_neg h2]; exact h
        · simp
        · rfl
        · rfl
        · exact ⟨rfl, rfl, rfl⟩
        · rfl

/-! ## Scope entries -/

theorem entry_eq (x rc : Nat) (hrc : rc < 4) :
    (x <<< RET_ADDRESS_SHIFT) % 2 ^ 64 ||| rc = (x % 2 ^ 62) * 4 + rc := by
  have h1 : (x <<< RET_ADDRESS_SHIFT) % 2 ^ 64 = 2 ^ 2 * (x % 2 ^ 62) := by
    simp only [Nat.shiftLeft_eq, RET_ADDRESS_SHIFT]
    omega
  rw [h1, ← Nat.mul_add_lt_is_or (by omega : rc < 2 ^ 2)]
  omega

theorem entry_index (x rc : Nat) (hrc : rc < 4) :
    ((x <<< RET_ADDRESS_SHIFT) % 2 ^ 64 ||| rc) >>> 2 = x % 2 ^ 62 := by
  rw [entry_eq x rc hrc, Nat.shiftRight_eq_div_pow]
  omega

theorem entry_code (x rc : Nat) (hrc : rc < 4) :
    ((x <<< RET_ADDRESS_SHIFT) % 2 ^ 64 ||| rc) &&& ((1 <<< RET_ADDRESS_SHIFT) - 1) = rc := by
  rw [entry_eq x rc hrc]
  have : (1 <<< RET_ADDRESS_SHIFT) - 1 = 2 ^ 2 - 1 := by decide
  rw [this, Nat.and_pow_two_sub_one_eq_mod]
  omega

theorem retLabel_entry (x rc : Nat) (hrc : rc < 4) :
    retLabel ((x <<< RET_ADDRESS_SHIFT) % 2 ^ 64 ||| rc) =
      if rc = 3 then .array_continue else if rc = 2 then .object_continue
      else .start_continue := by
  unfold retLabel
  rw [entry_code x rc hrc]

/-! ## The reader depends on the stream state only -/

theorem updateChar_congr (buf : List Byte) (pj pj2 : internalParsedJson) (idx : Nat)
    (ch : indexChan) (h : pj2.index_chan = pj.index_chan) :
    updateChar buf pj2 idx ch =
      (updateChar buf pj idx ch).map
        (fun r => (r.1, r.2.1, r.2.2.1, r.2.2.2.1,
          { pj2 with index_chan := r.2.2.2.2.index_chan })) := by
  unfold updateChar
  simp only [h]
  split
  · split
    · rename_i hnil
      simp
      cases pj2
      simp_all
    · split <;> simp
      split <;> simp
  · split <;> simp
    split <;> simp
    cases pj2
    simp_all

theorem tokensAux_congr (buf : List Byte) :
    ∀ (f : Nat) (pj pj2 : internalParsedJson) (idx : Nat) (ch : indexChan),
      pj2.index_chan = pj.index_chan →
      tokensAux buf f pj2 idx ch = tokensAux buf f pj idx ch := by
  intro f
  induction f with
  | zero => intros; rfl
  | succ f ih =>
    intro pj pj2 idx ch h
    simp only [tokensAux]
    rw [updateChar_congr buf pj pj2 idx ch h]
    cases hu : updateChar buf pj idx ch with
    | none => simp
    | some r =>
      obtain ⟨d, i, c, ch', pj'⟩ := r
      cases d
      · simp only [Option.map_some']
        simp only [ih pj' { pj2 with index_chan := pj'.index_chan } i ch' rfl]
      · simp

theorem closesAux_congr (buf : List Byte) :
    ∀ (f : Nat) (pj pj2 : internalParsedJson) (idx : Nat) (ch : indexChan),
      pj2.index_chan = pj.index_chan →
      closesAux buf f pj2 idx ch = closesAux buf f pj idx ch := by
  intro f
  induction f with
  | zero =>
    intro pj pj2 idx ch h
    simp only [closesAux]
    rw [updateChar_congr buf pj pj2 idx ch h]
    cases hu : updateChar buf pj idx ch with
    | none => simp
    | some r =>
      obtain ⟨d, i, c, ch', pj'⟩ := r
      cases d <;> simp
  | succ f ih =>
    intro pj pj2 idx ch h
    simp only [closesAux]
    rw [updateChar_congr buf pj pj2 idx ch h]
    cases hu : updateChar buf pj idx ch with
    | none => simp
    | some r =>
      obtain ⟨d, i, c, ch', pj'⟩ := r
      cases d
      · simp only [Option.map_some']
        simp only [ih pj' { pj2 with index_chan := pj'.index_chan } i ch' rfl]
      · simp

theorem tokens_congr {buf : List Byte} {m m' : Machine} (h : SameStream m m') :
    m'.tokens buf = m.tokens buf := by
  obtain ⟨h1, h2, h3⟩ := h
  simp only [Machine.tokens, h1, h2, h3]
  exact tokensAux_congr buf _ _ _ _ _ h3

theorem closes_congr {buf : List Byte} {m m' : Machine} (h : SameStream m m') :
    m'.closes buf = m.closes buf := by
  obtain ⟨h1, h2, h3⟩ := h
  simp only [Machine.closes, h1, h2, h3]
  exact closesAux_congr buf _ _ _ _ _ h3

theorem sameStream_open_scope (m : Machine) (rc c : Nat) : SameStream m (m.open_scope rc c) :=
  ⟨rfl, rfl, rfl⟩

/-! ## Complete values on the tape -/

theorem items_scalarWords {b : Nat} {ws rest : List Nat} (h : ScalarWords ws)
    (hr : Items (b + ws.length) rest) : Items b (ws ++ rest) := by
  rcases h with ⟨w, rfl, hw⟩ | ⟨w, r, rfl, hw⟩
  · exact Items.scalar b w rest hw hr
  · exact Items.number b w r rest hw hr

/-! ## Getting back from a nested label -/

theorem Ret.weaken {L : Leaves} {buf : List Byte} {mf : Machine} {n n2 : Nat} {m : Machine}
    {s : List Nat} {e : Nat} {Q Q2 : List (Nat × Nat) → Prop} {ok : Option Nat}
    (h : Ret L buf mf n m s e Q ok) (hn : n ≤ n2) (hQ : ∀ ts, Q ts → Q2 ts) :
    Ret L buf mf n2 m s e Q2 ok := by
  obtain ⟨n', m', h1, h2, h3, h4, h5, ⟨ts, h6, h7⟩, h8⟩ := h
  exact ⟨n', m', by omega, h2, h3, h4, h5, ⟨ts, h6, hQ ts h7⟩, h8⟩

theorem Ret.read {L : Leaves} {buf : List Byte} {mf : Machine} {n : Nat} {m m1 : Machine}
    {s : List Nat} {e : Nat} {Q : List (Nat × Nat) → Prop} {ok : Option Nat}
    (ha : m.advance buf = some m1) (hd : m1.done = false)
    (h : Ret L buf mf n m1 s e Q ok) :
    Ret L buf mf n m s e (fun ts => ∃ ts1, ts = (m1.idx, m1.c) :: ts1 ∧ Q ts1) ok := by
  obtain ⟨n', m', h1, h2, h3, h4, h5, ⟨ts, h6, h7⟩, h8⟩ := h
  obtain ⟨f1, f2, f3, f4⟩ := advance_frame ha
  have ht := (advance_read ha hd).2.1
  refine ⟨n', m', h1, h2, h3, ?_, ?_, ⟨(m1.idx, m1.c) :: ts, ?_, ts, rfl, h7⟩, ?_⟩
  · rw [← f1]; exact h4
  · rw [h5, f3]
  · rw [ht, h6]; rfl
  · rw [← f1]; exact h8

theorem Ret.scalar {L : Leaves} {buf : List Byte} {mf : Machine} {n : Nat} {m m2 : Machine}
    {s : List Nat} {e : Nat} {Q : List (Nat × Nat) → Prop} {ok : Option Nat}
    (hs : ScalarStep L buf m m2) (h : Ret L buf mf n m2 s e Q ok) :
    Ret L buf mf n m s e Q ok := by
  obtain ⟨n', m', h1, h2, h3, h4, h5, ⟨ts, h6, h7⟩, h8⟩ := h
  obtain ⟨-, hss, -, hv, ws, hT, hws⟩ := hs
  refine ⟨n', m', h1, h2, h3, ?_, ?_, ⟨ts, ?_, h7⟩, ?_⟩
  · rw [hT, List.length_append] at h4; omega
  · rw [h5, hv]
  · rw [← tokens_congr hss]; exact h6
  · intro hb k w hk hw ht
    have hlt : e >>> 2 < m.pj.Tape.length := (List.getElem?_eq_some.mp hw).1
    have hw2 : m2.pj.Tape[e >>> 2]? = some w := by
      rw [hT, List.getElem?_append_left hlt]; exact hw
    obtain ⟨ws2, hi, hE⟩ := h8 hb k w hk hw2 ht
    refine ⟨ws ++ ws2, ?_, ?_⟩
    · apply items_scalarWords hws
      rw [hT, List.length_append] at hi
      exact hi
    · rw [hE, hT, List.set_append_left _ _ hlt]
      simp only [List.length_append, List.append_assoc]
      congr 3
      omega

/-- A container inside the current container: the run opens it, gets back from it to the
label its entry names, and from there gets back from the current container. -/
theorem Ret.container {L : Leaves} {buf : List Byte} {mf : Machine} {n : Nat} {m : Machine}
    {s : List Nat} {e rc c : Nat} {Qi Qo : List (Nat × Nat) → Prop} {ok : Option Nat}
    (hc : c = 123 ∨ c = 91) (hrc : rc < 4)
    (_ : m.pj.containing_scope_offset = s ++ [e])
    (hin : Ret L buf mf n (m.open_scope rc c) (s ++ [e])
      ((m.pj.Tape.length <<< RET_ADDRESS_SHIFT) % 2 ^ 64 ||| rc) Qi (some c))
    (hout : ∀ n'' m'', n'' < n →
      run L buf n'' (retLabel ((m.pj.Tape.length <<< RET_ADDRESS_SHIFT) % 2 ^ 64 ||| rc)) m''
        = .ret true mf →
      m''.pj.containing_scope_offset = s ++ [e] → Ret L buf mf n'' m'' s e Qo ok) :
    Ret L buf mf n m s e (fun ts => ∃ tin tout, ts = tin ++ tout ∧ Qi tin ∧ Qo tout) ok := by
  obtain ⟨n1, m1, a1, a2, a3, a4, a5, ⟨tin, a6, a7⟩, a8⟩ := hin
  obtain ⟨n2, m2, b1, b2, b3, b4, b5, ⟨tout, b6, b7⟩, b8⟩ := hout n1 m1 a1 a2 a3
  have hT3 : (m.open_scope rc c).pj.Tape = m.pj.Tape ++ [tapeWord c 0] := rfl
  refine ⟨n2, m2, by omega, b2, b3, ?_, ?_, ⟨tin ++ tout, ?_, tin, tout, rfl, a7, b7⟩, ?_⟩
  · rw [hT3, List.length_append] at a4
    simp only [List.length_singleton] at a4
    omega
  · rw [b5, a5]; rfl
  · rw [← tokens_congr (sameStream_open_scope m rc c), a6, b6, List.append_assoc]
  · intro hb k w hk hw ht
    have hlt : e >>> 2 < m.pj.Tape.length := (List.getElem?_eq_some.mp hw).1
    have hb1 : m1.pj.Tape.length < 2 ^ 56 := by omega
    have hlen : m.pj.Tape.length < 2 ^ 62 := by
      rw [hT3, List.length_append] at a4
      simp only [List.length_singleton] at a4
      have : (2:Nat) ^ 56 < 2 ^ 62 := by norm_num
      omega
    have hidx : ((m.pj.Tape.length <<< RET_ADDRESS_SHIFT) % 2 ^ 64 ||| rc) >>> 2
        = m.pj.Tape.length := by
      rw [entry_index _ _ hrc, Nat.mod_eq_of_lt hlen]
    have hc256 : c < 256 := by rcases hc with rfl | rfl <;> norm_num
    obtain ⟨wsi, hi, hE⟩ := a8 hb1 c (tapeWord c 0) rfl
      (by rw [hidx, hT3, List.getElem?_concat_length]) (tagOf_tapeWord c 0 hc256)
    rw [hidx, hT3, List.set_append_right _ _ (le_refl _)] at hE
    rw [hT3] at hi
    simp only [Nat.sub_self, List.set_cons_zero, List.length_append, List.length_singleton] at hE hi
    have hw1 : m1.pj.Tape[e >>> 2]? = some w := by
      rw [hE, List.append_assoc, List.append_assoc, List.getElem?_append_left hlt]; exact hw
    obtain ⟨wso, ho, hF⟩ := b8 hb k w hk hw1 ht
    have hl1 : m1.pj.Tape.length = m.pj.Tape.length + wsi.length + 2 := by
      rw [hE]; simp only [List.length_append, List.length_singleton]; omega
    have hl2 : m2.pj.Tape.length = m1.pj.Tape.length + wso.length + 1 := by
      rw [hF]; simp only [List.length_append, List.length_singleton, List.length_set]
    refine ⟨tapeWord c (m.pj.Tape.length + 1 + wsi.length + 1) :: wsi
        ++ tapeWord (closeOf c) m.pj.Tape.length :: wso, ?_, ?_⟩
    · apply Items.container
      · rw [tagOf_tapeWord c _ hc256]
        rcases hc with rfl | rfl <;> rfl
      · rw [tagOf_tapeWord c _ hc256, tagOf_tapeWord _ _ (by unfold closeOf; split <;> norm_num)]
      · rw [payloadOf_tapeWord _ _ (by omega)]; omega
      · rw [payloadOf_tapeWord _ _ (by omega)]
      · exact hi
      · rw [hl1] at ho; exact ho
    · rw [hF, hE]
      simp only [List.append_assoc, List.length_append, List.length_singleton,
        List.length_cons, List.singleton_append, List.cons_append]
      rw [List.set_append_left _ _ hlt]
      simp only [List.append_assoc, List.singleton_append, List.cons_append, List.nil_append]
      have hn : m.pj.Tape.length + (([] : List Nat).length
          + (wsi.length + (([] : List Nat).length + 1)) + 1) + wso.length + 1
          = m.pj.Tape.length + (wsi.length + (wso.length + 1) + 1) + 1 := by
        simp only [List.length_nil]; omega
      rw [hn]

/-! ## Getting back from a container -/

theorem stack_ne_singleton {s : List Nat} {e : Nat} (hs : s ≠ []) :
    ∀ e', s ++ [e] ≠ [e'] := by
  intro e' h
  cases s with
  | nil => exact hs rfl
  | cons a t =>
    simp only [List.cons_append, List.cons.injEq, List.append_eq_nil, List.cons_ne_self,
      and_false] at h

theorem value_return {L : Leaves} {buf : List Byte} {mf : Machine} {N : Nat}
    (ih : NestedBelow L buf mf N) {k : Nat} (hk : k < N) {rc : Nat} {cont : Label}
    {m : Machine} {s : List Nat} {e : Nat}
    (hrc : (rc = 2 ∧ cont = .object_continue) ∨ (rc = 3 ∧ cont = .array_continue))
    (h : resume L buf k (value_switch L buf rc cont m) = .ret true mf)
    (hst : m.pj.containing_scope_offset = s ++ [e]) (hs : s ≠ []) :
    Ret L buf mf k m s e
      (fun ts => ∃ v ts', ts = v ++ ts' ∧ Gram (scalarOK L buf) .value ((m.idx, m.c) :: v) ∧
        Tail (scalarOK L buf) cont (0, 0) ts')
      (openKind cont 0) := by
  have hnest : cont.nested = true := by rcases hrc with ⟨-, rfl⟩ | ⟨-, rfl⟩ <;> rfl
  have hcur : ∀ x y, Tail (scalarOK L buf) cont x = Tail (scalarOK L buf) cont y := by
    rcases hrc with ⟨-, rfl⟩ | ⟨-, rfl⟩ <;> intros <;> rfl
  have hkind : ∀ x, openKind cont x = openKind cont 0 := by
    rcases hrc with ⟨-, rfl⟩ | ⟨-, rfl⟩ <;> intros <;> rfl
  have hrc4 : rc < 4 := by rcases hrc with ⟨rfl, -⟩ | ⟨rfl, -⟩ <;> norm_num
  have hlab : ∀ x, retLabel ((x <<< RET_ADDRESS_SHIFT) % 2 ^ 64 ||| rc) = cont := by
    intro x
    rw [retLabel_entry x rc hrc4]
    rcases hrc with ⟨rfl, rfl⟩ | ⟨rfl, rfl⟩ <;> rfl
  have hout : ∀ n'' m'', n'' < k →
      run L buf n'' (retLabel ((m.pj.Tape.length <<< RET_ADDRESS_SHIFT) % 2 ^ 64 ||| rc)) m''
        = .ret true mf →
      m''.pj.containing_scope_offset = s ++ [e] →
      Ret L buf mf n'' m'' s e (Tail (scalarOK L buf) cont (0, 0)) (openKind cont 0) := by
    intro n'' m'' hn hrun hst''
    rw [hlab] at hrun
    have := ih n'' (by omega) cont m'' hrun hnest s e hst'' hs
    rw [hcur _ (0, 0), hkind] at this
    exact this
  rcases resume_value_switch h with ⟨m', hss, hrun⟩ | ⟨hc, hrun⟩ | ⟨hc, hrun⟩
  · have h1 := ih k hk cont m' hrun hnest s e (by rw [hss.2.2.1, hst]) hs
    rw [hcur _ (0, 0), hkind] at h1
    refine (Ret.scalar hss h1).weaken (le_refl _) ?_
    intro ts hts
    exact ⟨[], ts, rfl, Gram.scalar _ hss.1, hts⟩
  · have h1 := ih k hk .object_begin _ hrun rfl (s ++ [e])
      ((m.pj.Tape.length <<< RET_ADDRESS_SHIFT) % 2 ^ 64 ||| rc)
      (by simp [Machine.open_scope, hst, ParsedJson.get_current_loc]) (by simp)
    have h2 := Ret.container (Or.inl rfl) hrc4 hst h1 hout
    refine h2.weaken (le_refl _) ?_
    rintro ts ⟨tin, tout, rfl, ⟨b, hb, hin⟩, hto⟩
    refine ⟨tin, tout, rfl, ?_, hto⟩
    rcases hin with rfl | ⟨ms, hms, rfl⟩
    · exact Gram.emptyObject _ b hc hb
    · exact Gram.object _ ms b hc hms hb
  · have h1 := ih k hk .array_begin _ hrun rfl (s ++ [e])
      ((m.pj.Tape.length <<< RET_ADDRESS_SHIFT) % 2 ^ 64 ||| rc)
      (by simp [Machine.open_scope, hst, ParsedJson.get_current_loc]) (by simp)
    have h2 := Ret.container (Or.inr rfl) hrc4 hst h1 hout
    refine h2.weaken (le_refl _) ?_
    rintro ts ⟨tin, tout, rfl, ⟨b, hb, hin⟩, hto⟩
    refine ⟨tin, tout, rfl, ?_, hto⟩
    rcases hin with rfl | ⟨es, hes, rfl⟩
    · exact Gram.emptyArray _ b hc hb
    · exact Gram.array _ es b hc hes hb

theorem scope_end_return {L : Leaves} {buf : List Byte} {mf : Machine} {k : Nat}
    {m : Machine} {s : List Nat} {e : Nat}
    (h : run L buf (k + 1) .scope_end m = .ret true mf)
    (hst : m.pj.containing_scope_offset = s ++ [e]) :
    Ret L buf mf (k + 1) m s e (fun ts => ts = []) (openKind .scope_end m.c) := by
  obtain ⟨e', w', m', he, hw', hT, hS, hV, hSS, hC, hrun⟩ := run_scope_end h
  rw [hst, List.getLast?_concat] at he
  cases Option.some.inj he
  refine ⟨k, m', by omega, hrun, ?_, ?_, hV, ⟨[], ?_, rfl⟩, ?_⟩
  · rw [hS, hst, List.dropLast_concat]
  · rw [hT]; simp
  · rw [tokens_congr hSS]; rfl
  · intro _ kd w hk hw ht
    have hlt : e >>> 2 < m.pj.Tape.length := (List.getElem?_eq_some.mp hw).1
    rw [List.getElem?_append_left hlt, hw] at hw'
    cases Option.some.inj hw'
    have hcl : m.c = closeOf kd := by
      simp only [openKind] at hk
      split at hk
      · rename_i h125
        cases Option.some.inj hk
        rw [h125]; rfl
      · split at hk
        · rename_i h93
          cases Option.some.inj hk
          rw [h93]; rfl
        · exact absurd hk (by simp)
    refine ⟨[], Items.nil _, ?_⟩
    rw [hT, List.set_append_left _ _ hlt, ht, hcl]
    simp

theorem nested_step {L : Leaves} {buf : List Byte} {mf : Machine} {k : Nat}
    (ih : NestedBelow L buf mf (k + 1)) (l : Label) (m : Machine)
    (h : run L buf (k + 1) l m = .ret true mf) (hl : l.nested = true)
    (s : List Nat) (e : Nat) (hst : m.pj.containing_scope_offset = s ++ [e]) (hs : s ≠ []) :
    Ret L buf mf (k + 1) m s e (Tail (scalarOK L buf) l (m.idx, m.c)) (openKind l m.c) := by
  have hne := stack_ne_singleton (e := e) hs
  rw [← hst] at hne
  have hk : k < k + 1 := Nat.lt_succ_self k
  cases l with
  | new_root => simp [Label.nested] at hl
  | start_continue => simp [Label.nested] at hl
  | succeed => simp [Label.nested] at hl
  | fail => simp [Label.nested] at hl
  | scope_end => exact scope_end_return h hst
  | object_begin =>
    obtain ⟨m1, ha, hd, ⟨hc, m2, hss, hrun⟩ | ⟨hc, hrun⟩⟩ := run_object_begin h hne
    · have hst2 : m2.pj.containing_scope_offset = s ++ [e] := by
        rw [hss.2.2.1, (advance_frame ha).2.1, hst]
      have h1 := ih k hk .object_key_state m2 hrun rfl s e hst2 hs
      refine (Ret.read ha hd (Ret.scalar hss h1)).weaken (Nat.le_succ k) ?_
      rintro ts ⟨ts1, rfl, c, v, b, hcc, hv, hb, rfl | ⟨d, ms, hd', hms, rfl⟩⟩
      · exact ⟨b, hb, Or.inr ⟨_, Gram.member (m1.idx, m1.c) c v hc hcc hv, rfl⟩⟩
      · refine ⟨b, hb, Or.inr ⟨_, Gram.memberCons (m1.idx, m1.c) c v d ms hc hcc hv hd' hms, ?_⟩⟩
        simp
    · have hst1 : m1.pj.containing_scope_offset = s ++ [e] := by
        rw [(advance_frame ha).2.1, hst]
      have h1 := ih k hk .scope_end m1 hrun rfl s e hst1 hs
      have hkind : openKind .scope_end m1.c = openKind .object_begin m.c := by
        simp [openKind, hc]
      rw [hkind] at h1
      refine (Ret.read ha hd h1).weaken (Nat.le_succ k) ?_
      rintro ts ⟨ts1, rfl, hts1⟩
      simp only [Tail] at hts1
      subst hts1
      exact ⟨(m1.idx, m1.c), hc, Or.inl rfl⟩
  | object_key_state =>
    obtain ⟨m1, m2, ha1, hd1, hc1, ha2, hd2, hres⟩ := run_object_key_state h hne
    have hst2 : m2.pj.containing_scope_offset = s ++ [e] := by
      rw [(advance_frame ha2).2.1, (advance_frame ha1).2.1, hst]
    have h1 := value_return ih hk (Or.inl ⟨rfl, rfl⟩) hres hst2 hs
    refine (Ret.read ha1 hd1 (Ret.read ha2 hd2 h1)).weaken (Nat.le_succ k) ?_
    rintro ts ⟨ts1, rfl, ts2, rfl, v, ts', rfl, hv, b, hb, rfl | ⟨d, ms, hd', hms, rfl⟩⟩
    · exact ⟨(m1.idx, m1.c), (m2.idx, m2.c) :: v, b, hc1, hv, hb, Or.inl (by simp)⟩
    · exact ⟨(m1.idx, m1.c), (m2.idx, m2.c) :: v, b, hc1, hv, hb,
        Or.inr ⟨d, ms, hd', hms, by simp⟩⟩
  | object_continue =>
    obtain ⟨m1, ha, hd, ⟨hc, m2, m3, ha2, hd2, hc2, hss, hrun⟩ | ⟨hc, hrun⟩⟩ :=
      run_object_continue h hne
    · have hst3 : m3.pj.containing_scope_offset = s ++ [e] := by
        rw [hss.2.2.1, (advance_frame ha2).2.1, (advance_frame ha).2.1, hst]
      have h1 := ih k hk .object_key_state m3 hrun rfl s e hst3 hs
      refine (Ret.read ha hd (Ret.read ha2 hd2 (Ret.scalar hss h1))).weaken (Nat.le_succ k) ?_
      rintro ts ⟨ts1, rfl, ts2, rfl, c, v, b, hcc, hv, hb, rfl | ⟨d, ms, hd', hms, rfl⟩⟩
      · exact ⟨b, hb, Or.inr ⟨(m1.idx, m1.c), _, hc,
          Gram.member (m2.idx, m2.c) c v hc2 hcc hv, rfl⟩⟩
      · refine ⟨b, hb, Or.inr ⟨(m1.idx, m1.c), _, hc,
          Gram.memberCons (m2.idx, m2.c) c v d ms hc2 hcc hv hd' hms, ?_⟩⟩
        simp
    · have hst1 : m1.pj.containing_scope_offset = s ++ [e] := by
        rw [(advance_frame ha).2.1, hst]
      have h1 := ih k hk .scope_end m1 hrun rfl s e hst1 hs
      have hkind : openKind .scope_end m1.c = openKind .object_continue m.c := by
        simp [openKind, hc]
      rw [hkind] at h1
      refine (Ret.read ha hd h1).weaken (Nat.le_succ k) ?_
      rintro ts ⟨ts1, rfl, hts1⟩
      simp only [Tail] at hts1
      subst hts1
      exact ⟨(m1.idx, m1.c), hc, Or.inl rfl⟩
  | array_begin =>
    obtain ⟨m1, ha, hd, ⟨hc, hrun⟩ | ⟨hc, hrun⟩⟩ := run_array_begin h hne
    · have hst1 : m1.pj.containing_scope_offset = s ++ [e] := by
        rw [(advance_frame ha).2.1, hst]
      have h1 := ih k hk .scope_end m1 hrun rfl s e hst1 hs
      have hkind : openKind .scope_end m1.c = openKind .array_begin m.c := by
        simp [openKind, hc]
      rw [hkind] at h1
      refine (Ret.read ha hd h1).weaken (Nat.le_succ k) ?_
      rintro ts ⟨ts1, rfl, hts1⟩
      simp only [Tail] at hts1
      subst hts1
      exact ⟨(m1.idx, m1.c), hc, Or.inl rfl⟩
    · have hst1 : m1.pj.containing_scope_offset = s ++ [e] := by
        rw [(advance_frame ha).2.1, hst]
      have h1 := ih k hk .main_array_switch m1 hrun rfl s e hst1 hs
      refine (Ret.read ha hd h1).weaken (Nat.le_succ k) ?_
      rintro ts ⟨ts1, rfl, b, es, hb, hes, heq⟩
      exact ⟨b, hb, Or.inr ⟨es, hes, heq⟩⟩
  | main_array_switch =>
    rw [run_succ, step_main_array_switch] at h
    have h1 := value_return ih hk (Or.inr ⟨rfl, rfl⟩) h hst hs
    refine h1.weaken (Nat.le_succ k) ?_
    rintro ts ⟨v, ts', rfl, hv, b, hb, rfl | ⟨d, es, hd', hes, rfl⟩⟩
    · exact ⟨b, _, hb, Gram.element _ hv, by simp⟩
    · exact ⟨b, _, hb, Gram.elementCons _ d es hv hd' hes, by simp⟩
  | array_continue =>
    obtain ⟨m1, ha, hd, ⟨hc, m2, ha2, hd2, hrun⟩ | ⟨hc, hrun⟩⟩ := run_array_continue h hne
    · have hst2 : m2.pj.containing_scope_offset = s ++ [e] := by
        rw [(advance_frame ha2).2.1, (advance_frame ha).2.1, hst]
      have h1 := ih k hk .main_array_switch m2 hrun rfl s e hst2 hs
      refine (Ret.read ha hd (Ret.read ha2 hd2 h1)).weaken (Nat.le_succ k) ?_
      rintro ts ⟨ts1, rfl, ts2, rfl, b, es, hb, hes, heq⟩
      refine ⟨b, hb, Or.inr ⟨(m1.idx, m1.c), es, hc, hes, ?_⟩⟩
      rw [heq, List.cons_append]
    · have hst1 : m1.pj.containing_scope_offset = s ++ [e] := by
        rw [(advance_frame ha).2.1, hst]
      have h1 := ih k hk .scope_end m1 hrun rfl s e hst1 hs
      have hkind : openKind .scope_end m1.c = openKind .array_continue m.c := by
        simp [openKind, hc]
      rw [hkind] at h1
      refine (Ret.read ha hd h1).weaken (Nat.le_succ k) ?_
      rintro ts ⟨ts1, rfl, hts1⟩
      simp only [Tail] at hts1
      subst hts1
      exact ⟨(m1.idx, m1.c), hc, Or.inl rfl⟩

/-- Getting back from a container. In a run that returns `true`, from any nested label with
top scope entry `e` above a non-empty stack `s`, the run gets back to the label `e` names
with `e` popped; the structural bytes read on the way complete the container as the grammar
demands, and the tape gains complete values, the close word and the back-patch. -/
theorem nested_return (L : Leaves) (buf : List Byte) (mf : Machine) :
    ∀ N, NestedBelow L buf mf N := by
  intro N
  induction N with
  | zero => intro k hk; omega
  | succ N ih =>
    intro k hk l m h hl s e hst hs
    rcases Nat.lt_succ_iff_lt_or_eq.mp hk with hlt | rfl
    · exact ih k hlt l m h hl s e hst hs
    · cases k with
      | zero => simp [run] at h
      | succ k => exact nested_step ih l m h hl s e hst hs

/-! ## The top level -/

theorem run_new_root {L : Leaves} {buf : List Byte} {k : Nat} {m mf : Machine} {b : Bool}
    (h : run L buf (k + 1) .new_root m = .ret b mf) :
    ∃ m1, (m.open_scope RET_ADDRESS_START_CONST 114).advance buf = some m1 ∧
      ((m1.done = true ∧ run L buf k .succeed m1 = .ret b mf) ∨
       (m1.done = false ∧ m1.c = 123 ∧
          run L buf k .object_begin (m1.open_scope RET_ADDRESS_START_CONST 123) = .ret b mf) ∨
       (m1.done = false ∧ m1.c = 91 ∧
          run L buf k .array_begin (m1.open_scope RET_ADDRESS_START_CONST 91) = .ret b mf) ∨
       (m1.done = false ∧ m1.c ≠ 123 ∧ m1.c ≠ 91 ∧ run L buf k .fail m1 = .ret b mf)) := by
  rw [run_succ] at h
  simp only [step] at h
  split at h
  · exact absurd h resume_panic
  · rename_i m1 h1
    refine ⟨m1, h1, ?_⟩
    split at h
    · rename_i hd
      exact Or.inl ⟨hd, h⟩
    · rename_i hd
      have hd' : m1.done = false := by simpa using hd
      split at h
      · rename_i hc
        rw [hc] at h
        exact Or.inr (Or.inl ⟨hd', hc, h⟩)
      · rename_i hc
        split at h
        · rename_i hc2
          rw [hc2] at h
          exact Or.inr (Or.inr (Or.inl ⟨hd', hc2, h⟩))
        · rename_i hc2
          exact Or.inr (Or.inr (Or.inr ⟨hd', hc, hc2, h⟩))

/-- The label `start_continue` in a run: the stream ends (`succeed`), or a boundary byte
closes the current root (its scope entry `e` is popped, the recorded word is back-patched
with the index after the footer, the footer is written) and `new_root` follows, or the
run fails. -/
theorem run_start_continue {L : Leaves} {buf : List Byte} {k : Nat} {m mf : Machine} {b : Bool}
    (h : run L buf (k + 1) .start_continue m = .ret b mf) :
    ∃ m1, m.advance buf = some m1 ∧
      ((m1.done = true ∧ run L buf k .succeed m1 = .ret b mf) ∨
       (m1.done = false ∧ (m1.c = 10 ∨ m1.c = 123) ∧ ∃ e w m2,
          m1.pj.containing_scope_offset.getLast? = some e ∧
          m1.pj.Tape[e >>> 2]? = some w ∧
          m2.pj.Tape = m1.pj.Tape.set (e >>> 2)
            (tapeWord (tagOf w) ((m1.pj.Tape.length + 1) % 2 ^ 64))
              ++ [tapeWord 114 (e >>> 2)] ∧
          m2.pj.containing_scope_offset = m1.pj.containing_scope_offset.dropLast ∧
          m2.pj.isvalid = m1.pj.isvalid ∧ SameStream m1 m2 ∧
          run L buf k .new_root m2 = .ret b mf) ∨
       (m1.done = false ∧ ¬ (m1.c = 10 ∨ m1.c = 123) ∧ run L buf k .fail m1 = .ret b mf)) := by
  rw [run_succ] at h
  simp only [step] at h
  split at h
  · exact absurd h resume_panic
  · rename_i m1 h1
    refine ⟨m1, h1, ?_⟩
    split at h
    · rename_i hd
      exact Or.inl ⟨hd, h⟩
    · rename_i hd
      have hd' : m1.done = false := by simpa using hd
      split at h
      · rename_i hc
        right; left
        refine ⟨hd', hc, ?_⟩
        split at h
        · exact absurd h resume_panic
        · rename_i e he
          simp only [ParsedJson.annotate_previousloc, ParsedJson.get_current_loc] at h
          split at h
          · exact absurd h resume_panic
          · rename_i p hp
            split at hp
            · exact absurd hp (by simp)
            · rename_i w hw
              cases Option.some.inj hp
              refine ⟨e, w, ?m2, he, hw, ?_, ?_, ?_, ?_, ?h⟩
              case h => exact h
              · simp [ParsedJson.write_tape]
              · rfl
              · rfl
              · exact ⟨rfl, rfl, rfl⟩
      · rename_i hc
        exact Or.inr (Or.inr ⟨hd', hc, h⟩)

theorem close_empty_root {T T2 : List Nat} {e w : Nat} (he : e = T.length)
    (hw : (T ++ [tapeWord 114 0])[e]? = some w)
    (hT2 : T2 = (T ++ [tapeWord 114 0]).set e
      (tapeWord (tagOf w) (((T ++ [tapeWord 114 0]).length + 1) % 2 ^ 64)) ++ [tapeWord 114 e])
    (hb : T2.length < 2 ^ 56) :
    ∃ seg, T2 = T ++ seg ∧ T2.length = T.length + seg.length ∧
      ∀ rest, Roots T2.length rest → Roots T.length (seg ++ rest) := by
  subst he
  rw [List.getElem?_concat_length] at hw
  cases Option.some.inj hw
  have hlen : T2.length = T.length + 2 := by
    rw [hT2]; simp
  rw [List.set_append_right _ _ (le_refl _)] at hT2
  simp only [Nat.sub_self, List.set_cons_zero, List.length_append, List.length_singleton] at hT2
  have h64 : (2:Nat) ^ 56 < 2 ^ 64 := by norm_num
  rw [Nat.mod_eq_of_lt (by omega), tagOf_tapeWord _ _ (by norm_num)] at hT2
  refine ⟨[tapeWord 114 (T.length + 1 + 1), tapeWord 114 T.length], ?_, ?_, ?_⟩
  · rw [hT2]; simp
  · rw [hlen]; rfl
  · intro rest hr
    rw [hlen] at hr
    have := Roots.cons T.length (tapeWord 114 (T.length + 1 + 1)) (tapeWord 114 T.length) []
      rest (tagOf_tapeWord _ _ (by norm_num)) (tagOf_tapeWord _ _ (by norm_num))
      (by rw [payloadOf_tapeWord _ _ (by omega)]; simp)
      (by rw [payloadOf_tapeWord _ _ (by omega)]) (Items.nil _) (Or.inl rfl)
      (by simpa using hr)
    simpa using this

theorem close_root {T Tm T2 ws : List Nat} {e e2 c w w2 : Nat} (hc : c = 123 ∨ c = 91)
    (he : e = T.length) (he2 : e2 = T.length + 1)
    (hw2 : tagOf w2 = c)
    (hE : Tm = (T ++ [tapeWord 114 0] ++ [w2]).set e2
      (tapeWord c ((T ++ [tapeWord 114 0] ++ [w2]).length + ws.length + 1))
        ++ ws ++ [tapeWord (closeOf c) e2])
    (hi : Items (T ++ [tapeWord 114 0] ++ [w2]).length ws)
    (hw : Tm[e]? = some w)
    (hT2 : T2 = Tm.set e (tapeWord (tagOf w) ((Tm.length + 1) % 2 ^ 64)) ++ [tapeWord 114 e])
    (hb : T2.length < 2 ^ 56) :
    ∃ seg, T2 = T ++ seg ∧ T2.length = T.length + seg.length ∧
      ∀ rest, Roots T2.length rest → Roots T.length (seg ++ rest) := by
  subst he he2
  have hc256 : c < 256 := by rcases hc with rfl | rfl <;> norm_num
  have hlen0 : (T ++ [tapeWord 114 0] ++ [w2]).length = T.length + 2 := by simp
  rw [hlen0] at hE hi
  have hset : (T ++ [tapeWord 114 0] ++ [w2]).set (T.length + 1)
      (tapeWord c (T.length + 2 + ws.length + 1))
      = T ++ [tapeWord 114 0] ++ [tapeWord c (T.length + 2 + ws.length + 1)] := by
    rw [List.set_append_right _ _ (by simp)]
    simp
  rw [hset] at hE
  have hTm : Tm.length = T.length + ws.length + 3 := by
    rw [hE]; simp; omega
  have hlen : T2.length = T.length + ws.length + 4 := by
    rw [hT2]; simp [hTm]
  have hwv : w = tapeWord 114 0 := by
    rw [hE] at hw
    simp only [List.append_assoc] at hw
    rw [List.getElem?_append_right (le_refl _)] at hw
    simpa using hw.symm
  subst hwv
  have h64 : (2:Nat) ^ 56 < 2 ^ 64 := by norm_num
  rw [Nat.mod_eq_of_lt (by omega), tagOf_tapeWord _ _ (by norm_num), hTm, hE] at hT2
  simp only [List.append_assoc] at hT2
  rw [List.set_append_right _ _ (le_refl _)] at hT2
  simp only [Nat.sub_self, List.singleton_append, List.set_cons_zero] at hT2
  refine ⟨tapeWord 114 (T.length + ws.length + 3 + 1)
      :: (tapeWord c (T.length + 2 + ws.length + 1) :: ws ++ [tapeWord (closeOf c) (T.length + 1)])
      ++ [tapeWord 114 T.length], ?_, ?_, ?_⟩
  · rw [hT2]; simp
  · rw [hlen]; simp; omega
  · intro rest hr
    rw [hlen] at hr
    have hclose : tagOf (tapeWord (closeOf c) (T.length + 1)) = closeOf c :=
      tagOf_tapeWord _ _ (by unfold closeOf; split <;> norm_num)
    have hitems : Items (T.length + 1)
        (tapeWord c (T.length + 2 + ws.length + 1) :: ws
          ++ [tapeWord (closeOf c) (T.length + 1)]) := by
      apply Items.container
      · rw [tagOf_tapeWord _ _ hc256]
        rcases hc with rfl | rfl <;> rfl
      · rw [hclose, tagOf_tapeWord _ _ hc256]
      · rw [payloadOf_tapeWord _ _ (by omega)]; omega
      · rw [payloadOf_tapeWord _ _ (by omega)]
      · have : T.length + 1 + 1 = T.length + 2 := by omega
        rw [this]; exact hi
      · exact Items.nil _
    have := Roots.cons T.length (tapeWord 114 (T.length + ws.length + 3 + 1))
      (tapeWord 114 T.length)
      (tapeWord c (T.length + 2 + ws.length + 1) :: ws ++ [tapeWord (closeOf c) (T.length + 1)])
      rest (tagOf_tapeWord _ _ (by norm_num)) (tagOf_tapeWord _ _ (by norm_num))
      (by rw [payloadOf_tapeWord _ _ (by omega)]; simp; omega)
      (by rw [payloadOf_tapeWord _ _ (by omega)]) hitems
      (Or.inr ⟨_, rfl, by rw [tagOf_tapeWord _ _ hc256]; rcases hc with rfl | rfl <;> rfl,
        by rw [payloadOf_tapeWord _ _ (by omega)]; simp; omega⟩)
      (by
        have hl : T.length + (tapeWord c (T.length + 2 + ws.length + 1) :: ws
            ++ [tapeWord (closeOf c) (T.length + 1)]).length + 2
            = T.length + ws.length + 4 := by simp; omega
        rw [hl]; exact hr)
    simpa using this

theorem singleton_of_append {s : List Nat} {r e : Nat} (h : s ++ [r] = [e]) :
    s = [] ∧ e = r := by
  cases s with
  | nil => simp at h; exact ⟨rfl, h.symm⟩
  | cons a t => simp at h

theorem container_of_tail {sc : Nat × Nat → Prop} {t : Nat × Nat} {ts : List (Nat × Nat)}
    (h : (t.2 = 123 ∧ Tail sc .object_begin t ts) ∨ (t.2 = 91 ∧ Tail sc .array_begin t ts)) :
    Container sc (t :: ts) := by
  rcases h with ⟨ht, b, hb, rfl | ⟨ms, hms, rfl⟩⟩ | ⟨ht, b, hb, rfl | ⟨es, hes, rfl⟩⟩
  · exact ⟨Gram.emptyObject t b ht hb, t, rfl, Or.inl ht⟩
  · exact ⟨Gram.object t ms b ht hms hb, t, rfl, Or.inl ht⟩
  · exact ⟨Gram.emptyArray t b ht hb, t, rfl, Or.inr ht⟩
  · exact ⟨Gram.array t es b ht hes hb, t, rfl, Or.inr ht⟩

/-- One root document in a run that returns `true`: after `new_root` has read the open byte
`c` of a container, the run closes the root and either returns or starts the next root. -/
theorem root_container {L : Leaves} {buf : List Byte} {mf : Machine} {k : Nat}
    (ih : ∀ j, j < k → ∀ m, run L buf j .new_root m = .ret true mf → Accepted L buf mf m)
    {m m1 : Machine} {c : Nat} (hc : c = 123 ∨ c = 91)
    (ha : (m.open_scope RET_ADDRESS_START_CONST 114).advance buf = some m1)
    (hd : m1.done = false) (hmc : m1.c = c)
    (hrun : run L buf k (if c = 123 then .object_begin else .array_begin)
      (m1.open_scope RET_ADDRESS_START_CONST c) = .ret true mf) :
    Accepted L buf mf m := by
  obtain ⟨f1, f2, f3, f4⟩ := advance_frame ha
  have hlab : (if c = 123 then Label.object_begin else Label.array_begin).nested = true := by
    rcases hc with rfl | rfl <;> rfl
  have hT1 : m1.pj.Tape = m.pj.Tape ++ [tapeWord 114 0] := by
    rw [show m1.pj.Tape = m1.pj.toParsedJson.Tape from rfl, f1]; rfl
  have hS1 : m1.pj.containing_scope_offset = m.pj.containing_scope_offset
      ++ [(m.pj.Tape.length <<< RET_ADDRESS_SHIFT) % 2 ^ 64 ||| RET_ADDRESS_START_CONST] := by
    rw [f2]; rfl
  have hnest := nested_return L buf mf (k + 1) k (Nat.lt_succ_self k) _ _ hrun hlab
    (m.pj.containing_scope_offset
      ++ [(m.pj.Tape.length <<< RET_ADDRESS_SHIFT) % 2 ^ 64 ||| RET_ADDRESS_START_CONST])
    ((m1.pj.Tape.length <<< RET_ADDRESS_SHIFT) % 2 ^ 64 ||| RET_ADDRESS_START_CONST)
    (by simp [Machine.open_scope, hS1, ParsedJson.get_current_loc]) (by simp)
  obtain ⟨n', m', hn', hrun', hS', hlen', hV', ⟨ts, htok, hTail⟩, htape⟩ := hnest
  rw [retLabel_entry _ _ (by norm_num)] at hrun'
  simp only [RET_ADDRESS_START_CONST, OfNat.one_ne_ofNat, ↓reduceIte] at hrun'
  have htoks : m.tokens buf = (m1.idx, m1.c) :: ts ++ m'.tokens buf := by
    rw [← tokens_congr (sameStream_open_scope m RET_ADDRESS_START_CONST 114),
      (advance_read ha hd).2.1,
      ← tokens_congr (sameStream_open_scope m1 RET_ADDRESS_START_CONST c), htok]
    rfl
  have hcont : Container (scalarOK L buf) ((m1.idx, m1.c) :: ts) := by
    apply container_of_tail
    rcases hc with rfl | rfl
    · exact Or.inl ⟨hmc, hTail⟩
    · exact Or.inr ⟨hmc, hTail⟩
  have hT3 : (m1.open_scope RET_ADDRESS_START_CONST c).pj.Tape
      = m.pj.Tape ++ [tapeWord 114 0] ++ [tapeWord c 0] := by
    rw [← hT1]; rfl
  have hc256 : c < 256 := by rcases hc with rfl | rfl <;> norm_num
  have hkind : openKind (if c = 123 then Label.object_begin else Label.array_begin)
      (m1.open_scope RET_ADDRESS_START_CONST c).c = some c := by
    rcases hc with rfl | rfl <;> rfl
  have hfin : ∀ (mz : Machine) (e w : Nat),
      mz.pj.containing_scope_offset = m.pj.containing_scope_offset
        ++ [(m.pj.Tape.length <<< RET_ADDRESS_SHIFT) % 2 ^ 64 ||| RET_ADDRESS_START_CONST] →
      mz.pj.Tape = m'.pj.Tape →
      mz.pj.containing_scope_offset.getLast? = some e → mz.pj.Tape[e >>> 2]? = some w →
      ∀ T2 : List Nat, T2 = mz.pj.Tape.set (e >>> 2)
          (tapeWord (tagOf w) ((mz.pj.Tape.length + 1) % 2 ^ 64)) ++ [tapeWord 114 (e >>> 2)] →
      T2.length < 2 ^ 56 →
      ∃ seg, T2 = m.pj.Tape ++ seg ∧ T2.length = m.pj.Tape.length + seg.length ∧
        ∀ rest, Roots T2.length rest → Roots m.pj.Tape.length (seg ++ rest) := by
    intro mz e w hSz hTz he hw T2 hT2 hb
    rw [hSz, List.getLast?_concat] at he
    cases Option.some.inj he
    have hl2 : T2.length = m'.pj.Tape.length + 1 := by rw [hT2]; simp [hTz]
    have hl1 : m1.pj.Tape.length = m.pj.Tape.length + 1 := by rw [hT1]; simp
    have h62 : (2:Nat) ^ 56 < 2 ^ 62 := by norm_num
    have hl3 : (m1.open_scope RET_ADDRESS_START_CONST c).pj.Tape.length
        = m.pj.Tape.length + 2 := by rw [hT3]; simp
    have hidx1 : ((m.pj.Tape.length <<< RET_ADDRESS_SHIFT) % 2 ^ 64
        ||| RET_ADDRESS_START_CONST) >>> 2 = m.pj.Tape.length := by
      rw [entry_index _ _ (by norm_num), Nat.mod_eq_of_lt (by omega)]
    have hidx2 : ((m1.pj.Tape.length <<< RET_ADDRESS_SHIFT) % 2 ^ 64
        ||| RET_ADDRESS_START_CONST) >>> 2 = m.pj.Tape.length + 1 := by
      rw [entry_index _ _ (by norm_num), Nat.mod_eq_of_lt (by omega), hl1]
    obtain ⟨ws, hi, hE⟩ := htape (by omega) c (tapeWord c 0) hkind
      (by rw [hidx2, hT3, List.getElem?_append_right (by simp)]; simp)
      (tagOf_tapeWord c 0 hc256)
    rw [hidx2, hT3] at hE
    rw [hT3] at hi
    rw [hidx1, hTz] at hw hT2
    exact close_root hc rfl rfl (tagOf_tapeWord c 0 hc256) hE hi hw hT2 hb
  -- the run goes on at `start_continue`
  cases n' with
  | zero => simp [run] at hrun'
  | succ j =>
    obtain ⟨mz, haz, ⟨hdz, hsucc⟩ | ⟨hdz, hsep, e, w, m2, he, hw, hT2, hS2, hV2, hSS2, hnew⟩ |
      ⟨-, -, hfail⟩⟩ := run_start_continue hrun'
    · -- the stream ends: `succeed`
      obtain ⟨g1, g2, g3, g4⟩ := advance_frame haz
      obtain ⟨e, w, hSe, hw, hTf, hSf, hVf, -⟩ := run_succeed hsucc
      have hSz : mz.pj.containing_scope_offset = m.pj.containing_scope_offset
          ++ [(m.pj.Tape.length <<< RET_ADDRESS_SHIFT) % 2 ^ 64
            ||| RET_ADDRESS_START_CONST] := by rw [g2, hS']
      have hTz : mz.pj.Tape = m'.pj.Tape := by
        rw [show mz.pj.Tape = mz.pj.toParsedJson.Tape from rfl, g1]
      have hnil := singleton_of_append (hSz.symm.trans hSe)
      refine ⟨hnil.1, ?_, hSf, hVf, ?_, ?_⟩
      · rw [htoks, (advance_done haz hdz).2.2, List.append_nil]
        exact Docs.last _ hcont
      · rw [hTf]; simp [hTz]
        rw [hT3] at hlen'; simp at hlen'; omega
      · intro hb
        obtain ⟨seg, hseg, -, hroots⟩ := hfin mz e w hSz hTz (by rw [hSe]; rfl) hw _ hTf hb
        exact ⟨seg, hseg, by simpa using hroots [] (Roots.nil _)⟩
    · -- a boundary byte: the root is closed and `new_root` follows
      obtain ⟨g1, g2, g3, g4⟩ := advance_frame haz
      have hSz : mz.pj.containing_scope_offset = m.pj.containing_scope_offset
          ++ [(m.pj.Tape.length <<< RET_ADDRESS_SHIFT) % 2 ^ 64
            ||| RET_ADDRESS_START_CONST] := by rw [g2, hS']
      have hTz : mz.pj.Tape = m'.pj.Tape := by
        rw [show mz.pj.Tape = mz.pj.toParsedJson.Tape from rfl, g1]
      obtain ⟨a1, a2, a3, a4, a5, a6⟩ := ih j (by omega) m2 hnew
      have hm2 : m2.pj.Tape.length = m'.pj.Tape.length + 1 := by rw [hT2]; simp [hTz]
      refine ⟨?_, ?_, a3, a4, ?_, ?_⟩
      · rw [hS2, hSz, List.dropLast_concat] at a1; exact a1
      · rw [htoks, (advance_read haz hdz).2.1, ← tokens_congr hSS2]
        exact Docs.more _ (mz.idx, mz.c) _ hcont hsep a2
      · rw [hT3] at hlen'; simp at hlen'; omega
      · intro hb
        obtain ⟨seg2, hseg2, hr2⟩ := a6 hb
        obtain ⟨seg, hseg, hlseg, hroots⟩ := hfin mz e w hSz hTz he hw _ hT2 (by omega)
        refine ⟨seg ++ seg2, ?_, hroots seg2 hr2⟩
        rw [hseg2, hseg, List.append_assoc]
    · exact absurd hfail run_fail

/-- Runs from `new_root` that return `true`. -/
theorem roots_return (L : Leaves) (buf : List Byte) (mf : Machine) :
    ∀ n m, run L buf n .new_root m = .ret true mf → Accepted L buf mf m := by
  intro n
  induction n using Nat.strong_induction_on with
  | _ n ih =>
    intro m h
    cases n with
    | zero => simp [run] at h
    | succ k =>
      obtain ⟨m1, ha, ⟨hd, hsucc⟩ | ⟨hd, hc, hrun⟩ | ⟨hd, hc, hrun⟩ | ⟨-, -, -, hfail⟩⟩ :=
        run_new_root h
      · -- the stream ends right after `new_root`: an empty root
        obtain ⟨f1, f2, f3, f4⟩ := advance_frame ha
        obtain ⟨e, w, hSe, hw, hTf, hSf, hVf, -⟩ := run_succeed hsucc
        have hT1 : m1.pj.Tape = m.pj.Tape ++ [tapeWord 114 0] := by
          rw [show m1.pj.Tape = m1.pj.toParsedJson.Tape from rfl, f1]; rfl
        have hS1 : m1.pj.containing_scope_offset = m.pj.containing_scope_offset
            ++ [(m.pj.Tape.length <<< RET_ADDRESS_SHIFT) % 2 ^ 64
              ||| RET_ADDRESS_START_CONST] := by
          rw [f2]; rfl
        have hnil := singleton_of_append (hS1.symm.trans hSe)
        refine ⟨hnil.1, ?_, hSf, hVf, ?_, ?_⟩
        · rw [← tokens_congr (sameStream_open_scope m RET_ADDRESS_START_CONST 114),
            (advance_done ha hd).2.2]
          exact Docs.done
        · rw [hTf]; simp [hT1]; omega
        · intro hb
          have hl : mf.pj.Tape.length = m.pj.Tape.length + 2 := by rw [hTf]; simp [hT1]
          have h62 : (2:Nat) ^ 56 < 2 ^ 62 := by norm_num
          have hidx : e >>> 2 = m.pj.Tape.length := by
            rw [hnil.2, entry_index _ _ (by norm_num), Nat.mod_eq_of_lt (by omega)]
          rw [hT1] at hw hTf
          obtain ⟨seg, hseg, -, hroots⟩ := close_empty_root hidx hw hTf hb
          exact ⟨seg, hseg, by simpa using hroots [] (Roots.nil _)⟩
      · exact root_container (k := k) (fun j hj => ih j (Nat.lt_succ_of_lt hj)) (Or.inl rfl) ha hd hc
          (by simpa using hrun)
      · exact root_container (k := k) (fun j hj => ih j (Nat.lt_succ_of_lt hj)) (Or.inr rfl) ha hd hc
          (by simpa using hrun)
      · exact absurd hfail run_fail

/-! ## The transitions in relational form -/

theorem machine_parse_number_none {L : Leaves} {buf : List Byte} {m : Machine} {neg : Bool}
    (h : m.parse_number L buf neg = none) : parse_number_simd L (buf.drop m.idx) neg = none := by
  unfold Machine.parse_number parse_number at h
  split at h
  · rename_i h1
    split at h1
    · assumption
    · split at h1
      · exact absurd h1 (by simp)
      · split at h1 <;> exact absurd h1 (by simp)
  · exact absurd h (by simp)

theorem machine_parse_number_false {L : Leaves} {buf : List Byte} {m : Machine} {neg : Bool}
    {r : Bool × Machine} (h : m.parse_number L buf neg = some r) (hr : r.1 = false) :
    r.2 = m := by
  unfold Machine.parse_number parse_number at h
  split at h
  · exact absurd h (by simp)
  · rename_i ok p h1
    cases Option.some.inj h
    simp only at hr
    subst hr
    split at h1
    · exact absurd h1 (by simp)
    · split at h1
      · simp only [Option.some.injEq, Prod.mk.injEq, true_and] at h1
        subst h1
        rfl
      · split at h1 <;> simp at h1

theorem failed_refl (m : Machine) : Failed m m := ⟨rfl, le_refl _⟩

theorem value_switch_spec (L : Leaves) (buf : List Byte) (rc : Nat) (cont : Label)
    (m : Machine) :
    (value_switch L buf rc cont m = .panic ∧ NumberPanic L buf m) ∨
    (∃ l' m', value_switch L buf rc cont m = .goto l' m' ∧ ValueEdge L buf rc cont m l' m') ∨
    (value_switch L buf rc cont m = .goto .fail m) := by
  unfold value_switch
  split
  · rename_i hc
    have := parse_string_step L buf m hc
    simp only [this.1, Bool.not_true, Bool.false_eq_true, ↓reduceIte]
    exact Or.inr (Or.inl ⟨_, _, rfl, Or.inl ⟨rfl, this.2⟩⟩)
  split
  · rename_i hc
    split
    · exact Or.inr (Or.inr rfl)
    · rename_i hv
      exact Or.inr (Or.inl ⟨_, _, rfl, Or.inl ⟨rfl, write_tape_step L buf m
        (Or.inr (Or.inl ⟨hc, by simpa using hv⟩)) (Or.inl hc)⟩⟩)
  split
  · rename_i hc
    split
    · exact Or.inr (Or.inr rfl)
    · rename_i hv
      exact Or.inr (Or.inl ⟨_, _, rfl, Or.inl ⟨rfl, write_tape_step L buf m
        (Or.inr (Or.inr (Or.inl ⟨hc, by simpa using hv⟩))) (Or.inr (Or.inl hc))⟩⟩)
  split
  · rename_i hc
    split
    · exact Or.inr (Or.inr rfl)
    · rename_i hv
      exact Or.inr (Or.inl ⟨_, _, rfl, Or.inl ⟨rfl, write_tape_step L buf m
        (Or.inr (Or.inr (Or.inr (Or.inl ⟨hc, by simpa using hv⟩)))) (Or.inr (Or.inr hc))⟩⟩)
  split
  · rename_i hc
    split
    · rename_i hn
      exact Or.inl ⟨rfl, Or.inl ⟨hc, machine_parse_number_none hn⟩⟩
    · rename_i r hr
      split
      · rename_i hv
        rw [machine_parse_number_false hr (by simpa using hv)]
        exact Or.inr (Or.inr rfl)
      · rename_i hv
        exact Or.inr (Or.inl ⟨_, _, rfl, Or.inl ⟨rfl,
          parse_number_step hr (by simpa using hv) (by simpa using hc)⟩⟩)
  split
  · rename_i hc
    split
    · rename_i hn
      exact Or.inl ⟨rfl, Or.inr ⟨hc, machine_parse_number_none hn⟩⟩
    · rename_i r hr
      split
      · rename_i hv
        rw [machine_parse_number_false hr (by simpa using hv)]
        exact Or.inr (Or.inr rfl)
      · rename_i hv
        exact Or.inr (Or.inl ⟨_, _, rfl, Or.inl ⟨rfl,
          parse_number_step hr (by simpa using hv) (by simpa using hc)⟩⟩)
  split
  · rename_i hc
    rw [hc]
    exact Or.inr (Or.inl ⟨_, _, rfl, Or.inr (Or.inl ⟨hc, rfl, rfl⟩)⟩)
  split
  · rename_i hc
    rw [hc]
    exact Or.inr (Or.inl ⟨_, _, rfl, Or.inr (Or.inr ⟨hc, rfl, rfl⟩)⟩)
  · exact Or.inr (Or.inr rfl)

theorem failed_of_advance {buf : List Byte} {m m1 : Machine} (h : m.advance buf = some m1) :
    Failed m m1 :=
  ⟨(advance_frame h).2.2.1, (advance_measure h).1⟩

theorem failed_trans {m m1 m2 : Machine} (h1 : Failed m m1) (h2 : Failed m1 m2) :
    Failed m m2 :=
  ⟨h2.1.trans h1.1, le_trans h2.2 h1.2⟩

theorem getElem?_none_le {T : List Nat} {i : Nat} (h : T[i]? = none) : T.length ≤ i := by
  simpa using h

theorem spec_new_root (L : Leaves) (buf : List Byte) (m : Machine) :
    Spec L buf .new_root m (step L buf .new_root m) := by
  simp only [step]
  split
  · rename_i h1
    exact Spec.read_panic _ _ rfl h1
  · rename_i m1 h1
    split
    · rename_i hd
      exact Spec.read_done _ _ _ rfl ⟨h1, hd⟩
    · rename_i hd
      have hd' : m1.done = false := by simpa using hd
      split
      · rename_i hc
        exact Spec.root_open _ _ _ ⟨h1, hd'⟩ (Or.inl ⟨hc, rfl⟩)
      · split
        · rename_i hc
          exact Spec.root_open _ _ _ ⟨h1, hd'⟩ (Or.inr ⟨hc, rfl⟩)
        · refine Spec.failed _ _ _ (by simp) (by simp) (by simp) ?_
          exact @failed_trans m (m.open_scope RET_ADDRESS_START_CONST 114) m1
            ⟨rfl, le_refl _⟩ (failed_of_advance h1)

theorem spec_start_continue (L : Leaves) (buf : List Byte) (m : Machine) :
    Spec L buf .start_continue m (step L buf .start_continue m) := by
  simp only [step]
  split
  · rename_i h1
    exact Spec.read_panic _ _ rfl h1
  · rename_i m1 h1
    split
    · rename_i hd
      exact Spec.read_done _ _ _ rfl ⟨h1, hd⟩
    · rename_i hd
      have hd' : m1.done = false := by simpa using hd
      split
      · rename_i hc
        split
        · rename_i hn
          exact Spec.boundary_panic _ _ ⟨h1, hd'⟩ hc (Or.inl hn)
        · rename_i e he
          simp only [ParsedJson.annotate_previousloc, ParsedJson.get_current_loc]
          split
          · rename_i hp
            split at hp
            · rename_i hw
              exact Spec.boundary_panic _ _ ⟨h1, hd'⟩ hc
                (Or.inr ⟨e, he, getElem?_none_le hw⟩)
            · exact absurd hp (by simp)
          · rename_i p hp
            split at hp
            · exact absurd hp (by simp)
            · rename_i w hw
              cases Option.some.inj hp
              refine Spec.boundary _ _ _ e ⟨h1, hd'⟩ hc ⟨he, ⟨w, hw, ?_⟩, rfl, rfl, rfl,
                ⟨rfl, rfl, rfl⟩⟩
              simp [ParsedJson.write_tape]
      · refine Spec.failed _ _ _ (by simp) (by simp) (by simp) (failed_of_advance h1)

theorem spec_object_begin (L : Leaves) (buf : List Byte) (m : Machine) :
    Spec L buf .object_begin m (step L buf .object_begin m) := by
  simp only [step]
  split
  · rename_i h1
    exact Spec.read_panic _ _ rfl h1
  · rename_i m1 h1
    split
    · rename_i hd
      exact Spec.read_done _ _ _ rfl ⟨h1, hd⟩
    · rename_i hd
      have hd' : m1.done = false := by simpa using hd
      split
      · rename_i hc
        split
        · rename_i hr
          simp [Machine.parse_string, Simdjson.parse_string] at hr
        · exact Spec.key _ _ _ ⟨h1, hd'⟩ hc (parse_string_step L buf m1 hc).2
      · split
        · rename_i hc
          exact Spec.close _ _ _ 125 rfl ⟨h1, hd'⟩ hc
        · exact Spec.failed _ _ _ (by simp) (by simp) (by simp) (failed_of_advance h1)

theorem spec_object_key_state (L : Leaves) (buf : List Byte) (m : Machine) :
    Spec L buf .object_key_state m (step L buf .object_key_state m) := by
  rw [step_object_key_state]
  split
  · rename_i h1
    exact Spec.read_panic _ _ rfl h1
  · rename_i m1 h1
    split
    · rename_i hd
      exact Spec.read_done _ _ _ rfl ⟨h1, hd⟩
    · rename_i hd
      have hd' : m1.done = false := by simpa using hd
      split
      · exact Spec.failed _ _ _ (by simp) (by simp) (by simp) (failed_of_advance h1)
      · rename_i hc
        have hc' : m1.c = 58 := by simpa using hc
        split
        · rename_i h2
          exact Spec.read2_panic _ _ _ 58 rfl ⟨h1, hd'⟩ hc' h2
        · rename_i m2 h2
          split
          · rename_i hd2
            exact Spec.read2_done _ _ _ _ 58 rfl ⟨h1, hd'⟩ hc' ⟨h2, hd2⟩
          · rename_i hd2
            have hd2' : m2.done = false := by simpa using hd2
            rcases value_switch_spec L buf RET_ADDRESS_OBJECT_CONST .object_continue m2 with
              ⟨hv, hp⟩ | ⟨l', m', hv, he⟩ | hv
            · rw [hv]
              exact Spec.member_value_panic _ _ _ ⟨h1, hd'⟩ hc' ⟨h2, hd2'⟩ hp
            · rw [hv]
              exact Spec.member_value _ _ _ _ _ ⟨h1, hd'⟩ hc' ⟨h2, hd2'⟩ he
            · rw [hv]
              exact Spec.failed _ _ _ (by simp) (by simp) (by simp)
                (failed_trans (failed_of_advance h1) (failed_of_advance h2))

theorem spec_object_continue (L : Leaves) (buf : List Byte) (m : Machine) :
    Spec L buf .object_continue m (step L buf .object_continue m) := by
  simp only [step]
  split
  · rename_i h1
    exact Spec.read_panic _ _ rfl h1
  · rename_i m1 h1
    split
    · rename_i hd
      exact Spec.read_done _ _ _ rfl ⟨h1, hd⟩
    · rename_i hd
      have hd' : m1.done = false := by simpa using hd
      split
      · rename_i hc
        split
        · rename_i h2
          exact Spec.read2_panic _ _ _ 44 rfl ⟨h1, hd'⟩ hc h2
        · rename_i m2 h2
          split
          · rename_i hd2
            exact Spec.read2_done _ _ _ _ 44 rfl ⟨h1, hd'⟩ hc ⟨h2, hd2⟩
          · rename_i hd2
            have hd2' : m2.done = false := by simpa using hd2
            split
            · exact Spec.failed _ _ _ (by simp) (by simp) (by simp)
                (failed_trans (failed_of_advance h1) (failed_of_advance h2))
            · rename_i hc2
              have hc2' : m2.c = 34 := by simpa using hc2
              split
              · rename_i hr
                simp [Machine.parse_string, Simdjson.parse_string] at hr
              · exact Spec.next_key _ _ _ _ ⟨h1, hd'⟩ hc ⟨h2, hd2'⟩ hc2'
                  (parse_string_step L buf m2 hc2').2
      · split
        · rename_i hc
          exact Spec.close _ _ _ 125 rfl ⟨h1, hd'⟩ hc
        · exact Spec.failed _ _ _ (by simp) (by simp) (by simp) (failed_of_advance h1)

theorem spec_scope_end (L : Leaves) (buf : List Byte) (m : Machine) :
    Spec L buf .scope_end m (step L buf .scope_end m) := by
  simp only [step]
  split
  · rename_i hn
    exact Spec.scope_panic _ (Or.inl hn)
  · rename_i e he
    simp only [ParsedJson.annotate_previousloc, ParsedJson.get_current_loc,
      ParsedJson.write_tape]
    split
    · rename_i hp
      split at hp
      · rename_i hw
        refine Spec.scope_panic _ (Or.inr ⟨e, he, ?_⟩)
        have := getElem?_none_le hw
        simpa using this
      · exact absurd hp (by simp)
    · rename_i p hp
      split at hp
      · exact absurd hp (by simp)
      · rename_i w hw
        cases Option.some.inj hp
        have key : ∀ mx : Machine, Popped m mx e →
            Spec L buf .scope_end m (.goto (retLabel e) mx) := fun mx h => Spec.scope _ _ _ h
        have hpop : Popped m
            { m with
              pj := { m.pj with
                containing_scope_offset := m.pj.containing_scope_offset.dropLast
                toParsedJson :=
                  { Tape := (m.pj.Tape ++ [tapeWord m.c (e >>> RET_ADDRESS_SHIFT)]).set
                      (e >>> RET_ADDRESS_SHIFT)
                      (tapeWord (tagOf w)
                        (m.pj.Tape ++ [tapeWord m.c (e >>> RET_ADDRESS_SHIFT)]).length)
                    Strings := m.pj.Strings } }
              offset := e } e :=
          ⟨he, ⟨w, hw, by simp⟩, rfl, rfl, ⟨rfl, rfl, rfl⟩, rfl⟩
        have := key _ hpop
        simp only [retLabel] at this
        split
        · rename_i h3
          rw [if_pos h3] at this
          exact this
        · rename_i h3
          rw [if_neg h3] at this
          split
          · rename_i h2
            rw [if_pos h2] at this
            exact this
          · rename_i h2
            rw [if_neg h2] at this
            exact this

theorem spec_array_begin (L : Leaves) (buf : List Byte) (m : Machine) :
    Spec L buf .array_begin m (step L buf .array_begin m) := by
  simp only [step]
  split
  · rename_i h1
    exact Spec.read_panic _ _ rfl h1
  · rename_i m1 h1
    split
    · rename_i hd
      exact Spec.read_done _ _ _ rfl ⟨h1, hd⟩
    · rename_i hd
      have hd' : m1.done = false := by simpa using hd
      split
      · rename_i hc
        exact Spec.close _ _ _ 93 rfl ⟨h1, hd'⟩ hc
      · rename_i hc
        exact Spec.first_element _ _ ⟨h1, hd'⟩ hc

theorem spec_main_array_switch (L : Leaves) (buf : List Byte) (m : Machine) :
    Spec L buf .main_array_switch m (step L buf .main_array_switch m) := by
  rw [step_main_array_switch]
  rcases value_switch_spec L buf RET_ADDRESS_ARRAY_CONST .array_continue m with
    ⟨hv, hp⟩ | ⟨l', m', hv, he⟩ | hv
  · rw [hv]; exact Spec.element_value_panic _ hp
  · rw [hv]; exact Spec.element_value _ _ _ he
  · rw [hv]; exact Spec.failed _ _ _ (by simp) (by simp) (by simp) (failed_refl m)

theorem spec_array_continue (L : Leaves) (buf : List Byte) (m : Machine) :
    Spec L buf .array_continue m (step L buf .array_continue m) := by
  simp only [step]
  split
  · rename_i h1
    exact Spec.read_panic _ _ rfl h1
  · rename_i m1 h1
    split
    · rename_i hd
      exact Spec.read_done _ _ _ rfl ⟨h1, hd⟩
    · rename_i hd
      have hd' : m1.done = false := by simpa using hd
      split
      · rename_i hc
        split
        · rename_i h2
          exact Spec.read2_panic _ _ _ 44 rfl ⟨h1, hd'⟩ hc h2
        · rename_i m2 h2
          split
          · rename_i hd2
            exact Spec.read2_done _ _ _ _ 44 rfl ⟨h1, hd'⟩ hc ⟨h2, hd2⟩
          · rename_i hd2
            exact Spec.next_element _ _ _ ⟨h1, hd'⟩ hc ⟨h2, by simpa using hd2⟩
      · split
        · rename_i hc
          exact Spec.close _ _ _ 93 rfl ⟨h1, hd'⟩ hc
        · exact Spec.failed _ _ _ (by simp) (by simp) (by simp) (failed_of_advance h1)

theorem spec_succeed (L : Leaves) (buf : List Byte) (m : Machine) :
    Spec L buf .succeed m (step L buf .succeed m) := by
  simp only [step]
  split
  · rename_i hn
    refine Spec.succeed_panic _ ?_ (Or.inl hn)
    have : m.pj.containing_scope_offset = [] := by simpa using hn
    rw [this]; rfl
  · rename_i e he
    split
    · rename_i hlen
      refine Spec.succeed_false _ _ e he ?_ rfl rfl rfl
      intro h0
      rw [h0] at hlen
      simp at hlen
    · rename_i hlen
      simp only [ne_eq, Decidable.not_not] at hlen
      have hst := getLast_dropLast_nil he hlen
      simp only [ParsedJson.annotate_previousloc, ParsedJson.get_current_loc]
      split
      · rename_i hp
        split at hp
        · rename_i hw
          exact Spec.succeed_panic _ (List.length_eq_zero.mp hlen)
            (Or.inr ⟨e, he, getElem?_none_le hw⟩)
        · exact absurd hp (by simp)
      · rename_i p hp
        split at hp
        · exact absurd hp (by simp)
        · rename_i w hw
          cases Option.some.inj hp
          refine Spec.succeed_true _ _ e hst ⟨he, ⟨w, hw, ?_⟩, rfl, rfl, rfl, ⟨rfl, rfl, rfl⟩⟩
          simp [ParsedJson.write_tape]

/-- Every result of the code at a label is one of the transitions of `Spec`. -/
theorem step_spec (L : Leaves) (buf : List Byte) (l : Label) (m : Machine) :
    Spec L buf l m (step L buf l m) := by
  cases l with
  | new_root => exact spec_new_root L buf m
  | start_continue => exact spec_start_continue L buf m
  | object_begin => exact spec_object_begin L buf m
  | object_key_state => exact spec_object_key_state L buf m
  | object_continue => exact spec_object_continue L buf m
  | scope_end => exact spec_scope_end L buf m
  | array_begin => exact spec_array_begin L buf m
  | main_array_switch => exact spec_main_array_switch L buf m
  | array_continue => exact spec_array_continue L buf m
  | succeed => exact spec_succeed L buf m
  | fail => exact Spec.fail_ret m

/-! ## Termination -/

theorem pending_sameStream {m m' : Machine} (h : SameStream m m') :
    pending m'.indexCh m'.pj.index_chan = pending m.indexCh m.pj.index_chan := by
  rw [h.2.1, h.2.2]

theorem pending_adv {buf : List Byte} {m m1 : Machine} (h : Adv buf m m1) :
    pending m1.indexCh m1.pj.index_chan < pending m.indexCh m.pj.index_chan :=
  (advance_measure h.1).2 h.2

theorem pending_advDone {buf : List Byte} {m m1 : Machine} (h : AdvDone buf m m1) :
    pending m1.indexCh m1.pj.index_chan ≤ pending m.indexCh m.pj.index_chan :=
  (advance_measure h.1).1

theorem pending_enter (l : Label) (m : Machine) :
    pending (l.enter m).indexCh (l.enter m).pj.index_chan
      = pending m.indexCh m.pj.index_chan := by
  cases l <;> rfl

theorem valueEdge_stream {L : Leaves} {buf : List Byte} {rc : Nat} {cont l' : Label}
    {m m' : Machine} (h : ValueEdge L buf rc cont m l' m') : SameStream m m' := by
  rcases h with ⟨-, hs⟩ | ⟨-, -, rfl⟩ | ⟨-, -, rfl⟩
  · exact hs.2.1
  · exact sameStream_open_scope _ _ _
  · exact sameStream_open_scope _ _ _

theorem valueEdge_weight {L : Leaves} {buf : List Byte} {rc : Nat} {cont l' : Label}
    {m m' : Machine} (h : ValueEdge L buf rc cont m l' m') (hc : cont.weight = 2) :
    l'.weight = 2 := by
  rcases h with ⟨rfl, -⟩ | ⟨-, rfl, -⟩ | ⟨-, rfl, -⟩
  · exact hc
  · rfl
  · rfl

theorem retLabel_weight (e : Nat) : (retLabel e).weight = 2 := by
  unfold retLabel
  split
  · rfl
  · split <;> rfl

/-- Every jump lowers the termination measure. -/
theorem step_potential {L : Leaves} {buf : List Byte} {l l' : Label} {m m' : Machine}
    (h : step L buf l m = .goto l' m') : potential l' m' < potential l m := by
  have hs := step_spec L buf l m
  rw [h] at hs
  unfold potential
  cases hs with
  | read_done _ _ _ hl ha =>
    have := pending_advDone ha
    rw [pending_enter] at this
    have hw : l.weight = 2 := by cases l <;> first | rfl | simp [Label.reads] at hl
    simp only [Label.weight] at hw ⊢
    omega
  | read2_done _ _ m1 _ c hl ha hc hd =>
    have h1 := pending_adv ha
    have h2 := pending_advDone hd
    simp only [Label.weight]
    omega
  | failed _ _ _ h1 h2 h3 hf =>
    have := hf.2
    have hw : 2 ≤ l.weight := by cases l <;> simp_all [Label.weight]
    simp only [Label.weight] at hw ⊢
    omega
  | root_open _ m1 _ ha hc =>
    have h1 := pending_adv ha
    have h2 := pending_sameStream (sameStream_open_scope m1 RET_ADDRESS_START_CONST m1.c)
    have h3 := pending_sameStream (sameStream_open_scope m RET_ADDRESS_START_CONST 114)
    have hw : l'.weight = 2 := by rcases hc with ⟨-, rfl⟩ | ⟨-, rfl⟩ <;> rfl
    rw [h2, hw]
    simp only [Label.weight]
    omega
  | boundary _ m1 _ e ha hc hr =>
    have h1 := pending_adv ha
    have h2 := pending_sameStream hr.2.2.2.2.2
    rw [h2]
    simp only [Label.weight]
    omega
  | key _ m1 _ ha hc hs =>
    have h1 := pending_adv ha
    have h2 := pending_sameStream hs.2.1
    rw [h2]
    simp only [Label.weight]
    omega
  | next_key _ m1 m2 _ ha hc ha2 hc2 hs =>
    have h1 := pending_adv ha
    have h1' := pending_adv ha2
    have h2 := pending_sameStream hs.2.1
    rw [h2]
    simp only [Label.weight]
    omega
  | close _ _ _ c hl ha hc =>
    have h1 := pending_adv ha
    have hw : l.weight = 2 := by cases l <;> first | rfl | simp [Label.closer] at hl
    rw [hw]
    simp only [Label.weight]
    omega
  | member_value _ m1 m2 _ _ ha hc ha2 hv =>
    have h1 := pending_adv ha
    have h1' := pending_adv ha2
    have h2 := pending_sameStream (valueEdge_stream hv)
    have hw := valueEdge_weight hv rfl
    rw [h2, hw]
    simp only [Label.weight]
    omega
  | element_value _ _ _ hv =>
    have h2 := pending_sameStream (valueEdge_stream hv)
    have hw := valueEdge_weight hv rfl
    rw [h2, hw]
    simp only [Label.weight]
    omega
  | first_element _ _ ha hc =>
    have h1 := pending_adv ha
    simp only [Label.weight]
    omega
  | next_element _ m1 _ ha hc ha2 =>
    have h1 := pending_adv ha
    have h1' := pending_adv ha2
    simp only [Label.weight]
    omega
  | scope _ _ e hp =>
    have h2 := pending_sameStream hp.2.2.2.2.1
    rw [h2, retLabel_weight]
    simp only [Label.weight]
    omega

/-- With fuel above the termination measure a run does not run out of fuel. -/
theorem run_total (L : Leaves) (buf : List Byte) :
    ∀ n l m, potential l m < n → run L buf n l m ≠ .timeout := by
  intro n
  induction n with
  | zero => intro l m h; omega
  | succ n ih =>
    intro l m h
    rw [run_succ]
    cases hs : step L buf l m with
    | goto l' m' =>
      have := step_potential hs
      exact ih l' m' (by omega)
    | ret b m' => simp [resume]
    | panic => simp [resume]

/-- The automaton always returns or panics: the fuel of `unified_machine` is enough. -/
theorem unified_machine_total (L : Leaves) (buf : List Byte) (pj : internalParsedJson) :
    unified_machine L buf pj ≠ .timeout := by
  unfold unified_machine
  apply run_total
  simp [potential, Machine.init, Label.weight]

/-- More fuel does not change the result of a run that did not run out of fuel. -/
theorem run_mono (L : Leaves) (buf : List Byte) :
    ∀ n k l m, run L buf n l m ≠ .timeout → run L buf (n + k) l m = run L buf n l m := by
  intro n
  induction n with
  | zero => intro k l m h; simp [run] at h
  | succ n ih =>
    intro k l m h
    rw [Nat.add_right_comm, run_succ, run_succ]
    rw [run_succ] at h
    cases hs : step L buf l m with
    | goto l' m' =>
      rw [hs] at h
      exact ih k l' m' h
    | ret b m' => rfl
    | panic => rfl

/-- Any run that returns or panics gives the result of `unified_machine`. -/
theorem unified_machine_eq_run {L : Leaves} {buf : List Byte} {pj : internalParsedJson}
    {n : Nat} (h : run L buf n .new_root (Machine.init pj) ≠ .timeout) :
    unified_machine L buf pj = run L buf n .new_root (Machine.init pj) := by
  have h1 := run_mono L buf n (2 * pending indexChan.zero pj.index_chan + 3) _ _ h
  have h2 := run_mono L buf (2 * pending indexChan.zero pj.index_chan + 3) n _ _
    (unified_machine_total L buf pj)
  rw [Nat.add_comm] at h2
  rw [← h1, h2]
  rfl

/-- The configuration reached after `n` jumps continues as the run does. -/
theorem run_cfgAt (L : Leaves) (buf : List Byte) :
    ∀ n k l m l' m', cfgAt L buf n (l, m) = some (l', m') →
      run L buf (n + k) l m = run L buf k l' m' := by
  intro n
  induction n with
  | zero =>
    intro k l m l' m' h
    simp only [cfgAt, Option.some.injEq, Prod.mk.injEq] at h
    rw [h.1, h.2, Nat.zero_add]
  | succ n ih =>
    intro k l m l' m' h
    rw [Nat.add_right_comm, run_succ]
    simp only [cfgAt] at h
    cases hs : step L buf l m with
    | goto l1 m1 =>
      rw [hs] at h
      exact ih k l1 m1 l' m' h
    | ret b m1 => rw [hs] at h; simp at h
    | panic => rw [hs] at h; simp at h

/-! ## The scope stack invariant -/

theorem EntsOK.grow {T T' : Nat} {ents : List Nat} (h : EntsOK T ents) (hT : T ≤ T') :
    EntsOK T' ents := by
  intro i e hi
  obtain ⟨h1, h2, h3⟩ := h i e hi
  exact ⟨by omega, h2, h3⟩

theorem EntsOK.pop {T : Nat} {ents : List Nat} {e : Nat} (h : EntsOK T (ents ++ [e])) :
    EntsOK T ents := by
  intro i x hi
  have hlt : i < ents.length := (List.getElem?_eq_some.mp hi).1
  exact h i x (by rw [List.getElem?_append_left hlt]; exact hi)

theorem EntsOK.top {T : Nat} {ents : List Nat} {e : Nat} (h : EntsOK T (ents ++ [e])) :
    e >>> 2 < T ∧ (ents.length = 1 → retLabel e = .start_continue) ∧
      (2 ≤ ents.length → retLabel e = .object_continue ∨ retLabel e = .array_continue) :=
  h ents.length e (List.getElem?_concat_length ents e)

theorem EntsOK.push {T : Nat} {ents : List Nat} {rc : Nat} (h : EntsOK T ents)
    (hrc : (ents.length = 0 ∧ rc = 1) ∨ (ents.length = 1 ∧ rc = 1)
      ∨ (2 ≤ ents.length ∧ (rc = 2 ∨ rc = 3))) :
    EntsOK (T + 1) (ents ++ [(T <<< RET_ADDRESS_SHIFT) % 2 ^ 64 ||| rc]) := by
  intro i x hi
  rcases Nat.lt_or_ge i ents.length with hlt | hge
  · rw [List.getElem?_append_left hlt] at hi
    obtain ⟨h1, h2, h3⟩ := h i x hi
    exact ⟨by omega, h2, h3⟩
  · have hlen : i < (ents ++ [(T <<< RET_ADDRESS_SHIFT) % 2 ^ 64 ||| rc]).length :=
      (List.getElem?_eq_some.mp hi).1
    simp only [List.length_append, List.length_singleton] at hlen
    have hi' : i = ents.length := by omega
    subst hi'
    rw [List.getElem?_concat_length] at hi
    cases Option.some.inj hi
    have hrc4 : rc < 4 := by omega
    refine ⟨?_, ?_, ?_⟩
    · rw [entry_index _ _ hrc4]
      have := Nat.mod_le T (2 ^ 62)
      omega
    · intro h1
      rw [retLabel_entry _ _ hrc4]
      have : rc = 1 := by omega
      subst this
      rfl
    · intro h2
      rw [retLabel_entry _ _ hrc4]
      rcases hrc with ⟨h0, -⟩ | ⟨h1, -⟩ | ⟨-, rfl | rfl⟩
      · omega
      · omega
      · exact Or.inl rfl
      · exact Or.inr rfl

theorem stackInv_frame {base : List Nat} {l l' : Label} {m m' : Machine}
    (h : StackInv base l m)
    (hs : m'.pj.containing_scope_offset = m.pj.containing_scope_offset)
    (hT : m.pj.Tape.length ≤ m'.pj.Tape.length)
    (hd : ∀ d, depthOK l d → depthOK l' d) : StackInv base l' m' := by
  obtain ⟨ents, h1, h2, h3⟩ := h
  exact ⟨ents, by rw [hs, h1], hd _ h2, h3.grow hT⟩

theorem stackInv_push {base : List Nat} {l l' : Label} {m : Machine} {rc c : Nat}
    (h : StackInv base l m)
    (hd : ∀ d, depthOK l d → depthOK l' (d + 1) ∧
      ((d = 0 ∧ rc = 1) ∨ (d = 1 ∧ rc = 1) ∨ (2 ≤ d ∧ (rc = 2 ∨ rc = 3)))) :
    StackInv base l' (m.open_scope rc c) := by
  obtain ⟨ents, h1, h2, h3⟩ := h
  refine ⟨ents ++ [(m.pj.Tape.length <<< RET_ADDRESS_SHIFT) % 2 ^ 64 ||| rc], ?_, ?_, ?_⟩
  · simp [Machine.open_scope, h1, ParsedJson.get_current_loc]
  · simpa using (hd _ h2).1
  · have : (m.open_scope rc c).pj.Tape.length = m.pj.Tape.length + 1 := by
      simp [Machine.open_scope, ParsedJson.write_tape]
    rw [this]
    exact h3.push (hd _ h2).2

theorem adv_frame {buf : List Byte} {m m1 : Machine} (h : m.advance buf = some m1) :
    m1.pj.containing_scope_offset = m.pj.containing_scope_offset ∧
      m1.pj.Tape = m.pj.Tape := by
  obtain ⟨f1, f2, -, -⟩ := advance_frame h
  exact ⟨f2, by rw [show m1.pj.Tape = m1.pj.toParsedJson.Tape from rfl, f1]⟩

theorem stackInv_adv {buf : List Byte} {base : List Nat} {l l' : Label} {m m1 : Machine}
    (h : StackInv base l m) (ha : m.advance buf = some m1)
    (hd : ∀ d, depthOK l d → depthOK l' d) : StackInv base l' m1 :=
  stackInv_frame h (adv_frame ha).1 (by rw [(adv_frame ha).2]) hd

theorem stackInv_scalar {L : Leaves} {buf : List Byte} {base : List Nat} {l l' : Label}
    {m m1 : Machine} (h : StackInv base l m) (hs : ScalarStep L buf m m1)
    (hd : ∀ d, depthOK l d → depthOK l' d) : StackInv base l' m1 := by
  obtain ⟨-, -, h3, -, ws, hT, -⟩ := hs
  exact stackInv_frame h h3 (by rw [hT]; simp) hd

theorem stackInv_value {L : Leaves} {buf : List Byte} {base : List Nat} {l l' cont : Label}
    {m m' : Machine} {rc : Nat} (h : StackInv base l m)
    (hv : ValueEdge L buf rc cont m l' m') (hrc : rc = 2 ∨ rc = 3)
    (hl : ∀ d, depthOK l d ↔ 2 ≤ d) (hc : ∀ d, depthOK cont d ↔ 2 ≤ d) :
    StackInv base l' m' := by
  rcases hv with ⟨rfl, hs⟩ | ⟨-, rfl, rfl⟩ | ⟨-, rfl, rfl⟩
  · exact stackInv_scalar h hs (fun d hd => (hc d).mpr ((hl d).mp hd))
  · refine stackInv_push h (fun d hd => ⟨?_, Or.inr (Or.inr ⟨(hl d).mp hd, hrc⟩)⟩)
    have := (hl d).mp hd
    simp only [depthOK]; omega
  · refine stackInv_push h (fun d hd => ⟨?_, Or.inr (Or.inr ⟨(hl d).mp hd, hrc⟩)⟩)
    have := (hl d).mp hd
    simp only [depthOK]; omega

theorem depthOK_reads {l : Label} (hl : l.reads = true) (hn : l ≠ .new_root) {d : Nat}
    (h : depthOK l d) : 1 ≤ d := by
  cases l <;> simp_all [Label.reads, depthOK] <;> omega

theorem depthOK_second {l : Label} {c : Nat} (hl : l.second = some c) {d : Nat}
    (h : depthOK l d) : 2 ≤ d := by
  cases l <;> simp_all [Label.second, depthOK]

theorem depthOK_closer {l : Label} {c : Nat} (hl : l.closer = some c) {d : Nat}
    (h : depthOK l d) : 2 ≤ d := by
  cases l <;> simp_all [Label.closer, depthOK]

/-- Every jump keeps the invariant of the scope stack. -/
theorem step_stackInv {L : Leaves} {buf : List Byte} {base : List Nat} {l l' : Label}
    {m m' : Machine} (h : step L buf l m = .goto l' m') (hi : StackInv base l m)
    (hf : l' ≠ .fail) : StackInv base l' m' := by
  have hs := step_spec L buf l m
  rw [h] at hs
  cases hs with
  | read_done _ _ _ hl ha =>
    by_cases hn : l = .new_root
    · subst hn
      have h1 : StackInv base .start_continue
          (m.open_scope RET_ADDRESS_START_CONST 114) :=
        stackInv_push hi (fun d hd => by
          simp only [depthOK] at hd
          subst hd
          exact ⟨rfl, Or.inl ⟨rfl, rfl⟩⟩)
      exact stackInv_adv h1 ha.1 (fun d hd => by simp only [depthOK] at hd ⊢; omega)
    · have he : l.enter m = m := by cases l <;> first | rfl | exact absurd rfl hn
      rw [he] at ha
      exact stackInv_adv hi ha.1 (fun d hd => depthOK_reads hl hn hd)
  | read2_done _ _ m1 _ c hl ha hc hd =>
    have h1 := stackInv_adv hi ha.1 (fun d hd => hd)
    exact stackInv_adv h1 hd.1 (fun d hd => by
      have := depthOK_second hl hd
      simp only [depthOK]; omega)
  | failed _ _ _ h1 h2 h3 _ => exact absurd rfl hf
  | root_open _ m1 _ ha hc =>
    have h1 : StackInv base .start_continue (m.open_scope RET_ADDRESS_START_CONST 114) :=
      stackInv_push hi (fun d hd => by
        simp only [depthOK] at hd
        subst hd
        exact ⟨rfl, Or.inl ⟨rfl, rfl⟩⟩)
    have h2 := stackInv_adv h1 ha.1 (fun d hd => hd)
    refine stackInv_push h2 (fun d hd => ?_)
    simp only [depthOK] at hd
    subst hd
    rcases hc with ⟨-, rfl⟩ | ⟨-, rfl⟩ <;> exact ⟨by simp [depthOK], Or.inr (Or.inl ⟨rfl, rfl⟩)⟩
  | boundary _ m1 _ e ha hc hr =>
    have h1 := stackInv_adv hi ha.1 (fun d hd => hd)
    obtain ⟨ents, e1, e2, e3⟩ := h1
    obtain ⟨r1, ⟨w, r2, r3⟩, r4, -⟩ := hr
    simp only [depthOK] at e2
    obtain ⟨x, rfl⟩ : ∃ x, ents = [x] := List.length_eq_one.mp e2
    refine ⟨[], ?_, rfl, ?_⟩
    · rw [r4, e1, List.dropLast_concat]
      simp
    · intro i y hy; simp at hy
  | key _ m1 _ ha hc hs =>
    exact stackInv_scalar (stackInv_adv hi ha.1 (fun d hd => hd)) hs (fun d hd => hd)
  | next_key _ m1 m2 _ ha hc ha2 hc2 hs =>
    exact stackInv_scalar (stackInv_adv (stackInv_adv hi ha.1 (fun d hd => hd)) ha2.1
      (fun d hd => hd)) hs (fun d hd => hd)
  | close _ _ _ c hl ha hc =>
    exact stackInv_adv hi ha.1 (fun d hd => depthOK_closer hl hd)
  | member_value _ m1 m2 _ _ ha hc ha2 hv =>
    exact stackInv_value (stackInv_adv (stackInv_adv hi ha.1 (fun d hd => hd)) ha2.1
      (fun d hd => hd)) hv (Or.inl rfl) (fun d => Iff.rfl) (fun d => Iff.rfl)
  | element_value _ _ _ hv =>
    exact stackInv_value hi hv (Or.inr rfl) (fun d => Iff.rfl) (fun d => Iff.rfl)
  | first_element _ _ ha hc =>
    exact stackInv_adv hi ha.1 (fun d hd => hd)
  | next_element _ m1 _ ha hc ha2 =>
    exact stackInv_adv (stackInv_adv hi ha.1 (fun d hd => hd)) ha2.1 (fun d hd => hd)
  | scope _ _ e hp =>
    obtain ⟨ents, e1, e2, e3⟩ := hi
    obtain ⟨p1, ⟨w, p2, p3⟩, p4, -⟩ := hp
    simp only [depthOK] at e2
    rcases List.eq_nil_or_concat ents with rfl | ⟨ents', x, rfl⟩
    · simp at e2
    · rw [List.concat_eq_append] at e1 e2 e3
      rw [e1, ← List.append_assoc, List.getLast?_concat] at p1
      cases Option.some.inj p1
      have hlen : m'.pj.Tape.length = m.pj.Tape.length + 1 := by rw [p3]; simp
      obtain ⟨t1, t2, t3⟩ := e3.top
      simp only [List.length_append, List.length_singleton] at e2
      refine ⟨ents', ?_, ?_, (e3.pop).grow (by omega)⟩
      · rw [p4, e1, ← List.append_assoc, List.dropLast_concat]
      · rcases Nat.lt_or_ge ents'.length 2 with h1 | h2
        · rw [t2 (by omega)]
          simp only [depthOK]; omega
        · rcases t3 h2 with h | h <;> rw [h] <;> simpa [depthOK] using h2

/-! ## Reachable configurations -/

theorem cfgAt_stackInv (L : Leaves) (buf : List Byte) (base : List Nat) :
    ∀ n l m l' m', cfgAt L buf n (l, m) = some (l', m') → StackInv base l m →
      l' = .fail ∨ StackInv base l' m' := by
  intro n
  induction n with
  | zero =>
    intro l m l' m' h hi
    simp only [cfgAt, Option.some.injEq, Prod.mk.injEq] at h
    rw [← h.1, ← h.2]
    exact Or.inr hi
  | succ n ih =>
    intro l m l' m' h hi
    simp only [cfgAt] at h
    cases hs : step L buf l m with
    | goto l1 m1 =>
      rw [hs] at h
      by_cases hf : l1 = .fail
      · subst hf
        cases n with
        | zero =>
          simp only [cfgAt, Option.some.injEq, Prod.mk.injEq] at h
          exact Or.inl h.1.symm
        | succ n => simp [cfgAt, step] at h
      · exact ih l1 m1 l' m' h (step_stackInv hs hi hf)
    | ret b m1 => rw [hs] at h; simp at h
    | panic => rw [hs] at h; simp at h

theorem stackInv_init (pj : internalParsedJson) :
    StackInv pj.containing_scope_offset .new_root (Machine.init pj) :=
  ⟨[], by simp [Machine.init], rfl, by intro i e h; simp at h⟩

/-! ## No panic on a well-formed index stream -/

theorem safe_adv {L : Leaves} {buf : List Byte} {l : Label} (l' : Label) {m m1 : Machine}
    (hs : Safe L buf l m) (ha : Adv buf m m1) : Safe L buf l' m1 := by
  obtain ⟨h1, h2, -⟩ := hs
  obtain ⟨-, ht, hc, -⟩ := advance_read ha.1 ha.2
  refine ⟨by rw [← hc]; exact h1, ?_, ?_⟩
  · intro t hmem
    exact h2 t (by rw [ht]; exact List.mem_cons_of_mem _ hmem)
  · intro _
    exact h2 _ (by rw [ht]; exact List.mem_cons_self _ _)

theorem safe_same {L : Leaves} {buf : List Byte} {l l' : Label} {m m' : Machine}
    (hs : Safe L buf l m) (hss : SameStream m m') (hl : l' = .main_array_switch →
      numberSafe L buf (m.idx, m.c) = true) (hc : m'.c = m.c) : Safe L buf l' m' := by
  obtain ⟨h1, h2, -⟩ := hs
  refine ⟨by rw [closes_congr hss]; exact h1, ?_, ?_⟩
  · rw [tokens_congr hss]; exact h2
  · intro h
    rw [hss.1, hc]
    exact hl h

theorem safe_advDone {L : Leaves} {buf : List Byte} {l' : Label} {m m1 : Machine}
    (ha : AdvDone buf m m1) (hl : l' ≠ .main_array_switch) : Safe L buf l' m1 := by
  obtain ⟨h, hd⟩ := ha
  unfold Machine.advance at h
  split at h
  · exact absurd h (by simp)
  · rename_i done idx c ch pj hu
    cases Option.some.inj h
    simp only at hd
    subst hd
    rcases updateChar_some hu with ⟨hr, hle, hnil⟩ | ⟨b, rest, d, c', -, -, -, -, hr⟩ |
      ⟨d, c', -, -, -, hr⟩
    · simp only [Prod.mk.injEq, true_and] at hr
      obtain ⟨rfl, rfl, rfl, rfl⟩ := hr
      have hp : pending indexChan.zero m.pj.index_chan = 0 := by
        simp [pending, hnil, indexChan.zero]
      have hu' : updateChar buf m.pj 0 indexChan.zero
          = some (true, 0, 0, indexChan.zero, m.pj) := by
        simp [updateChar, indexChan.zero, hnil]
      refine ⟨?_, ?_, fun h => absurd h hl⟩
      · simp [Machine.closes, hp, closesAux, hu']
      · simp [Machine.tokens, hp, tokensAux]
    · simp at hr
    · simp at hr

theorem safe_scalar {L : Leaves} {buf : List Byte} {l l' : Label} {m m' : Machine}
    (hs : Safe L buf l m) (h : ScalarStep L buf m m') (hl : l' ≠ .main_array_switch) :
    Safe L buf l' m' := by
  obtain ⟨h1, h2, -⟩ := hs
  refine ⟨by rw [closes_congr h.2.1]; exact h1, ?_, fun h => absurd h hl⟩
  rw [tokens_congr h.2.1]; exact h2

theorem safe_value {L : Leaves} {buf : List Byte} {l l' cont : Label} {m m' : Machine}
    {rc : Nat} (hs : Safe L buf l m) (hv : ValueEdge L buf rc cont m l' m')
    (hc : cont ≠ .main_array_switch) : Safe L buf l' m' := by
  rcases hv with ⟨rfl, h⟩ | ⟨-, rfl, rfl⟩ | ⟨-, rfl, rfl⟩
  · exact safe_scalar hs h hc
  · exact safe_same hs (sameStream_open_scope _ _ _) (fun h => by simp at h) rfl
  · exact safe_same hs (sameStream_open_scope _ _ _) (fun h => by simp at h) rfl

theorem safe_enter {L : Leaves} {buf : List Byte} {l : Label} {m : Machine}
    (hs : Safe L buf l m) (hl : l.reads = true) : Safe L buf l (l.enter m) := by
  cases l <;> first
    | exact hs
    | exact safe_same hs (sameStream_open_scope _ _ _) (fun h => by simp at h) rfl

/-- Every jump keeps the reader's safety condition. -/
theorem step_safe {L : Leaves} {buf : List Byte} {l l' : Label} {m m' : Machine}
    (h : step L buf l m = .goto l' m') (hs : Safe L buf l m) (hf : l' ≠ .fail) :
    Safe L buf l' m' := by
  have hsp := step_spec L buf l m
  rw [h] at hsp
  cases hsp with
  | read_done _ _ _ hl ha => exact safe_advDone ha (by simp)
  | read2_done _ _ m1 _ c hl ha hc hd => exact safe_advDone hd (by simp)
  | failed _ _ _ h1 h2 h3 _ => exact absurd rfl hf
  | root_open _ m1 _ ha hc =>
    have h1 : Safe L buf .new_root m1 := safe_adv _ (safe_enter hs rfl) ha
    refine safe_same h1 (sameStream_open_scope _ _ _) ?_ rfl
    rcases hc with ⟨-, rfl⟩ | ⟨-, rfl⟩ <;> intro h <;> simp at h
  | boundary _ m1 _ e ha hc hr =>
    have h1 : Safe L buf .new_root m1 := safe_adv _ hs ha
    obtain ⟨g1, g2, -⟩ := h1
    exact ⟨by rw [closes_congr hr.2.2.2.2.2]; exact g1,
      by rw [tokens_congr hr.2.2.2.2.2]; exact g2, fun h => by simp at h⟩
  | key _ m1 _ ha hc hsc =>
    exact safe_scalar (l := .object_begin) (safe_adv _ hs ha) hsc (by simp)
  | next_key _ m1 m2 _ ha hc ha2 hc2 hsc =>
    exact safe_scalar (l := .object_begin)
      (safe_adv .object_begin (safe_adv .object_begin hs ha) ha2) hsc (by simp)
  | close _ _ _ c hl ha hc => exact safe_adv _ hs ha
  | member_value _ m1 m2 _ _ ha hc ha2 hv =>
    exact safe_value (l := .object_begin)
      (safe_adv .object_begin (safe_adv .object_begin hs ha) ha2) hv (by simp)
  | element_value _ _ _ hv => exact safe_value hs hv (by simp)
  | first_element _ _ ha hc => exact safe_adv _ hs ha
  | next_element _ m1 _ ha hc ha2 =>
    exact safe_adv _ (safe_adv .object_begin hs ha) ha2
  | scope _ _ e hp =>
    refine safe_same hs hp.2.2.2.2.1 ?_ hp.2.2.2.2.2
    intro h
    exfalso
    unfold retLabel at h
    split at h
    · simp at h
    · split at h <;> simp at h

theorem numberPanic_not_safe {L : Leaves} {buf : List Byte} {m : Machine}
    (hp : NumberPanic L buf m) (hs : numberSafe L buf (m.idx, m.c) = true) : False := by
  unfold numberSafe at hs
  rcases hp with ⟨hc, hn⟩ | ⟨hc, hn⟩
  · simp only [hc, and_self, ↓reduceIte, hn, Option.isSome_none] at hs
    exact absurd hs (by simp)
  · have h1 : ¬ (48 ≤ m.c ∧ m.c ≤ 57) := by omega
    simp only [h1, ↓reduceIte, hc, hn, Option.isSome_none] at hs
    exact absurd hs (by simp)

theorem noTop_false {base ents : List Nat} {m : Machine} {n : Nat}
    (h1 : m.pj.containing_scope_offset = base ++ ents) (h2 : 1 ≤ ents.length)
    (h3 : EntsOK m.pj.Tape.length ents) (hn : m.pj.Tape.length ≤ n) (h : NoTop m n) :
    False := by
  rcases List.eq_nil_or_concat ents with rfl | ⟨ents', x, rfl⟩
  · simp at h2
  · rw [List.concat_eq_append] at h1 h3
    unfold NoTop at h
    rw [h1, ← List.append_assoc] at h
    have := h3.top.1
    rcases h with h | ⟨e, he, hle⟩
    · rw [List.getLast?_concat] at h
      exact absurd h (by simp)
    · rw [List.getLast?_concat] at he
      cases Option.some.inj he
      omega

/-- The code at a label does not panic when the scope stack invariant holds and the index
stream is well formed. -/
theorem step_no_panic {L : Leaves} {buf : List Byte} {base : List Nat} {l : Label}
    {m : Machine} (hi : StackInv base l m) (hs : Safe L buf l m) :
    step L buf l m ≠ .panic := by
  intro h
  have hsp := step_spec L buf l m
  rw [h] at hsp
  cases hsp with
  | read_panic _ _ hl ha =>
    have := (safe_enter hs hl).1
    rw [advance_none_closes ha] at this
    exact absurd this (by simp)
  | read2_panic _ _ m1 c hl ha hc hn =>
    have := (safe_adv l hs ha).1
    rw [advance_none_closes hn] at this
    exact absurd this (by simp)
  | boundary_panic _ m1 ha hc hn =>
    obtain ⟨ents, e1, e2, e3⟩ := stackInv_adv hi ha.1 (fun d hd => hd)
    simp only [depthOK] at e2
    exact noTop_false e1 (by omega) e3 (le_refl _) hn
  | member_value_panic _ m1 m2 ha hc ha2 hp =>
    have := (safe_adv .main_array_switch
      (safe_adv .object_begin hs ha) ha2).2.2 rfl
    exact numberPanic_not_safe hp this
  | element_value_panic _ hp => exact numberPanic_not_safe hp (hs.2.2 rfl)
  | scope_panic _ hn =>
    obtain ⟨ents, e1, e2, e3⟩ := hi
    simp only [depthOK] at e2
    exact noTop_false e1 (by omega) e3 (by omega) hn
  | succeed_panic _ hd hn =>
    obtain ⟨ents, e1, e2, e3⟩ := hi
    simp only [depthOK] at e2
    exact noTop_false e1 e2 e3 (le_refl _) hn

/-- A run does not panic when the scope stack invariant holds and the index stream is well
formed. -/
theorem run_no_panic (L : Leaves) (buf : List Byte) (base : List Nat) :
    ∀ n l m, StackInv base l m → Safe L buf l m → run L buf n l m ≠ .panic := by
  intro n
  induction n with
  | zero => intro l m _ _; simp [run]
  | succ n ih =>
    intro l m hi hs
    rw [run_succ]
    cases hst : step L buf l m with
    | goto l' m' =>
      by_cases hf : l' = .fail
      · subst hf
        cases n <;> simp [resume, run, step]
      · exact ih l' m' (step_stackInv hst hi hf) (step_safe hst hs hf)
    | ret b m' => simp [resume]
    | panic => exact absurd hst (step_no_panic hi hs)

/-! ## Tagged words of complete values -/

theorem tagWords_cons_plain {b w : Nat} (X : List Nat) (h : isNumberTag (tagOf w) = false) :
    tagWords b (w :: X) = (b, w) :: tagWords (b + 1) X := by
  cases X with
  | nil => simp [tagWords]
  | cons r rest => simp [tagWords, h]

theorem tagWords_cons_number {b w r : Nat} (X : List Nat) (h : isNumberTag (tagOf w) = true) :
    tagWords b (w :: r :: X) = (b, w) :: tagWords (b + 2) X := by
  simp [tagWords, h]

theorem scalar_not_number {t : Nat} (h : isScalarTag t = true) : isNumberTag t = false := by
  simp only [isScalarTag, Bool.or_eq_true, beq_iff_eq] at h
  rcases h with ((rfl | rfl) | rfl) | rfl <;> rfl

theorem open_not_number {t : Nat} (h : isOpenTag t = true) : isNumberTag t = false := by
  simp only [isOpenTag, Bool.or_eq_true, beq_iff_eq] at h
  rcases h with rfl | rfl <;> rfl

theorem open_cases {t : Nat} (h : isOpenTag t = true) : t = 123 ∨ t = 91 := by
  simpa [isOpenTag] using h

theorem close_cases {t : Nat} (h : isCloseTag t = true) : t = 125 ∨ t = 93 := by
  simpa [isCloseTag] using h

theorem closeOf_close {t : Nat} (h : isOpenTag t = true) : isCloseTag (closeOf t) = true := by
  rcases open_cases h with rfl | rfl <;> rfl

theorem closeOf_not_number {t : Nat} (h : isOpenTag t = true) :
    isNumberTag (closeOf t) = false := by
  rcases open_cases h with rfl | rfl <;> rfl

theorem closeOf_not_open {t : Nat} (h : isOpenTag t = true) :
    isOpenTag (closeOf t) = false := by
  rcases open_cases h with rfl | rfl <;> rfl

theorem open_not_close {t : Nat} (h : isOpenTag t = true) : isCloseTag t = false := by
  rcases open_cases h with rfl | rfl <;> rfl

theorem openOf_closeOf {t : Nat} (h : isOpenTag t = true) : openOf (closeOf t) = t := by
  rcases open_cases h with rfl | rfl <;> rfl

theorem items_tagWords_append' {b : Nat} {xs : List Nat} (h : Items b xs) :
    ∀ (ys : List Nat) (b' : Nat), b' = b + xs.length →
      tagWords b (xs ++ ys) = tagWords b xs ++ tagWords b' ys := by
  induction h with
  | nil b => intro ys b' hb; subst hb; simp [tagWords]
  | scalar b w rest hw _ ih =>
    intro ys b' hb
    rw [List.cons_append, tagWords_cons_plain _ (scalar_not_number hw),
      tagWords_cons_plain _ (scalar_not_number hw),
      ih ys b' (by rw [hb]; simp only [List.length_cons]; omega)]
    rfl
  | number b w r rest hw _ ih =>
    intro ys b' hb
    rw [List.cons_append, List.cons_append, tagWords_cons_number _ hw,
      tagWords_cons_number _ hw,
      ih ys b' (by rw [hb]; simp only [List.length_cons]; omega)]
    rfl
  | container b o c inner rest ho hc hpo hpc _ _ ih1 ih2 =>
    intro ys b' hb
    have hcn := closeOf_not_number ho
    rw [← hc] at hcn
    simp only [List.cons_append, List.append_assoc]
    rw [tagWords_cons_plain _ (open_not_number ho),
      tagWords_cons_plain _ (open_not_number ho),
      ih1 (c :: (rest ++ ys)) (b + inner.length + 1) (by omega),
      ih1 (c :: rest) (b + inner.length + 1) (by omega),
      tagWords_cons_plain _ hcn, tagWords_cons_plain _ hcn,
      ih2 ys b' (by rw [hb]; simp only [List.length_cons, List.length_append]; omega)]
    simp

theorem items_tagWords_append {b : Nat} {xs : List Nat} (h : Items b xs) (ys : List Nat) :
    tagWords b (xs ++ ys) = tagWords b xs ++ tagWords (b + xs.length) ys :=
  items_tagWords_append' h ys _ rfl

theorem items_tagWords_container {b o c : Nat} {inner : List Nat} (rest : List Nat)
    (ho : isOpenTag (tagOf o) = true) (hc : tagOf c = closeOf (tagOf o))
    (hi : Items (b + 1) inner) :
    tagWords b (o :: inner ++ c :: rest)
      = (b, o) :: tagWords (b + 1) inner
        ++ (b + inner.length + 1, c) :: tagWords (b + inner.length + 2) rest := by
  have hcn := closeOf_not_number ho
  rw [← hc] at hcn
  rw [List.cons_append, tagWords_cons_plain _ (open_not_number ho),
    items_tagWords_append' hi (c :: rest) (b + inner.length + 1) (by omega),
    tagWords_cons_plain _ hcn]
  rfl

/-! ## Matching brackets on the tape -/

theorem findClose_append_some {xs : List (Nat × Nat)} :
    ∀ {d : Nat} {r : Nat × Nat} (ys : List (Nat × Nat)),
      findClose xs d = some r → findClose (xs ++ ys) d = some r := by
  induction xs with
  | nil => intro d r ys h; simp [findClose] at h
  | cons x xs ih =>
    intro d r ys h
    obtain ⟨j, w⟩ := x
    simp only [findClose, List.cons_append] at h ⊢
    split
    · rename_i ho
      rw [if_pos ho] at h
      exact ih ys h
    · rename_i ho
      rw [if_neg ho] at h
      split
      · rename_i hc
        rw [if_pos hc] at h
        split
        · rename_i hd
          rw [if_pos hd] at h
          exact h
        · rename_i hd
          rw [if_neg hd] at h
          exact ih ys h
      · rename_i hc
        rw [if_neg hc] at h
        exact ih ys h

theorem findOpen_append_some {xs : List (Nat × Nat)} :
    ∀ {d : Nat} {r : Nat × Nat} (ys : List (Nat × Nat)),
      findOpen xs d = some r → findOpen (xs ++ ys) d = some r := by
  induction xs with
  | nil => intro d r ys h; simp [findOpen] at h
  | cons x xs ih =>
    intro d r ys h
    obtain ⟨j, w⟩ := x
    simp only [findOpen, List.cons_append] at h ⊢
    split
    · rename_i ho
      rw [if_pos ho] at h
      exact ih ys h
    · rename_i ho
      rw [if_neg ho] at h
      split
      · rename_i hc
        rw [if_pos hc] at h
        split
        · rename_i hd
          rw [if_pos hd] at h
          exact h
        · rename_i hd
          rw [if_neg hd] at h
          exact ih ys h
      · rename_i hc
        rw [if_neg hc] at h
        exact ih ys h

theorem scalar_not_open {t : Nat} (h : isScalarTag t = true) : isOpenTag t = false := by
  simp only [isScalarTag, Bool.or_eq_true, beq_iff_eq] at h
  rcases h with ((rfl | rfl) | rfl) | rfl <;> rfl

theorem scalar_not_close {t : Nat} (h : isScalarTag t = true) : isCloseTag t = false := by
  simp only [isScalarTag, Bool.or_eq_true, beq_iff_eq] at h
  rcases h with ((rfl | rfl) | rfl) | rfl <;> rfl

theorem number_not_open {t : Nat} (h : isNumberTag t = true) : isOpenTag t = false := by
  simp only [isNumberTag, Bool.or_eq_true, beq_iff_eq] at h
  rcases h with rfl | rfl <;> rfl

theorem number_not_close {t : Nat} (h : isNumberTag t = true) : isCloseTag t = false := by
  simp only [isNumberTag, Bool.or_eq_true, beq_iff_eq] at h
  rcases h with rfl | rfl <;> rfl

theorem findClose_plain {j w : Nat} (rest : List (Nat × Nat)) (d : Nat)
    (ho : isOpenTag (tagOf w) = false) (hc : isCloseTag (tagOf w) = false) :
    findClose ((j, w) :: rest) d = findClose rest d := by
  simp [findClose, ho, hc]

theorem findOpen_plain {j w : Nat} (rest : List (Nat × Nat)) (d : Nat)
    (ho : isOpenTag (tagOf w) = false) (hc : isCloseTag (tagOf w) = false) :
    findOpen ((j, w) :: rest) d = findOpen rest d := by
  simp [findOpen, ho, hc]

/-- The forward scan passes over complete values without changing the depth. -/
theorem items_findClose {b : Nat} {ws : List Nat} (h : Items b ws) :
    ∀ (rest : List (Nat × Nat)) (d : Nat),
      findClose (tagWords b ws ++ rest) d = findClose rest d := by
  induction h with
  | nil b => intro rest d; simp [tagWords]
  | scalar b w ws hw _ ih =>
    intro rest d
    rw [tagWords_cons_plain _ (scalar_not_number hw), List.cons_append,
      findClose_plain _ _ (scalar_not_open hw) (scalar_not_close hw), ih]
  | number b w r ws hw _ ih =>
    intro rest d
    rw [tagWords_cons_number _ hw, List.cons_append,
      findClose_plain _ _ (number_not_open hw) (number_not_close hw), ih]
  | container b o c inner ws ho hc hpo hpc hi _ ih1 ih2 =>
    intro rest d
    have hcc := closeOf_close ho
    have hco := closeOf_not_open ho
    rw [← hc] at hcc hco
    rw [items_tagWords_container ws ho hc hi]
    simp only [List.cons_append, List.append_assoc]
    rw [show findClose ((b, o) :: (tagWords (b + 1) inner
        ++ (b + inner.length + 1, c) :: (tagWords (b + inner.length + 2) ws ++ rest))) d
      = findClose (tagWords (b + 1) inner
        ++ (b + inner.length + 1, c) :: (tagWords (b + inner.length + 2) ws ++ rest)) (d + 1)
      from by simp [findClose, ho], ih1]
    rw [show findClose ((b + inner.length + 1, c)
        :: (tagWords (b + inner.length + 2) ws ++ rest)) (d + 1)
      = findClose (tagWords (b + inner.length + 2) ws ++ rest) d
      from by simp [findClose, hco, hcc], ih2]

/-- The backward scan passes over complete values without changing the depth. -/
theorem items_findOpen {b : Nat} {ws : List Nat} (h : Items b ws) :
    ∀ (rest : List (Nat × Nat)) (d : Nat),
      findOpen ((tagWords b ws).reverse ++ rest) d = findOpen rest d := by
  induction h with
  | nil b => intro rest d; simp [tagWords]
  | scalar b w ws hw _ ih =>
    intro rest d
    rw [tagWords_cons_plain _ (scalar_not_number hw), List.reverse_cons, List.append_assoc,
      ih, List.singleton_append,
      findOpen_plain _ _ (scalar_not_open hw) (scalar_not_close hw)]
  | number b w r ws hw _ ih =>
    intro rest d
    rw [tagWords_cons_number _ hw, List.reverse_cons, List.append_assoc,
      ih, List.singleton_append,
      findOpen_plain _ _ (number_not_open hw) (number_not_close hw)]
  | container b o c inner ws ho hc hpo hpc hi _ ih1 ih2 =>
    intro rest d
    have hcc := closeOf_close ho
    rw [← hc] at hcc
    have hoc := open_not_close ho
    rw [items_tagWords_container ws ho hc hi]
    simp only [List.reverse_cons, List.reverse_append, List.append_assoc,
      List.singleton_append, List.cons_append, List.nil_append]
    rw [ih2]
    rw [show findOpen ((b + inner.length + 1, c)
        :: ((tagWords (b + 1) inner).reverse ++ (b, o) :: rest)) d
      = findOpen ((tagWords (b + 1) inner).reverse ++ (b, o) :: rest) (d + 1)
      from by simp [findOpen, hcc], ih1]
    simp [findOpen, hoc, ho]

theorem openLinks_nil (delta : Nat) : OpenLinks delta [] := by
  intro pre i w post h
  simp at h

theorem openLinks_append {delta : Nat} {xs ys : List (Nat × Nat)}
    (hx : OpenLinks delta xs) (hy : OpenLinks delta ys) : OpenLinks delta (xs ++ ys) := by
  intro pre i w post h ho
  rcases List.append_eq_append_iff.mp h with ⟨a, h1, h2⟩ | ⟨c, h1, h2⟩
  · exact hy a i w post h2 ho
  · cases c with
    | nil =>
      simp only [List.nil_append] at h2
      exact hy [] i w post h2.symm ho
    | cons x c' =>
      simp only [List.cons_append, List.cons.injEq] at h2
      obtain ⟨rfl, rfl⟩ := h2
      obtain ⟨j, cw, hf, ht, hp⟩ := hx pre i w c' h1 ho
      exact ⟨j, cw, findClose_append_some ys hf, ht, hp⟩

theorem OpenLinks.cons {delta : Nat} {x : Nat × Nat} {xs : List (Nat × Nat)}
    (hx : isOpenTag (tagOf x.2) = true →
      ∃ j c, findClose xs 0 = some (j, c) ∧ tagOf c = closeOf (tagOf x.2) ∧
        payloadOf x.2 = j + delta)
    (hxs : OpenLinks delta xs) : OpenLinks delta (x :: xs) := by
  intro pre i w post h ho
  cases pre with
  | nil =>
    simp only [List.nil_append, List.cons.injEq] at h
    obtain ⟨rfl, rfl⟩ := h
    exact hx ho
  | cons p pre' =>
    simp only [List.cons_append, List.cons.injEq] at h
    exact hxs pre' i w post h.2 ho

theorem closeLinks_nil : CloseLinks [] := by
  intro pre i w post h
  simp at h

theorem closeLinks_append {xs ys : List (Nat × Nat)}
    (hx : CloseLinks xs) (hy : CloseLinks ys) : CloseLinks (xs ++ ys) := by
  intro pre j c post h hc
  rcases List.append_eq_append_iff.mp h with ⟨a, h1, h2⟩ | ⟨c', h1, h2⟩
  · obtain ⟨i, w, hf, ht, hp, hlt⟩ := hy a j c post h2 hc
    refine ⟨i, w, ?_, ht, hp, hlt⟩
    rw [h1, List.reverse_append]
    exact findOpen_append_some _ hf
  · cases c' with
    | nil =>
      simp only [List.nil_append] at h2
      simp only [List.append_nil] at h1
      obtain ⟨i, w, hf, ht, hp, hlt⟩ := hy [] j c post h2.symm hc
      simp [findOpen] at hf
    | cons x c'' =>
      simp only [List.cons_append, List.cons.injEq] at h2
      obtain ⟨rfl, rfl⟩ := h2
      exact hx pre j c c'' h1 hc

theorem CloseLinks.single {x : Nat × Nat} (h : isCloseTag (tagOf x.2) = false) :
    CloseLinks [x] := by
  intro pre j c post heq hc
  cases pre with
  | nil =>
    simp only [List.nil_append, List.cons.injEq] at heq
    rw [heq.1] at h
    simp only at h
    rw [h] at hc
    exact absurd hc (by simp)
  | cons p pre' =>
    simp only [List.cons_append, List.cons.injEq] at heq
    have := heq.2
    simp at this

/-- A block `xs` followed by a close word whose matching open word the backward scan finds
in `xs`. -/
theorem CloseLinks.snoc {xs : List (Nat × Nat)} {j c : Nat} (hx : CloseLinks xs)
    (hc : ∃ i w, findOpen xs.reverse 0 = some (i, w) ∧ tagOf w = openOf (tagOf c) ∧
      payloadOf c = i ∧ i < j) : CloseLinks (xs ++ [(j, c)]) := by
  intro pre j' c' post h hcl
  rcases List.append_eq_append_iff.mp h with ⟨a, h1, h2⟩ | ⟨c'', h1, h2⟩
  · cases a with
    | nil =>
      simp only [List.nil_append, List.cons.injEq, Prod.mk.injEq] at h2
      obtain ⟨⟨rfl, rfl⟩, -⟩ := h2
      simp only [List.append_nil] at h1
      rw [h1]
      exact hc
    | cons p a' =>
      simp only [List.cons_append, List.cons.injEq] at h2
      have := h2.2
      simp at this
  · cases c'' with
    | nil =>
      simp only [List.nil_append, List.cons.injEq, Prod.mk.injEq] at h2
      obtain ⟨⟨rfl, rfl⟩, -⟩ := h2
      simp only [List.append_nil] at h1
      rw [← h1]
      exact hc
    | cons x c3 =>
      simp only [List.cons_append, List.cons.injEq] at h2
      obtain ⟨rfl, rfl⟩ := h2
      exact hx pre j' c' c3 h1 hcl

/-- Inside complete values every open word points one past its matching close word. -/
theorem items_openLinks {b : Nat} {ws : List Nat} (h : Items b ws) :
    OpenLinks 1 (tagWords b ws) := by
  induction h with
  | nil b => simp [tagWords]; exact openLinks_nil 1
  | scalar b w ws hw _ ih =>
    rw [tagWords_cons_plain _ (scalar_not_number hw)]
    exact OpenLinks.cons (fun ho => by simp [scalar_not_open hw] at ho) ih
  | number b w r ws hw _ ih =>
    rw [tagWords_cons_number _ hw]
    exact OpenLinks.cons (fun ho => by simp [number_not_open hw] at ho) ih
  | container b o c inner ws ho hc hpo hpc hi _ ih1 ih2 =>
    have hcc := closeOf_close ho
    have hco := closeOf_not_open ho
    rw [← hc] at hcc hco
    rw [items_tagWords_container ws ho hc hi, List.cons_append]
    refine OpenLinks.cons (fun _ => ⟨b + inner.length + 1, c, ?_, hc, by simpa using hpo⟩) ?_
    · rw [items_findClose hi]
      simp [findClose, hco, hcc]
    · exact openLinks_append ih1
        (OpenLinks.cons (fun ho' => by simp [hco] at ho') ih2)

theorem tagWords_fst_ge {b : Nat} {ws : List Nat} (h : Items b ws) :
    ∀ x ∈ tagWords b ws, b ≤ x.1 := by
  induction h with
  | nil b => intro x hx; simp [tagWords] at hx
  | scalar b w ws hw _ ih =>
    intro x hx
    rw [tagWords_cons_plain _ (scalar_not_number hw)] at hx
    rcases List.mem_cons.mp hx with rfl | hx
    · exact le_refl _
    · have := ih x hx; omega
  | number b w r ws hw _ ih =>
    intro x hx
    rw [tagWords_cons_number _ hw] at hx
    rcases List.mem_cons.mp hx with rfl | hx
    · exact le_refl _
    · have := ih x hx; omega
  | container b o c inner ws ho hc hpo hpc hi _ ih1 ih2 =>
    intro x hx
    rw [items_tagWords_container ws ho hc hi, List.cons_append] at hx
    rcases List.mem_cons.mp hx with rfl | hx
    · exact le_refl _
    · rcases List.mem_append.mp hx with hx | hx
      · have := ih1 x hx; omega
      · rcases List.mem_cons.mp hx with rfl | hx
        · simp only; omega
        · have := ih2 x hx; omega

/-- Inside complete values every close word points at its matching open word, which comes
before it. -/
theorem items_closeLinks {b : Nat} {ws : List Nat} (h : Items b ws) :
    CloseLinks (tagWords b ws) := by
  induction h with
  | nil b => simp [tagWords]; exact closeLinks_nil
  | scalar b w ws hw _ ih =>
    rw [tagWords_cons_plain _ (scalar_not_number hw)]
    exact @closeLinks_append [(b, w)] _ (CloseLinks.single (scalar_not_close hw)) ih
  | number b w r ws hw _ ih =>
    rw [tagWords_cons_number _ hw]
    exact @closeLinks_append [(b, w)] _ (CloseLinks.single (number_not_close hw)) ih
  | container b o c inner ws ho hc hpo hpc hi _ ih1 ih2 =>
    rw [items_tagWords_container ws ho hc hi]
    have e : (b, o) :: tagWords (b + 1) inner
        ++ (b + inner.length + 1, c) :: tagWords (b + inner.length + 2) ws
        = (([(b, o)] ++ tagWords (b + 1) inner) ++ [(b + inner.length + 1, c)])
          ++ tagWords (b + inner.length + 2) ws := by simp
    rw [e]
    refine closeLinks_append (CloseLinks.snoc
      (closeLinks_append (CloseLinks.single (open_not_close ho)) ih1) ?_) ih2
    refine ⟨b, o, ?_, ?_, hpc, by omega⟩
    · rw [List.reverse_append, items_findOpen hi]
      simp [findOpen, open_not_close ho, ho]
    · rw [hc, openOf_closeOf ho]

/-! ## Roots on the tape -/

theorem items_no_root {b : Nat} {ws : List Nat} (h : Items b ws) :
    ∀ x ∈ tagWords b ws, (tagOf x.2 == 114) = false := by
  induction h with
  | nil b => intro x hx; simp [tagWords] at hx
  | scalar b w ws hw _ ih =>
    intro x hx
    rw [tagWords_cons_plain _ (scalar_not_number hw)] at hx
    rcases List.mem_cons.mp hx with rfl | hx
    · simp only [isScalarTag, Bool.or_eq_true, beq_iff_eq] at hw
      rcases hw with ((h | h) | h) | h <;> simp [h]
    · exact ih x hx
  | number b w r ws hw _ ih =>
    intro x hx
    rw [tagWords_cons_number _ hw] at hx
    rcases List.mem_cons.mp hx with rfl | hx
    · simp only [isNumberTag, Bool.or_eq_true, beq_iff_eq] at hw
      rcases hw with h | h <;> simp [h]
    · exact ih x hx
  | container b o c inner ws ho hc hpo hpc hi _ ih1 ih2 =>
    intro x hx
    rw [items_tagWords_container ws ho hc hi, List.cons_append] at hx
    rcases List.mem_cons.mp hx with rfl | hx
    · rcases open_cases ho with h | h <;> simp [h]
    · rcases List.mem_append.mp hx with hx | hx
      · exact ih1 x hx
      · rcases List.mem_cons.mp hx with rfl | hx
        · simp only
          rw [hc]
          rcases open_cases ho with h | h <;> simp [h, closeOf]
        · exact ih2 x hx

theorem root_not_number {w : Nat} (h : tagOf w = 114) : isNumberTag (tagOf w) = false := by
  rw [h]; rfl

theorem roots_tagWords {b h f : Nat} {inner : List Nat} (rest : List Nat)
    (hh : tagOf h = 114) (hf : tagOf f = 114) (hi : Items (b + 1) inner) :
    tagWords b (h :: inner ++ f :: rest)
      = (b, h) :: tagWords (b + 1) inner
        ++ (b + inner.length + 1, f) :: tagWords (b + inner.length + 2) rest := by
  rw [List.cons_append, tagWords_cons_plain _ (root_not_number hh),
    items_tagWords_append' hi (f :: rest) (b + inner.length + 1) (by omega),
    tagWords_cons_plain _ (root_not_number hf)]
  rfl

theorem root_not_open {w : Nat} (h : tagOf w = 114) : isOpenTag (tagOf w) = false := by
  rw [h]; rfl

theorem root_not_close {w : Nat} (h : tagOf w = 114) : isCloseTag (tagOf w) = false := by
  rw [h]; rfl

theorem roots_openLinks {b : Nat} {seg : List Nat} (h : Roots b seg) :
    OpenLinks 1 (tagWords b seg) := by
  induction h with
  | nil b => simp [tagWords]; exact openLinks_nil 1
  | cons b h f inner rest hh hf hph hpf hi _ _ ih =>
    rw [roots_tagWords rest hh hf hi, List.cons_append]
    exact OpenLinks.cons (fun ho => by simp [root_not_open hh] at ho)
      (openLinks_append (items_openLinks hi)
        (OpenLinks.cons (fun ho => by simp [root_not_open hf] at ho) ih))

theorem roots_closeLinks {b : Nat} {seg : List Nat} (h : Roots b seg) :
    CloseLinks (tagWords b seg) := by
  induction h with
  | nil b => simp [tagWords]; exact closeLinks_nil
  | cons b h f inner rest hh hf hph hpf hi _ _ ih =>
    rw [roots_tagWords rest hh hf hi]
    have e : (b, h) :: tagWords (b + 1) inner
        ++ (b + inner.length + 1, f) :: tagWords (b + inner.length + 2) rest
        = ([(b, h)] ++ tagWords (b + 1) inner)
          ++ ([(b + inner.length + 1, f)] ++ tagWords (b + inner.length + 2) rest) := by simp
    rw [e]
    exact closeLinks_append
      (closeLinks_append (CloseLinks.single (root_not_close hh)) (items_closeLinks hi))
      (closeLinks_append (CloseLinks.single (root_not_close hf)) ih)

theorem countTag_nil (t : Nat) : countTag t [] = 0 := rfl

theorem countTag_cons (t : Nat) (x : Nat × Nat) (xs : List (Nat × Nat)) :
    countTag t (x :: xs) = countTag t xs + (if tagOf x.2 = t then 1 else 0) := by
  simp [countTag, List.countP_cons]

theorem countTag_append (t : Nat) (xs ys : List (Nat × Nat)) :
    countTag t (xs ++ ys) = countTag t xs + countTag t ys := by
  simp [countTag, List.countP_append]

theorem countTag_zero {t : Nat} {xs : List (Nat × Nat)}
    (h : ∀ x ∈ xs, (tagOf x.2 == t) = false) : countTag t xs = 0 := by
  unfold countTag
  rw [List.countP_eq_zero]
  intro x hx
  simp [h x hx]

theorem nextRoot_append_of_none {xs : List (Nat × Nat)} (ys : List (Nat × Nat))
    (h : ∀ x ∈ xs, (tagOf x.2 == 114) = false) : nextRoot (xs ++ ys) = nextRoot ys := by
  induction xs with
  | nil => rfl
  | cons x xs ih =>
    simp only [nextRoot, List.cons_append, List.find?_cons]
    rw [h x (List.mem_cons_self _ _)]
    exact ih (fun y hy => h y (List.mem_cons_of_mem _ hy))

/-- Complete values hold as many `{` as `}` words and as many `[` as `]` words. -/
theorem items_counts {b : Nat} {ws : List Nat} (h : Items b ws) :
    countTag 123 (tagWords b ws) = countTag 125 (tagWords b ws) ∧
      countTag 91 (tagWords b ws) = countTag 93 (tagWords b ws) := by
  induction h with
  | nil b => simp [tagWords, countTag]
  | scalar b w ws hw _ ih =>
    rw [tagWords_cons_plain _ (scalar_not_number hw)]
    simp only [countTag_cons]
    simp only [isScalarTag, Bool.or_eq_true, beq_iff_eq] at hw
    rcases hw with ((h | h) | h) | h <;> simp [h, ih.1, ih.2]
  | number b w r ws hw _ ih =>
    rw [tagWords_cons_number _ hw]
    simp only [countTag_cons]
    simp only [isNumberTag, Bool.or_eq_true, beq_iff_eq] at hw
    rcases hw with h | h <;> simp [h, ih.1, ih.2]
  | container b o c inner ws ho hc hpo hpc hi _ ih1 ih2 =>
    rw [items_tagWords_container ws ho hc hi]
    simp only [List.cons_append, countTag_cons, countTag_append]
    rcases open_cases ho with h | h
    · rw [h] at hc
      simp only [closeOf, ↓reduceIte] at hc
      simp [h, hc, ih1.1, ih1.2, ih2.1, ih2.2]
      omega
    · rw [h] at hc
      simp only [closeOf] at hc
      simp [h, hc, ih1.1, ih1.2, ih2.1, ih2.2]
      omega

theorem roots_counts {b : Nat} {seg : List Nat} (h : Roots b seg) :
    countTag 123 (tagWords b seg) = countTag 125 (tagWords b seg) ∧
      countTag 91 (tagWords b seg) = countTag 93 (tagWords b seg) := by
  induction h with
  | nil b => simp [tagWords, countTag]
  | cons b h f inner rest hh hf hph hpf hi _ _ ih =>
    rw [roots_tagWords rest hh hf hi]
    simp only [List.cons_append, countTag_cons, countTag_append]
    have := items_counts hi
    simp [hh, hf, this.1, this.2, ih.1, ih.2]

theorem roots_rootLinks {b : Nat} {seg : List Nat} (h : Roots b seg) :
    RootLinks 1 (tagWords b seg) := by
  induction h with
  | nil b =>
    intro pre i w post h
    simp [tagWords] at h
  | cons b h f inner rest hh hf hph hpf hi _ _ ih =>
    rw [roots_tagWords rest hh hf hi]
    have hno := items_no_root hi
    intro pre i w post heq hw hev
    cases pre with
    | nil =>
      simp only [List.nil_append, List.cons_append, List.cons.injEq, Prod.mk.injEq] at heq
      obtain ⟨⟨rfl, rfl⟩, rfl⟩ := heq
      refine ⟨b + inner.length + 1, f, ?_, hpf, by simpa using hph⟩
      rw [nextRoot_append_of_none _ hno]
      simp [nextRoot, hf]
    | cons p pre' =>
      simp only [List.cons_append, List.cons.injEq] at heq
      obtain ⟨rfl, heq⟩ := heq
      rw [countTag_cons] at hev
      simp only [hh, ↓reduceIte] at hev
      have hz := countTag_zero hno
      rcases List.append_eq_append_iff.mp heq.symm with ⟨a, h1, h2⟩ | ⟨c', h1, h2⟩
      · cases a with
        | nil =>
          simp only [List.append_nil] at h1
          rw [← h1, hz] at hev
          simp at hev
        | cons x a' =>
          simp only [List.cons_append, List.cons.injEq] at h2
          have hmem : (i, w) ∈ tagWords (b + 1) inner := by
            rw [h1, h2.1]; simp
          have := hno (i, w) hmem
          simp [hw] at this
      · cases c' with
        | nil =>
          simp only [List.append_nil] at h1
          rw [h1, hz] at hev
          simp at hev
        | cons x c'' =>
          simp only [List.cons_append, List.cons.injEq] at h2
          obtain ⟨rfl, h2⟩ := h2
          rw [h1, countTag_append, hz, countTag_cons] at hev
          simp only [hf, ↓reduceIte] at hev
          exact ih c'' i w post h2 hw (by omega)

/-! ## Reading along known structural bytes -/

theorem tokens_cons_adv {buf : List Byte} {m : Machine} {t : Nat × Nat}
    {ts : List (Nat × Nat)} (h : m.tokens buf = t :: ts) :
    ∃ m1, Adv buf m m1 ∧ (m1.idx, m1.c) = t ∧ m1.tokens buf = ts := by
  cases ha : m.advance buf with
  | none =>
    unfold Machine.advance at ha
    split at ha
    · rename_i hu
      simp only [Machine.tokens] at h
      cases hp : pending m.indexCh m.pj.index_chan <;> rw [hp] at h <;>
        simp [tokensAux, hu] at h
    · exact absurd ha (by simp)
  | some m1 =>
    cases hd : m1.done with
    | true =>
      rw [(advance_done ha hd).2.2] at h
      exact absurd h (by simp)
    | false =>
      have := (advance_read ha hd).2.1
      rw [this] at h
      simp only [List.cons.injEq] at h
      exact ⟨m1, ⟨ha, hd⟩, h.1, h.2⟩

theorem tokens_nil_done {buf : List Byte} {m : Machine} (h : m.tokens buf = [])
    (hc : m.closes buf = true) : ∃ m1, AdvDone buf m m1 := by
  cases ha : m.advance buf with
  | none =>
    rw [advance_none_closes ha] at hc
    exact absurd hc (by simp)
  | some m1 =>
    cases hd : m1.done with
    | true => exact ⟨m1, ha, hd⟩
    | false =>
      rw [(advance_read ha hd).2.1] at h
      exact absurd h (by simp)

theorem adv_of_tokens {buf : List Byte} {m : Machine} {t : Nat × Nat}
    {ts rest : List (Nat × Nat)} (h : m.tokens buf = (t :: ts) ++ rest) :
    ∃ m1, Adv buf m m1 ∧ (m1.idx, m1.c) = t ∧ m1.tokens buf = ts ++ rest :=
  tokens_cons_adv (by simpa using h)

/-! ## Composing runs -/

theorem Fwd.refl (L : Leaves) (buf : List Byte) (l : Label) (m : Machine) :
    Fwd L buf l m [] l m :=
  ⟨⟨0, fun _ => rfl⟩, rfl, le_refl _, rfl, rfl⟩

theorem Fwd.trans {L : Leaves} {buf : List Byte} {l1 l2 l3 : Label} {m1 m2 m3 : Machine}
    {ts1 ts2 : List (Nat × Nat)}
    (h1 : Fwd L buf l1 m1 ts1 l2 m2) (h2 : Fwd L buf l2 m2 ts2 l3 m3) :
    Fwd L buf l1 m1 (ts1 ++ ts2) l3 m3 := by
  obtain ⟨⟨j1, a1⟩, a2, a3, a4, a5⟩ := h1
  obtain ⟨⟨j2, b1⟩, b2, b3, b4, b5⟩ := h2
  refine ⟨⟨j2 + j1, fun k => ?_⟩, b2.trans a2, le_trans a3 b3, b4.trans a4, ?_⟩
  · rw [← Nat.add_assoc, a1, b1]
  · rw [a5, b5, List.append_assoc]

/-- One jump that reads the structural bytes `ts`. -/
theorem Fwd.of_step {L : Leaves} {buf : List Byte} {l l' : Label} {m m' : Machine}
    {ts : List (Nat × Nat)} (h : step L buf l m = .goto l' m')
    (hs : m'.pj.containing_scope_offset = m.pj.containing_scope_offset)
    (hT : m.pj.Tape.length ≤ m'.pj.Tape.length) (hc : m'.closes buf = m.closes buf)
    (ht : m.tokens buf = ts ++ m'.tokens buf) : Fwd L buf l m ts l' m' :=
  ⟨⟨1, fun k => by rw [run_succ, h]; rfl⟩, hs, hT, hc, ht⟩

theorem adv_facts {buf : List Byte} {m m1 : Machine} (h : Adv buf m m1) :
    m1.pj.containing_scope_offset = m.pj.containing_scope_offset ∧
      m1.pj.Tape = m.pj.Tape ∧ m1.closes buf = m.closes buf ∧
      m.tokens buf = (m1.idx, m1.c) :: m1.tokens buf := by
  obtain ⟨-, h2, h3, -⟩ := advance_read h.1 h.2
  exact ⟨(adv_frame h.1).1, (adv_frame h.1).2, h3.symm, h2⟩

theorem scalar_facts {L : Leaves} {buf : List Byte} {m m' : Machine}
    (h : ScalarStep L buf m m') :
    m'.pj.containing_scope_offset = m.pj.containing_scope_offset ∧
      m.pj.Tape.length ≤ m'.pj.Tape.length ∧ m'.closes buf = m.closes buf ∧
      m'.tokens buf = m.tokens buf := by
  obtain ⟨-, hss, h3, -, ws, hT, -⟩ := h
  exact ⟨h3, by rw [hT]; simp, closes_congr hss, tokens_congr hss⟩

/-! ## Steps along known structural bytes -/

theorem step_close {L : Leaves} {buf : List Byte} {l : Label} {m m1 : Machine} {c : Nat}
    (hl : l.closer = some c) (ha : Adv buf m m1) (hc : m1.c = c) :
    step L buf l m = .goto .scope_end m1 := by
  obtain ⟨h1, h2⟩ := ha
  cases l <;> simp [Label.closer] at hl <;> subst hl <;> simp [step, h1, h2, hc]

theorem step_key {L : Leaves} {buf : List Byte} {m m1 : Machine}
    (ha : Adv buf m m1) (hc : m1.c = 34) :
    step L buf .object_begin m = .goto .object_key_state (m1.parse_string L buf).2 := by
  obtain ⟨h1, h2⟩ := ha
  simp [step, h1, h2, hc, Machine.parse_string, Simdjson.parse_string]

theorem step_next_key {L : Leaves} {buf : List Byte} {m m1 m2 : Machine}
    (ha : Adv buf m m1) (hc : m1.c = 44) (ha2 : Adv buf m1 m2) (hc2 : m2.c = 34) :
    step L buf .object_continue m = .goto .object_key_state (m2.parse_string L buf).2 := by
  obtain ⟨h1, h2⟩ := ha
  obtain ⟨h3, h4⟩ := ha2
  simp [step, h1, h2, hc, h3, h4, hc2, Machine.parse_string, Simdjson.parse_string]

theorem step_member_value {L : Leaves} {buf : List Byte} {m m1 m2 : Machine}
    (ha : Adv buf m m1) (hc : m1.c = 58) (ha2 : Adv buf m1 m2) :
    step L buf .object_key_state m
      = value_switch L buf RET_ADDRESS_OBJECT_CONST .object_continue m2 := by
  obtain ⟨h1, h2⟩ := ha
  obtain ⟨h3, h4⟩ := ha2
  rw [step_object_key_state]
  simp [h1, h2, hc, h3, h4]

theorem step_first_element {L : Leaves} {buf : List Byte} {m m1 : Machine}
    (ha : Adv buf m m1) (hc : m1.c ≠ 93) :
    step L buf .array_begin m = .goto .main_array_switch m1 := by
  obtain ⟨h1, h2⟩ := ha
  simp [step, h1, h2, hc]

theorem step_next_element {L : Leaves} {buf : List Byte} {m m1 m2 : Machine}
    (ha : Adv buf m m1) (hc : m1.c = 44) (ha2 : Adv buf m1 m2) :
    step L buf .array_continue m = .goto .main_array_switch m2 := by
  obtain ⟨h1, h2⟩ := ha
  obtain ⟨h3, h4⟩ := ha2
  simp [step, h1, h2, hc, h3, h4]

theorem machine_parse_number_ok {L : Leaves} {buf : List Byte} {m : Machine} {neg : Bool}
    (h : numberOK L buf m.idx neg = true) :
    ∃ m', m.parse_number L buf neg = some (true, m') := by
  unfold numberOK at h
  split at h
  · rename_i r hr
    obtain ⟨ok, dbl, d, i⟩ := r
    simp only at h
    subst h
    unfold Machine.parse_number parse_number
    rw [hr]
    cases dbl <;> simp
  · exact absurd h (by simp)

theorem value_switch_scalar {L : Leaves} {buf : List Byte} (rc : Nat) (cont : Label)
    {m : Machine} (h : scalarOK L buf (m.idx, m.c)) :
    ∃ m', value_switch L buf rc cont m = .goto cont m' ∧ ScalarStep L buf m m' := by
  rcases h with hc | ⟨hc, hv⟩ | ⟨hc, hv⟩ | ⟨hc, hv⟩ | ⟨hc, hv⟩ | ⟨hc, hv⟩
  · simp only at hc
    refine ⟨(m.parse_string L buf).2, ?_, (parse_string_step L buf m hc).2⟩
    simp [value_switch, hc, Machine.parse_string, Simdjson.parse_string]
  · simp only at hc hv
    refine ⟨m.write_tape 0 m.c, ?_, write_tape_step L buf m (Or.inr (Or.inl ⟨hc, hv⟩))
      (Or.inl hc)⟩
    simp [value_switch, hc, hv]
  · simp only at hc hv
    refine ⟨m.write_tape 0 m.c, ?_, write_tape_step L buf m
      (Or.inr (Or.inr (Or.inl ⟨hc, hv⟩))) (Or.inr (Or.inl hc))⟩
    simp [value_switch, hc, hv]
  · simp only at hc hv
    refine ⟨m.write_tape 0 m.c, ?_, write_tape_step L buf m
      (Or.inr (Or.inr (Or.inr (Or.inl ⟨hc, hv⟩)))) (Or.inr (Or.inr hc))⟩
    simp [value_switch, hc, hv]
  · simp only at hc hv
    obtain ⟨m', hm'⟩ := machine_parse_number_ok hv
    refine ⟨m', ?_, parse_number_step hm' rfl (by simpa using hc)⟩
    have h1 : m.c ≠ 34 := by omega
    have h2 : m.c ≠ 116 := by omega
    have h3 : m.c ≠ 102 := by omega
    have h4 : m.c ≠ 110 := by omega
    simp [value_switch, h1, h2, h3, h4, hc, hm']
  · simp only at hc hv
    obtain ⟨m', hm'⟩ := machine_parse_number_ok hv
    refine ⟨m', ?_, parse_number_step hm' rfl (by simpa using hc)⟩
    simp [value_switch, hc, hm']

theorem value_switch_open {L : Leaves} {buf : List Byte} (rc : Nat) (cont : Label)
    {m : Machine} (hc : m.c = 123 ∨ m.c = 91) :
    value_switch L buf rc cont m
      = .goto (if m.c = 123 then .object_begin else .array_begin) (m.open_scope rc m.c) := by
  rcases hc with hc | hc <;> simp [value_switch, hc]

/-- The step at `scope_end` when the top scope entry records an index on the tape. -/
theorem step_scope_end {L : Leaves} {buf : List Byte} {m : Machine} {s : List Nat} {e : Nat}
    (hst : m.pj.containing_scope_offset = s ++ [e]) (hlt : e >>> 2 < m.pj.Tape.length + 1) :
    ∃ m', step L buf .scope_end m = .goto (retLabel e) m' ∧
      m'.pj.containing_scope_offset = s ∧ m'.pj.Tape.length = m.pj.Tape.length + 1 ∧
      SameStream m m' := by
  have hs := step_spec L buf .scope_end m
  generalize hn : step L buf .scope_end m = nx at hs
  cases hs with
  | failed _ _ _ h1 h2 h3 _ => exact absurd rfl h3
  | read_panic _ _ hl _ => simp [Label.reads] at hl
  | read_done _ _ _ hl _ => simp [Label.reads] at hl
  | read2_panic _ _ _ _ hl => simp [Label.second] at hl
  | read2_done _ _ _ _ _ hl => simp [Label.second] at hl
  | close _ _ _ _ hl => simp [Label.closer] at hl
  | scope _ m' e' hp =>
    obtain ⟨p1, ⟨w, p2, p3⟩, p4, p5, p6, p7⟩ := hp
    rw [hst, List.getLast?_concat] at p1
    cases Option.some.inj p1
    exact ⟨m', rfl, by rw [p4, hst, List.dropLast_concat], by rw [p3]; simp, p6⟩
  | scope_panic _ hno =>
    exfalso
    rcases hno with h | ⟨e', he, hle⟩
    · rw [hst, List.getLast?_concat] at h
      exact absurd h (by simp)
    · rw [hst, List.getLast?_concat] at he
      cases Option.some.inj he
      omega

theorem Fwd.of_adv_close {L : Leaves} {buf : List Byte} {l : Label} {m m1 : Machine} {c : Nat}
    (hl : l.closer = some c) (ha : Adv buf m m1) (hc : m1.c = c) :
    Fwd L buf l m [(m1.idx, m1.c)] .scope_end m1 := by
  obtain ⟨f1, f2, f3, f4⟩ := adv_facts ha
  exact Fwd.of_step (step_close hl ha hc) f1 (by rw [f2]) f3 (by rw [f4]; rfl)

/-! ## Forward simulation along the grammar -/

theorem fwd_tokens {L : Leaves} {buf : List Byte} {l l' : Label} {m m' : Machine}
    {ts rest : List (Nat × Nat)} (h : Fwd L buf l m ts l' m')
    (ht : m.tokens buf = ts ++ rest) : m'.tokens buf = rest := by
  have := h.2.2.2.2
  rw [ht] at this
  exact (List.append_cancel_left this).symm

theorem fwdValue_tokens {L : Leaves} {buf : List Byte} {rc : Nat} {cont : Label}
    {m m' : Machine} {ts rest : List (Nat × Nat)} (h : FwdValue L buf rc cont m ts m')
    (ht : m.tokens buf = ts ++ rest) : m'.tokens buf = rest := by
  have := h.2.2.2.2
  rw [ht] at this
  exact (List.append_cancel_left this).symm

theorem fwd_of_value_arr {L : Leaves} {buf : List Byte} {m m3 : Machine}
    {ts : List (Nat × Nat)}
    (h : FwdValue L buf RET_ADDRESS_ARRAY_CONST .array_continue m ts m3) :
    Fwd L buf .main_array_switch m ts .array_continue m3 := by
  obtain ⟨⟨j, hj⟩, h2, h3, h4, h5⟩ := h
  refine ⟨⟨j + 1, fun k => ?_⟩, h2, h3, h4, h5⟩
  rw [← Nat.add_assoc, run_succ, step_main_array_switch, hj]

theorem fwd_of_value_obj {L : Leaves} {buf : List Byte} {m m1 m2 m3 : Machine}
    {ts : List (Nat × Nat)} (ha : Adv buf m m1) (hc : m1.c = 58) (ha2 : Adv buf m1 m2)
    (h : FwdValue L buf RET_ADDRESS_OBJECT_CONST .object_continue m2 ts m3) :
    Fwd L buf .object_key_state m ((m1.idx, m1.c) :: (m2.idx, m2.c) :: ts)
      .object_continue m3 := by
  obtain ⟨⟨j, hj⟩, h2, h3, h4, h5⟩ := h
  obtain ⟨f1, f2, f3, f4⟩ := adv_facts ha
  obtain ⟨g1, g2, g3, g4⟩ := adv_facts ha2
  refine ⟨⟨j + 1, fun k => ?_⟩, ?_, ?_, ?_, ?_⟩
  · rw [← Nat.add_assoc, run_succ, step_member_value ha hc ha2, hj]
  · rw [h2, g1, f1]
  · rw [← f2, ← g2]; exact h3
  · rw [h4, g3, f3]
  · rw [f4, g4, h5]; rfl

theorem fwd_key {L : Leaves} {buf : List Byte} {m m1 : Machine}
    (ha : Adv buf m m1) (hc : m1.c = 34) :
    Fwd L buf .object_begin m [(m1.idx, m1.c)] .object_key_state
      (m1.parse_string L buf).2 := by
  obtain ⟨f1, f2, f3, f4⟩ := adv_facts ha
  obtain ⟨s1, s2, s3, s4⟩ := scalar_facts (parse_string_step L buf m1 hc).2
  exact Fwd.of_step (step_key ha hc) (s1.trans f1) (by rw [← f2]; exact s2) (s3.trans f3)
    (by rw [f4, s4]; rfl)

theorem fwd_next_key {L : Leaves} {buf : List Byte} {m m1 m2 : Machine}
    (ha : Adv buf m m1) (hc : m1.c = 44) (ha2 : Adv buf m1 m2) (hc2 : m2.c = 34) :
    Fwd L buf .object_continue m [(m1.idx, m1.c), (m2.idx, m2.c)] .object_key_state
      (m2.parse_string L buf).2 := by
  obtain ⟨f1, f2, f3, f4⟩ := adv_facts ha
  obtain ⟨g1, g2, g3, g4⟩ := adv_facts ha2
  obtain ⟨s1, s2, s3, s4⟩ := scalar_facts (parse_string_step L buf m2 hc2).2
  exact Fwd.of_step (step_next_key ha hc ha2 hc2) (s1.trans (g1.trans f1))
    (by rw [← f2, ← g2]; exact s2) (s3.trans (g3.trans f3)) (by rw [f4, g4, s4]; rfl)

theorem fwd_first_element {L : Leaves} {buf : List Byte} {m m1 : Machine}
    (ha : Adv buf m m1) (hc : m1.c ≠ 93) :
    Fwd L buf .array_begin m [(m1.idx, m1.c)] .main_array_switch m1 := by
  obtain ⟨f1, f2, f3, f4⟩ := adv_facts ha
  exact Fwd.of_step (step_first_element ha hc) f1 (by rw [f2]) f3 (by rw [f4]; rfl)

theorem fwd_next_element {L : Leaves} {buf : List Byte} {m m1 m2 : Machine}
    (ha : Adv buf m m1) (hc : m1.c = 44) (ha2 : Adv buf m1 m2) :
    Fwd L buf .array_continue m [(m1.idx, m1.c), (m2.idx, m2.c)] .main_array_switch m2 := by
  obtain ⟨f1, f2, f3, f4⟩ := adv_facts ha
  obtain ⟨g1, g2, g3, g4⟩ := adv_facts ha2
  exact Fwd.of_step (step_next_element ha hc ha2) (g1.trans f1) (by rw [← f2, ← g2])
    (g3.trans f3) (by rw [f4, g4]; rfl)

/-- A container as a value: the value switch opens it, the run passes its content up to the
close byte, and `scope_end` gets back to the label after the value. -/
theorem fwdValue_of_container {L : Leaves} {buf : List Byte} {rc : Nat} {cont : Label}
    {m mb : Machine} {ts : List (Nat × Nat)}
    (hrc : (rc = 2 ∧ cont = .object_continue) ∨ (rc = 3 ∧ cont = .array_continue) ∨
      (rc = 1 ∧ cont = .start_continue))
    (hc : m.c = 123 ∨ m.c = 91)
    (h : Fwd L buf (if m.c = 123 then .object_begin else .array_begin)
      (m.open_scope rc m.c) ts .scope_end mb) :
    ∃ m', FwdValue L buf rc cont m ts m' := by
  obtain ⟨⟨j, hj⟩, h2, h3, h4, h5⟩ := h
  have hrc4 : rc < 4 := by rcases hrc with ⟨rfl, -⟩ | ⟨rfl, -⟩ | ⟨rfl, -⟩ <;> norm_num
  have hst : mb.pj.containing_scope_offset = m.pj.containing_scope_offset
      ++ [(m.pj.Tape.length <<< RET_ADDRESS_SHIFT) % 2 ^ 64 ||| rc] := by
    rw [h2]; rfl
  have hT3 : (m.open_scope rc m.c).pj.Tape.length = m.pj.Tape.length + 1 := by
    simp [Machine.open_scope, ParsedJson.write_tape]
  have hlt : ((m.pj.Tape.length <<< RET_ADDRESS_SHIFT) % 2 ^ 64 ||| rc) >>> 2
      < mb.pj.Tape.length + 1 := by
    rw [entry_index _ _ hrc4]
    have := Nat.mod_le m.pj.Tape.length (2 ^ 62)
    omega
  obtain ⟨m', hstep, hs', hT', hss⟩ := @step_scope_end L buf _ _ _ hst hlt
  have hlab : retLabel ((m.pj.Tape.length <<< RET_ADDRESS_SHIFT) % 2 ^ 64 ||| rc) = cont := by
    rw [retLabel_entry _ _ hrc4]
    rcases hrc with ⟨rfl, rfl⟩ | ⟨rfl, rfl⟩ | ⟨rfl, rfl⟩ <;> rfl
  rw [hlab] at hstep
  refine ⟨m', ⟨j + 1, fun k => ?_⟩, hs', by omega, ?_, ?_⟩
  · rw [value_switch_open rc cont hc]
    show run L buf (k + (j + 1)) _ _ = _
    have hk : k + (j + 1) = (k + 1) + j := by omega
    rw [hk, hj, run_succ, hstep]
    rfl
  · rw [closes_congr hss, h4]
    exact closes_congr (sameStream_open_scope m rc m.c)
  · rw [tokens_congr hss, ← h5]
    exact (tokens_congr (sameStream_open_scope m rc m.c)).symm

theorem gram_value_head {sc : Nat × Nat → Prop} {v : List (Nat × Nat)}
    (h : Gram sc .value v) : ∃ t v', v = t :: v' ∧ (sc t ∨ t.2 = 123 ∨ t.2 = 91) := by
  cases h with
  | scalar t ht => exact ⟨t, [], rfl, Or.inl ht⟩
  | emptyObject a b ha hb => exact ⟨a, [b], rfl, Or.inr (Or.inl ha)⟩
  | object a ms b ha hms hb => exact ⟨a, ms ++ [b], rfl, Or.inr (Or.inl ha)⟩
  | emptyArray a b ha hb => exact ⟨a, [b], rfl, Or.inr (Or.inr ha)⟩
  | array a es b ha hes hb => exact ⟨a, es ++ [b], rfl, Or.inr (Or.inr ha)⟩

theorem gram_members_head {sc : Nat × Nat → Prop} {ms : List (Nat × Nat)}
    (h : Gram sc .members ms) : ∃ k ms', ms = k :: ms' ∧ k.2 = 34 := by
  cases h with
  | member k c v hk hc hv => exact ⟨k, c :: v, rfl, hk⟩
  | memberCons k c v d rest hk hc hv hd hr => exact ⟨k, c :: v ++ d :: rest, rfl, hk⟩

theorem gram_elements_head {sc : Nat × Nat → Prop} {es : List (Nat × Nat)}
    (h : Gram sc .elements es) : ∃ t es', es = t :: es' ∧ (sc t ∨ t.2 = 123 ∨ t.2 = 91) := by
  cases h with
  | element v hv => exact gram_value_head hv
  | elementCons v d rest hv hd hr =>
    obtain ⟨t, v', rfl, ht⟩ := gram_value_head hv
    exact ⟨t, v' ++ d :: rest, rfl, ht⟩

theorem value_start_ne_close {L : Leaves} {buf : List Byte} {t : Nat × Nat}
    (h : scalarOK L buf t ∨ t.2 = 123 ∨ t.2 = 91) : t.2 ≠ 93 := by
  rcases h with (h | ⟨h, -⟩ | ⟨h, -⟩ | ⟨h, -⟩ | ⟨h, -⟩ | ⟨h, -⟩) | h | h <;> omega

/-- The automaton passes every derivation of the grammar whose scalars the leaf routines
accept. -/
theorem gram_forward (L : Leaves) (buf : List Byte) {sym : Sym} {ts : List (Nat × Nat)}
    (h : Gram (scalarOK L buf) sym ts) : FwdGoal L buf sym ts := by
  induction h with
  | scalar t ht =>
    intro rc cont m ts' hrc heq hrest
    cases heq
    obtain ⟨m', hv, hs⟩ := value_switch_scalar rc cont ht
    obtain ⟨s1, s2, s3, s4⟩ := scalar_facts hs
    exact ⟨m', ⟨0, fun k => by rw [hv]; rfl⟩, s1, s2, s3, by rw [s4]; rfl⟩
  | emptyObject a b ha hb =>
    intro rc cont m ts' hrc heq hrest
    cases heq
    obtain ⟨rest, htok⟩ := hrest
    have hc : m.c = 123 := ha
    have ht3 : (m.open_scope rc m.c).tokens buf = [b] ++ rest := by
      rw [tokens_congr (sameStream_open_scope m rc m.c)]; exact htok
    obtain ⟨mb, hadv, hb1, -⟩ := adv_of_tokens ht3
    have hbc : mb.c = 125 := by rw [← hb1] at hb; exact hb
    have hf : Fwd L buf .object_begin (m.open_scope rc m.c) [(mb.idx, mb.c)] .scope_end mb :=
      Fwd.of_adv_close rfl hadv hbc
    rw [hb1] at hf
    exact fwdValue_of_container hrc (Or.inl hc) (by rw [if_pos hc]; exact hf)
  | object a ms b ha hms hb ih =>
    intro rc cont m ts' hrc heq hrest
    cases heq
    obtain ⟨rest, htok⟩ := hrest
    have hc : m.c = 123 := ha
    obtain ⟨k, ms', rfl, hk⟩ := gram_members_head hms
    have ht3 : (m.open_scope rc m.c).tokens buf = (k :: ms') ++ ([b] ++ rest) := by
      rw [tokens_congr (sameStream_open_scope m rc m.c), htok]; simp
    obtain ⟨m4, hadv, h41, h42⟩ := adv_of_tokens ht3
    have h4c : m4.c = 34 := by rw [← h41] at hk; exact hk
    have hf1 := fwd_key (L := L) hadv h4c
    have ht5 : (m4.parse_string L buf).2.tokens buf = ms' ++ ([b] ++ rest) :=
      fwd_tokens hf1 (by rw [ht3, h41]; rfl)
    obtain ⟨mb, hf2, -⟩ := ih (m4.parse_string L buf).2 k ms' b rfl hb ⟨rest, ht5⟩
    have hf := hf1.trans hf2
    rw [h41] at hf
    exact fwdValue_of_container hrc (Or.inl hc) (by rw [if_pos hc]; exact hf)
  | emptyArray a b ha hb =>
    intro rc cont m ts' hrc heq hrest
    cases heq
    obtain ⟨rest, htok⟩ := hrest
    have hc : m.c = 91 := ha
    have hne : ¬ m.c = 123 := by omega
    have ht3 : (m.open_scope rc m.c).tokens buf = [b] ++ rest := by
      rw [tokens_congr (sameStream_open_scope m rc m.c)]; exact htok
    obtain ⟨mb, hadv, hb1, -⟩ := adv_of_tokens ht3
    have hbc : mb.c = 93 := by rw [← hb1] at hb; exact hb
    have hf : Fwd L buf .array_begin (m.open_scope rc m.c) [(mb.idx, mb.c)] .scope_end mb :=
      Fwd.of_adv_close rfl hadv hbc
    rw [hb1] at hf
    exact fwdValue_of_container hrc (Or.inr hc) (by rw [if_neg hne]; exact hf)
  | array a es b ha hes hb ih =>
    intro rc cont m ts' hrc heq hrest
    cases heq
    obtain ⟨rest, htok⟩ := hrest
    have hc : m.c = 91 := ha
    have hne : ¬ m.c = 123 := by omega
    obtain ⟨t, es', rfl, ht⟩ := gram_elements_head hes
    have ht3 : (m.open_scope rc m.c).tokens buf = (t :: es') ++ ([b] ++ rest) := by
      rw [tokens_congr (sameStream_open_scope m rc m.c), htok]; simp
    obtain ⟨m4, hadv, h41, h42⟩ := adv_of_tokens ht3
    have h4c : m4.c ≠ 93 := by
      have := value_start_ne_close ht
      rw [← h41] at this; exact this
    have hf1 := fwd_first_element (L := L) hadv h4c
    obtain ⟨mb, hf2, -⟩ := ih m4 es' b (by rw [h41]) hb ⟨rest, h42⟩
    have hf := hf1.trans hf2
    rw [h41] at hf
    exact fwdValue_of_container hrc (Or.inr hc) (by rw [if_neg hne]; exact hf)
  | member k c v hk hc hv ih =>
    intro m k0 ts' b heq hb hrest
    cases heq
    obtain ⟨rest, htok⟩ := hrest
    obtain ⟨t, v', rfl, -⟩ := gram_value_head hv
    obtain ⟨m1, ha1, h11, h12⟩ := adv_of_tokens htok
    obtain ⟨m2, ha2, h21, h22⟩ := adv_of_tokens h12
    have h1c : m1.c = 58 := by rw [← h11] at hc; exact hc
    obtain ⟨m3, hfv⟩ := ih 2 .object_continue m2 v' (Or.inl ⟨rfl, rfl⟩) (by rw [h21])
      ⟨b :: rest, h22⟩
    have hf1 := fwd_of_value_obj ha1 h1c ha2 hfv
    have ht3 : m3.tokens buf = [b] ++ rest := fwdValue_tokens hfv h22
    obtain ⟨mb, ha3, h31, -⟩ := adv_of_tokens ht3
    have hbc : mb.c = 125 := by rw [← h31] at hb; exact hb
    have hf2 : Fwd L buf .object_continue m3 [(mb.idx, mb.c)] .scope_end mb :=
      Fwd.of_adv_close rfl ha3 hbc
    have hf := hf1.trans hf2
    rw [h11, h21, h31] at hf
    exact ⟨mb, hf, hbc⟩
  | memberCons k c v d ms2 hk hc hv hd hms ihv ihms =>
    intro m k0 ts' b heq hb hrest
    cases heq
    obtain ⟨rest, htok⟩ := hrest
    obtain ⟨t, v', rfl, -⟩ := gram_value_head hv
    obtain ⟨k2, ms2', rfl, hk2⟩ := gram_members_head hms
    have htok' : m.tokens buf = (c :: t :: v') ++ (d :: k2 :: ms2' ++ b :: rest) := by
      rw [htok]; simp
    obtain ⟨m1, ha1, h11, h12⟩ := adv_of_tokens htok'
    obtain ⟨m2, ha2, h21, h22⟩ := adv_of_tokens h12
    have h1c : m1.c = 58 := by rw [← h11] at hc; exact hc
    obtain ⟨m3, hfv⟩ := ihv 2 .object_continue m2 v' (Or.inl ⟨rfl, rfl⟩) (by rw [h21])
      ⟨_, h22⟩
    have hf1 := fwd_of_value_obj ha1 h1c ha2 hfv
    have ht3 : m3.tokens buf = (d :: k2 :: ms2') ++ (b :: rest) := fwdValue_tokens hfv h22
    obtain ⟨m4, ha4, h41, h42⟩ := adv_of_tokens ht3
    obtain ⟨m5, ha5, h51, h52⟩ := adv_of_tokens h42
    have h4c : m4.c = 44 := by rw [← h41] at hd; exact hd
    have h5c : m5.c = 34 := by rw [← h51] at hk2; exact hk2
    have hf2 := fwd_next_key (L := L) ha4 h4c ha5 h5c
    have ht6 : (m5.parse_string L buf).2.tokens buf = ms2' ++ b :: rest :=
      fwd_tokens hf2 (by rw [ht3, h41, h51]; rfl)
    obtain ⟨mb, hf3, hbc⟩ := ihms (m5.parse_string L buf).2 k2 ms2' b rfl hb ⟨rest, ht6⟩
    have hf := (hf1.trans hf2).trans hf3
    rw [h11, h21, h41, h51] at hf
    refine ⟨mb, ?_, hbc⟩
    have e : (c :: (t :: v' ++ d :: k2 :: ms2')) ++ [b]
        = ((c :: t :: v') ++ [d, k2]) ++ (ms2' ++ [b]) := by simp
    rw [← e] at hf; exact hf
  | element v hv ih =>
    intro m ts' b heq hb hrest
    obtain ⟨rest, htok⟩ := hrest
    subst heq
    obtain ⟨m3, hfv⟩ := ih 3 .array_continue m ts' (Or.inr (Or.inl ⟨rfl, rfl⟩)) rfl ⟨b :: rest, htok⟩
    have hf1 := fwd_of_value_arr hfv
    have ht3 : m3.tokens buf = [b] ++ rest := fwdValue_tokens hfv htok
    obtain ⟨mb, ha3, h31, -⟩ := adv_of_tokens ht3
    have hbc : mb.c = 93 := by rw [← h31] at hb; exact hb
    have hf2 : Fwd L buf .array_continue m3 [(mb.idx, mb.c)] .scope_end mb :=
      Fwd.of_adv_close rfl ha3 hbc
    have hf := hf1.trans hf2
    rw [h31] at hf
    exact ⟨mb, hf, hbc⟩
  | elementCons v d es2 hv hd hes ihv ihes =>
    intro m ts' b heq hb hrest
    obtain ⟨rest, htok⟩ := hrest
    obtain ⟨t, v', rfl, -⟩ := gram_value_head hv
    obtain ⟨t2, es2', rfl, ht2⟩ := gram_elements_head hes
    simp only [List.cons_append, List.cons.injEq] at heq
    obtain ⟨rfl, rfl⟩ := heq
    have htok' : m.tokens buf = v' ++ (d :: t2 :: es2' ++ b :: rest) := by
      rw [htok]; simp
    obtain ⟨m3, hfv⟩ := ihv 3 .array_continue m v' (Or.inr (Or.inl ⟨rfl, rfl⟩)) rfl ⟨_, htok'⟩
    have hf1 := fwd_of_value_arr hfv
    have ht3 : m3.tokens buf = (d :: t2 :: es2') ++ (b :: rest) := fwdValue_tokens hfv htok'
    obtain ⟨m4, ha4, h41, h42⟩ := adv_of_tokens ht3
    obtain ⟨m5, ha5, h51, h52⟩ := adv_of_tokens h42
    have h4c : m4.c = 44 := by rw [← h41] at hd; exact hd
    have hf2 := fwd_next_element (L := L) ha4 h4c ha5
    obtain ⟨mb, hf3, hbc⟩ := ihes m5 es2' b (by rw [h51]) hb ⟨rest, h52⟩
    have hf := (hf1.trans hf2).trans hf3
    rw [h41, h51] at hf
    refine ⟨mb, ?_, hbc⟩
    have e : (v' ++ d :: t2 :: es2') ++ [b] = (v' ++ [d, t2]) ++ (es2' ++ [b]) := by simp
    rw [← e] at hf; exact hf

/-! ## Forward simulation at the top level -/

theorem step_new_root_open {L : Leaves} {buf : List Byte} {m m1 : Machine}
    (ha : Adv buf (m.open_scope RET_ADDRESS_START_CONST 114) m1)
    (hc : m1.c = 123 ∨ m1.c = 91) :
    step L buf .new_root m = value_switch L buf RET_ADDRESS_START_CONST .start_continue m1 := by
  obtain ⟨h1, h2⟩ := ha
  rw [value_switch_open _ _ hc]
  rcases hc with hc | hc <;> simp [step, h1, h2, hc]

theorem step_new_root_done {L : Leaves} {buf : List Byte} {m m1 : Machine}
    (ha : AdvDone buf (m.open_scope RET_ADDRESS_START_CONST 114) m1) :
    step L buf .new_root m = .goto .succeed m1 := by
  obtain ⟨h1, h2⟩ := ha
  simp [step, h1, h2]

theorem step_start_continue_done {L : Leaves} {buf : List Byte} {m m1 : Machine}
    (ha : AdvDone buf m m1) : step L buf .start_continue m = .goto .succeed m1 := by
  obtain ⟨h1, h2⟩ := ha
  simp [step, h1, h2]

/-- The step at `start_continue` on a boundary byte: the root entry is popped, the footer
word is written and the run is at `new_root`. -/
theorem step_boundary {L : Leaves} {buf : List Byte} {m m1 : Machine} {s : List Nat} {e : Nat}
    (ha : Adv buf m m1) (hc : m1.c = 10 ∨ m1.c = 123)
    (hst : m.pj.containing_scope_offset = s ++ [e]) (hlt : e >>> 2 < m.pj.Tape.length) :
    ∃ m2, step L buf .start_continue m = .goto .new_root m2 ∧
      m2.pj.containing_scope_offset = s ∧ m2.pj.Tape.length = m.pj.Tape.length + 1 ∧
      SameStream m1 m2 ∧ m2.pj.Tape.getLast? = some (tapeWord 114 (e >>> 2)) := by
  obtain ⟨h1, h2⟩ := ha
  have hf := adv_frame h1
  have hst1 : m1.pj.containing_scope_offset = s ++ [e] := hf.1.trans hst
  have hlt1 : e >>> 2 < m1.pj.Tape.length := by rw [hf.2]; exact hlt
  have hw : m1.pj.Tape[e >>> 2]? = some (m1.pj.Tape[e >>> 2]) := List.getElem?_eq_getElem hlt1
  have hlen : m1.pj.Tape.length = m.pj.Tape.length := by rw [hf.2]
  refine ⟨?m2, ?h, ?_, ?_, ?_, ?_⟩
  case h =>
    simp only [step, h1, h2, hst1, List.getLast?_concat, List.dropLast_concat,
      ParsedJson.annotate_previousloc, RET_ADDRESS_SHIFT, hw, hc, Bool.false_eq_true,
      if_false, if_true]
    exact rfl
  · rfl
  · simp [ParsedJson.write_tape, hlen]
  · exact ⟨rfl, rfl, rfl⟩
  · simp [ParsedJson.write_tape]

/-- The step at `succeed` when the root entry is the only entry of the scope stack. -/
theorem step_succeed_true {L : Leaves} {buf : List Byte} {m : Machine} {e : Nat}
    (hst : m.pj.containing_scope_offset = [e]) (hlt : e >>> 2 < m.pj.Tape.length) :
    ∃ mf, step L buf .succeed m = .ret true mf := by
  have hw : m.pj.Tape[e >>> 2]? = some (m.pj.Tape[e >>> 2]) := List.getElem?_eq_getElem hlt
  refine ⟨?mf, ?h⟩
  case h =>
    simp only [step, hst, List.getLast?_singleton, List.dropLast_single, List.length_nil,
      ne_eq, not_true_eq_false, if_false, ParsedJson.annotate_previousloc,
      RET_ADDRESS_SHIFT, hw]
    exact rfl

/-- One root document, from `new_root` to `start_continue`: the root entry is on the scope
stack and the stream is behind the document. -/
theorem root_forward {L : Leaves} {buf : List Byte} {m : Machine} {v rest : List (Nat × Nat)}
    (hv : Container (scalarOK L buf) v) (htok : m.tokens buf = v ++ rest) :
    ∃ m', (∃ j, ∀ k, run L buf (k + j) .new_root m = run L buf k .start_continue m') ∧
      m'.pj.containing_scope_offset = m.pj.containing_scope_offset ++
        [(m.pj.Tape.length <<< RET_ADDRESS_SHIFT) % 2 ^ 64 ||| RET_ADDRESS_START_CONST] ∧
      m.pj.Tape.length < m'.pj.Tape.length ∧ m'.closes buf = m.closes buf ∧
      m'.tokens buf = rest := by
  obtain ⟨hg, a, hhead, ha⟩ := hv
  obtain ⟨t, v', rfl, -⟩ := gram_value_head hg
  simp only [List.head?_cons, Option.some.injEq] at hhead
  subst hhead
  have hss := sameStream_open_scope m RET_ADDRESS_START_CONST 114
  have ht0 : (m.open_scope RET_ADDRESS_START_CONST 114).tokens buf = (t :: v') ++ rest := by
    rw [tokens_congr hss]; exact htok
  obtain ⟨m1, hadv, h11, h12⟩ := adv_of_tokens ht0
  obtain ⟨f1, f2, f3, -⟩ := adv_facts hadv
  have hc : m1.c = 123 ∨ m1.c = 91 := by rw [← h11] at ha; exact ha
  obtain ⟨m', hfv⟩ := gram_forward L buf hg 1 .start_continue m1 v'
    (Or.inr (Or.inr ⟨rfl, rfl⟩)) (by rw [h11]) ⟨rest, h12⟩
  have hr := fwdValue_tokens hfv h12
  obtain ⟨⟨j, hj⟩, g2, g3, g4, -⟩ := hfv
  have hT : (m.open_scope RET_ADDRESS_START_CONST 114).pj.Tape.length
      = m.pj.Tape.length + 1 := by
    simp [Machine.open_scope, ParsedJson.write_tape]
  refine ⟨m', ⟨j + 1, fun k => ?_⟩, ?_, ?_, ?_, hr⟩
  · rw [← Nat.add_assoc, run_succ, step_new_root_open hadv hc, hj]
  · rw [g2, f1]; rfl
  · rw [f2, hT] at g3; omega
  · rw [g4, f3]; exact closes_congr hss

/-- One root document and the boundary byte after it: the run is back at `new_root` with the
scope stack as before, the footer of the root written, and the stream behind the boundary
byte. -/
theorem root_boundary_forward {L : Leaves} {buf : List Byte} {m : Machine}
    {v rest : List (Nat × Nat)} {s : Nat × Nat}
    (hv : Container (scalarOK L buf) v) (hs : s.2 = 10 ∨ s.2 = 123)
    (htok : m.tokens buf = v ++ s :: rest) :
    ∃ m2, Fwd L buf .new_root m (v ++ [s]) .new_root m2 ∧ m2.tokens buf = rest ∧
      ∃ i, m2.pj.Tape.getLast? = some (tapeWord 114 i) := by
  obtain ⟨m', ⟨j, hj⟩, r2, r3, r4, r5⟩ := root_forward hv htok
  have ht : m'.tokens buf = [s] ++ rest := r5
  obtain ⟨m1, hadv, h11, h12⟩ := adv_of_tokens ht
  obtain ⟨-, -, f3, -⟩ := adv_facts hadv
  have hc : m1.c = 10 ∨ m1.c = 123 := by rw [← h11] at hs; exact hs
  have hlt : ((m.pj.Tape.length <<< RET_ADDRESS_SHIFT) % 2 ^ 64 ||| RET_ADDRESS_START_CONST)
      >>> 2 < m'.pj.Tape.length := by
    rw [entry_index _ _ (by norm_num)]
    have := Nat.mod_le m.pj.Tape.length (2 ^ 62)
    omega
  obtain ⟨m2, hstep, b2, b3, b4, b5⟩ := step_boundary (L := L) hadv hc r2 hlt
  have hm2 : m2.tokens buf = rest := by rw [tokens_congr b4, h12]; rfl
  refine ⟨m2, ⟨⟨j + 1, fun k => ?_⟩, b2, by omega, ?_, ?_⟩, hm2, ⟨_, b5⟩⟩
  · have hk : k + (j + 1) = (k + 1) + j := by omega
    rw [hk, hj, run_succ, hstep]; rfl
  · rw [closes_congr b4, f3, r4]
  · rw [hm2, htok]; simp

/-- Completeness of the automaton: a well-formed index stream that splits into root
documents the way `start_continue` delimits them is accepted. -/
theorem docs_forward (L : Leaves) (buf : List Byte) {ts : List (Nat × Nat)}
    (h : Docs (scalarOK L buf) ts) :
    ∀ m : Machine, m.pj.containing_scope_offset = [] → m.closes buf = true →
      m.tokens buf = ts → ∃ n mf, run L buf n .new_root m = .ret true mf := by
  induction h with
  | done =>
    intro m hst hcl htok
    have hss := sameStream_open_scope m RET_ADDRESS_START_CONST 114
    obtain ⟨m1, hd⟩ := @tokens_nil_done buf
      (m.open_scope RET_ADDRESS_START_CONST 114)
      (by rw [tokens_congr hss]; exact htok) (by rw [closes_congr hss]; exact hcl)
    have hf := adv_frame hd.1
    have hst1 : m1.pj.containing_scope_offset
        = [(m.pj.Tape.length <<< RET_ADDRESS_SHIFT) % 2 ^ 64 ||| RET_ADDRESS_START_CONST] := by
      rw [hf.1]; simp [Machine.open_scope, hst, ParsedJson.get_current_loc]
    have hlt : ((m.pj.Tape.length <<< RET_ADDRESS_SHIFT) % 2 ^ 64 ||| RET_ADDRESS_START_CONST)
        >>> 2 < m1.pj.Tape.length := by
      rw [entry_index _ _ (by norm_num), hf.2]
      have := Nat.mod_le m.pj.Tape.length (2 ^ 62)
      simp [Machine.open_scope, ParsedJson.write_tape]
      omega
    obtain ⟨mf, hsucc⟩ := @step_succeed_true L buf _ _ hst1 hlt
    refine ⟨1 + 1, mf, ?_⟩
    rw [run_succ, step_new_root_done hd]
    show run L buf (0 + 1) .succeed m1 = _
    rw [run_succ, hsucc]; rfl
  | last v hv =>
    intro m hst hcl htok
    obtain ⟨m', ⟨j, hj⟩, r2, r3, r4, r5⟩ :=
      @root_forward L buf m v [] hv (by rw [htok]; simp)
    obtain ⟨m1, hd⟩ := tokens_nil_done r5 (by rw [r4]; exact hcl)
    have hf := adv_frame hd.1
    have hst1 : m1.pj.containing_scope_offset
        = [(m.pj.Tape.length <<< RET_ADDRESS_SHIFT) % 2 ^ 64 ||| RET_ADDRESS_START_CONST] := by
      rw [hf.1, r2, hst]; rfl
    have hlt : ((m.pj.Tape.length <<< RET_ADDRESS_SHIFT) % 2 ^ 64 ||| RET_ADDRESS_START_CONST)
        >>> 2 < m1.pj.Tape.length := by
      rw [entry_index _ _ (by norm_num), hf.2]
      have := Nat.mod_le m.pj.Tape.length (2 ^ 62)
      omega
    obtain ⟨mf, hsucc⟩ := @step_succeed_true L buf _ _ hst1 hlt
    refine ⟨(1 + 1) + j, mf, ?_⟩
    rw [hj, run_succ, step_start_continue_done hd]
    show run L buf (0 + 1) .succeed m1 = _
    rw [run_succ, hsucc]; rfl
  | more v s rest hv hs hrest ih =>
    intro m hst hcl htok
    obtain ⟨m2, ⟨⟨j, hj⟩, b2, -, b4, -⟩, b6, -⟩ := root_boundary_forward hv hs htok
    obtain ⟨n, mf, hn⟩ := ih m2 (b2.trans hst) (b4.trans hcl) b6
    exact ⟨n + j, mf, by rw [hj]; exact hn⟩

/-! ## The tape of an accepted run -/

theorem tapeIf_true {o : Outcome} {T : List Nat} (h : o.tapeIf true = some T) :
    ∃ mf, o = .ret true mf ∧ mf.pj.Tape = T := by
  cases o with
  | timeout => simp [Outcome.tapeIf] at h
  | panic => simp [Outcome.tapeIf] at h
  | ret b m =>
    cases b with
    | false => simp [Outcome.tapeIf] at h
    | true => exact ⟨m, rfl, by simpa [Outcome.tapeIf] using h⟩

/-- What an accepted run has appended to the tape consists of complete roots. -/
theorem accepted_tape {L : Leaves} {buf : List Byte} {pj : internalParsedJson} {T : List Nat}
    (h : (unified_machine L buf pj).tapeIf true = some T) (hlen : T.length < 2 ^ 56) :
    ∃ seg, T = pj.Tape ++ seg ∧ Roots pj.Tape.length seg := by
  obtain ⟨mf, hr, rfl⟩ := tapeIf_true h
  obtain ⟨-, -, -, -, -, hseg⟩ := roots_return L buf mf _ _ hr
  exact hseg hlen

theorem tagWords_onTape : ∀ (n b : Nat) (ws : List Nat), ws.length ≤ n →
    ∀ x ∈ tagWords b ws, b ≤ x.1 ∧ ws[x.1 - b]? = some x.2 := by
  intro n
  induction n with
  | zero =>
    intro b ws hn x hx
    have : ws = [] := List.length_eq_zero.mp (Nat.le_zero.mp hn)
    subst this
    simp [tagWords] at hx
  | succ n ih =>
    intro b ws hn x hx
    match ws, hn, hx with
    | [], _, hx => simp [tagWords] at hx
    | [w], _, hx =>
      simp only [tagWords, List.mem_singleton] at hx
      subst hx
      simp
    | w :: r :: rest, hn, hx =>
      simp only [tagWords] at hx
      split at hx
      · rcases List.mem_cons.mp hx with rfl | hx
        · simp
        · have hl : rest.length ≤ n := by simp only [List.length_cons] at hn; omega
          obtain ⟨h1, h2⟩ := ih (b + 2) rest hl x hx
          refine ⟨by omega, ?_⟩
          have e : x.1 - b = (x.1 - (b + 2)) + 1 + 1 := by omega
          rw [e]
          simpa using h2
      · rcases List.mem_cons.mp hx with rfl | hx
        · simp
        · have hl : (r :: rest).length ≤ n := by simp only [List.length_cons] at hn ⊢; omega
          obtain ⟨h1, h2⟩ := ih (b + 1) (r :: rest) hl x hx
          refine ⟨by omega, ?_⟩
          have e : x.1 - b = (x.1 - (b + 1)) + 1 := by omega
          rw [e]
          simpa using h2

theorem tagWords_onTape_append (pre seg : List Nat) :
    OnTape (pre ++ seg) (tagWords pre.length seg) := by
  intro x hx
  obtain ⟨h1, h2⟩ := tagWords_onTape seg.length pre.length seg le_rfl x hx
  rw [List.getElem?_append_right h1]
  exact h2

theorem findOpen_mem : ∀ (xs : List (Nat × Nat)) (d : Nat) (r : Nat × Nat),
    findOpen xs d = some r → r ∈ xs := by
  intro xs
  induction xs with
  | nil => intro d r h; simp [findOpen] at h
  | cons x xs ih =>
    intro d r h
    obtain ⟨j, w⟩ := x
    simp only [findOpen] at h
    split at h
    · exact List.mem_cons_of_mem _ (ih _ _ h)
    · split at h
      · split at h
        · cases Option.some.inj h
          exact List.mem_cons_self _ _
        · exact List.mem_cons_of_mem _ (ih _ _ h)
      · exact List.mem_cons_of_mem _ (ih _ _ h)

/-- On a tape whose tagged words are linked, the word at the index a close word holds is
an open word of the kind of the close word. -/
theorem closeLinks_kind {T : List Nat} {tw : List (Nat × Nat)} (hl : CloseLinks tw)
    (ho : OnTape T tw) :
    ∀ x ∈ tw, isCloseTag (tagOf x.2) = true →
      ∃ w, T[payloadOf x.2]? = some w ∧ (tagOf x.2 = 125 ↔ tagOf w = 123) ∧
        (tagOf x.2 = 93 ↔ tagOf w = 91) := by
  intro x hx hc
  obtain ⟨pre, post, rfl⟩ := List.append_of_mem hx
  obtain ⟨i, w, hf, ht, hp, -⟩ := hl pre x.1 x.2 post rfl hc
  have hm : (i, w) ∈ pre ++ x :: post :=
    List.mem_append_left _ (List.mem_reverse.mp (findOpen_mem _ _ _ hf))
  have hw := ho (i, w) hm
  refine ⟨w, by rw [hp]; exact hw, ?_, ?_⟩
  · rw [ht]
    rcases close_cases hc with h | h <;> simp [h, openOf]
  · rw [ht]
    rcases close_cases hc with h | h <;> simp [h, openOf]

/-! ## The links between the words of an accepted tape -/

/-- C1, as the code has it: on every index stream on which `unified_machine` returns true
(leaving a tape `T` of fewer than `2 ^ 56` words, so that no payload is cut), every `{` or
`[` word the run has written is followed by its matching `}` or `]` word, and its payload is
the tape index of that close word plus one, the index `get_current_loc` gives after
`scope_end` has written the close word. -/
theorem open_payload_is_past_close (L : Leaves) (buf : List Byte) (pj : internalParsedJson)
    (T : List Nat) (h : (unified_machine L buf pj).tapeIf true = some T)
    (hlen : T.length < 2 ^ 56) :
    ∃ seg, T = pj.Tape ++ seg ∧ OpenLinks 1 (tagWords pj.Tape.length seg) := by
  obtain ⟨seg, hT, hr⟩ := accepted_tape h hlen
  exact ⟨seg, hT, roots_openLinks hr⟩

/-- The amended C1 on the document `{"a":1}`. -/
theorem open_payload_is_past_close_witness :
    (unified_machine sampleLeaves [123, 34, 97, 34, 58, 49, 125]
        (freshParser [batch [1, 1, 3, 1, 1]])).tapeIf true
      = some [tapeWord 114 7, tapeWord 123 6, tapeWord 34 0, tapeWord 108 0, 1,
          tapeWord 125 1, tapeWord 114 0] ∧
    ∃ seg, [tapeWord 114 7, tapeWord 123 6, tapeWord 34 0, tapeWord 108 0, 1,
          tapeWord 125 1, tapeWord 114 0]
        = (freshParser [batch [1, 1, 3, 1, 1]]).Tape ++ seg ∧
      OpenLinks 1 (tagWords (freshParser [batch [1, 1, 3, 1, 1]]).Tape.length seg) :=
  ⟨by decide, open_payload_is_past_close sampleLeaves [123, 34, 97, 34, 58, 49, 125]
    (freshParser [batch [1, 1, 3, 1, 1]]) _ (by decide) (by decide)⟩

/-- C1 as stated fails on the document `{}`: the run returns true and leaves the tape
`r 4, { 3, } 1, r 0`, on which the `{` word at index 1 holds 3 while its matching `}` word is
at index 2. -/
theorem open_payload_is_not_close_index :
    (unified_machine sampleLeaves [123, 125] (freshParser [batch [1, 1]])).tapeIf true
      = some [tapeWord 114 4, tapeWord 123 3, tapeWord 125 1, tapeWord 114 0] ∧
    ¬ OpenLinks 0
      (tagWords 0 [tapeWord 114 4, tapeWord 123 3, tapeWord 125 1, tapeWord 114 0]) := by
  refine ⟨by decide, fun h => ?_⟩
  obtain ⟨j, c, hf, -, hp⟩ := h [(0, tapeWord 114 4)] 1 (tapeWord 123 3)
    [(2, tapeWord 125 1), (3, tapeWord 114 0)] (by decide) (by decide)
  have hf2 : findClose [(2, tapeWord 125 1), (3, tapeWord 114 0)] 0
      = some (2, tapeWord 125 1) := by decide
  rw [hf2] at hf
  cases Option.some.inj hf
  exact absurd hp (by decide)

/-- C2: on every index stream on which `unified_machine` returns true (leaving a tape `T` of
fewer than `2 ^ 56` words), every `}` or `]` word the run has written has its matching open
word before it, its payload is the tape index of that open word, and it sits at a strictly
greater tape index than the open word. -/
theorem close_payload_is_open_index (L : Leaves) (buf : List Byte) (pj : internalParsedJson)
    (T : List Nat) (h : (unified_machine L buf pj).tapeIf true = some T)
    (hlen : T.length < 2 ^ 56) :
    ∃ seg, T = pj.Tape ++ seg ∧ CloseLinks (tagWords pj.Tape.length seg) := by
  obtain ⟨seg, hT, hr⟩ := accepted_tape h hlen
  exact ⟨seg, hT, roots_closeLinks hr⟩

/-- C2 on the document `[true]`. -/
theorem close_payload_is_open_index_witness :
    (unified_machine sampleLeaves [91, 116, 114, 117, 101, 93]
        (freshParser [batch [1, 1, 4]])).tapeIf true
      = some [tapeWord 114 5, tapeWord 91 4, tapeWord 116 0, tapeWord 93 1, tapeWord 114 0] ∧
    ∃ seg, [tapeWord 114 5, tapeWord 91 4, tapeWord 116 0, tapeWord 93 1, tapeWord 114 0]
        = (freshParser [batch [1, 1, 4]]).Tape ++ seg ∧
      CloseLinks (tagWords (freshParser [batch [1, 1, 4]]).Tape.length seg) :=
  ⟨by decide, close_payload_is_open_index sampleLeaves [91, 116, 114, 117, 101, 93]
    (freshParser [batch [1, 1, 4]]) _ (by decide) (by decide)⟩

/-- C3: on every index stream on which `unified_machine` returns true (leaving a tape `T` of
fewer than `2 ^ 56` words), the run has written as many `{` words as `}` words and as many
`[` words as `]` words, and the word at the tape index a close word holds (the index its
scope entry recorded) is an open word of its kind: the close word is `}` exactly when that
word is `{`, and `]` exactly when it is `[`. -/
theorem bracket_balance (L : Leaves) (buf : List Byte) (pj : internalParsedJson)
    (T : List Nat) (h : (unified_machine L buf pj).tapeIf true = some T)
    (hlen : T.length < 2 ^ 56) :
    ∃ seg, T = pj.Tape ++ seg ∧
      countTag 123 (tagWords pj.Tape.length seg) = countTag 125 (tagWords pj.Tape.length seg) ∧
      countTag 91 (tagWords pj.Tape.length seg) = countTag 93 (tagWords pj.Tape.length seg) ∧
      ∀ x ∈ tagWords pj.Tape.length seg, isCloseTag (tagOf x.2) = true →
        ∃ w, T[payloadOf x.2]? = some w ∧ (tagOf x.2 = 125 ↔ tagOf w = 123) ∧
          (tagOf x.2 = 93 ↔ tagOf w = 91) := by
  obtain ⟨seg, hT, hr⟩ := accepted_tape h hlen
  refine ⟨seg, hT, (roots_counts hr).1, (roots_counts hr).2, ?_⟩
  rw [hT]
  exact closeLinks_kind (roots_closeLinks hr) (tagWords_onTape_append pj.Tape seg)

/-- C3 on the document `{"a":[]}`. -/
theorem bracket_balance_witness :
    (unified_machine sampleLeaves [123, 34, 97, 34, 58, 91, 93, 125]
        (freshParser [batch [1, 1, 3, 1, 1, 1]])).tapeIf true
      = some [tapeWord 114 7, tapeWord 123 6, tapeWord 34 0, tapeWord 91 5, tapeWord 93 3,
          tapeWord 125 1, tapeWord 114 0] ∧
    ∃ seg, [tapeWord 114 7, tapeWord 123 6, tapeWord 34 0, tapeWord 91 5, tapeWord 93 3,
          tapeWord 125 1, tapeWord 114 0]
        = (freshParser [batch [1, 1, 3, 1, 1, 1]]).Tape ++ seg ∧
      countTag 123 (tagWords (freshParser [batch [1, 1, 3, 1, 1, 1]]).Tape.length seg)
        = countTag 125 (tagWords (freshParser [batch [1, 1, 3, 1, 1, 1]]).Tape.length seg) ∧
      countTag 91 (tagWords (freshParser [batch [1, 1, 3, 1, 1, 1]]).Tape.length seg)
        = countTag 93 (tagWords (freshParser [batch [1, 1, 3, 1, 1, 1]]).Tape.length seg) ∧
      ∀ x ∈ tagWords (freshParser [batch [1, 1, 3, 1, 1, 1]]).Tape.length seg,
        isCloseTag (tagOf x.2) = true →
        ∃ w, [tapeWord 114 7, tapeWord 123 6, tapeWord 34 0, tapeWord 91 5, tapeWord 93 3,
            tapeWord 125 1, tapeWord 114 0][payloadOf x.2]? = some w ∧
          (tagOf x.2 = 125 ↔ tagOf w = 123) ∧ (tagOf x.2 = 93 ↔ tagOf w = 91) :=
  ⟨by decide, bracket_balance sampleLeaves [123, 34, 97, 34, 58, 91, 93, 125]
    (freshParser [batch [1, 1, 3, 1, 1, 1]]) _ (by decide) (by decide)⟩

/-- C4, as the code has it: on every index stream on which `unified_machine` returns true
(leaving a tape `T` of fewer than `2 ^ 56` words), every root header `r` word the run has
written is followed by its footer `r` word, the footer's payload is the header's tape index,
and the header's payload is the footer's tape index plus one (`addOneForRoot`). -/
theorem root_header_is_past_footer (L : Leaves) (buf : List Byte) (pj : internalParsedJson)
    (T : List Nat) (h : (unified_machine L buf pj).tapeIf true = some T)
    (hlen : T.length < 2 ^ 56) :
    ∃ seg, T = pj.Tape ++ seg ∧ RootLinks 1 (tagWords pj.Tape.length seg) := by
  obtain ⟨seg, hT, hr⟩ := accepted_tape h hlen
  exact ⟨seg, hT, roots_rootLinks hr⟩

/-- The amended C4 on the two documents `{}` and `{}` with a newline between them. -/
theorem root_header_is_past_footer_witness :
    (unified_machine sampleLeaves [123, 125, 10, 123, 125]
        (freshParser [batch [1, 1, 1, 1, 1]])).tapeIf true
      = some [tapeWord 114 4, tapeWord 123 3, tapeWord 125 1, tapeWord 114 0,
          tapeWord 114 8, tapeWord 123 7, tapeWord 125 5, tapeWord 114 4] ∧
    ∃ seg, [tapeWord 114 4, tapeWord 123 3, tapeWord 125 1, tapeWord 114 0,
          tapeWord 114 8, tapeWord 123 7, tapeWord 125 5, tapeWord 114 4]
        = (freshParser [batch [1, 1, 1, 1, 1]]).Tape ++ seg ∧
      RootLinks 1 (tagWords (freshParser [batch [1, 1, 1, 1, 1]]).Tape.length seg) :=
  ⟨by decide, root_header_is_past_footer sampleLeaves [123, 125, 10, 123, 125]
    (freshParser [batch [1, 1, 1, 1, 1]]) _ (by decide) (by decide)⟩

/-- C4 as stated fails on the document `[]`: the run returns true and leaves the tape
`r 4, [ 3, ] 1, r 0`, on which the header at index 0 holds 4 while its footer is at
index 3. -/
theorem root_header_is_not_footer_index :
    (unified_machine sampleLeaves [91, 93] (freshParser [batch [1, 1]])).tapeIf true
      = some [tapeWord 114 4, tapeWord 91 3, tapeWord 93 1, tapeWord 114 0] ∧
    ¬ RootLinks 0
      (tagWords 0 [tapeWord 114 4, tapeWord 91 3, tapeWord 93 1, tapeWord 114 0]) := by
  refine ⟨by decide, fun h => ?_⟩
  obtain ⟨j, f, hf, -, hp⟩ := h [] 0 (tapeWord 114 4)
    [(1, tapeWord 91 3), (2, tapeWord 93 1), (3, tapeWord 114 0)] (by decide) (by decide)
    (by decide)
  have hf2 : nextRoot [(1, tapeWord 91 3), (2, tapeWord 93 1), (3, tapeWord 114 0)]
      = some (3, tapeWord 114 0) := by decide
  rw [hf2] at hf
  cases Option.some.inj hf
  exact absurd hp (by decide)

/-! ## The end of the stream inside a container -/

theorem step_read_done {L : Leaves} {buf : List Byte} {l : Label} {m m1 : Machine}
    (hl : l.nestedInput = true) (ha : AdvDone buf m m1) :
    step L buf l m = .goto .succeed m1 := by
  obtain ⟨h1, h2⟩ := ha
  cases l <;> simp [Label.nestedInput] at hl <;> simp [step, h1, h2]

theorem step_read2_done {L : Leaves} {buf : List Byte} {l : Label} {m m0 m1 : Machine}
    (ha : Adv buf m m0) (hc : l.second = some m0.c) (hd : AdvDone buf m0 m1) :
    step L buf l m = .goto .succeed m1 := by
  obtain ⟨h1, h2⟩ := ha
  obtain ⟨h3, h4⟩ := hd
  cases l <;> simp [Label.second] at hc <;> simp [step, h1, h2, ← hc, h3, h4]

/-- The step at `succeed` with a container entry above the root entry: the run returns false
and the tape is as it was. -/
theorem step_succeed_deep {L : Leaves} {buf : List Byte} {m : Machine} {base ents : List Nat}
    (hst : m.pj.containing_scope_offset = base ++ ents) (hd : 2 ≤ ents.length) :
    ∃ mf, step L buf .succeed m = .ret false mf ∧ mf.pj.Tape = m.pj.Tape := by
  have hne : ents ≠ [] := by
    intro h; rw [h] at hd; simp at hd
  obtain ⟨e, hlast⟩ : ∃ e, m.pj.containing_scope_offset.getLast? = some e := by
    rw [hst, List.getLast?_append_of_ne_nil _ hne]
    exact ⟨ents.getLast hne, List.getLast?_eq_getLast _ hne⟩
  have hlen : m.pj.containing_scope_offset.dropLast.length ≠ 0 := by
    rw [List.length_dropLast, hst, List.length_append]; omega
  refine ⟨?mf, ?h, ?_⟩
  case h =>
    simp only [step, hlast, ne_eq, hlen, not_false_eq_true, if_true]
    exact rfl
  · rfl

/-- C5: when a run of `unified_machine` is at one of the states inside a container that
expect input (`object_begin`, `object_key_state`, `object_continue`, `array_begin`,
`array_continue`) and the index stream ends there (the reader reports `done` at the first
read of the state or, after `:` or `,`, at its second read), `unified_machine` returns false
and leaves the tape as it was when the stream ended: no root footer is written. -/
theorem truncated_stream_rejected (L : Leaves) (buf : List Byte) (pj : internalParsedJson)
    (n : Nat) (l : Label) (m m1 : Machine)
    (hreach : cfgAt L buf n (.new_root, Machine.init pj) = some (l, m))
    (hl : l.nestedInput = true)
    (hend : AdvDone buf m m1 ∨ ∃ m0, Adv buf m m0 ∧ l.second = some m0.c ∧ AdvDone buf m0 m1) :
    ∃ mf, unified_machine L buf pj = .ret false mf ∧ mf.pj.Tape = m.pj.Tape := by
  have hinv : StackInv pj.containing_scope_offset l m := by
    rcases cfgAt_stackInv L buf _ n _ _ l m hreach (stackInv_init pj) with h | h
    · subst h; simp [Label.nestedInput] at hl
    · exact h
  obtain ⟨ents, hst, hd, -⟩ := hinv
  have hd2 : 2 ≤ ents.length := by
    cases l <;> simp [Label.nestedInput] at hl <;> exact hd
  have hstep : step L buf l m = .goto .succeed m1 := by
    rcases hend with h | ⟨m0, h1, h2, h3⟩
    · exact step_read_done hl h
    · exact step_read2_done h1 h2 h3
  have hfr : m1.pj.containing_scope_offset = m.pj.containing_scope_offset ∧
      m1.pj.Tape = m.pj.Tape := by
    rcases hend with h | ⟨m0, h1, h2, h3⟩
    · exact adv_frame h.1
    · exact ⟨(adv_frame h3.1).1.trans (adv_frame h1.1).1,
        (adv_frame h3.1).2.trans (adv_frame h1.1).2⟩
  obtain ⟨mf, hsucc, hT⟩ := @step_succeed_deep L buf _ _ _ (hfr.1.trans hst) hd2
  have hrun : run L buf (n + (1 + 1)) .new_root (Machine.init pj) = .ret false mf := by
    rw [run_cfgAt L buf n (1 + 1) _ _ l m hreach, run_succ, hstep]
    show run L buf (0 + 1) .succeed m1 = _
    rw [run_succ, hsucc]; rfl
  refine ⟨mf, ?_, hT.trans hfr.2⟩
  rw [unified_machine_eq_run (n := n + (1 + 1)) (by rw [hrun]; simp), hrun]

/-- C5 on the stream of `{"a":`: it ends at the second read of `object_key_state`. -/
theorem truncated_stream_rejected_witness :
    ∃ mf, unified_machine sampleLeaves [123, 34, 97, 34, 58] (freshParser [batch [1, 1, 3]])
        = .ret false mf ∧
      mf.pj.Tape = [tapeWord 114 0, tapeWord 123 0, tapeWord 34 0] := by
  obtain ⟨mf, h1, h2⟩ := truncated_stream_rejected sampleLeaves [123, 34, 97, 34, 58]
    (freshParser [batch [1, 1, 3]]) 2 .object_key_state _ _ rfl rfl
    (Or.inr ⟨_, ⟨rfl, rfl⟩, rfl, rfl, rfl⟩)
  exact ⟨mf, h1, h2.trans rfl⟩

/-! ## Streams outside the grammar -/

theorem scalarStart_of_scalarOK {L : Leaves} {buf : List Byte} {t : Nat × Nat}
    (h : scalarOK L buf t) : scalarStart t := by
  unfold scalarOK at h
  unfold scalarStart
  tauto

theorem Gram.imp {sc sc' : Nat × Nat → Prop} (hsc : ∀ t, sc t → sc' t) {sym : Sym}
    {ts : List (Nat × Nat)} (h : Gram sc sym ts) : Gram sc' sym ts := by
  induction h with
  | scalar t ht => exact .scalar t (hsc t ht)
  | emptyObject a b ha hb => exact .emptyObject a b ha hb
  | object a ms b ha _ hb ih => exact .object a ms b ha ih hb
  | emptyArray a b ha hb => exact .emptyArray a b ha hb
  | array a es b ha _ hb ih => exact .array a es b ha ih hb
  | member k c v hk hc _ ih => exact .member k c v hk hc ih
  | memberCons k c v d rest hk hc _ hd _ ih1 ih2 => exact .memberCons k c v d rest hk hc ih1 hd ih2
  | element v _ ih => exact .element v ih
  | elementCons v d rest _ hd _ ih1 ih2 => exact .elementCons v d rest ih1 hd ih2

theorem Docs.impAll {sc sc' : Nat × Nat → Prop} (hsc : ∀ t, sc t → sc' t)
    {ts : List (Nat × Nat)} (h : Docs sc ts) : Docs sc' ts := by
  induction h with
  | done => exact .done
  | last v hv => exact .last v ⟨hv.1.imp hsc, hv.2⟩
  | more v s rest hv hs _ ih => exact .more v s rest ⟨hv.1.imp hsc, hv.2⟩ hs ih

/-- The number routine does not panic where it reports success. -/
theorem numberSafe_of_scalarOK {L : Leaves} {buf : List Byte} {t : Nat × Nat}
    (h : scalarStart t → scalarOK L buf t) : numberSafe L buf t = true := by
  unfold numberSafe
  split
  · rename_i hd
    rcases h (Or.inr (Or.inr (Or.inr (Or.inr (Or.inl hd))))) with
      h | ⟨h, -⟩ | ⟨h, -⟩ | ⟨h, -⟩ | ⟨-, h⟩ | ⟨h, -⟩
    · omega
    · omega
    · omega
    · omega
    · unfold numberOK at h
      split at h
      · rename_i r hr; rw [hr]; rfl
      · exact absurd h (by simp)
    · omega
  · split
    · rename_i hnd hm
      rcases h (Or.inr (Or.inr (Or.inr (Or.inr (Or.inr hm))))) with
        h | ⟨h, -⟩ | ⟨h, -⟩ | ⟨h, -⟩ | ⟨h, -⟩ | ⟨-, h⟩
      · omega
      · omega
      · omega
      · omega
      · omega
      · unfold numberOK at h
        split at h
        · rename_i r hr; rw [hr]; rfl
        · exact absurd h (by simp)
    · rfl

/-- The shapes of a value of the grammar. -/
theorem gram_value_shape {sc : Nat × Nat → Prop} {v : List (Nat × Nat)}
    (h : Gram sc .value v) :
    (∃ t, v = [t] ∧ sc t) ∨ (∃ a, v.head? = some a ∧ a.2 = 91) ∨
      (∃ a b, v = [a, b] ∧ b.2 = 125) ∨ 5 ≤ v.length := by
  cases h with
  | scalar t ht => exact Or.inl ⟨t, rfl, ht⟩
  | emptyObject a b ha hb => exact Or.inr (Or.inr (Or.inl ⟨a, b, rfl, hb⟩))
  | object a ms b ha hms hb =>
    refine Or.inr (Or.inr (Or.inr ?_))
    cases hms with
    | member k c v hk hc hv =>
      obtain ⟨t, v', rfl, -⟩ := gram_value_head hv
      simp
    | memberCons k c v d rest hk hc hv hd hr =>
      simp
      omega
  | emptyArray a b ha hb => exact Or.inr (Or.inl ⟨a, rfl, ha⟩)
  | array a es b ha hes hb => exact Or.inr (Or.inl ⟨a, rfl, ha⟩)

/-- After the `{` that starts a value of the grammar comes `}` or the `"` of a key. -/
theorem gram_after_open_brace {v : List (Nat × Nat)} (h : Gram scalarStart .value v)
    (a : Nat × Nat) (r : List (Nat × Nat)) (hv : v = a :: r) (ha : a.2 = 123) :
    ∃ b r', r = b :: r' ∧ (b.2 = 125 ∨ b.2 = 34) := by
  cases h with
  | scalar t ht =>
    simp only [List.cons.injEq] at hv
    obtain ⟨rfl, -⟩ := hv
    unfold scalarStart at ht
    omega
  | emptyObject x y hx hy =>
    simp only [List.cons.injEq] at hv
    obtain ⟨-, rfl⟩ := hv
    exact ⟨y, [], rfl, Or.inl hy⟩
  | object x ms y hx hms hy =>
    obtain ⟨k, ms', rfl, hk⟩ := gram_members_head hms
    simp only [List.cons_append, List.cons.injEq] at hv
    obtain ⟨-, rfl⟩ := hv
    exact ⟨k, ms' ++ [y], rfl, Or.inr hk⟩
  | emptyArray x y hx hy =>
    simp only [List.cons.injEq] at hv
    obtain ⟨rfl, -⟩ := hv
    omega
  | array x es y hx hes hy =>
    simp only [List.cons_append, List.cons.injEq] at hv
    obtain ⟨rfl, -⟩ := hv
    omega

/-- C6, as the code has it: on every well-formed index stream on which the leaf routines
succeed at every structural byte that starts a scalar (`"`, `t`, `f`, `n`, a digit, `-`), if
the structural bytes do not make up root documents of the container grammar (objects of
`string : value` members and arrays of values, separated by `,`, without a trailing comma),
`unified_machine` returns false. The root documents are those that `start_continue` delimits
(`Docs`): between two of them stands one boundary byte, a newline or a `{` standing in for
it, which is consumed there and is not part of the document after it. -/
theorem grammar_violation_rejected (L : Leaves) (buf : List Byte) (pj : internalParsedJson)
    (hcl : (Machine.init pj).closes buf = true)
    (hleaf : ∀ t ∈ (Machine.init pj).tokens buf, scalarStart t → scalarOK L buf t)
    (hbad : ¬ Docs scalarStart ((Machine.init pj).tokens buf)) :
    ∃ mf, unified_machine L buf pj = .ret false mf := by
  have hsafe : Safe L buf .new_root (Machine.init pj) :=
    ⟨hcl, fun t ht => numberSafe_of_scalarOK (hleaf t ht), fun h => by cases h⟩
  cases hu : unified_machine L buf pj with
  | timeout => exact absurd hu (unified_machine_total L buf pj)
  | panic => exact absurd hu (run_no_panic L buf _ _ _ _ (stackInv_init pj) hsafe)
  | ret b mf =>
    cases b with
    | false => exact ⟨mf, rfl⟩
    | true =>
      obtain ⟨-, hd, -⟩ := roots_return L buf mf _ _ hu
      exact absurd (hd.impAll (fun t ht => scalarStart_of_scalarOK ht)) hbad

/-- The amended C6 on the stream of `{"a":}`, where `:` is followed directly by `}`. -/
theorem grammar_violation_rejected_witness :
    ∃ mf, unified_machine sampleLeaves [123, 34, 97, 34, 58, 125]
      (freshParser [batch [1, 1, 3, 1]]) = .ret false mf := by
  have htok : (Machine.init (freshParser [batch [1, 1, 3, 1]])).tokens
      [123, 34, 97, 34, 58, 125] = [(0, 123), (1, 34), (4, 58), (5, 125)] := by decide
  refine grammar_violation_rejected sampleLeaves [123, 34, 97, 34, 58, 125]
    (freshParser [batch [1, 1, 3, 1]]) (by decide) ?_ ?_
  · intro t ht hs
    rw [htok] at ht
    simp only [List.mem_cons, List.mem_singleton, List.not_mem_nil, or_false] at ht
    rcases ht with rfl | rfl | rfl | rfl
    · simp [scalarStart] at hs
    · exact Or.inl rfl
    · simp [scalarStart] at hs
    · simp [scalarStart] at hs
  · rw [htok]
    intro hd
    generalize hts : [((0 : Nat), (123 : Nat)), (1, 34), (4, 58), (5, 125)] = ts at hd
    cases hd with
    | done => simp at hts
    | last v hv =>
      subst hts
      rcases gram_value_shape hv.1 with ⟨t, h, -⟩ | ⟨a, h, ha⟩ | ⟨a, b, h, -⟩ | h
      · simp at h
      · simp at h; subst h; simp at ha
      · simp at h
      · simp at h
    | more v s rest hv hs hr =>
      have hlen := congrArg List.length hts
      simp only [List.length_cons, List.length_nil, List.length_append] at hlen
      rcases gram_value_shape hv.1 with ⟨t, rfl, ht⟩ | ⟨a, h, ha⟩ | ⟨a, b, rfl, hb⟩ | h
      · simp at hts
        obtain ⟨rfl, -⟩ := hts
        simp [scalarStart] at ht
      · cases v with
        | nil => simp at h
        | cons x xs =>
          simp at h hts
          obtain ⟨rfl, -⟩ := hts
          subst h
          simp at ha
      · simp at hts
        obtain ⟨-, rfl, -⟩ := hts
        simp at hb
      · omega

/-- C6 as stated fails on `{}{{}{`: the `{` at offset 2, the fresh byte after the complete
document `{}`, starts no root document of the grammar (it is followed by `{`, which is
neither a key nor `}`), no leaf routine is called, and the run returns true, because
`start_continue` takes the `{` at offsets 2 and 5 for boundary bytes and reads `{}` between
them as the second document. -/
theorem brace_boundary_hides_violation :
    (Machine.init (freshParser [batch [1, 1, 1, 1, 1, 1]])).tokens [123, 125, 123, 123, 125, 123]
      = [(0, 123), (1, 125)] ++ [(2, 123), (3, 123), (4, 125), (5, 123)] ∧
    Container scalarStart [(0, 123), (1, 125)] ∧
    (∀ v rest, [((2 : Nat), (123 : Nat)), (3, 123), (4, 125), (5, 123)] = v ++ rest →
      ¬ Container scalarStart v) ∧
    (∀ t ∈ (Machine.init (freshParser [batch [1, 1, 1, 1, 1, 1]])).tokens
        [123, 125, 123, 123, 125, 123], ¬ scalarStart t) ∧
    (unified_machine sampleLeaves [123, 125, 123, 123, 125, 123]
        (freshParser [batch [1, 1, 1, 1, 1, 1]])).tapeIf true
      = some [tapeWord 114 4, tapeWord 123 3, tapeWord 125 1, tapeWord 114 0,
          tapeWord 114 8, tapeWord 123 7, tapeWord 125 5, tapeWord 114 4,
          tapeWord 114 10, tapeWord 114 8] := by
  have htok : (Machine.init (freshParser [batch [1, 1, 1, 1, 1, 1]])).tokens
      [123, 125, 123, 123, 125, 123]
      = [(0, 123), (1, 125)] ++ [(2, 123), (3, 123), (4, 125), (5, 123)] := by decide
  refine ⟨htok, ⟨Gram.emptyObject _ _ rfl rfl, _, rfl, Or.inl rfl⟩, ?_, ?_, by decide⟩
  · intro v rest hv hc
    obtain ⟨t, v', rfl, -⟩ := gram_value_head hc.1
    simp only [List.cons_append, List.cons.injEq] at hv
    obtain ⟨rfl, hv⟩ := hv
    obtain ⟨b, r', rfl, hb⟩ := gram_after_open_brace hc.1 _ _ rfl rfl
    simp only [List.cons_append, List.cons.injEq] at hv
    obtain ⟨rfl, -⟩ := hv
    simp at hb
  · intro t ht
    rw [htok] at ht
    simp only [List.cons_append, List.nil_append, List.mem_cons, List.mem_singleton,
      List.not_mem_nil, or_false] at ht
    unfold scalarStart
    rcases ht with rfl | rfl | rfl | rfl | rfl | rfl <;> simp

/-- C10, as the code has it: for every two complete root documents `d1` and `d2`, each an
object or an array, the well-formed index stream of `d1`, one boundary byte and `d2` is
accepted by `unified_machine` started on an empty scope stack, where the boundary byte is a
newline or a `{` that `start_continue` takes for one: it is not part of `d2`. At the boundary
byte the run is back at `new_root` with the footer of the first root written and `d2` ahead
of the reader. -/
theorem ndjson_boundary_accepted (L : Leaves) (buf : List Byte) (pj : internalParsedJson)
    (d1 d2 : List (Nat × Nat)) (s : Nat × Nat)
    (hst : pj.containing_scope_offset = [])
    (hcl : (Machine.init pj).closes buf = true)
    (h1 : Container (scalarOK L buf) d1) (h2 : Container (scalarOK L buf) d2)
    (hs : s.2 = 10 ∨ s.2 = 123)
    (htok : (Machine.init pj).tokens buf = d1 ++ s :: d2) :
    ∃ m2 mf, Fwd L buf .new_root (Machine.init pj) (d1 ++ [s]) .new_root m2 ∧
      m2.tokens buf = d2 ∧ (∃ i, m2.pj.Tape.getLast? = some (tapeWord 114 i)) ∧
      unified_machine L buf pj = .ret true mf := by
  obtain ⟨m2, hf, ht2, hlast⟩ := root_boundary_forward (L := L) h1 hs htok
  obtain ⟨n, mf, hn⟩ := docs_forward L buf (Docs.more d1 s d2 h1 hs (Docs.last d2 h2))
    (Machine.init pj) hst hcl htok
  refine ⟨m2, mf, hf, ht2, hlast, ?_⟩
  rw [unified_machine_eq_run (n := n) (by rw [hn]; simp), hn]

/-- The amended C10 on the documents `{}` and `[]` with a newline between them. -/
theorem ndjson_boundary_accepted_witness :
    ∃ m2 mf, Fwd sampleLeaves [123, 125, 10, 91, 93] .new_root
        (Machine.init (freshParser [batch [1, 1, 1, 1, 1]])) ([(0, 123), (1, 125)] ++ [(2, 10)])
        .new_root m2 ∧
      m2.tokens [123, 125, 10, 91, 93] = [(3, 91), (4, 93)] ∧
      (∃ i, m2.pj.Tape.getLast? = some (tapeWord 114 i)) ∧
      unified_machine sampleLeaves [123, 125, 10, 91, 93]
        (freshParser [batch [1, 1, 1, 1, 1]]) = .ret true mf :=
  ndjson_boundary_accepted sampleLeaves [123, 125, 10, 91, 93]
    (freshParser [batch [1, 1, 1, 1, 1]]) [(0, 123), (1, 125)] [(3, 91), (4, 93)] (2, 10)
    rfl (by decide)
    ⟨Gram.emptyObject _ _ rfl rfl, _, rfl, Or.inl rfl⟩
    ⟨Gram.emptyArray _ _ rfl rfl, _, rfl, Or.inr rfl⟩
    (Or.inl rfl) (by decide)

/-- C10 as stated fails on `{}{}`: both documents are complete objects, no separator is
between them, and the run returns false, because the `{` read at `start_continue` is taken
for the boundary and the `}` after it cannot start a root. -/
theorem adjacent_documents_rejected :
    Container (scalarOK sampleLeaves [123, 125, 123, 125]) [(0, 123), (1, 125)] ∧
    Container (scalarOK sampleLeaves [123, 125, 123, 125]) [(2, 123), (3, 125)] ∧
    (Machine.init (freshParser [batch [1, 1, 1, 1]])).tokens [123, 125, 123, 125]
      = [(0, 123), (1, 125)] ++ [(2, 123), (3, 125)] ∧
    (unified_machine sampleLeaves [123, 125, 123, 125]
      (freshParser [batch [1, 1, 1, 1]])).result = some false :=
  ⟨⟨Gram.emptyObject _ _ rfl rfl, _, rfl, Or.inl rfl⟩,
    ⟨Gram.emptyObject _ _ rfl rfl, _, rfl, Or.inl rfl⟩, by decide, by decide⟩

/-! ## Bytes after a root document and at the start of a root -/

theorem step_start_continue_fail {L : Leaves} {buf : List Byte} {m m1 : Machine}
    (ha : Adv buf m m1) (h1 : m1.c ≠ 10) (h2 : m1.c ≠ 123) :
    step L buf .start_continue m = .goto .fail m1 := by
  obtain ⟨a1, a2⟩ := ha
  simp [step, a1, a2, h1, h2]

theorem step_new_root_fail {L : Leaves} {buf : List Byte} {m m1 : Machine}
    (ha : Adv buf (m.open_scope RET_ADDRESS_START_CONST 114) m1)
    (h1 : m1.c ≠ 123) (h2 : m1.c ≠ 91) :
    step L buf .new_root m = .goto .fail m1 := by
  obtain ⟨a1, a2⟩ := ha
  simp [step, a1, a2, h1, h2]

theorem run_fail_ret (L : Leaves) (buf : List Byte) (k : Nat) (m : Machine) :
    run L buf (k + 1) .fail m = .ret false m := by
  simp [run, step]

/-- C11, as the code has it: on every index stream that consists of one complete root
document followed by at least one more structural byte, the first of which is neither a
newline nor `{` (the two bytes `start_continue` takes for a document boundary),
`unified_machine` returns false. -/
theorem trailing_byte_rejected (L : Leaves) (buf : List Byte) (pj : internalParsedJson)
    (d rest : List (Nat × Nat)) (s : Nat × Nat)
    (hd : Container (scalarOK L buf) d) (hs1 : s.2 ≠ 10) (hs2 : s.2 ≠ 123)
    (htok : (Machine.init pj).tokens buf = d ++ s :: rest) :
    ∃ mf, unified_machine L buf pj = .ret false mf := by
  obtain ⟨m', ⟨j, hj⟩, -, -, -, r5⟩ := root_forward hd htok
  have ht : m'.tokens buf = [s] ++ rest := r5
  obtain ⟨m1, hadv, h11, -⟩ := adv_of_tokens ht
  have hc1 : m1.c ≠ 10 := by rw [← h11] at hs1; exact hs1
  have hc2 : m1.c ≠ 123 := by rw [← h11] at hs2; exact hs2
  have hrun : run L buf ((0 + 1 + 1) + j) .new_root (Machine.init pj) = .ret false m1 := by
    rw [hj, run_succ, step_start_continue_fail hadv hc1 hc2]
    exact run_fail_ret L buf 0 m1
  exact ⟨m1, by rw [unified_machine_eq_run (n := (0 + 1 + 1) + j) (by rw [hrun]; simp), hrun]⟩

/-- The amended C11 on `{}` followed by a stray `]`. -/
theorem trailing_byte_rejected_witness :
    ∃ mf, unified_machine sampleLeaves [123, 125, 93] (freshParser [batch [1, 1, 1]])
      = .ret false mf :=
  trailing_byte_rejected sampleLeaves [123, 125, 93] (freshParser [batch [1, 1, 1]])
    [(0, 123), (1, 125)] [] (2, 93)
    ⟨Gram.emptyObject _ _ rfl rfl, _, rfl, Or.inl rfl⟩ (by decide) (by decide) (by decide)

/-- C11 as stated fails on `{}` followed by `{`: the document is complete, the byte after
it is not a newline, and the run returns true, because `start_continue` takes the `{` for a
document boundary and the stream ends at the `new_root` after it. -/
theorem trailing_open_brace_accepted :
    Container (scalarOK sampleLeaves [123, 125, 123]) [(0, 123), (1, 125)] ∧
    (Machine.init (freshParser [batch [1, 1, 1]])).tokens [123, 125, 123]
      = [(0, 123), (1, 125)] ++ [(2, 123)] ∧
    (unified_machine sampleLeaves [123, 125, 123] (freshParser [batch [1, 1, 1]])).tapeIf true
      = some [tapeWord 114 4, tapeWord 123 3, tapeWord 125 1, tapeWord 114 0,
          tapeWord 114 6, tapeWord 114 4] :=
  ⟨⟨Gram.emptyObject _ _ rfl rfl, _, rfl, Or.inl rfl⟩, by decide, by decide⟩

/-- C12: when a run of `unified_machine` is at `new_root` (at the start of the stream, or
after a document boundary) and the next structural byte of the stream is neither `{` nor
`[`, `unified_machine` returns false. -/
theorem root_start_rejected (L : Leaves) (buf : List Byte) (pj : internalParsedJson)
    (n : Nat) (m : Machine) (t : Nat × Nat) (rest : List (Nat × Nat))
    (hreach : cfgAt L buf n (.new_root, Machine.init pj) = some (.new_root, m))
    (htok : m.tokens buf = t :: rest) (h1 : t.2 ≠ 123) (h2 : t.2 ≠ 91) :
    ∃ mf, unified_machine L buf pj = .ret false mf := by
  have hss := sameStream_open_scope m RET_ADDRESS_START_CONST 114
  have ht0 : (m.open_scope RET_ADDRESS_START_CONST 114).tokens buf = [t] ++ rest := by
    rw [tokens_congr hss]; exact htok
  obtain ⟨m1, hadv, h11, -⟩ := adv_of_tokens ht0
  have hc1 : m1.c ≠ 123 := by rw [← h11] at h1; exact h1
  have hc2 : m1.c ≠ 91 := by rw [← h11] at h2; exact h2
  have hrun : run L buf (n + (0 + 1 + 1)) .new_root (Machine.init pj) = .ret false m1 := by
    rw [run_cfgAt L buf n (0 + 1 + 1) _ _ .new_root m hreach, run_succ,
      step_new_root_fail hadv hc1 hc2]
    exact run_fail_ret L buf 0 m1
  exact ⟨m1, by rw [unified_machine_eq_run (n := n + (0 + 1 + 1)) (by rw [hrun]; simp), hrun]⟩

/-- C12 on the stream of the top-level atom `true`. -/
theorem root_start_rejected_witness :
    ∃ mf, unified_machine sampleLeaves [116, 114, 117, 101] (freshParser [batch [1]])
      = .ret false mf :=
  root_start_rejected sampleLeaves [116, 114, 117, 101] (freshParser [batch [1]])
    0 _ (0, 116) [] rfl (by decide) (by decide) (by decide)

/-! ## Scope entries and the depth of the scope stack -/

/-- The step at `scope_end` in full: the top entry is popped, the close word holding the
recorded index is appended, and the recorded word gets the index after the close word. -/
theorem step_scope_end_tape {L : Leaves} {buf : List Byte} {m : Machine} {s : List Nat}
    {e w : Nat} (hst : m.pj.containing_scope_offset = s ++ [e])
    (hw : m.pj.Tape[e >>> 2]? = some w) :
    ∃ m', step L buf .scope_end m = .goto (retLabel e) m' ∧
      m'.pj.containing_scope_offset = s ∧
      m'.pj.Tape = (m.pj.Tape ++ [tapeWord m.c (e >>> 2)]).set (e >>> 2)
        (tapeWord (tagOf w) (m.pj.Tape.length + 1)) ∧
      m'.pj.isvalid = m.pj.isvalid ∧ SameStream m m' := by
  have hlt : e >>> 2 < m.pj.Tape.length := by
    by_contra hge
    rw [List.getElem?_eq_none (by omega)] at hw
    exact absurd hw (by simp)
  have hs := step_spec L buf .scope_end m
  generalize hn : step L buf .scope_end m = nx at hs
  cases hs with
  | failed _ _ _ h1 h2 h3 _ => exact absurd rfl h3
  | read_panic _ _ hl _ => simp [Label.reads] at hl
  | read_done _ _ _ hl _ => simp [Label.reads] at hl
  | read2_panic _ _ _ _ hl => simp [Label.second] at hl
  | read2_done _ _ _ _ _ hl => simp [Label.second] at hl
  | close _ _ _ _ hl => simp [Label.closer] at hl
  | scope _ m' e' hp =>
    obtain ⟨p1, ⟨w', p2, p3⟩, p4, p5, p6, -⟩ := hp
    rw [hst, List.getLast?_concat] at p1
    cases Option.some.inj p1
    rw [List.getElem?_append_left hlt, hw] at p2
    cases Option.some.inj p2
    exact ⟨m', rfl, by rw [p4, hst, List.dropLast_concat], p3, p5, p6⟩
  | scope_panic _ hno =>
    exfalso
    rcases hno with h | ⟨e', he, hle⟩
    · rw [hst, List.getLast?_concat] at h
      exact absurd h (by simp)
    · rw [hst, List.getLast?_concat] at he
      cases Option.some.inj he
      omega

/-- C18: for every tape index `i < 2 ^ 62` and every return code `rc` among START, OBJECT and
ARRAY, the scope entry `(i << 2) | rc` computed in 64-bit arithmetic unpacks to the same
pair, `e >> 2 = i` and `e & 3 = rc`; and `scope_end`, popping that entry, appends the close
word, back-patches the tape word at index `i` and resumes the state the return code names
(ARRAY `array_continue`, OBJECT `object_continue`, START `start_continue`). -/
theorem scope_entry_roundtrip (i rc : Nat) (hi : i < 2 ^ 62)
    (hrc : rc = RET_ADDRESS_START_CONST ∨ rc = RET_ADDRESS_OBJECT_CONST ∨
      rc = RET_ADDRESS_ARRAY_CONST) :
    ((i <<< RET_ADDRESS_SHIFT) % 2 ^ 64 ||| rc) >>> RET_ADDRESS_SHIFT = i ∧
    ((i <<< RET_ADDRESS_SHIFT) % 2 ^ 64 ||| rc) &&& ((1 <<< RET_ADDRESS_SHIFT) - 1) = rc ∧
    ∀ (L : Leaves) (buf : List Byte) (m : Machine) (s : List Nat) (w : Nat),
      m.pj.containing_scope_offset = s ++ [(i <<< RET_ADDRESS_SHIFT) % 2 ^ 64 ||| rc] →
      m.pj.Tape[i]? = some w →
      ∃ m', step L buf .scope_end m
          = .goto (if rc = RET_ADDRESS_ARRAY_CONST then .array_continue
              else if rc = RET_ADDRESS_OBJECT_CONST then .object_continue
              else .start_continue) m' ∧
        m'.pj.containing_scope_offset = s ∧
        m'.pj.Tape = (m.pj.Tape ++ [tapeWord m.c i]).set i
          (tapeWord (tagOf w) (m.pj.Tape.length + 1)) := by
  have hrc4 : rc < 4 := by rcases hrc with h | h | h <;> rw [h] <;> decide
  have hidx : ((i <<< RET_ADDRESS_SHIFT) % 2 ^ 64 ||| rc) >>> 2 = i := by
    rw [entry_index i rc hrc4]; exact Nat.mod_eq_of_lt hi
  refine ⟨hidx, entry_code i rc hrc4, ?_⟩
  intro L buf m s w hst hw
  rw [← hidx] at hw
  obtain ⟨m', h1, h2, h3, -, -⟩ := @step_scope_end_tape L buf _ _ _ _ hst hw
  rw [retLabel_entry i rc hrc4] at h1
  rw [hidx] at h3
  exact ⟨m', h1, h2, h3⟩

/-- C18 at the tape index 5 with the return code OBJECT. -/
theorem scope_entry_roundtrip_witness :
    ((5 <<< RET_ADDRESS_SHIFT) % 2 ^ 64 ||| 2) >>> RET_ADDRESS_SHIFT = 5 ∧
    ((5 <<< RET_ADDRESS_SHIFT) % 2 ^ 64 ||| 2) &&& ((1 <<< RET_ADDRESS_SHIFT) - 1) = 2 ∧
    ∀ (L : Leaves) (buf : List Byte) (m : Machine) (s : List Nat) (w : Nat),
      m.pj.containing_scope_offset = s ++ [(5 <<< RET_ADDRESS_SHIFT) % 2 ^ 64 ||| 2] →
      m.pj.Tape[5]? = some w →
      ∃ m', step L buf .scope_end m
          = .goto (if 2 = RET_ADDRESS_ARRAY_CONST then .array_continue
              else if 2 = RET_ADDRESS_OBJECT_CONST then .object_continue
              else .start_continue) m' ∧
        m'.pj.containing_scope_offset = s ∧
        m'.pj.Tape = (m.pj.Tape ++ [tapeWord m.c 5]).set 5
          (tapeWord (tagOf w) (m.pj.Tape.length + 1)) :=
  scope_entry_roundtrip 5 2 (by decide) (Or.inr (Or.inl rfl))

/-- C20: at every configuration a run of `unified_machine` reaches from an initial scope
stack of `n` entries, the stack holds at least `n + 1` entries (so its top can be read) at
`start_continue`, `scope_end` and `succeed`, the labels whose code reads and pops the top
entry, and at least `n + 2` entries (the root entry and a container entry) at every object
and array label. -/
theorem scope_stack_never_empty (L : Leaves) (buf : List Byte) (pj : internalParsedJson)
    (k : Nat) (l : Label) (m : Machine)
    (hreach : cfgAt L buf k (.new_root, Machine.init pj) = some (l, m)) :
    ((l = .start_continue ∨ l = .scope_end ∨ l = .succeed) →
      pj.containing_scope_offset.length + 1 ≤ m.pj.containing_scope_offset.length ∧
        m.pj.containing_scope_offset.getLast? ≠ none) ∧
    (l.nested = true →
      pj.containing_scope_offset.length + 2 ≤ m.pj.containing_scope_offset.length) := by
  have hne : ∀ xs : List Nat, 1 ≤ xs.length → xs.getLast? ≠ none := by
    intro xs hx h
    rw [List.getLast?_eq_none_iff] at h
    rw [h] at hx
    simp at hx
  rcases cfgAt_stackInv L buf _ k _ _ l m hreach (stackInv_init pj) with h | h
  · subst h
    constructor
    · intro h
      rcases h with h | h | h <;> cases h
    · intro h
      simp [Label.nested] at h
  · obtain ⟨ents, hst, hd, -⟩ := h
    have hlen : m.pj.containing_scope_offset.length
        = pj.containing_scope_offset.length + ents.length := by
      rw [hst, List.length_append]
    constructor
    · intro hl
      have h1 : 1 ≤ ents.length := by
        rcases hl with rfl | rfl | rfl
        · have : ents.length = 1 := hd
          omega
        · have : 2 ≤ ents.length := hd
          omega
        · exact hd
      exact ⟨by omega, hne _ (by omega)⟩
    · intro hl
      have h2 : 2 ≤ ents.length := by
        cases l <;> simp [Label.nested] at hl <;> exact hd
      omega

/-- C20 on the stream of `[1`, two jumps into the run: the run is at `main_array_switch`
with the root entry and the entry of the array on the stack. -/
theorem scope_stack_never_empty_witness :
    ∃ m, cfgAt sampleLeaves [91, 49] 2
        (.new_root, Machine.init (freshParser [batch [1, 1]])) = some (.main_array_switch, m) ∧
      (freshParser [batch [1, 1]]).containing_scope_offset.length + 2
        ≤ m.pj.containing_scope_offset.length :=
  ⟨_, rfl, (scope_stack_never_empty sampleLeaves [91, 49] (freshParser [batch [1, 1]])
    2 .main_array_switch _ rfl).2 rfl⟩

/-! ## The end of the stream at `new_root` -/

theorem tapeWord_mod (c x : Nat) : tapeWord c (x % 2 ^ 64) = tapeWord c x := by
  unfold tapeWord
  rw [Nat.mod_mod_of_dvd x (by norm_num : 2 ^ 56 ∣ 2 ^ 64)]

theorem tapeWord_mod62 (c x : Nat) : tapeWord c (x % 2 ^ 62) = tapeWord c x := by
  unfold tapeWord
  rw [Nat.mod_mod_of_dvd x (by norm_num : 2 ^ 56 ∣ 2 ^ 62)]

/-- The step at `succeed` in full, when the root entry is the only entry of the scope
stack. -/
theorem step_succeed_tape {L : Leaves} {buf : List Byte} {m : Machine} {e w : Nat}
    (hst : m.pj.containing_scope_offset = [e]) (hw : m.pj.Tape[e >>> 2]? = some w) :
    ∃ mf, step L buf .succeed m = .ret true mf ∧
      mf.pj.Tape = m.pj.Tape.set (e >>> 2) (tapeWord (tagOf w) ((m.pj.Tape.length + 1) % 2 ^ 64))
        ++ [tapeWord 114 (e >>> 2)] ∧
      mf.pj.containing_scope_offset = [] ∧ mf.pj.isvalid = true := by
  refine ⟨?mf, ?h, ?_, ?_, ?_⟩
  case h =>
    simp only [step, hst, List.getLast?_singleton, List.dropLast_single, List.length_nil,
      ne_eq, not_true_eq_false, if_false, ParsedJson.annotate_previousloc,
      RET_ADDRESS_SHIFT, hw]
    exact rfl
  · simp [ParsedJson.write_tape, ParsedJson.get_current_loc]
  · rfl
  · rfl

/-- At `new_root` with the stream at its end the run returns true after appending an empty
root pair. -/
theorem run_new_root_done {L : Leaves} {buf : List Byte} {m : Machine}
    (hst : m.pj.containing_scope_offset = []) (htok : m.tokens buf = [])
    (hcl : m.closes buf = true) (hlen : m.pj.Tape.length < 2 ^ 62) :
    ∃ mf, run L buf (0 + 1 + 1) .new_root m = .ret true mf ∧
      mf.pj.Tape = m.pj.Tape ++
        [tapeWord 114 (m.pj.Tape.length + 2), tapeWord 114 m.pj.Tape.length] := by
  have hss := sameStream_open_scope m RET_ADDRESS_START_CONST 114
  obtain ⟨m1, hd⟩ := @tokens_nil_done buf (m.open_scope RET_ADDRESS_START_CONST 114)
    (by rw [tokens_congr hss]; exact htok) (by rw [closes_congr hss]; exact hcl)
  have hf := adv_frame hd.1
  have hT1 : m1.pj.Tape = m.pj.Tape ++ [tapeWord 114 0] := by
    rw [hf.2]; simp [Machine.open_scope, ParsedJson.write_tape]
  have hst1 : m1.pj.containing_scope_offset
      = [(m.pj.Tape.length <<< RET_ADDRESS_SHIFT) % 2 ^ 64 ||| RET_ADDRESS_START_CONST] := by
    rw [hf.1]; simp [Machine.open_scope, hst, ParsedJson.get_current_loc]
  have hidx : ((m.pj.Tape.length <<< RET_ADDRESS_SHIFT) % 2 ^ 64 ||| RET_ADDRESS_START_CONST)
      >>> 2 = m.pj.Tape.length := by
    rw [entry_index _ _ (by norm_num)]; exact Nat.mod_eq_of_lt hlen
  have hw : m1.pj.Tape[((m.pj.Tape.length <<< RET_ADDRESS_SHIFT) % 2 ^ 64
      ||| RET_ADDRESS_START_CONST) >>> 2]? = some (tapeWord 114 0) := by
    rw [hidx, hT1]; simp
  obtain ⟨mf, hsucc, hT, -, -⟩ := @step_succeed_tape L buf m1 _ _ hst1 hw
  refine ⟨mf, ?_, ?_⟩
  · rw [run_succ, step_new_root_done hd]
    show run L buf (0 + 1) .succeed m1 = _
    rw [run_succ, hsucc]; rfl
  · rw [hT, hidx, hT1, tapeWord_mod]
    have htag : tagOf (tapeWord 114 0) = 114 := by decide
    rw [htag]
    simp [List.set_append_right]

/-- C19: when a run of `unified_machine` started with an empty scope stack is at `new_root`
(at the start of the stream, or after a document boundary) and the index stream is at its end
there, `unified_machine` returns true and the run appends an empty root pair to the tape: a
header `r` holding the index after its footer, immediately followed by the footer `r` holding
the index of the header. -/
theorem empty_root_pair (L : Leaves) (buf : List Byte) (pj : internalParsedJson) (n : Nat)
    (m : Machine) (hst : pj.containing_scope_offset = [])
    (hreach : cfgAt L buf n (.new_root, Machine.init pj) = some (.new_root, m))
    (htok : m.tokens buf = []) (hcl : m.closes buf = true)
    (hlen : m.pj.Tape.length < 2 ^ 62) :
    ∃ mf, unified_machine L buf pj = .ret true mf ∧
      mf.pj.Tape = m.pj.Tape ++
        [tapeWord 114 (m.pj.Tape.length + 2), tapeWord 114 m.pj.Tape.length] := by
  have hst' : m.pj.containing_scope_offset = [] := by
    rcases cfgAt_stackInv L buf _ n _ _ .new_root m hreach (stackInv_init pj) with h | h
    · cases h
    · obtain ⟨ents, h1, h2, -⟩ := h
      have : ents.length = 0 := h2
      rw [h1, hst, List.length_eq_zero.mp this]
      rfl
  obtain ⟨mf, hrun, hT⟩ := run_new_root_done (L := L) hst' htok hcl hlen
  have hrun2 : run L buf (n + (0 + 1 + 1)) .new_root (Machine.init pj) = .ret true mf := by
    rw [run_cfgAt L buf n (0 + 1 + 1) _ _ .new_root m hreach, hrun]
  exact ⟨mf, by rw [unified_machine_eq_run (n := n + (0 + 1 + 1)) (by rw [hrun2]; simp), hrun2],
    hT⟩

/-- C19 on the empty stream and the empty tape: the result is the two words `r 2`, `r 0`. -/
theorem empty_root_pair_witness :
    ∃ mf, unified_machine sampleLeaves [] (freshParser []) = .ret true mf ∧
      mf.pj.Tape = [tapeWord 114 2, tapeWord 114 0] := by
  obtain ⟨mf, h1, h2⟩ := empty_root_pair sampleLeaves [] (freshParser []) 0
    (Machine.init (freshParser [])) rfl rfl (by decide) (by decide) (by decide)
  exact ⟨mf, h1, h2.trans rfl⟩

/-! ## The valid flag -/

theorem adv_isvalid {buf : List Byte} {m m1 : Machine} (h : m.advance buf = some m1) :
    m1.pj.isvalid = m.pj.isvalid := (advance_frame h).2.2.1

theorem valueEdge_isvalid {L : Leaves} {buf : List Byte} {rc : Nat} {cont l' : Label}
    {m m' : Machine} (h : ValueEdge L buf rc cont m l' m') : m'.pj.isvalid = m.pj.isvalid := by
  rcases h with ⟨-, hs⟩ | ⟨-, -, rfl⟩ | ⟨-, -, rfl⟩
  · exact hs.2.2.2.1
  · rfl
  · rfl

/-- No jump changes the valid flag, nor does a return of `false`. -/
theorem spec_isvalid {L : Leaves} {buf : List Byte} {l : Label} {m : Machine} {nx : Next}
    (hs : Spec L buf l m nx) :
    (∀ l' m', nx = .goto l' m' → m'.pj.isvalid = m.pj.isvalid) ∧
      (∀ m', nx = .ret false m' → m'.pj.isvalid = m.pj.isvalid) := by
  cases hs with
  | read_panic l m hl h =>
    exact ⟨fun _ _ h => (by cases h), fun _ h => (by cases h)⟩
  | read_done l m m1 hl h =>
    refine ⟨fun l' m' hx => ?_, fun _ h => by cases h⟩
    cases hx
    rw [adv_isvalid h.1]
    cases l <;> rfl
  | read2_panic l m m1 c hl h1 hc h2 =>
    exact ⟨fun _ _ h => (by cases h), fun _ h => (by cases h)⟩
  | read2_done l m m1 m2 c hl h1 hc h2 =>
    refine ⟨fun l' m' hx => ?_, fun _ h => by cases h⟩
    cases hx
    rw [adv_isvalid h2.1, adv_isvalid h1.1]
  | failed l m m' h1 h2 h3 hf =>
    refine ⟨fun l' m'' hx => ?_, fun _ h => by cases h⟩
    cases hx
    exact hf.1
  | root_open m m1 l' h1 h2 =>
    refine ⟨fun l'' m' hx => ?_, fun _ h => by cases h⟩
    cases hx
    show m1.pj.isvalid = m.pj.isvalid
    rw [adv_isvalid h1.1]
    rfl
  | boundary m m1 m2 e h1 hc hr =>
    refine ⟨fun l' m' hx => ?_, fun _ h => by cases h⟩
    cases hx
    rw [hr.2.2.2.1, adv_isvalid h1.1]
  | boundary_panic m m1 h1 hc hn =>
    exact ⟨fun _ _ h => (by cases h), fun _ h => (by cases h)⟩
  | key m m1 m2 h1 hc hs =>
    refine ⟨fun l' m' hx => ?_, fun _ h => by cases h⟩
    cases hx
    rw [hs.2.2.2.1, adv_isvalid h1.1]
  | next_key m m1 m2 m3 h1 hc h2 hc2 hs =>
    refine ⟨fun l' m' hx => ?_, fun _ h => by cases h⟩
    cases hx
    rw [hs.2.2.2.1, adv_isvalid h2.1, adv_isvalid h1.1]
  | close l m m1 c hl h1 hc =>
    refine ⟨fun l' m' hx => ?_, fun _ h => by cases h⟩
    cases hx
    exact adv_isvalid h1.1
  | member_value m m1 m2 l' m' h1 hc h2 hv =>
    refine ⟨fun l'' m'' hx => ?_, fun _ h => by cases h⟩
    cases hx
    rw [valueEdge_isvalid hv, adv_isvalid h2.1, adv_isvalid h1.1]
  | member_value_panic m m1 m2 h1 hc h2 hn =>
    exact ⟨fun _ _ h => (by cases h), fun _ h => (by cases h)⟩
  | element_value m l' m' hv =>
    refine ⟨fun l'' m'' hx => ?_, fun _ h => by cases h⟩
    cases hx
    exact valueEdge_isvalid hv
  | element_value_panic m hn =>
    exact ⟨fun _ _ h => (by cases h), fun _ h => (by cases h)⟩
  | first_element m m1 h1 hc =>
    refine ⟨fun l' m' hx => ?_, fun _ h => by cases h⟩
    cases hx
    exact adv_isvalid h1.1
  | next_element m m1 m2 h1 hc h2 =>
    refine ⟨fun l' m' hx => ?_, fun _ h => by cases h⟩
    cases hx
    rw [adv_isvalid h2.1, adv_isvalid h1.1]
  | scope m m' e hp =>
    refine ⟨fun l' m'' hx => ?_, fun _ h => by cases h⟩
    cases hx
    exact hp.2.2.2.1
  | scope_panic m hn =>
    exact ⟨fun _ _ h => (by cases h), fun _ h => (by cases h)⟩
  | succeed_true m m' e h1 h2 =>
    exact ⟨fun _ _ h => (by cases h), fun _ h => (by cases h)⟩
  | succeed_false m m' e h1 h2 h3 h4 h5 =>
    refine ⟨fun _ _ h => (by cases h), fun m'' hx => ?_⟩
    cases hx
    exact h4
  | succeed_panic m h1 h2 =>
    exact ⟨fun _ _ h => (by cases h), fun _ h => (by cases h)⟩
  | fail_ret m =>
    refine ⟨fun _ _ h => (by cases h), fun m'' hx => ?_⟩
    cases hx
    rfl

/-- A run that returns `false` leaves the valid flag as it was. -/
theorem run_false_isvalid (L : Leaves) (buf : List Byte) :
    ∀ n l m mf, run L buf n l m = .ret false mf → mf.pj.isvalid = m.pj.isvalid := by
  intro n
  induction n with
  | zero => intro l m mf h; simp [run] at h
  | succ n ih =>
    intro l m mf h
    rw [run_succ] at h
    have hs := spec_isvalid (step_spec L buf l m)
    generalize step L buf l m = nx at h hs
    cases nx with
    | goto l' m' =>
      exact (ih l' m' mf h).trans (hs.1 l' m' rfl)
    | ret b m' =>
      simp only [resume, Outcome.ret.injEq] at h
      obtain ⟨rfl, rfl⟩ := h
      exact hs.2 _ rfl
    | panic => simp [resume] at h

/-- C15: for every index stream and every initial parser state, if `unified_machine` returns
true the scope stack is empty on return and the valid flag is set; if it returns false the
valid flag is as it was before the call. -/
theorem return_state (L : Leaves) (buf : List Byte) (pj : internalParsedJson) (b : Bool)
    (mf : Machine) (h : unified_machine L buf pj = .ret b mf) :
    (b = true → mf.pj.containing_scope_offset = [] ∧ mf.pj.isvalid = true) ∧
      (b = false → mf.pj.isvalid = pj.isvalid) := by
  constructor
  · rintro rfl
    obtain ⟨-, -, h3, h4, -⟩ := roots_return L buf mf _ _ h
    exact ⟨h3, h4⟩
  · rintro rfl
    exact run_false_isvalid L buf _ _ _ mf h

/-- C15 on the stream of `{"a":}`, started with the valid flag set: the run returns false and
the flag is still set. -/
theorem return_state_witness :
    ∃ b mf, unified_machine sampleLeaves [123, 34, 97, 34, 58, 125]
        { freshParser [batch [1, 1, 3, 1]] with isvalid := true } = .ret b mf ∧
      b = false ∧ (b = true → mf.pj.containing_scope_offset = [] ∧ mf.pj.isvalid = true) ∧
      (b = false → mf.pj.isvalid = true) := by
  have hr : (unified_machine sampleLeaves [123, 34, 97, 34, 58, 125]
      { freshParser [batch [1, 1, 3, 1]] with isvalid := true }).result = some false := by
    decide
  cases h : unified_machine sampleLeaves [123, 34, 97, 34, 58, 125]
      { freshParser [batch [1, 1, 3, 1]] with isvalid := true } with
  | timeout => rw [h] at hr; simp [Outcome.result] at hr
  | panic => rw [h] at hr; simp [Outcome.result] at hr
  | ret b mf =>
    rw [h] at hr
    simp only [Outcome.result, Option.some.injEq] at hr
    exact ⟨b, mf, rfl, hr, return_state _ _ _ b mf h⟩

/-! ## The offsets the reader yields -/

/-- One call of the reader that delivers a byte: the offset is in the buffer, it is the
previous offset plus an entry of a batch, and the batches ahead are those before or their
tail. -/
theorem updateChar_offset {buf : List Byte} {pj pj' : internalParsedJson} {idx idx' c : Nat}
    {ch ch' : indexChan} (h : updateChar buf pj idx ch = some (false, idx', c, ch', pj'))
    (hch : ch.positive) (hpj : ∀ b ∈ pj.index_chan, b.positive) :
    idx' < buf.length ∧ (∃ d, 1 ≤ d ∧ d < 2 ^ 32 ∧ idx' = (idx + d) % 2 ^ 64) ∧
      ch'.positive ∧ ∀ b ∈ pj'.index_chan, b.positive := by
  have hlt : ∀ {i : Nat} {x : Byte}, buf[i]? = some x → i < buf.length := by
    intro i x hx
    by_contra hge
    rw [List.getElem?_eq_none (by omega)] at hx
    exact absurd hx (by simp)
  rcases updateChar_some h with ⟨hr, -, -⟩ | ⟨b, rest, d, c', -, hb, hd, hc, hr⟩ |
    ⟨d, c', -, hd, hc, hr⟩
  · cases hr
  · cases hr
    have hbp : b.positive := hpj b (by rw [hb]; exact List.mem_cons_self _ _)
    have hdm := hbp d (List.getElem?_mem hd)
    refine ⟨hlt hc, ⟨d, hdm.1, hdm.2, rfl⟩, hbp, ?_⟩
    intro b' hb'
    exact hpj b' (by rw [hb]; exact List.mem_cons_of_mem _ hb')
  · cases hr
    have hdm := hch d (List.getElem?_mem hd)
    exact ⟨hlt hc, ⟨d, hdm.1, hdm.2, rfl⟩, hch, hpj⟩

/-- After an offset inside the buffer, the reader's offsets grow strictly. -/
theorem tokensAux_increasing (buf : List Byte) (hbuf : buf.length ≤ 2 ^ 63) :
    ∀ (fuel : Nat) (pj : internalParsedJson) (idx : Nat) (ch : indexChan),
      idx < 2 ^ 63 → ch.positive → (∀ b ∈ pj.index_chan, b.positive) →
      (∀ t ∈ tokensAux buf fuel pj idx ch, idx < t.1) ∧
        List.Pairwise (· < ·) ((tokensAux buf fuel pj idx ch).map Prod.fst) := by
  intro fuel
  induction fuel with
  | zero => intro pj idx ch _ _ _; simp [tokensAux]
  | succ fuel ih =>
    intro pj idx ch hidx hch hpj
    cases hu : updateChar buf pj idx ch with
    | none => simp [tokensAux, hu]
    | some r =>
      obtain ⟨done, idx', c, ch', pj'⟩ := r
      cases done with
      | true => simp [tokensAux, hu]
      | false =>
        obtain ⟨h1, ⟨d, hd1, hd2, hd3⟩, h3, h4⟩ := updateChar_offset hu hch hpj
        have hlt : idx < idx' := by
          rw [hd3, Nat.mod_eq_of_lt (by omega)]
          omega
        obtain ⟨i1, i2⟩ := ih pj' idx' ch' (by omega) h3 h4
        simp only [tokensAux, hu, List.mem_cons, List.map_cons, List.pairwise_cons]
        refine ⟨?_, ?_, i2⟩
        · rintro t (rfl | ht)
          · exact hlt
          · exact lt_trans hlt (i1 t ht)
        · intro a ha
          obtain ⟨t, ht, rfl⟩ := List.mem_map.mp ha
          exact i1 t ht

/-- Whatever the offset before the first call, the reader's offsets grow strictly. -/
theorem tokensAux_pairwise (buf : List Byte) (hbuf : buf.length ≤ 2 ^ 63) (fuel : Nat)
    (pj : internalParsedJson) (idx : Nat) (ch : indexChan) (hch : ch.positive)
    (hpos : ∀ b ∈ pj.index_chan, b.positive) :
    List.Pairwise (· < ·) ((tokensAux buf fuel pj idx ch).map Prod.fst) := by
  cases fuel with
  | zero => simp [tokensAux]
  | succ fuel =>
    cases hu : updateChar buf pj idx ch with
    | none => simp [tokensAux, hu]
    | some r =>
      obtain ⟨done, idx', c, ch', pj'⟩ := r
      cases done with
      | true => simp [tokensAux, hu]
      | false =>
        obtain ⟨h1, -, h3, h4⟩ := updateChar_offset hu hch hpos
        obtain ⟨i1, i2⟩ := tokensAux_increasing buf hbuf fuel pj' idx' ch' (by omega) h3 h4
        simp only [tokensAux, hu, List.map_cons, List.pairwise_cons]
        refine ⟨?_, i2⟩
        intro a ha
        obtain ⟨t, ht, rfl⟩ := List.mem_map.mp ha
        exact i1 t ht

theorem zero_positive : indexChan.zero.positive := by
  intro d hd
  simp [indexChan.zero] at hd

/-! ## The reads of a run are the reader's sequence -/

theorem advDone_tokens {buf : List Byte} {m m1 : Machine} (h : AdvDone buf m m1) :
    m1.tokens buf = [] := by
  have h0 := (advance_done h.1 h.2).2.1
  have h1 := pending_advDone h
  have h2 : pending m1.indexCh m1.pj.index_chan = 0 := by omega
  simp [Machine.tokens, h2, tokensAux]

theorem adv_suffix {buf : List Byte} {m m1 : Machine} (h : Adv buf m m1) :
    m1.tokens buf <:+ m.tokens buf := by
  rw [(adv_facts h).2.2.2]
  exact List.suffix_cons _ _

theorem sameStream_suffix {buf : List Byte} {m m' : Machine} (h : SameStream m m') :
    m'.tokens buf <:+ m.tokens buf := by
  rw [tokens_congr h]

/-- A jump (not to `fail`) leaves the reader at a later place of the same sequence. -/
theorem spec_tokens_suffix {L : Leaves} {buf : List Byte} {l l' : Label} {m m' : Machine}
    (hs : Spec L buf l m (.goto l' m')) (hf : l' ≠ .fail) :
    m'.tokens buf <:+ m.tokens buf := by
  cases hs with
  | read_done _ _ _ hl h =>
    rw [advDone_tokens h]
    exact List.nil_suffix
  | read2_done _ _ m1 _ c hl h1 hc h2 =>
    rw [advDone_tokens h2]
    exact List.nil_suffix
  | failed _ _ _ h1 h2 h3 h4 => exact absurd rfl hf
  | root_open _ m1 _ h1 h2 =>
    have e1 : (m1.open_scope RET_ADDRESS_START_CONST m1.c).tokens buf = m1.tokens buf :=
      tokens_congr (sameStream_open_scope _ _ _)
    have e2 : (m.open_scope RET_ADDRESS_START_CONST 114).tokens buf = m.tokens buf :=
      tokens_congr (sameStream_open_scope _ _ _)
    rw [e1, ← e2]
    exact adv_suffix h1
  | boundary _ m1 _ e h1 hc hr =>
    exact (sameStream_suffix hr.2.2.2.2.2).trans (adv_suffix h1)
  | key _ m1 _ h1 hc hs =>
    exact (sameStream_suffix hs.2.1).trans (adv_suffix h1)
  | next_key _ m1 m2 _ h1 hc h2 hc2 hs =>
    exact ((sameStream_suffix hs.2.1).trans (adv_suffix h2)).trans (adv_suffix h1)
  | close _ _ _ c hl h1 hc => exact adv_suffix h1
  | member_value _ m1 m2 _ _ h1 hc h2 hv =>
    exact ((sameStream_suffix (valueEdge_stream hv)).trans (adv_suffix h2)).trans
      (adv_suffix h1)
  | element_value _ _ _ hv => exact sameStream_suffix (valueEdge_stream hv)
  | first_element _ _ h1 hc => exact adv_suffix h1
  | next_element _ m1 _ h1 hc h2 => exact (adv_suffix h2).trans (adv_suffix h1)
  | scope _ _ e hp => exact sameStream_suffix hp.2.2.2.2.1

theorem cfgAt_tokens_suffix (L : Leaves) (buf : List Byte) :
    ∀ n l m l' m', cfgAt L buf n (l, m) = some (l', m') → l' ≠ .fail →
      m'.tokens buf <:+ m.tokens buf := by
  intro n
  induction n with
  | zero =>
    intro l m l' m' h _
    simp only [cfgAt, Option.some.injEq, Prod.mk.injEq] at h
    rw [← h.2]
  | succ n ih =>
    intro l m l' m' h hf
    simp only [cfgAt] at h
    cases hs : step L buf l m with
    | goto l1 m1 =>
      rw [hs] at h
      by_cases hf1 : l1 = .fail
      · subst hf1
        cases n with
        | zero =>
          simp only [cfgAt, Option.some.injEq, Prod.mk.injEq] at h
          exact absurd h.1.symm hf
        | succ n => simp [cfgAt, step] at h
      · have hsp := step_spec L buf l m
        rw [hs] at hsp
        exact (ih l1 m1 l' m' h hf).trans (spec_tokens_suffix hsp hf1)
    | ret b m1 => rw [hs] at h; simp at h
    | panic => rw [hs] at h; simp at h

/-- C16: for every index stream as the structural-index stage sends it, the sequence of
absolute input offsets that `updateChar` yields from the initial state of `unified_machine`
is strictly increasing; and at every configuration a run reaches (short of `fail`) the
offsets still ahead of the reader are a final part of that sequence. The batches of such a
stream hold distances between successive structural bytes (at least 1, `uint32`), over a
buffer of at most `2 ^ 63` bytes. -/
theorem offsets_strictly_increasing (L : Leaves) (buf : List Byte) (pj : internalParsedJson)
    (hbuf : buf.length ≤ 2 ^ 63) (hpos : ∀ b ∈ pj.index_chan, b.positive) :
    List.Pairwise (· < ·) (((Machine.init pj).tokens buf).map Prod.fst) ∧
      ∀ n l m, cfgAt L buf n (.new_root, Machine.init pj) = some (l, m) → l ≠ .fail →
        m.tokens buf <:+ (Machine.init pj).tokens buf :=
  ⟨tokensAux_pairwise buf hbuf _ pj _ _ zero_positive hpos,
    fun n l m h hf => cfgAt_tokens_suffix L buf n _ _ l m h hf⟩

/-- C16 on the stream of `{"a":1}`: the offsets are 0, 1, 4, 5, 6. -/
theorem offsets_strictly_increasing_witness :
    ((Machine.init (freshParser [batch [1, 1, 3, 1, 1]])).tokens
        [123, 34, 97, 34, 58, 49, 125]).map Prod.fst = [0, 1, 4, 5, 6] ∧
    List.Pairwise (· < ·) (((Machine.init (freshParser [batch [1, 1, 3, 1, 1]])).tokens
        [123, 34, 97, 34, 58, 49, 125]).map Prod.fst) :=
  ⟨by decide, (offsets_strictly_increasing sampleLeaves [123, 34, 97, 34, 58, 49, 125]
    (freshParser [batch [1, 1, 3, 1, 1]]) (by decide) (by
      intro b hb d hd
      simp only [freshParser, List.mem_singleton] at hb
      subst hb
      simp only [batch, List.mem_cons, List.mem_singleton, List.not_mem_nil, or_false] at hd
      rcases hd with rfl | rfl | rfl | rfl | rfl <;> decide)).1⟩

/-- The order of the offsets rests on the batches: `updateChar` adds an entry to the previous
offset without a test of its own, so a batch with a zero entry (one that the
structural-index stage never sends) would make it yield the offset 0 of `{}` twice. -/
theorem repeated_offset_yielded :
    (Machine.init (freshParser [batch [1, 0]])).tokens [123, 125] = [(0, 123), (0, 123)] ∧
    (∃ m m', cfgAt sampleLeaves [123, 125] 1 (.new_root, Machine.init (freshParser [batch [1, 0]]))
        = some (.object_begin, m) ∧ m.idx = 0 ∧
      step sampleLeaves [123, 125] .object_begin m = .goto .fail m' ∧ m'.idx = 0) ∧
    ¬ List.Pairwise (· < ·)
      (((Machine.init (freshParser [batch [1, 0]])).tokens [123, 125]).map Prod.fst) :=
  ⟨by decide, ⟨_, _, rfl, rfl, rfl, rfl⟩, by decide⟩

/-! ## The last root of an accepted tape -/

/-- The last root of a non-empty stretch of complete roots. -/
theorem roots_last {b : Nat} {seg : List Nat} (h : Roots b seg) (hne : seg ≠ []) :
    ∃ pre h0 inner f, seg = pre ++ h0 :: inner ++ [f] ∧ Roots b pre ∧
      Items (b + pre.length + 1) inner ∧ tagOf h0 = 114 ∧ tagOf f = 114 ∧
      payloadOf h0 = b + seg.length ∧ payloadOf f = b + pre.length := by
  induction h with
  | nil b => exact absurd rfl hne
  | cons b h f inner rest hh hf hph hpf hi hin hr ih =>
    by_cases hrest : rest = []
    · subst hrest
      refine ⟨[], h, inner, f, by simp, Roots.nil b, by simpa using hi, hh, hf, ?_, ?_⟩
      · rw [hph]; simp; omega
      · simpa using hpf
    · obtain ⟨pre, h0, inner', f', hseg, hpre, hi', hh', hf', hp1, hp2⟩ := ih hrest
      refine ⟨h :: inner ++ f :: pre, h0, inner', f', ?_, ?_, ?_, hh', hf', ?_, ?_⟩
      · rw [hseg]; simp
      · exact Roots.cons b h f inner pre hh hf hph hpf hi hin hpre
      · have e : b + (h :: inner ++ f :: pre).length + 1
            = b + inner.length + 2 + pre.length + 1 := by
          simp; omega
        rw [e]; exact hi'
      · rw [hp1]; simp; omega
      · rw [hp2]; simp; omega

/-- The tape of a run that returns `true` ends with the footer written at `succeed`. -/
theorem run_true_footer (L : Leaves) (buf : List Byte) (mf : Machine) :
    ∀ n l m, run L buf n l m = .ret true mf →
      ∃ X i, mf.pj.Tape = X ++ [tapeWord 114 i] := by
  intro n
  induction n with
  | zero => intro l m h; simp [run] at h
  | succ n ih =>
    intro l m h
    rw [run_succ] at h
    have hs := step_spec L buf l m
    generalize step L buf l m = nx at h hs
    cases nx with
    | goto l' m' => exact ih l' m' h
    | ret b m' =>
      simp only [resume, Outcome.ret.injEq] at h
      obtain ⟨rfl, rfl⟩ := h
      cases hs with
      | succeed_true _ _ e h1 h2 =>
        obtain ⟨-, ⟨w, -, hT⟩, -⟩ := h2
        exact ⟨_, _, hT⟩
    | panic => simp [resume] at h

/-- C17: for every index stream on which `unified_machine` returns true starting from an empty
tape (leaving a tape `T` of fewer than `2 ^ 56` words), the tape ends with a root: complete
roots, then the last root header, complete values, and the closing `r` word; the header's
payload is the tape index of the closing `r` word plus one, which is the length of the tape,
and the payload of the closing `r` word is the tape index of the header. -/
theorem last_root_links (L : Leaves) (buf : List Byte) (pj : internalParsedJson)
    (T : List Nat) (h : (unified_machine L buf pj).tapeIf true = some T)
    (hT0 : pj.Tape = []) (hlen : T.length < 2 ^ 56) :
    ∃ pre h0 inner f, T = pre ++ h0 :: inner ++ [f] ∧ Roots 0 pre ∧
      Items (pre.length + 1) inner ∧ tagOf h0 = 114 ∧ tagOf f = 114 ∧
      payloadOf h0 = (pre.length + 1 + inner.length) + 1 ∧ payloadOf h0 = T.length ∧
      payloadOf f = pre.length := by
  obtain ⟨seg, hT, hr⟩ := accepted_tape h hlen
  rw [hT0] at hT hr
  simp only [List.nil_append, List.length_nil] at hT hr
  subst hT
  obtain ⟨mf, hrun, hmf⟩ := tapeIf_true h
  obtain ⟨X, i, hX⟩ := run_true_footer L buf mf _ _ _ hrun
  have hne : T ≠ [] := by
    rw [← hmf, hX]; simp
  obtain ⟨pre, h0, inner, f, hseg, hpre, hi, hh, hf, hp1, hp2⟩ := roots_last hr hne
  refine ⟨pre, h0, inner, f, hseg, hpre, by simpa using hi, hh, hf, ?_, by simpa using hp1,
    by simpa using hp2⟩
  rw [hp1, hseg]; simp; omega

/-- C17 on the two documents `{}` and `[]` with a newline between them: the last header is at
index 4 and holds 8, the length of the tape; the closing `r` word at index 7 holds 4. -/
theorem last_root_links_witness :
    (unified_machine sampleLeaves [123, 125, 10, 91, 93]
        (freshParser [batch [1, 1, 1, 1, 1]])).tapeIf true
      = some [tapeWord 114 4, tapeWord 123 3, tapeWord 125 1, tapeWord 114 0,
          tapeWord 114 8, tapeWord 91 7, tapeWord 93 5, tapeWord 114 4] ∧
    ∃ pre h0 inner f, [tapeWord 114 4, tapeWord 123 3, tapeWord 125 1, tapeWord 114 0,
          tapeWord 114 8, tapeWord 91 7, tapeWord 93 5, tapeWord 114 4]
        = pre ++ h0 :: inner ++ [f] ∧ Roots 0 pre ∧
      Items (pre.length + 1) inner ∧ tagOf h0 = 114 ∧ tagOf f = 114 ∧
      payloadOf h0 = (pre.length + 1 + inner.length) + 1 ∧
      payloadOf h0 = [tapeWord 114 4, tapeWord 123 3, tapeWord 125 1, tapeWord 114 0,
          tapeWord 114 8, tapeWord 91 7, tapeWord 93 5, tapeWord 114 4].length ∧
      payloadOf f = pre.length :=
  ⟨by decide, last_root_links sampleLeaves [123, 125, 10, 91, 93]
    (freshParser [batch [1, 1, 1, 1, 1]]) _ (by decide) rfl (by decide)⟩

/-! ## The tags of a tape -/

theorem tapeTags_cons_plain {w : Nat} (h : isNumberTag (tagOf w) = false) (rest : List Nat) :
    tapeTags (w :: rest) = tagOf w :: tapeTags rest := by
  cases rest with
  | nil => simp [tapeTags]
  | cons r rest => simp [tapeTags, h]

theorem tapeTags_cons_number {w : Nat} (h : isNumberTag (tagOf w) = true) (r : Nat)
    (rest : List Nat) : tapeTags (w :: r :: rest) = tagOf w :: tapeTags rest := by
  simp [tapeTags, h]

theorem cleanTape_nil : CleanTape [] := by
  intro ws
  simp [tapeTags]

/-- Appending a word that is not a number tag. -/
theorem cleanTape_append_plain {T : List Nat} {w : Nat} (hT : CleanTape T)
    (h : isNumberTag (tagOf w) = false) :
    CleanTape (T ++ [w]) ∧ tapeTags (T ++ [w]) = tapeTags T ++ [tagOf w] := by
  have e : tapeTags (T ++ [w]) = tapeTags T ++ [tagOf w] := by
    rw [hT [w]]; simp [tapeTags]
  refine ⟨fun ws => ?_, e⟩
  rw [List.append_assoc, hT, e, List.singleton_append, tapeTags_cons_plain h,
    List.append_assoc, List.singleton_append]

/-- Appending a number: its tag word and its raw word. -/
theorem cleanTape_append_number {T : List Nat} {w r : Nat} (hT : CleanTape T)
    (h : isNumberTag (tagOf w) = true) :
    CleanTape (T ++ [w, r]) ∧ tapeTags (T ++ [w, r]) = tapeTags T ++ [tagOf w] := by
  have e : tapeTags (T ++ [w, r]) = tapeTags T ++ [tagOf w] := by
    rw [hT [w, r]]; simp [tapeTags, h]
  refine ⟨fun ws => ?_, e⟩
  rw [List.append_assoc, hT, e]
  show tapeTags T ++ tapeTags (w :: r :: ws) = _
  rw [tapeTags_cons_number h, List.append_assoc, List.singleton_append]

/-- Back-patching a word without changing its tag leaves the tags as they are. -/
theorem tapeTags_set : ∀ (n : Nat) (T : List Nat) (i w' : Nat), T.length ≤ n →
    (∀ w, T[i]? = some w → tagOf w' = tagOf w) → tapeTags (T.set i w') = tapeTags T := by
  intro n
  induction n with
  | zero =>
    intro T i w' hn _
    have : T = [] := List.length_eq_zero.mp (Nat.le_zero.mp hn)
    subst this
    simp
  | succ n ih =>
    intro T i w' hn hw
    match T, i, hn, hw with
    | [], _, _, _ => simp
    | [w], 0, _, hw =>
      have := hw w (by simp)
      simp [tapeTags, this]
    | [w], i + 1, _, _ => simp
    | w :: r :: rest, 0, _, hw =>
      have := hw w (by simp)
      simp [tapeTags, this]
    | w :: r :: rest, 1, hn, hw =>
      simp only [List.set_cons_succ, List.set_cons_zero]
      by_cases hnum : isNumberTag (tagOf w) = true
      · simp [tapeTags, hnum]
      · have h1 := ih (r :: rest) 0 w' (by simp only [List.length_cons] at hn ⊢; omega)
          (fun x hx => hw x (by simpa using hx))
        simp only [List.set_cons_zero] at h1
        simp only [tapeTags, hnum]
        simp [h1]
    | w :: r :: rest, i + 2, hn, hw =>
      simp only [List.set_cons_succ]
      by_cases hnum : isNumberTag (tagOf w) = true
      · have h1 := ih rest i w' (by simp only [List.length_cons] at hn; omega)
          (fun x hx => hw x (by simpa using hx))
        simp [tapeTags, hnum, h1]
      · have h1 := ih (r :: rest) (i + 1) w' (by simp only [List.length_cons] at hn ⊢; omega)
          (fun x hx => hw x (by simpa using hx))
        simp only [List.set_cons_succ] at h1
        simp only [tapeTags, hnum]
        simp [h1]

theorem cleanTape_set {T : List Nat} {i w' : Nat} (hT : CleanTape T)
    (hw : ∀ w, T[i]? = some w → tagOf w' = tagOf w) :
    CleanTape (T.set i w') ∧ tapeTags (T.set i w') = tapeTags T := by
  have e := tapeTags_set T.length T i w' le_rfl hw
  refine ⟨fun ws => ?_, e⟩
  by_cases hi : i < T.length
  · rw [← List.set_append_left i w' hi, tapeTags_set _ _ i w' le_rfl, hT, e]
    intro w hx
    rw [List.getElem?_append_left hi] at hx
    exact hw w hx
  · rw [List.set_eq_of_length_le (by omega)]
    exact hT ws

/-! ## How the operations of the automaton extend the tags -/

theorem tagOf_lt (w : Nat) : tagOf w < 256 := by
  unfold tagOf
  exact Nat.mod_lt _ (by norm_num)

theorem tagOf_retag (w v : Nat) : tagOf (tapeWord (tagOf w) v) = tagOf w :=
  tagOf_tapeWord _ _ (tagOf_lt w)

theorem tagGrow_refl (m : Machine) : TagGrow m m [] := by
  intro h
  exact ⟨h, by simp⟩

theorem tagGrow_trans {m1 m2 m3 : Machine} {a b : List Nat} (h1 : TagGrow m1 m2 a)
    (h2 : TagGrow m2 m3 b) : TagGrow m1 m3 (a ++ b) := by
  intro h
  obtain ⟨c2, e2⟩ := h1 h
  obtain ⟨c3, e3⟩ := h2 c2
  exact ⟨c3, by rw [e3, e2, List.append_assoc]⟩

theorem tagGrow_same {m m' : Machine} (h : m'.pj.Tape = m.pj.Tape) : TagGrow m m' [] := by
  intro hc
  rw [h]
  exact ⟨hc, by simp⟩

theorem tagGrow_adv {buf : List Byte} {m m1 : Machine} (h : Adv buf m m1) :
    TagGrow m m1 [] := tagGrow_same (adv_facts h).2.1

/-- Appending one tagged word that is not a number tag. -/
theorem tagGrow_word {m m' : Machine} {c v : Nat} (hc : c < 256)
    (hn : isNumberTag c = false) (h : m'.pj.Tape = m.pj.Tape ++ [tapeWord c v]) :
    TagGrow m m' [c] := by
  intro hcl
  have ht : tagOf (tapeWord c v) = c := tagOf_tapeWord c v hc
  obtain ⟨h1, h2⟩ := cleanTape_append_plain (w := tapeWord c v) hcl (by rw [ht]; exact hn)
  rw [h]
  exact ⟨h1, by rw [h2, ht]⟩

theorem tagGrow_open_scope (m : Machine) (rc : Nat) {c : Nat}
    (hc : c = 123 ∨ c = 91 ∨ c = 114) : TagGrow m (m.open_scope rc c) [c] := by
  refine tagGrow_word (v := 0) ?_ ?_ rfl
  · rcases hc with rfl | rfl | rfl <;> norm_num
  · rcases hc with rfl | rfl | rfl <;> rfl

theorem tagGrow_parse_string (L : Leaves) (buf : List Byte) (m : Machine) :
    TagGrow m (m.parse_string L buf).2 [34] :=
  tagGrow_word (v := m.pj.Strings.length) (by norm_num) rfl rfl

/-- The close word of `scope_end` and the back-patch of the open word. -/
theorem tagGrow_close {m m' : Machine} {i w v : Nat} (hc : m.c = 125 ∨ m.c = 93)
    (hw : m.pj.Tape[i]? = some w)
    (h : m'.pj.Tape = (m.pj.Tape ++ [tapeWord m.c i]).set i (tapeWord (tagOf w) v)) :
    TagGrow m m' [m.c] := by
  intro hcl
  have hc256 : m.c < 256 := by rcases hc with h | h <;> rw [h] <;> norm_num
  have hnn : isNumberTag m.c = false := by rcases hc with h | h <;> rw [h] <;> rfl
  have ht : tagOf (tapeWord m.c i) = m.c := tagOf_tapeWord _ _ hc256
  obtain ⟨h1, h2⟩ := cleanTape_append_plain (w := tapeWord m.c i) hcl (by rw [ht]; exact hnn)
  have hlt : i < m.pj.Tape.length := by
    by_contra hge
    rw [List.getElem?_eq_none (by omega)] at hw
    exact absurd hw (by simp)
  obtain ⟨h3, h4⟩ := @cleanTape_set _ i (tapeWord (tagOf w) v) h1 (by
    intro x hx
    rw [List.getElem?_append_left hlt, hw] at hx
    cases Option.some.inj hx
    exact tagOf_retag _ v)
  rw [h]
  exact ⟨h3, by rw [h4, h2, ht]⟩

/-- The back-patch of a root header and its footer. -/
theorem tagGrow_footer {m m' : Machine} {i w v : Nat} (hw : m.pj.Tape[i]? = some w)
    (h : m'.pj.Tape = m.pj.Tape.set i (tapeWord (tagOf w) v) ++ [tapeWord 114 i]) :
    TagGrow m m' [114] := by
  intro hcl
  obtain ⟨h3, h4⟩ := @cleanTape_set _ i (tapeWord (tagOf w) v) hcl (by
    intro x hx
    rw [hw] at hx
    cases Option.some.inj hx
    exact tagOf_retag _ v)
  have ht : tagOf (tapeWord 114 i) = 114 := tagOf_tapeWord _ _ (by norm_num)
  obtain ⟨h1, h2⟩ := cleanTape_append_plain (w := tapeWord 114 i) h3 (by rw [ht]; rfl)
  rw [h]
  exact ⟨h1, by rw [h2, h4, ht]⟩

/-- A number on which the number routine succeeds: the machine afterwards and the tag. -/
theorem machine_parse_number_tags {L : Leaves} {buf : List Byte} {m : Machine} {neg : Bool}
    (h : numberOK L buf m.idx neg = true) :
    ∃ m', m.parse_number L buf neg = some (true, m') ∧
      TagGrow m m' (numberTag L buf m.idx neg) := by
  unfold numberOK at h
  split at h
  · rename_i r hr
    obtain ⟨ok, dbl, d, i⟩ := r
    simp only at h
    subst h
    cases dbl with
    | true =>
      refine ⟨{ m with pj := { m.pj with toParsedJson := m.pj.toParsedJson.write_tape_double d } },
        ?_, ?_⟩
      · simp [Machine.parse_number, parse_number, hr]
      · intro hcl
        have ht : tagOf (tapeWord 100 0) = 100 := by decide
        obtain ⟨h1, h2⟩ := cleanTape_append_number (w := tapeWord 100 0) (r := d % 2 ^ 64) hcl
          (by rw [ht]; rfl)
        refine ⟨h1, ?_⟩
        simp only [numberTag, hr]
        rw [← ht]
        exact h2
    | false =>
      refine ⟨{ m with pj := { m.pj with toParsedJson := m.pj.toParsedJson.write_tape_s64 i } },
        ?_, ?_⟩
      · simp [Machine.parse_number, parse_number, hr]
      · intro hcl
        have ht : tagOf (tapeWord 108 0) = 108 := by decide
        obtain ⟨h1, h2⟩ := cleanTape_append_number (w := tapeWord 108 0) (r := i % 2 ^ 64) hcl
          (by rw [ht]; rfl)
        refine ⟨h1, ?_⟩
        simp only [numberTag, hr]
        rw [← ht]
        exact h2
  · exact absurd h (by simp)

/-! ## The tags of structural bytes -/

theorem tokenTag_plain (L : Leaves) (buf : List Byte) {t : Nat × Nat}
    (h : t.2 = 34 ∨ t.2 = 116 ∨ t.2 = 102 ∨ t.2 = 110 ∨ t.2 = 123 ∨ t.2 = 125 ∨ t.2 = 91 ∨
      t.2 = 93) : tokenTag L buf t = [t.2] := by
  unfold tokenTag
  rcases h with h | h | h | h | h | h | h | h <;> simp [h]

theorem tokenTag_sep (L : Leaves) (buf : List Byte) {t : Nat × Nat}
    (h : t.2 = 58 ∨ t.2 = 44) : tokenTag L buf t = [] := by
  unfold tokenTag
  simp [h]

theorem tokenTag_digit (L : Leaves) (buf : List Byte) {t : Nat × Nat}
    (h : 48 ≤ t.2 ∧ t.2 ≤ 57) : tokenTag L buf t = numberTag L buf t.1 false := by
  unfold tokenTag
  have h1 : ¬ (t.2 = 58 ∨ t.2 = 44) := by omega
  simp [h1, h]

theorem tokenTag_minus (L : Leaves) (buf : List Byte) {t : Nat × Nat}
    (h : t.2 = 45) : tokenTag L buf t = numberTag L buf t.1 true := by
  unfold tokenTag
  simp [h]

theorem tokenTags_append (L : Leaves) (buf : List Byte) (a b : List (Nat × Nat)) :
    tokenTags L buf (a ++ b) = tokenTags L buf a ++ tokenTags L buf b := by
  induction a with
  | nil => simp [tokenTags]
  | cons t a ih => simp [tokenTags, ih]

theorem tokenTags_cons (L : Leaves) (buf : List Byte) (t : Nat × Nat)
    (ts : List (Nat × Nat)) :
    tokenTags L buf (t :: ts) = tokenTag L buf t ++ tokenTags L buf ts := rfl

theorem tokenTags_single (L : Leaves) (buf : List Byte) (t : Nat × Nat) :
    tokenTags L buf [t] = tokenTag L buf t := by
  simp [tokenTags]

/-- The value switch on a scalar whose leaf succeeds, with the tag it writes. -/
theorem value_switch_scalar_tags {L : Leaves} {buf : List Byte} (rc : Nat) (cont : Label)
    {m : Machine} (h : scalarOK L buf (m.idx, m.c)) :
    ∃ m', value_switch L buf rc cont m = .goto cont m' ∧ ScalarStep L buf m m' ∧
      TagGrow m m' (tokenTag L buf (m.idx, m.c)) := by
  rcases h with hc | ⟨hc, hv⟩ | ⟨hc, hv⟩ | ⟨hc, hv⟩ | ⟨hc, hv⟩ | ⟨hc, hv⟩
  · simp only at hc
    refine ⟨(m.parse_string L buf).2, ?_, (parse_string_step L buf m hc).2, ?_⟩
    · simp [value_switch, hc, Machine.parse_string, Simdjson.parse_string]
    · rw [tokenTag_plain L buf (Or.inl hc)]
      simp only [hc]
      exact tagGrow_parse_string L buf m
  · simp only at hc hv
    refine ⟨m.write_tape 0 m.c, ?_, write_tape_step L buf m (Or.inr (Or.inl ⟨hc, hv⟩))
      (Or.inl hc), ?_⟩
    · simp [value_switch, hc, hv]
    · rw [tokenTag_plain L buf (Or.inr (Or.inl hc))]
      exact tagGrow_word (v := 0) (by rw [hc]; norm_num) (by rw [hc]; rfl) rfl
  · simp only at hc hv
    refine ⟨m.write_tape 0 m.c, ?_, write_tape_step L buf m
      (Or.inr (Or.inr (Or.inl ⟨hc, hv⟩))) (Or.inr (Or.inl hc)), ?_⟩
    · simp [value_switch, hc, hv]
    · rw [tokenTag_plain L buf (Or.inr (Or.inr (Or.inl hc)))]
      exact tagGrow_word (v := 0) (by rw [hc]; norm_num) (by rw [hc]; rfl) rfl
  · simp only at hc hv
    refine ⟨m.write_tape 0 m.c, ?_, write_tape_step L buf m
      (Or.inr (Or.inr (Or.inr (Or.inl ⟨hc, hv⟩)))) (Or.inr (Or.inr hc)), ?_⟩
    · simp [value_switch, hc, hv]
    · rw [tokenTag_plain L buf (Or.inr (Or.inr (Or.inr (Or.inl hc))))]
      exact tagGrow_word (v := 0) (by rw [hc]; norm_num) (by rw [hc]; rfl) rfl
  · simp only at hc hv
    obtain ⟨m', hm', htag⟩ := machine_parse_number_tags hv
    refine ⟨m', ?_, parse_number_step hm' rfl (by simpa using hc), ?_⟩
    · have h1 : m.c ≠ 34 := by omega
      have h2 : m.c ≠ 116 := by omega
      have h3 : m.c ≠ 102 := by omega
      have h4 : m.c ≠ 110 := by omega
      simp [value_switch, h1, h2, h3, h4, hc, hm']
    · rw [tokenTag_digit L buf hc]
      exact htag
  · simp only at hc hv
    obtain ⟨m', hm', htag⟩ := machine_parse_number_tags hv
    refine ⟨m', ?_, parse_number_step hm' rfl (by simpa using hc), ?_⟩
    · simp [value_switch, hc, hm']
    · rw [tokenTag_minus L buf hc]
      exact htag

/-- A container as a value, with the tags written: the open word, the tags of the content
and the close word. -/
theorem fwdValue_of_container_tags {L : Leaves} {buf : List Byte} {rc : Nat} {cont : Label}
    {m mb : Machine} {ts : List (Nat × Nat)} {tags : List Nat}
    (hrc : (rc = 2 ∧ cont = .object_continue) ∨ (rc = 3 ∧ cont = .array_continue) ∨
      (rc = 1 ∧ cont = .start_continue))
    (hc : m.c = 123 ∨ m.c = 91)
    (h : Fwd L buf (if m.c = 123 then .object_begin else .array_begin)
      (m.open_scope rc m.c) ts .scope_end mb)
    (hcb : mb.c = 125 ∨ mb.c = 93)
    (ht : TagGrow (m.open_scope rc m.c) mb tags) :
    ∃ m', FwdValue L buf rc cont m ts m' ∧ TagGrow m m' ([m.c] ++ tags ++ [mb.c]) := by
  obtain ⟨⟨j, hj⟩, h2, h3, h4, h5⟩ := h
  have hrc4 : rc < 4 := by rcases hrc with ⟨rfl, -⟩ | ⟨rfl, -⟩ | ⟨rfl, -⟩ <;> norm_num
  have hst : mb.pj.containing_scope_offset = m.pj.containing_scope_offset
      ++ [(m.pj.Tape.length <<< RET_ADDRESS_SHIFT) % 2 ^ 64 ||| rc] := by
    rw [h2]; rfl
  have hT3 : (m.open_scope rc m.c).pj.Tape.length = m.pj.Tape.length + 1 := by
    simp [Machine.open_scope, ParsedJson.write_tape]
  have hlt : ((m.pj.Tape.length <<< RET_ADDRESS_SHIFT) % 2 ^ 64 ||| rc) >>> 2
      < mb.pj.Tape.length := by
    rw [entry_index _ _ hrc4]
    have := Nat.mod_le m.pj.Tape.length (2 ^ 62)
    omega
  have hw := List.getElem?_eq_getElem hlt
  obtain ⟨m', hstep, hs', hT', -, hss⟩ := @step_scope_end_tape L buf _ _ _ _ hst hw
  have hlab : retLabel ((m.pj.Tape.length <<< RET_ADDRESS_SHIFT) % 2 ^ 64 ||| rc) = cont := by
    rw [retLabel_entry _ _ hrc4]
    rcases hrc with ⟨rfl, rfl⟩ | ⟨rfl, rfl⟩ | ⟨rfl, rfl⟩ <;> rfl
  rw [hlab] at hstep
  refine ⟨m', ⟨⟨j + 1, fun k => ?_⟩, hs', ?_, ?_, ?_⟩, ?_⟩
  · rw [value_switch_open rc cont hc]
    show run L buf (k + (j + 1)) _ _ = _
    have hk : k + (j + 1) = (k + 1) + j := by omega
    rw [hk, hj, run_succ, hstep]
    rfl
  · rw [hT']; simp; omega
  · rw [closes_congr hss, h4]
    exact closes_congr (sameStream_open_scope m rc m.c)
  · rw [tokens_congr hss, ← h5]
    exact (tokens_congr (sameStream_open_scope m rc m.c)).symm
  · exact tagGrow_trans (tagGrow_trans
      (tagGrow_open_scope m rc (by rcases hc with h | h <;> simp [h])) ht)
      (tagGrow_close hcb hw hT')

/-! ## Forward simulation along the grammar, with the tags written -/

theorem tagGrow_cast {m m' : Machine} {a b : List Nat} (h : TagGrow m m' a) (e : a = b) :
    TagGrow m m' b := e ▸ h

theorem tagGrow_key (L : Leaves) {buf : List Byte} {m m1 : Machine} (ha : Adv buf m m1) :
    TagGrow m (m1.parse_string L buf).2 [34] :=
  tagGrow_cast (tagGrow_trans (tagGrow_adv ha) (tagGrow_parse_string L buf m1)) rfl

theorem tagGrow_adv2 {buf : List Byte} {m m1 m2 : Machine} (h1 : Adv buf m m1)
    (h2 : Adv buf m1 m2) : TagGrow m m2 [] :=
  tagGrow_cast (tagGrow_trans (tagGrow_adv h1) (tagGrow_adv h2)) rfl

/-- The automaton passes every derivation of the grammar whose scalars the leaf routines
accept, and writes the tags of its structural bytes in input order. -/
theorem gram_forward_tags (L : Leaves) (buf : List Byte) {sym : Sym} {ts : List (Nat × Nat)}
    (h : Gram (scalarOK L buf) sym ts) : FwdTagGoal L buf sym ts := by
  induction h with
  | scalar t ht =>
    intro rc cont m ts' hrc heq hrest
    cases heq
    obtain ⟨m', hv, hs, htag⟩ := value_switch_scalar_tags rc cont ht
    obtain ⟨s1, s2, s3, s4⟩ := scalar_facts hs
    exact ⟨m', ⟨⟨0, fun k => by rw [hv]; rfl⟩, s1, s2, s3, by rw [s4]; rfl⟩,
      tagGrow_cast htag (tokenTags_single L buf _).symm⟩
  | emptyObject a b ha hb =>
    intro rc cont m ts' hrc heq hrest
    cases heq
    obtain ⟨rest, htok⟩ := hrest
    have hc : m.c = 123 := ha
    have ht3 : (m.open_scope rc m.c).tokens buf = [b] ++ rest := by
      rw [tokens_congr (sameStream_open_scope m rc m.c)]; exact htok
    obtain ⟨mb, hadv, hb1, -⟩ := adv_of_tokens ht3
    have hbc : mb.c = 125 := by rw [← hb1] at hb; exact hb
    have hf : Fwd L buf .object_begin (m.open_scope rc m.c) [(mb.idx, mb.c)] .scope_end mb :=
      Fwd.of_adv_close rfl hadv hbc
    rw [hb1] at hf
    obtain ⟨m', h1, h2⟩ := fwdValue_of_container_tags hrc (Or.inl hc)
      (by rw [if_pos hc]; exact hf) (Or.inl hbc) (tagGrow_adv hadv)
    refine ⟨m', h1, tagGrow_cast h2 ?_⟩
    simp [tokenTags, tokenTag_plain L buf (t := (m.idx, m.c)) (by simp [hc]),
      tokenTag_plain L buf (t := b) (by simp [hb]), hb, hbc]
  | object a ms b ha hms hb ih =>
    intro rc cont m ts' hrc heq hrest
    cases heq
    obtain ⟨rest, htok⟩ := hrest
    have hc : m.c = 123 := ha
    obtain ⟨k, ms', rfl, hk⟩ := gram_members_head hms
    have ht3 : (m.open_scope rc m.c).tokens buf = (k :: ms') ++ ([b] ++ rest) := by
      rw [tokens_congr (sameStream_open_scope m rc m.c), htok]; simp
    obtain ⟨m4, hadv, h41, h42⟩ := adv_of_tokens ht3
    have h4c : m4.c = 34 := by rw [← h41] at hk; exact hk
    have hf1 := fwd_key (L := L) hadv h4c
    have ht5 : (m4.parse_string L buf).2.tokens buf = ms' ++ ([b] ++ rest) :=
      fwd_tokens hf1 (by rw [ht3, h41]; rfl)
    obtain ⟨mb, hf2, hbc, hg2⟩ := ih (m4.parse_string L buf).2 k ms' b rfl hb ⟨rest, ht5⟩
    have hf := hf1.trans hf2
    rw [h41] at hf
    obtain ⟨m', h1, h2⟩ := fwdValue_of_container_tags hrc (Or.inl hc)
      (by rw [if_pos hc]; exact hf) (Or.inl hbc) (tagGrow_trans (tagGrow_key L hadv) hg2)
    refine ⟨m', h1, tagGrow_cast h2 ?_⟩
    simp [tokenTags, tokenTags_append, tokenTag_plain L buf (t := (m.idx, m.c)) (by simp [hc]),
      tokenTag_plain L buf (t := b) (by simp [hb]),
      tokenTag_plain L buf (t := k) (Or.inl hk), hb, hbc, hk]
  | emptyArray a b ha hb =>
    intro rc cont m ts' hrc heq hrest
    cases heq
    obtain ⟨rest, htok⟩ := hrest
    have hc : m.c = 91 := ha
    have hne : ¬ m.c = 123 := by omega
    have ht3 : (m.open_scope rc m.c).tokens buf = [b] ++ rest := by
      rw [tokens_congr (sameStream_open_scope m rc m.c)]; exact htok
    obtain ⟨mb, hadv, hb1, -⟩ := adv_of_tokens ht3
    have hbc : mb.c = 93 := by rw [← hb1] at hb; exact hb
    have hf : Fwd L buf .array_begin (m.open_scope rc m.c) [(mb.idx, mb.c)] .scope_end mb :=
      Fwd.of_adv_close rfl hadv hbc
    rw [hb1] at hf
    obtain ⟨m', h1, h2⟩ := fwdValue_of_container_tags hrc (Or.inr hc)
      (by rw [if_neg hne]; exact hf) (Or.inr hbc) (tagGrow_adv hadv)
    refine ⟨m', h1, tagGrow_cast h2 ?_⟩
    simp [tokenTags, tokenTag_plain L buf (t := (m.idx, m.c)) (by simp [hc]),
      tokenTag_plain L buf (t := b) (by simp [hb]), hb, hbc]
  | array a es b ha hes hb ih =>
    intro rc cont m ts' hrc heq hrest
    cases heq
    obtain ⟨rest, htok⟩ := hrest
    have hc : m.c = 91 := ha
    have hne : ¬ m.c = 123 := by omega
    obtain ⟨t, es', rfl, ht⟩ := gram_elements_head hes
    have ht3 : (m.open_scope rc m.c).tokens buf = (t :: es') ++ ([b] ++ rest) := by
      rw [tokens_congr (sameStream_open_scope m rc m.c), htok]; simp
    obtain ⟨m4, hadv, h41, h42⟩ := adv_of_tokens ht3
    have h4c : m4.c ≠ 93 := by
      have := value_start_ne_close ht
      rw [← h41] at this; exact this
    have hf1 := fwd_first_element (L := L) hadv h4c
    obtain ⟨mb, hf2, hbc, hg2⟩ := ih m4 es' b (by rw [h41]) hb ⟨rest, h42⟩
    have hf := hf1.trans hf2
    rw [h41] at hf
    obtain ⟨m', h1, h2⟩ := fwdValue_of_container_tags hrc (Or.inr hc)
      (by rw [if_neg hne]; exact hf) (Or.inr hbc) (tagGrow_trans (tagGrow_adv hadv) hg2)
    refine ⟨m', h1, tagGrow_cast h2 ?_⟩
    simp [tokenTags, tokenTags_append, tokenTag_plain L buf (t := (m.idx, m.c)) (by simp [hc]),
      tokenTag_plain L buf (t := b) (by simp [hb]), hb, hbc]
  | member k c v hk hc hv ih =>
    intro m k0 ts' b heq hb hrest
    cases heq
    obtain ⟨rest, htok⟩ := hrest
    obtain ⟨t, v', rfl, -⟩ := gram_value_head hv
    obtain ⟨m1, ha1, h11, h12⟩ := adv_of_tokens htok
    obtain ⟨m2, ha2, h21, h22⟩ := adv_of_tokens h12
    have h1c : m1.c = 58 := by rw [← h11] at hc; exact hc
    obtain ⟨m3, hfv, hg⟩ := ih 2 .object_continue m2 v' (Or.inl ⟨rfl, rfl⟩) (by rw [h21])
      ⟨b :: rest, h22⟩
    have hf1 := fwd_of_value_obj ha1 h1c ha2 hfv
    have ht3 : m3.tokens buf = [b] ++ rest := fwdValue_tokens hfv h22
    obtain ⟨mb, ha3, h31, -⟩ := adv_of_tokens ht3
    have hbc : mb.c = 125 := by rw [← h31] at hb; exact hb
    have hf2 : Fwd L buf .object_continue m3 [(mb.idx, mb.c)] .scope_end mb :=
      Fwd.of_adv_close rfl ha3 hbc
    have hf := hf1.trans hf2
    rw [h11, h21, h31] at hf
    refine ⟨mb, hf, hbc, tagGrow_cast
      (tagGrow_trans (tagGrow_trans (tagGrow_adv2 ha1 ha2) hg) (tagGrow_adv ha3)) ?_⟩
    simp [tokenTags, tokenTag_sep L buf (t := c) (Or.inl hc)]
  | memberCons k c v d ms2 hk hc hv hd hms ihv ihms =>
    intro m k0 ts' b heq hb hrest
    cases heq
    obtain ⟨rest, htok⟩ := hrest
    obtain ⟨t, v', rfl, -⟩ := gram_value_head hv
    obtain ⟨k2, ms2', rfl, hk2⟩ := gram_members_head hms
    have htok' : m.tokens buf = (c :: t :: v') ++ (d :: k2 :: ms2' ++ b :: rest) := by
      rw [htok]; simp
    obtain ⟨m1, ha1, h11, h12⟩ := adv_of_tokens htok'
    obtain ⟨m2, ha2, h21, h22⟩ := adv_of_tokens h12
    have h1c : m1.c = 58 := by rw [← h11] at hc; exact hc
    obtain ⟨m3, hfv, hg⟩ := ihv 2 .object_continue m2 v' (Or.inl ⟨rfl, rfl⟩) (by rw [h21])
      ⟨_, h22⟩
    have hf1 := fwd_of_value_obj ha1 h1c ha2 hfv
    have ht3 : m3.tokens buf = (d :: k2 :: ms2') ++ (b :: rest) := fwdValue_tokens hfv h22
    obtain ⟨m4, ha4, h41, h42⟩ := adv_of_tokens ht3
    obtain ⟨m5, ha5, h51, h52⟩ := adv_of_tokens h42
    have h4c : m4.c = 44 := by rw [← h41] at hd; exact hd
    have h5c : m5.c = 34 := by rw [← h51] at hk2; exact hk2
    have hf2 := fwd_next_key (L := L) ha4 h4c ha5 h5c
    have ht6 : (m5.parse_string L buf).2.tokens buf = ms2' ++ b :: rest :=
      fwd_tokens hf2 (by rw [ht3, h41, h51]; rfl)
    obtain ⟨mb, hf3, hbc, hg3⟩ :=
      ihms (m5.parse_string L buf).2 k2 ms2' b rfl hb ⟨rest, ht6⟩
    have hf := (hf1.trans hf2).trans hf3
    rw [h11, h21, h41, h51] at hf
    refine ⟨mb, ?_, hbc, tagGrow_cast (tagGrow_trans (tagGrow_trans
      (tagGrow_trans (tagGrow_adv2 ha1 ha2) hg) (tagGrow_trans (tagGrow_adv ha4)
        (tagGrow_key L ha5))) hg3) ?_⟩
    · have e : (c :: (t :: v' ++ d :: k2 :: ms2')) ++ [b]
          = ((c :: t :: v') ++ [d, k2]) ++ (ms2' ++ [b]) := by simp
      rw [← e] at hf; exact hf
    · simp [tokenTags, tokenTags_append, tokenTag_sep L buf (t := c) (Or.inl hc),
        tokenTag_sep L buf (t := d) (Or.inr hd), tokenTag_plain L buf (t := k2) (Or.inl hk2),
        hk2]
  | element v hv ih =>
    intro m ts' b heq hb hrest
    obtain ⟨rest, htok⟩ := hrest
    subst heq
    obtain ⟨m3, hfv, hg⟩ := ih 3 .array_continue m ts' (Or.inr (Or.inl ⟨rfl, rfl⟩)) rfl
      ⟨b :: rest, htok⟩
    have hf1 := fwd_of_value_arr hfv
    have ht3 : m3.tokens buf = [b] ++ rest := fwdValue_tokens hfv htok
    obtain ⟨mb, ha3, h31, -⟩ := adv_of_tokens ht3
    have hbc : mb.c = 93 := by rw [← h31] at hb; exact hb
    have hf2 : Fwd L buf .array_continue m3 [(mb.idx, mb.c)] .scope_end mb :=
      Fwd.of_adv_close rfl ha3 hbc
    have hf := hf1.trans hf2
    rw [h31] at hf
    exact ⟨mb, hf, hbc, tagGrow_cast (tagGrow_trans hg (tagGrow_adv ha3)) (by simp)⟩
  | elementCons v d es2 hv hd hes ihv ihes =>
    intro m ts' b heq hb hrest
    obtain ⟨rest, htok⟩ := hrest
    obtain ⟨t, v', rfl, -⟩ := gram_value_head hv
    obtain ⟨t2, es2', rfl, ht2⟩ := gram_elements_head hes
    simp only [List.cons_append, List.cons.injEq] at heq
    obtain ⟨rfl, rfl⟩ := heq
    have htok' : m.tokens buf = v' ++ (d :: t2 :: es2' ++ b :: rest) := by
      rw [htok]; simp
    obtain ⟨m3, hfv, hg⟩ := ihv 3 .array_continue m v' (Or.inr (Or.inl ⟨rfl, rfl⟩)) rfl
      ⟨_, htok'⟩
    have hf1 := fwd_of_value_arr hfv
    have ht3 : m3.tokens buf = (d :: t2 :: es2') ++ (b :: rest) := fwdValue_tokens hfv htok'
    obtain ⟨m4, ha4, h41, h42⟩ := adv_of_tokens ht3
    obtain ⟨m5, ha5, h51, h52⟩ := adv_of_tokens h42
    have h4c : m4.c = 44 := by rw [← h41] at hd; exact hd
    have hf2 := fwd_next_element (L := L) ha4 h4c ha5
    obtain ⟨mb, hf3, hbc, hg3⟩ := ihes m5 es2' b (by rw [h51]) hb ⟨rest, h52⟩
    have hf := (hf1.trans hf2).trans hf3
    rw [h41, h51] at hf
    refine ⟨mb, ?_, hbc, tagGrow_cast
      (tagGrow_trans (tagGrow_trans hg (tagGrow_adv2 ha4 ha5)) hg3) ?_⟩
    · have e : (v' ++ d :: t2 :: es2') ++ [b] = (v' ++ [d, t2]) ++ (es2' ++ [b]) := by simp
      rw [← e] at hf; exact hf
    · simp [tokenTags, tokenTags_append, tokenTag_sep L buf (t := d) (Or.inr hd)]

/-! ## Roots, with the tags written -/

/-- The step at `start_continue` on a boundary byte, in full. -/
theorem step_boundary_tape {L : Leaves} {buf : List Byte} {m m1 : Machine} {s : List Nat}
    {e w : Nat} (ha : Adv buf m m1) (hc : m1.c = 10 ∨ m1.c = 123)
    (hst : m.pj.containing_scope_offset = s ++ [e]) (hw : m.pj.Tape[e >>> 2]? = some w) :
    ∃ m2, step L buf .start_continue m = .goto .new_root m2 ∧
      m2.pj.containing_scope_offset = s ∧ SameStream m1 m2 ∧
      m2.pj.Tape = m.pj.Tape.set (e >>> 2)
        (tapeWord (tagOf w) ((m.pj.Tape.length + 1) % 2 ^ 64)) ++ [tapeWord 114 (e >>> 2)] := by
  obtain ⟨h1, h2⟩ := ha
  have hf := adv_frame h1
  have hst1 : m1.pj.containing_scope_offset = s ++ [e] := hf.1.trans hst
  have hw1 : m1.pj.Tape[e >>> 2]? = some w := by rw [hf.2]; exact hw
  refine ⟨?m2, ?h, ?_, ?_, ?_⟩
  case h =>
    simp only [step, h1, h2, hst1, List.getLast?_concat, List.dropLast_concat,
      ParsedJson.annotate_previousloc, RET_ADDRESS_SHIFT, hw1, hc, Bool.false_eq_true,
      if_false, if_true]
    exact rfl
  · rfl
  · exact ⟨rfl, rfl, rfl⟩
  · simp [ParsedJson.write_tape, ParsedJson.get_current_loc, hf.2]

/-- One root document, from `new_root` to `start_continue`, with the tags written: the header
and the tags of the document. -/
theorem root_forward_tags {L : Leaves} {buf : List Byte} {m : Machine}
    {v rest : List (Nat × Nat)}
    (hv : Container (scalarOK L buf) v) (htok : m.tokens buf = v ++ rest) :
    ∃ m', (∃ j, ∀ k, run L buf (k + j) .new_root m = run L buf k .start_continue m') ∧
      m'.pj.containing_scope_offset = m.pj.containing_scope_offset ++
        [(m.pj.Tape.length <<< RET_ADDRESS_SHIFT) % 2 ^ 64 ||| RET_ADDRESS_START_CONST] ∧
      m.pj.Tape.length < m'.pj.Tape.length ∧ m'.closes buf = m.closes buf ∧
      m'.tokens buf = rest ∧ TagGrow m m' (114 :: tokenTags L buf v) := by
  obtain ⟨hg, a, hhead, ha⟩ := hv
  obtain ⟨t, v', rfl, -⟩ := gram_value_head hg
  simp only [List.head?_cons, Option.some.injEq] at hhead
  subst hhead
  have hss := sameStream_open_scope m RET_ADDRESS_START_CONST 114
  have ht0 : (m.open_scope RET_ADDRESS_START_CONST 114).tokens buf = (t :: v') ++ rest := by
    rw [tokens_congr hss]; exact htok
  obtain ⟨m1, hadv, h11, h12⟩ := adv_of_tokens ht0
  obtain ⟨f1, f2, f3, -⟩ := adv_facts hadv
  have hc : m1.c = 123 ∨ m1.c = 91 := by rw [← h11] at ha; exact ha
  obtain ⟨m', hfv, hg'⟩ := gram_forward_tags L buf hg 1 .start_continue m1 v'
    (Or.inr (Or.inr ⟨rfl, rfl⟩)) (by rw [h11]) ⟨rest, h12⟩
  have hr := fwdValue_tokens hfv h12
  obtain ⟨⟨j, hj⟩, g2, g3, g4, -⟩ := hfv
  have hT : (m.open_scope RET_ADDRESS_START_CONST 114).pj.Tape.length
      = m.pj.Tape.length + 1 := by
    simp [Machine.open_scope, ParsedJson.write_tape]
  refine ⟨m', ⟨j + 1, fun k => ?_⟩, ?_, ?_, ?_, hr, ?_⟩
  · rw [← Nat.add_assoc, run_succ, step_new_root_open hadv hc, hj]
  · rw [g2, f1]; rfl
  · rw [f2, hT] at g3; omega
  · rw [g4, f3]; exact closes_congr hss
  · exact tagGrow_cast (tagGrow_trans (tagGrow_trans
      (tagGrow_open_scope m RET_ADDRESS_START_CONST (Or.inr (Or.inr rfl)))
      (tagGrow_adv hadv)) hg') (by simp)

/-- One root document and the boundary byte after it, with the tags written: the header, the
tags of the document and the footer. -/
theorem root_boundary_forward_tags {L : Leaves} {buf : List Byte} {m : Machine}
    {v rest : List (Nat × Nat)} {s : Nat × Nat}
    (hv : Container (scalarOK L buf) v) (hs : s.2 = 10 ∨ s.2 = 123)
    (htok : m.tokens buf = v ++ s :: rest) :
    ∃ m2, Fwd L buf .new_root m (v ++ [s]) .new_root m2 ∧ m2.tokens buf = rest ∧
      TagGrow m m2 (114 :: tokenTags L buf v ++ [114]) := by
  obtain ⟨m', ⟨j, hj⟩, r2, r3, r4, r5, r6⟩ := root_forward_tags hv htok
  have ht : m'.tokens buf = [s] ++ rest := r5
  obtain ⟨m1, hadv, h11, h12⟩ := adv_of_tokens ht
  obtain ⟨-, -, f3, -⟩ := adv_facts hadv
  have hc : m1.c = 10 ∨ m1.c = 123 := by rw [← h11] at hs; exact hs
  have hlt : ((m.pj.Tape.length <<< RET_ADDRESS_SHIFT) % 2 ^ 64 ||| RET_ADDRESS_START_CONST)
      >>> 2 < m'.pj.Tape.length := by
    rw [entry_index _ _ (by norm_num)]
    have := Nat.mod_le m.pj.Tape.length (2 ^ 62)
    omega
  have hw := List.getElem?_eq_getElem hlt
  obtain ⟨m2, hstep, b2, b4, b5⟩ := @step_boundary_tape L buf _ _ _ _ _ hadv hc r2 hw
  have hm2 : m2.tokens buf = rest := by rw [tokens_congr b4, h12]; rfl
  refine ⟨m2, ⟨⟨j + 1, fun k => ?_⟩, b2, ?_, ?_, ?_⟩, hm2, ?_⟩
  · have hk : k + (j + 1) = (k + 1) + j := by omega
    rw [hk, hj, run_succ, hstep]; rfl
  · rw [b5]; simp; omega
  · rw [closes_congr b4, f3, r4]
  · rw [hm2, htok]; simp
  · exact tagGrow_cast (tagGrow_trans r6 (tagGrow_footer hw b5)) (by simp)

/-- The last root document of a stream, with the tags written. -/
theorem root_last_forward_tags {L : Leaves} {buf : List Byte} {m : Machine}
    {v : List (Nat × Nat)} (hv : Container (scalarOK L buf) v)
    (hst : m.pj.containing_scope_offset = []) (hcl : m.closes buf = true)
    (htok : m.tokens buf = v) :
    ∃ n mf, run L buf n .new_root m = .ret true mf ∧
      TagGrow m mf (114 :: tokenTags L buf v ++ [114]) := by
  obtain ⟨m', ⟨j, hj⟩, r2, r3, r4, r5, r6⟩ :=
    @root_forward_tags L buf m v [] hv (by rw [htok]; simp)
  obtain ⟨m1, hd⟩ := tokens_nil_done r5 (by rw [r4]; exact hcl)
  have hf := adv_frame hd.1
  have hst1 : m1.pj.containing_scope_offset
      = [(m.pj.Tape.length <<< RET_ADDRESS_SHIFT) % 2 ^ 64 ||| RET_ADDRESS_START_CONST] := by
    rw [hf.1, r2, hst]; rfl
  have hlt : ((m.pj.Tape.length <<< RET_ADDRESS_SHIFT) % 2 ^ 64 ||| RET_ADDRESS_START_CONST)
      >>> 2 < m1.pj.Tape.length := by
    rw [entry_index _ _ (by norm_num), hf.2]
    have := Nat.mod_le m.pj.Tape.length (2 ^ 62)
    omega
  have hw := List.getElem?_eq_getElem hlt
  obtain ⟨mf, hsucc, hT, -, -⟩ := @step_succeed_tape L buf m1 _ _ hst1 hw
  refine ⟨(0 + 1 + 1) + j, mf, ?_, ?_⟩
  · rw [hj, run_succ, step_start_continue_done hd]
    show run L buf (0 + 1) .succeed m1 = _
    rw [run_succ, hsucc]; rfl
  · exact tagGrow_cast (tagGrow_trans (tagGrow_trans r6 (tagGrow_same hf.2))
      (tagGrow_footer hw hT)) (by simp)

/-! ## Streams of newline-delimited documents -/

/-- A stream of root documents separated by newlines is accepted; the tags written are those
of the roots in input order, and before each document the run is at `new_root` with the roots
of the documents before it written. -/
theorem ndjson_forward (L : Leaves) (buf : List Byte) {docs : List (List (Nat × Nat))}
    {ts : List (Nat × Nat)} (h : NDJson (scalarOK L buf) docs ts) :
    ∀ m : Machine, m.pj.containing_scope_offset = [] → m.closes buf = true →
      m.tokens buf = ts →
      ∃ n mf, run L buf n .new_root m = .ret true mf ∧
        TagGrow m mf (rootBlocks L buf docs) ∧
        ∀ i, i < docs.length → ∃ ts' mi, Fwd L buf .new_root m ts' .new_root mi ∧
          TagGrow m mi (rootBlocks L buf (docs.take i)) := by
  induction h with
  | single d hd =>
    intro m hst hcl htok
    obtain ⟨n, mf, hn, hg⟩ := root_last_forward_tags hd hst hcl htok
    refine ⟨n, mf, hn, tagGrow_cast hg (by simp [rootBlocks]), ?_⟩
    intro i hi
    have hi0 : i = 0 := by simp at hi; exact hi
    subst hi0
    exact ⟨[], m, Fwd.refl L buf .new_root m, tagGrow_cast (tagGrow_refl m) (by simp [rootBlocks])⟩
  | cons d s ds ts hd hs hrest ih =>
    intro m hst hcl htok
    obtain ⟨m2, hf, ht2, hg⟩ := root_boundary_forward_tags hd (Or.inl hs) htok
    have hst2 : m2.pj.containing_scope_offset = [] := hf.2.1.trans hst
    have hcl2 : m2.closes buf = true := hf.2.2.2.1.trans hcl
    obtain ⟨n, mf, hn, hgn, hpre⟩ := ih m2 hst2 hcl2 ht2
    obtain ⟨j, hj⟩ := hf.1
    refine ⟨n + j, mf, by rw [hj]; exact hn,
      tagGrow_cast (tagGrow_trans hg hgn) (by simp [rootBlocks]), ?_⟩
    intro i hi
    cases i with
    | zero =>
      exact ⟨[], m, Fwd.refl L buf .new_root m,
        tagGrow_cast (tagGrow_refl m) (by simp [rootBlocks])⟩
    | succ i =>
      obtain ⟨ts', mi, hfi, hgi⟩ := hpre i (by simp at hi; omega)
      exact ⟨(d ++ [s]) ++ ts', mi, hf.trans hfi,
        tagGrow_cast (tagGrow_trans hg hgi) (by simp [rootBlocks])⟩

theorem ndjson_containers {sc : Nat × Nat → Prop} {docs : List (List (Nat × Nat))}
    {ts : List (Nat × Nat)} (h : NDJson sc docs ts) : ∀ d ∈ docs, Container sc d := by
  induction h with
  | single d hd => intro x hx; simp at hx; subst hx; exact hd
  | cons d s ds ts hd hs hrest ih =>
    intro x hx
    rcases List.mem_cons.mp hx with rfl | hx
    · exact hd
    · exact ih x hx

/-! ## The bytes of a document are not `r` -/

theorem gram_bytes {L : Leaves} {buf : List Byte} {sym : Sym} {ts : List (Nat × Nat)}
    (h : Gram (scalarOK L buf) sym ts) : ∀ t ∈ ts, t.2 ≠ 114 := by
  induction h with
  | scalar t ht =>
    intro x hx
    simp only [List.mem_singleton] at hx
    subst hx
    have := scalarStart_of_scalarOK ht
    unfold scalarStart at this
    omega
  | emptyObject a b ha hb =>
    intro x hx
    simp only [List.mem_cons, List.mem_singleton, List.not_mem_nil, or_false] at hx
    rcases hx with rfl | rfl <;> omega
  | object a ms b ha _ hb ih =>
    intro x hx
    simp only [List.mem_cons, List.mem_append, List.mem_singleton, List.not_mem_nil,
      or_false] at hx
    rcases hx with (rfl | hx) | rfl
    · omega
    · exact ih x hx
    · omega
  | emptyArray a b ha hb =>
    intro x hx
    simp only [List.mem_cons, List.mem_singleton, List.not_mem_nil, or_false] at hx
    rcases hx with rfl | rfl <;> omega
  | array a es b ha _ hb ih =>
    intro x hx
    simp only [List.mem_cons, List.mem_append, List.mem_singleton, List.not_mem_nil,
      or_false] at hx
    rcases hx with (rfl | hx) | rfl
    · omega
    · exact ih x hx
    · omega
  | member k c v hk hc _ ih =>
    intro x hx
    simp only [List.mem_cons] at hx
    rcases hx with rfl | rfl | hx
    · omega
    · omega
    · exact ih x hx
  | memberCons k c v d rest hk hc _ hd _ ih1 ih2 =>
    intro x hx
    simp only [List.mem_cons, List.mem_append] at hx
    rcases hx with (rfl | rfl | hx) | rfl | hx
    · omega
    · omega
    · exact ih1 x hx
    · omega
    · exact ih2 x hx
  | element v _ ih => exact ih
  | elementCons v d rest _ hd _ ih1 ih2 =>
    intro x hx
    simp only [List.mem_cons, List.mem_append] at hx
    rcases hx with hx | rfl | hx
    · exact ih1 x hx
    · omega
    · exact ih2 x hx

theorem numberTag_count (L : Leaves) (buf : List Byte) (idx : Nat) (neg : Bool) :
    (numberTag L buf idx neg).count 114 = 0 := by
  unfold numberTag
  split
  · split <;> rfl
  · rfl

theorem tokenTag_count (L : Leaves) (buf : List Byte) {t : Nat × Nat} (h : t.2 ≠ 114) :
    (tokenTag L buf t).count 114 = 0 := by
  unfold tokenTag
  split
  · rfl
  · split
    · exact numberTag_count L buf _ _
    · split
      · exact numberTag_count L buf _ _
      · rw [List.count_cons, List.count_nil]
        simp [h]

theorem tokenTags_count (L : Leaves) (buf : List Byte) :
    ∀ ts : List (Nat × Nat), (∀ t ∈ ts, t.2 ≠ 114) → (tokenTags L buf ts).count 114 = 0 := by
  intro ts
  induction ts with
  | nil => intro _; rfl
  | cons t ts ih =>
    intro h
    rw [tokenTags_cons, List.count_append, tokenTag_count L buf (h t (List.mem_cons_self _ _)),
      ih (fun x hx => h x (List.mem_cons_of_mem _ hx))]

theorem rootBlocks_count (L : Leaves) (buf : List Byte) :
    ∀ docs : List (List (Nat × Nat)), (∀ d ∈ docs, Container (scalarOK L buf) d) →
      (rootBlocks L buf docs).count 114 = 2 * docs.length := by
  intro docs
  induction docs with
  | nil => intro _; rfl
  | cons d ds ih =>
    intro h
    have hd := h d (List.mem_cons_self _ _)
    have h0 := tokenTags_count L buf d (gram_bytes hd.1)
    have h1 := ih (fun x hx => h x (List.mem_cons_of_mem _ hx))
    simp only [rootBlocks, List.count_append, List.count_cons_self, List.cons_append,
      List.length_cons, h0, h1]
    simp
    omega

/-! ## An accepted run has read a well-formed stream -/

theorem retLabel_ne_succeed (e : Nat) : retLabel e ≠ .succeed := by
  unfold retLabel
  split
  · simp
  · split <;> simp

theorem adv_closes {buf : List Byte} {m m1 : Machine} (h : Adv buf m m1) :
    m.closes buf = m1.closes buf := (adv_facts h).2.2.1.symm

theorem valueEdge_label {L : Leaves} {buf : List Byte} {rc : Nat} {cont l' : Label}
    {m m' : Machine} (h : ValueEdge L buf rc cont m l' m') (hc : cont ≠ .succeed) :
    l' ≠ .succeed := by
  rcases h with ⟨rfl, -⟩ | ⟨-, rfl, -⟩ | ⟨-, rfl, -⟩
  · exact hc
  · simp
  · simp

/-- A jump to `succeed` is taken at the end of a well-formed stream; any other jump (not to
`fail`) leaves the stream ahead as well formed as it was. -/
theorem spec_closes {L : Leaves} {buf : List Byte} {l l' : Label} {m m' : Machine}
    (hs : Spec L buf l m (.goto l' m')) (hf : l' ≠ .fail) :
    m.closes buf = true ∨ (l' ≠ .succeed ∧ m.closes buf = m'.closes buf) := by
  cases hs with
  | read_done _ _ _ hl h =>
    left
    have h1 := advance_done_closes h.1 h.2
    cases l <;> first
      | exact h1
      | (rw [← closes_congr (sameStream_open_scope m RET_ADDRESS_START_CONST 114)]; exact h1)
  | read2_done _ _ m1 _ c hl h1 hc h2 =>
    left
    rw [adv_closes h1]
    exact advance_done_closes h2.1 h2.2
  | failed _ _ _ h1 h2 h3 h4 => exact absurd rfl hf
  | root_open _ m1 _ h1 h2 =>
    right
    refine ⟨by rcases h2 with ⟨-, rfl⟩ | ⟨-, rfl⟩ <;> simp, ?_⟩
    rw [closes_congr (sameStream_open_scope m1 RET_ADDRESS_START_CONST m1.c), ← adv_closes h1]
    exact (closes_congr (sameStream_open_scope m RET_ADDRESS_START_CONST 114)).symm
  | boundary _ m1 _ e h1 hc hr =>
    exact Or.inr ⟨by simp, by rw [closes_congr hr.2.2.2.2.2, adv_closes h1]⟩
  | key _ m1 _ h1 hc hs =>
    exact Or.inr ⟨by simp, by rw [closes_congr hs.2.1, adv_closes h1]⟩
  | next_key _ m1 m2 _ h1 hc h2 hc2 hs =>
    exact Or.inr ⟨by simp, by rw [closes_congr hs.2.1, adv_closes h1, adv_closes h2]⟩
  | close _ _ _ c hl h1 hc => exact Or.inr ⟨by simp, adv_closes h1⟩
  | member_value _ m1 m2 _ _ h1 hc h2 hv =>
    exact Or.inr ⟨valueEdge_label hv (by simp),
      by rw [closes_congr (valueEdge_stream hv), adv_closes h1, adv_closes h2]⟩
  | element_value _ _ _ hv =>
    exact Or.inr ⟨valueEdge_label hv (by simp), by rw [closes_congr (valueEdge_stream hv)]⟩
  | first_element _ _ h1 hc => exact Or.inr ⟨by simp, adv_closes h1⟩
  | next_element _ m1 _ h1 hc h2 =>
    exact Or.inr ⟨by simp, by rw [adv_closes h1, adv_closes h2]⟩
  | scope _ _ e hp =>
    exact Or.inr ⟨retLabel_ne_succeed e, by rw [closes_congr hp.2.2.2.2.1]⟩

/-- In a run that returns `true` the reader has reached the end of the stream without a
panic. -/
theorem run_true_closes (L : Leaves) (buf : List Byte) (mf : Machine) :
    ∀ n l m, run L buf n l m = .ret true mf → l ≠ .succeed → m.closes buf = true := by
  intro n
  induction n with
  | zero => intro l m h; simp [run] at h
  | succ n ih =>
    intro l m h hl
    rw [run_succ] at h
    have hs := step_spec L buf l m
    generalize step L buf l m = nx at h hs
    cases nx with
    | goto l' m' =>
      have hf : l' ≠ .fail := by
        rintro rfl
        exact run_fail h
      rcases spec_closes hs hf with h1 | ⟨h1, h2⟩
      · exact h1
      · rw [h2]; exact ih l' m' h h1
    | ret b m' =>
      cases hs with
      | succeed_true _ _ e h1 h2 => exact absurd rfl hl
      | succeed_false _ _ e h1 h2 h3 h4 h5 => exact absurd rfl hl
      | fail_ret _ => simp [resume] at h
    | panic => simp [resume] at h

/-! ## The tags of an accepted tape -/

/-- C13: for every index stream that is a single root document and on which `unified_machine`
returns true starting from an empty tape, the sequence of the tape's tags (the raw second
word of each `l`/`d` skipped) is `r`, then one tag for each structural byte of the input other
than `:` and `,`, in input order (the byte itself for brackets, for the quote of a string and
for the first byte of an atom, `l` or `d` for a number), then `r`. -/
theorem tape_tags_follow_input (L : Leaves) (buf : List Byte) (pj : internalParsedJson)
    (T : List Nat) (h : (unified_machine L buf pj).tapeIf true = some T)
    (hT0 : pj.Tape = [])
    (hdoc : Container (scalarOK L buf) ((Machine.init pj).tokens buf)) :
    tapeTags T = 114 :: tokenTags L buf ((Machine.init pj).tokens buf) ++ [114] := by
  obtain ⟨mf, hr, rfl⟩ := tapeIf_true h
  have hacc := roots_return L buf mf _ _ hr
  have hcl := run_true_closes L buf mf _ _ _ hr (by simp)
  obtain ⟨n, mf', hn, hg⟩ := root_last_forward_tags hdoc hacc.1 hcl rfl
  have hu : unified_machine L buf pj = .ret true mf' := by
    rw [unified_machine_eq_run (n := n) (by rw [hn]; simp), hn]
  rw [hr] at hu
  cases hu
  have hc0 : CleanTape (Machine.init pj).pj.Tape := by
    rw [show (Machine.init pj).pj.Tape = pj.Tape from rfl, hT0]
    exact cleanTape_nil
  obtain ⟨-, e⟩ := hg hc0
  rw [e, show (Machine.init pj).pj.Tape = pj.Tape from rfl, hT0]
  rfl

/-- C13 on `{}`, whose tags are `r { } r`, and on `[true,false,null,[]]`, whose tags are
`r [ t f n [ ] ] r`. -/
theorem tape_tags_follow_input_witness :
    ((unified_machine sampleLeaves [123, 125] (freshParser [batch [1, 1]])).tapeIf true
        = some [tapeWord 114 4, tapeWord 123 3, tapeWord 125 1, tapeWord 114 0] ∧
      tapeTags [tapeWord 114 4, tapeWord 123 3, tapeWord 125 1, tapeWord 114 0]
        = [114, 123, 125, 114]) ∧
    ((unified_machine sampleLeaves
        [91, 116, 114, 117, 101, 44, 102, 97, 108, 115, 101, 44, 110, 117, 108, 108, 44,
          91, 93, 93]
        (freshParser [batch [1, 1, 4, 1, 5, 1, 4, 1, 1, 1]])).tapeIf true
        = some [tapeWord 114 9, tapeWord 91 8, tapeWord 116 0, tapeWord 102 0,
            tapeWord 110 0, tapeWord 91 7, tapeWord 93 5, tapeWord 93 1, tapeWord 114 0] ∧
      tapeTags [tapeWord 114 9, tapeWord 91 8, tapeWord 116 0, tapeWord 102 0, tapeWord 110 0,
          tapeWord 91 7, tapeWord 93 5, tapeWord 93 1, tapeWord 114 0]
        = [114, 91, 116, 102, 110, 91, 93, 93, 114]) := by
  refine ⟨⟨by decide, ?_⟩, ⟨by decide, ?_⟩⟩
  · refine (tape_tags_follow_input sampleLeaves [123, 125] (freshParser [batch [1, 1]]) _
      (by decide) rfl ?_).trans (by decide)
    rw [show (Machine.init (freshParser [batch [1, 1]])).tokens [123, 125]
      = [(0, 123), (1, 125)] from by decide]
    exact ⟨Gram.emptyObject _ _ rfl rfl, _, rfl, Or.inl rfl⟩
  · refine (tape_tags_follow_input sampleLeaves
      [91, 116, 114, 117, 101, 44, 102, 97, 108, 115, 101, 44, 110, 117, 108, 108, 44, 91, 93, 93]
      (freshParser [batch [1, 1, 4, 1, 5, 1, 4, 1, 1, 1]]) _ (by decide) rfl ?_).trans
      (by decide)
    rw [show (Machine.init (freshParser [batch [1, 1, 4, 1, 5, 1, 4, 1, 1, 1]])).tokens
        [91, 116, 114, 117, 101, 44, 102, 97, 108, 115, 101, 44, 110, 117, 108, 108, 44,
          91, 93, 93]
      = [(0, 91), (1, 116), (5, 44), (6, 102), (11, 44), (12, 110), (16, 44), (17, 91),
          (18, 93), (19, 93)] from by decide]
    refine ⟨Gram.array (0, 91) [(1, 116), (5, 44), (6, 102), (11, 44), (12, 110), (16, 44),
      (17, 91), (18, 93)] (19, 93) rfl ?_ rfl, _, rfl, Or.inr rfl⟩
    refine Gram.elementCons [(1, 116)] (5, 44) _
      (Gram.scalar _ (by unfold scalarOK; decide)) rfl ?_
    refine Gram.elementCons [(6, 102)] (11, 44) _
      (Gram.scalar _ (by unfold scalarOK; decide)) rfl ?_
    refine Gram.elementCons [(12, 110)] (16, 44) _
      (Gram.scalar _ (by unfold scalarOK; decide)) rfl ?_
    exact Gram.element _ (Gram.emptyArray _ _ rfl rfl)

/-- C14: for every `k >= 1` and every `k` complete root documents separated by single newline
bytes (no trailing newline), on a well-formed index stream, `unified_machine` started with an
empty scope stack and an empty tape returns true; the tags of the tape are, for each document
in input order, a header `r`, the tags of the document and a footer `r`, so the tape holds
exactly `2k` `r` words; on a tape of fewer than `2 ^ 56` words each footer's payload is the
tape index of its header; and before each document the run is at `new_root` with the
roots of the earlier documents written, a tape that the final tape starts with: parsing a
later document does not change the words of an earlier one. -/
theorem ndjson_root_pairs (L : Leaves) (buf : List Byte) (pj : internalParsedJson)
    (docs : List (List (Nat × Nat)))
    (hst : pj.containing_scope_offset = []) (hT0 : pj.Tape = [])
    (hcl : (Machine.init pj).closes buf = true)
    (hnd : NDJson (scalarOK L buf) docs ((Machine.init pj).tokens buf)) :
    ∃ mf, unified_machine L buf pj = .ret true mf ∧
      tapeTags mf.pj.Tape = rootBlocks L buf docs ∧
      (tapeTags mf.pj.Tape).count 114 = 2 * docs.length ∧
      (mf.pj.Tape.length < 2 ^ 56 → RootLinks 1 (tagWords 0 mf.pj.Tape)) ∧
      ∀ i, i < docs.length →
        ∃ ts' mi, Fwd L buf .new_root (Machine.init pj) ts' .new_root mi ∧
          tapeTags mi.pj.Tape = rootBlocks L buf (docs.take i) ∧
          (mf.pj.Tape.length < 2 ^ 56 → mi.pj.Tape <+: mf.pj.Tape) := by
  obtain ⟨n, mf, hn, hg, hpre⟩ := ndjson_forward L buf hnd (Machine.init pj) hst hcl rfl
  have hT : (Machine.init pj).pj.Tape = [] := hT0
  have hc0 : CleanTape (Machine.init pj).pj.Tape := by rw [hT]; exact cleanTape_nil
  have htags : tapeTags mf.pj.Tape = rootBlocks L buf docs := by
    rw [(hg hc0).2, hT]; rfl
  refine ⟨mf, by rw [unified_machine_eq_run (n := n) (by rw [hn]; simp), hn], htags, ?_, ?_, ?_⟩
  · rw [htags]
    exact rootBlocks_count L buf docs (ndjson_containers hnd)
  · intro hlen
    obtain ⟨seg, hseg, hr⟩ := (roots_return L buf mf _ _ hn).2.2.2.2.2 hlen
    rw [hT] at hseg hr
    simp only [List.nil_append, List.length_nil] at hseg hr
    rw [hseg]
    exact roots_rootLinks hr
  · intro i hi
    obtain ⟨ts', mi, hfi, hgi⟩ := hpre i hi
    refine ⟨ts', mi, hfi, by rw [(hgi hc0).2, hT]; rfl, ?_⟩
    intro hlen
    obtain ⟨j, hj⟩ := hfi.1
    have hrun : run L buf n .new_root mi = .ret true mf := by
      rw [← hj, run_mono L buf n j _ _ (by rw [hn]; simp), hn]
    obtain ⟨seg, hseg, -⟩ := (roots_return L buf mf _ _ hrun).2.2.2.2.2 hlen
    rw [hseg]
    exact List.prefix_append _ _

/-- C14 on `{"a":1}`, a newline and `{"a":2}`: the run returns true and the tape holds two
root pairs, each around the tags `{ " l }` of its document. -/
theorem ndjson_root_pairs_witness :
    ∃ mf, unified_machine sampleLeaves
        [123, 34, 97, 34, 58, 49, 125, 10, 123, 34, 97, 34, 58, 50, 125]
        (freshParser [batch [1, 1, 3, 1, 1, 1, 1, 1, 3, 1, 1]]) = .ret true mf ∧
      tapeTags mf.pj.Tape = [114, 123, 34, 108, 125, 114, 114, 123, 34, 108, 125, 114] ∧
      (tapeTags mf.pj.Tape).count 114 = 2 * 2 := by
  have hnd : NDJson (scalarOK sampleLeaves
      [123, 34, 97, 34, 58, 49, 125, 10, 123, 34, 97, 34, 58, 50, 125])
      [[(0, 123), (1, 34), (4, 58), (5, 49), (6, 125)],
        [(8, 123), (9, 34), (12, 58), (13, 50), (14, 125)]]
      ((Machine.init (freshParser [batch [1, 1, 3, 1, 1, 1, 1, 1, 3, 1, 1]])).tokens
        [123, 34, 97, 34, 58, 49, 125, 10, 123, 34, 97, 34, 58, 50, 125]) := by
    rw [show (Machine.init (freshParser [batch [1, 1, 3, 1, 1, 1, 1, 1, 3, 1, 1]])).tokens
        [123, 34, 97, 34, 58, 49, 125, 10, 123, 34, 97, 34, 58, 50, 125]
      = [(0, 123), (1, 34), (4, 58), (5, 49), (6, 125)] ++ (7, 10)
          :: [(8, 123), (9, 34), (12, 58), (13, 50), (14, 125)] from by decide]
    refine NDJson.cons _ (7, 10) _ _ ?_ rfl (NDJson.single _ ?_)
    · exact ⟨Gram.object (0, 123) [(1, 34), (4, 58), (5, 49)] (6, 125) rfl
        (Gram.member (1, 34) (4, 58) [(5, 49)] rfl rfl
          (Gram.scalar _ (by unfold scalarOK; decide))) rfl, _, rfl, Or.inl rfl⟩
    · exact ⟨Gram.object (8, 123) [(9, 34), (12, 58), (13, 50)] (14, 125) rfl
        (Gram.member (9, 34) (12, 58) [(13, 50)] rfl rfl
          (Gram.scalar _ (by unfold scalarOK; decide))) rfl, _, rfl, Or.inl rfl⟩
  obtain ⟨mf, h1, h2, h3, -, -⟩ := ndjson_root_pairs sampleLeaves
    [123, 34, 97, 34, 58, 49, 125, 10, 123, 34, 97, 34, 58, 50, 125]
    (freshParser [batch [1, 1, 3, 1, 1, 1, 1, 1, 3, 1, 1]]) _ rfl rfl (by decide) hnd
  exact ⟨mf, h1, h2.trans (by decide), h3⟩

end Simdjson
